import Mathlib

/-!
# Instance tree and FSM tables of the coverage database
(`src/src/instance.c`, `src/src/fsm.c`)

A shallow embedding of the instance-tree code and of the FSM table functions,
and proofs about them.

## Memory model

The C code works on heap nodes linked by raw pointers (`parent`, `child_head`,
`child_tail`, `next`).  The embedding keeps that shape:

* a pointer is an `Option Nat` (`none` is `NULL`);
* the instance heap maps an address to the `funit_inst` stored there;
* the functional-unit heap maps an address to a `func_unit`;
* every C function becomes a function on `World` that returns
  `Except Fault _`: `Fault.null_deref` when the C code would follow a null or
  dangling pointer, `Fault.assertion` when an `assert` would fail, and
  `Fault.fuel` when the recursion budget of the embedding ran out (loops and
  recursion take a `Nat` budget; theorems give a budget that suffices).

Strings are lists of characters (the terminating NUL is not stored).  Fixed
size character buffers of the C code (`char front[256]`, `char lhier1[4096]`)
are taken to be large enough.

Fields of `funit_inst` and `func_unit` that no function below reads or writes
(`stat`, `param_head`, ...) are left out; the generate items of an instance
(`gitem_head`) are kept in a table of their own where a function reads them.
-/

set_option autoImplicit false

deriving instance DecidableEq for Except

/-- C strings, without the terminating NUL. -/
abbrev Str := List Char

/-- Ways in which a run of the C code fails to return normally; `thrown` is
`Throw 0` after a fatal message. -/
inductive Fault where
  | null_deref
  | assertion
  | fuel
  | thrown
deriving DecidableEq, Repr

/-- `static_expr` of `defines.h`: a constant or a pointer to an expression. -/
structure static_expr where
  num : Int
  exp : Option Nat
deriving DecidableEq, Repr

/-- `vector_width` of `defines.h`: the two bounds of an instance array. -/
structure vector_width where
  left : static_expr
  right : static_expr
deriving DecidableEq, Repr

/-- `vector` of `vector.h`, reduced to the width and the value as a number. -/
structure vector where
  width : Int
  value : Nat
deriving DecidableEq, Repr

/-- `vsignal`, reduced to the fields the code below reads: `suppl_type` and
`excluded` are `suppl.part.type` and `suppl.part.excluded`, `dim` is the array
of the pairs `(msb, lsb)`, and `value` is a pointer. -/
structure vsignal where
  id : Int
  name : Str
  suppl_type : Nat := 0
  excluded : Nat := 0
  udim_num : Nat := 0
  pdim_num : Nat := 0
  dim : List (Int × Int) := []
  value : Option vector := none
deriving DecidableEq, Repr

/-- `expression`, reduced to the fields the instance code reads. -/
structure expression where
  id : Int
  ulid : Int
deriving DecidableEq, Repr

/-- `func_unit`.  The singly linked lists `sig_head .. sig_tail` and
`exp_head .. exp_tail` are kept as lists, the head being the first and the
tail the last element; the code below never changes their length.  The
list `fsm_head ..` is kept as the list of the pointers `fsml->table->table` to
the arc tables of its links. -/
structure func_unit where
  name : Str
  filename : Option Str
  sigs : List vsignal
  exps : List expression
  type : Int := 0
  fsms : List (Option Nat) := []
deriving DecidableEq, Repr

/-- `funit_inst`: one node of the instance tree. -/
structure funit_inst where
  name : Str
  funit : Option Nat
  range : Option vector_width
  name_diff : Bool
  parent : Option Nat
  child_head : Option Nat
  child_tail : Option Nat
  next : Option Nat
deriving DecidableEq, Repr

/-- The instance heap. -/
abbrev Heap := Nat → Option funit_inst

/-- The functional-unit heap. -/
abbrev FHeap := Nat → Option func_unit

/-- Heap update at one address. -/
def upd (h : Heap) (a : Nat) (c : funit_inst) : Heap :=
  fun x => if x = a then some c else h x

/-- The state the instance code runs in: both heaps, the next address
`malloc_safe` hands out, and the list `db_list[curr_db]->inst_head` of root
instances. -/
structure World where
  inst : Heap
  funit : FHeap
  brk : Nat
  inst_head : List Nat

namespace World

/-- Read through an instance pointer. -/
def load (w : World) (p : Option Nat) : Except Fault funit_inst :=
  match p with
  | none => .error .null_deref
  | some a =>
    match w.inst a with
    | some c => .ok c
    | none => .error .null_deref

/-- Read through a functional-unit pointer. -/
def loadF (w : World) (p : Option Nat) : Except Fault func_unit :=
  match p with
  | none => .error .null_deref
  | some a =>
    match w.funit a with
    | some f => .ok f
    | none => .error .null_deref

/-- Write fields of the node a pointer refers to (`p->field = ...`). -/
def modify (w : World) (p : Option Nat) (f : funit_inst → funit_inst) : Except Fault World :=
  match p with
  | none => .error .null_deref
  | some a =>
    match w.inst a with
    | some c => .ok { w with inst := upd w.inst a (f c) }
    | none => .error .null_deref

end World

/-- The loop
`while( (c != NULL) && (strcmp( c->name, name ) != 0) ) c = c->next;`
used by `instance_merge_tree`, `instance_add_child` and
`instance_attach_child`. -/
def find_child_by_name : Nat → World → Option Nat → Str → Except Fault (Option Nat)
  | 0, _, _, _ => .error .fuel
  | _ + 1, _, none, _ => .ok none
  | k + 1, w, some c, name => do
    let n ← w.load (some c)
    if n.name = name then pure (some c) else find_child_by_name k w n.next name

/-- The block that appends the node `new_inst` to the child list of `inst`
(instance.c 561-567, 896-902 and 958-964):
`if( inst->child_head == NULL ) { inst->child_head = new_inst; inst->child_tail = new_inst; }
 else { inst->child_tail->next = new_inst; inst->child_tail = new_inst; }` -/
def child_list_append (w : World) (inst new_inst : Option Nat) : Except Fault World := do
  let r ← w.load inst
  if r.child_head = none then do
    let w ← w.modify inst (fun c => { c with child_head := new_inst })
    w.modify inst (fun c => { c with child_tail := new_inst })
  else do
    let w ← w.modify r.child_tail (fun c => { c with next := new_inst })
    w.modify inst (fun c => { c with child_tail := new_inst })

/-- The block of `instance_merge_tree` that takes the relinked child out of
the child list of `root2` (instance.c 965-975); `tmp` is the former `next` of
the child and `last2` the last child of `root2` that was kept. -/
def instance_merge_tree_unlink (w : World) (root2 last2 tmp : Option Nat) : Except Fault World :=
  match last2 with
  | none => do
    let w ← w.modify root2 (fun c => { c with child_head := tmp })
    if tmp = none then w.modify root2 (fun c => { c with child_tail := none }) else pure w
  | some l2 =>
    if tmp = none then do
      let w ← w.modify root2 (fun c => { c with child_tail := last2 })
      w.modify (some l2) (fun c => { c with next := none })
    else
      w.modify (some l2) (fun c => { c with next := tmp })

/-- The `while( child2 != NULL )` loop of `instance_merge_tree` (instance.c
945-978); `rec` is the recursive call of `instance_merge_tree`. -/
def instance_merge_tree_loop (rec : World → Option Nat → Option Nat → Except Fault World) :
    Nat → World → Option Nat → Option Nat → Option Nat → Option Nat → Except Fault World
  | 0, _, _, _, _, _ => .error .fuel
  | _ + 1, w, _, _, none, _ => .ok w
  | k + 1, w, root1, root2, some child2, last2 => do
    let r1 ← w.load root1
    let c2 ← w.load (some child2)
    let child1 ← find_child_by_name k w r1.child_head c2.name
    match child1 with
    | some c1 => do
      let w ← rec w (some c1) (some child2)
      let c2 ← w.load (some child2)
      instance_merge_tree_loop rec k w root1 root2 c2.next (some child2)
    | none => do
      let tmp := c2.next
      let w ← w.modify (some child2) (fun c => { c with next := none })
      let w ← w.modify (some child2) (fun c => { c with parent := root1 })
      let w ← child_list_append w root1 (some child2)
      let w ← instance_merge_tree_unlink w root2 last2 tmp
      instance_merge_tree_loop rec k w root1 root2 tmp last2

/-- `instance_merge_tree` (instance.c 925-982).  `funit_merge` of
`func_unit.c` is not part of the sources at hand; it is a parameter that acts
on the functional-unit heap. -/
def instance_merge_tree (funit_merge : FHeap → Nat → Nat → FHeap) :
    Nat → World → Option Nat → Option Nat → Except Fault World
  | 0, _, _, _ => .error .fuel
  | k + 1, w, root1, root2 => do
    let r1 ← w.load root1
    let r2 ← w.load root2
    let w ← (match r1.funit, r2.funit with
      | some f1, some f2 => pure { w with funit := funit_merge w.funit f1 f2 }
      | some _, none => pure w
      | none, some _ => do
        let w ← w.modify root1 (fun c => { c with funit := r2.funit })
        w.modify root2 (fun c => { c with funit := none })
      | none, none => pure w)
    let r2 ← w.load root2
    instance_merge_tree_loop (instance_merge_tree funit_merge k) k w root1 root2 r2.child_head none

/-- The loop
`while( (child != NULL) && ((r = f( child )) == NULL) ) child = child->next;`
that the searches of the instance tree run over a child list; `rec` is the
call `f`, the result is the final value of `r`. -/
def child_search {α : Type} (rec : Option Nat → Except Fault (Option α)) :
    Nat → World → Option Nat → Except Fault (Option α)
  | 0, _, _ => .error .fuel
  | _ + 1, _, none => .ok none
  | k + 1, w, some c => do
    let r ← rec (some c)
    match r with
    | some x => pure (some x)
    | none => do
      let n ← w.load (some c)
      child_search rec k w n.next

/-- The loop `while( (sigl != NULL) && (sigl->sig->id != id) ) sigl = sigl->next;`
of `instance_find_signal_by_exclusion_id`: the link it stops at, `none` when
it runs off the end of the list. -/
def sig_link_find (id : Int) : List vsignal → Option vsignal
  | [] => none
  | s :: l => if s.id ≠ id then sig_link_find id l else some s

/-- The loop `while( (expl != NULL) && (expl->exp->id != id) ) expl = expl->next;`
of `instance_find_expression_by_exclusion_id`. -/
def exp_link_find (id : Int) : List expression → Option expression
  | [] => none
  | e :: l => if e.id ≠ id then exp_link_find id l else some e

/-- The test
`(funit->sig_head != NULL) && (funit->sig_head->sig->id <= id) && (funit->sig_tail->sig->id >= id)`
of `instance_find_signal_by_exclusion_id`. -/
def sig_in_range (fu : func_unit) (id : Int) : Bool :=
  match fu.sigs.head?, fu.sigs.getLast? with
  | some hd, some tl => decide (hd.id ≤ id ∧ tl.id ≥ id)
  | _, _ => false

/-- The test
`(funit->exp_head != NULL) && (funit->exp_head->exp->id <= id) && (funit->exp_tail->exp->id >= id)`
of `instance_find_expression_by_exclusion_id`. -/
def exp_in_range (fu : func_unit) (id : Int) : Bool :=
  match fu.exps.head?, fu.exps.getLast? with
  | some hd, some tl => decide (hd.id ≤ id ∧ tl.id ≥ id)
  | _, _ => false

/-- `instance_find_signal_by_exclusion_id` (instance.c 400-439).  The result
is the signal found together with the value stored in `*found_funit`; `none`
is the null result, which leaves `*found_funit` alone. -/
def instance_find_signal_by_exclusion_id :
    Nat → World → Option Nat → Int → Except Fault (Option (vsignal × Nat))
  | 0, _, _, _ => .error .fuel
  | _ + 1, _, none, _ => .ok none
  | k + 1, w, some r, id => do
    let root ← w.load (some r)
    let hit ← (match root.funit with
      | none => pure none
      | some f => do
        let fu ← w.loadF (some f)
        if sig_in_range fu id then pure (some (f, fu)) else pure none)
    match hit with
    | some (f, fu) =>
      match sig_link_find id fu.sigs with
      | none => .error .null_deref
      | some s => pure (some (s, f))
    | none =>
      child_search (fun c => instance_find_signal_by_exclusion_id k w c id) k w root.child_head

/-- `instance_find_expression_by_exclusion_id` (instance.c 447-487). -/
def instance_find_expression_by_exclusion_id :
    Nat → World → Option Nat → Int → Except Fault (Option (expression × Nat))
  | 0, _, _, _ => .error .fuel
  | _ + 1, _, none, _ => .ok none
  | k + 1, w, some r, id => do
    let root ← w.load (some r)
    match root.funit with
    | none => .error .assertion
    | some f => do
      let fu ← w.loadF (some f)
      if exp_in_range fu id then
        match exp_link_find id fu.exps with
        | none => .error .null_deref
        | some e => pure (some (e, f))
      else
        child_search (fun c => instance_find_expression_by_exclusion_id k w c id) k w
          root.child_head

/-!
## Helpers that are not among the sources

`instance.c` calls functions of `util.c`, `db.c`, `func_unit.c` and
`static.c`, which are not at hand.  The string helpers are modelled from the
wording of the specification; the others are parameters (`Externals`).
-/

/-- The functions `instance.c` calls whose code is not at hand, as parameters:
`funit_merge` acts on the functional-unit heap; `db_is_unnamed_scope` tells
whether an instance name is that of a compiler-generated scope;
`funit_is_unnamed` is applied to the functional unit an instance refers to
(`none` for a null pointer); `static_expr_calc_lsb_and_width_post` yields the
width and the least index of a range. -/
structure Externals where
  funit_merge : FHeap → Nat → Nat → FHeap
  db_is_unnamed_scope : Str → Bool
  funit_is_unnamed : Option func_unit → Bool
  static_expr_calc_lsb_and_width_post : vector_width → Nat × Int

/-- Modelled from the spec: `scope_extract_front` of `util.c` is not among the
sources; the specification says that the scope string is split into a front
component and a remainder, and scope strings join names with dots.  The result
is the text before the first dot and the text after it. -/
def scope_extract_front (scope : Str) : Str × Str :=
  (scope.takeWhile (fun c => c ≠ '.'), (scope.dropWhile (fun c => c ≠ '.')).drop 1)

/-- Modelled from the spec: `scope_extract_back` of `util.c` is not among the
sources; the specification says that it strips the last hierarchy component
from the string.  The result is the last component and the text before the
last dot (empty when there is no dot). -/
def scope_extract_back (scope : Str) : Str × Str :=
  ((scope.reverse.takeWhile (fun c => c ≠ '.')).reverse,
   ((scope.reverse.dropWhile (fun c => c ≠ '.')).drop 1).reverse)

/-- Modelled from the spec: `scope_compare` of `util.c` is not among the
sources; the specification says that the front component is matched against
the name of the node. -/
def scope_compare (a b : Str) : Bool := decide (a = b)

/-- The C library call `strncmp( s1, s2, strlen( s1 ) ) == 0`: `s1` is a
prefix of `s2`. -/
def strncmp_eq_strlen (s1 s2 : Str) : Bool := s1.isPrefixOf s2

/-- Characters that the conversion `%[a-zA-Z0-9_]` accepts. -/
def is_ident_char (c : Char) : Bool := c.isAlphanum || c = '_'

/-- Value of a string of decimal digits. -/
def digits_value (ds : List Char) : Int :=
  ds.foldl (fun acc d => acc * 10 + ((d.toNat : Int) - 48)) 0

/-- The C library function `isspace` in the "C" locale: the space and the
characters from 0x09 to 0x0D (`\t`, `\n`, `\v`, `\f`, `\r`). -/
def isspace (c : Char) : Bool := c = ' ' || (9 ≤ c.toNat && c.toNat ≤ 13)

/-- The conversion `%d` of `sscanf`: skips white space, reads an optional
sign and at least one digit.  (A value outside the range of `int` is not
modelled.) -/
def sscanf_int (s : Str) : Option Int :=
  let s := s.dropWhile (fun c => isspace c)
  let (neg, s) := (match s with
    | '-' :: r => (true, r)
    | '+' :: r => (false, r)
    | _ => (false, s))
  let ds := s.takeWhile (fun c => c.isDigit)
  if ds = [] then none else some (if neg then - digits_value ds else digits_value ds)

/-- The C library call
`sscanf( inst_name, "%[a-zA-Z0-9_]\[%d]", bname, &index ) == 2`: the base name
and the index when both conversions succeed. -/
def sscanf_name_index (inst_name : Str) : Option (Str × Int) :=
  let bname := inst_name.takeWhile is_ident_char
  if bname = [] then none
  else
    match inst_name.dropWhile is_ident_char with
    | '[' :: r => (sscanf_int r).map (fun i => (bname, i))
    | _ => none

/-- `instance_compare` (instance.c 206-248). -/
def instance_compare (X : Externals) (inst_name : Str) (inst : funit_inst) : Except Fault Bool :=
  match inst.range with
  | some range =>
    match sscanf_name_index inst_name with
    | some (bname, index) =>
      if scope_compare bname inst.name then
        let (width, lsb) := X.static_expr_calc_lsb_and_width_post range
        if width = 0 then .error .assertion
        else if lsb = -1 then .error .assertion
        else .ok (decide (index ≥ lsb ∧ index < lsb + (width : Int)))
      else .ok false
    | none => .ok false
  | none => .ok (scope_compare inst_name inst.name)

/-- `instance_find_scope` (instance.c 257-296). -/
def instance_find_scope (X : Externals) :
    Nat → World → Option Nat → Str → Bool → Except Fault (Option Nat)
  | 0, _, _, _, _ => .error .fuel
  | _ + 1, _, none, _, _ => .error .assertion
  | k + 1, w, some r, scope, rm_unnamed => do
    let root ← w.load (some r)
    let (front, rest) := scope_extract_front scope
    if !rm_unnamed && X.db_is_unnamed_scope root.name
        && !X.funit_is_unnamed (root.funit.bind w.funit) then
      child_search (fun c => instance_find_scope X k w c scope rm_unnamed) k w root.child_head
    else do
      let m ← instance_compare X front root
      if m then
        if rest = [] then pure (some r)
        else
          child_search (fun c => instance_find_scope X k w c rest rm_unnamed) k w root.child_head
      else pure none

/-- `instance_gen_scope` (instance.c 174-198); `scope` is the buffer on
entry, the result is the buffer on return. -/
def instance_gen_scope (X : Externals) : Nat → World → Str → Option Nat → Bool → Except Fault Str
  | 0, _, _, _, _ => .error .fuel
  | _ + 1, _, scope, none, _ => .ok scope
  | k + 1, w, scope, some leaf, flatten => do
    let l ← w.load (some leaf)
    let scope ← instance_gen_scope X k w scope l.parent flatten
    if !flatten || !X.db_is_unnamed_scope l.name then
      if scope ≠ [] then pure (scope ++ ['.'] ++ l.name) else pure l.name
    else pure scope

/-- The child loop of `instance_find_by_funit_name`, which visits every
child; `st` is the pair `(*match_inst, *matches)`. -/
def instance_find_by_funit_name_loop
    (rec : Option Nat → Option Nat × Nat → Except Fault (Option Nat × Nat)) :
    Nat → World → Option Nat → Option Nat × Nat → Except Fault (Option Nat × Nat)
  | 0, _, _, _ => .error .fuel
  | _ + 1, _, none, st => .ok st
  | k + 1, w, some c, st => do
    let st ← rec (some c) st
    let n ← w.load (some c)
    instance_find_by_funit_name_loop rec k w n.next st

/-- `instance_find_by_funit_name` (instance.c 347-373); `st` is the pair
`(*match_inst, *matches)`, the counter being an `unsigned int`. -/
def instance_find_by_funit_name :
    Nat → World → Option Nat → Str → Option Nat × Nat → Except Fault (Option Nat × Nat)
  | 0, _, _, _, _ => .error .fuel
  | _ + 1, _, none, _, st => .ok st
  | k + 1, w, some r, funit_name, st => do
    let root ← w.load (some r)
    let fu ← w.loadF root.funit
    let st := if fu.name = funit_name then (some r, (st.2 + 1) % 4294967296) else st
    instance_find_by_funit_name_loop (fun c st => instance_find_by_funit_name k w c funit_name st)
      k w root.child_head st

/-- `instance_find_by_funit_name_if_one` (instance.c 378-392). -/
def instance_find_by_funit_name_if_one (fuel : Nat) (w : World) (root : Option Nat)
    (funit_name : Str) : Except Fault (Option Nat) := do
  let st ← instance_find_by_funit_name fuel w root funit_name (none, 0)
  pure (if st.2 = 1 then st.1 else none)

/-- The `do ... while` loop of `instance_get_leading_hierarchy`; `root` is
the instance the loop body starts from. -/
def instance_get_leading_hierarchy_loop :
    Nat → World → Option Nat → Option Str → Except Fault (Option Str × Option Nat)
  | 0, _, _, _ => .error .fuel
  | k + 1, w, root, lh => do
    let r ← w.load root
    let root := r.child_head
    let lh ← (match lh with
      | none => pure none
      | some s => do
        let c ← w.load root
        pure (some (s ++ ['.'] ++ c.name)))
    match root with
    | none => pure (lh, none)
    | some c => do
      let cn ← w.load (some c)
      if cn.funit = none then instance_get_leading_hierarchy_loop k w root lh
      else pure (lh, root)

/-- `instance_get_leading_hierarchy` (instance.c 992-1019); the result is the
buffer `leading_hierarchy` on return and `*top_inst`. -/
def instance_get_leading_hierarchy (fuel : Nat) (w : World) (root : Option Nat)
    (leading_hierarchy : Option Str) : Except Fault (Option Str × Option Nat) := do
  let r ← w.load root
  let lh := leading_hierarchy.map (fun s => s ++ r.name)
  if r.funit = none then instance_get_leading_hierarchy_loop fuel w root lh
  else pure (lh, root)

/-- First loop of `instance_mark_lhier_diffs`: moves up both trees while the
names agree; the result is the final `root1`. -/
def instance_mark_lhier_diffs_up : Nat → World → Option Nat → Option Nat → Except Fault (Option Nat)
  | 0, _, _, _ => .error .fuel
  | _ + 1, _, none, _ => .ok none
  | _ + 1, _, some r1, none => .ok (some r1)
  | k + 1, w, some r1, some r2 => do
    let n1 ← w.load (some r1)
    let n2 ← w.load (some r2)
    if n1.name = n2.name then instance_mark_lhier_diffs_up k w n1.parent n2.parent
    else pure (some r1)

/-- Second loop of `instance_mark_lhier_diffs`: sets `name_diff` from `root1`
up to the root. -/
def instance_mark_lhier_diffs_set : Nat → World → Option Nat → Except Fault World
  | 0, _, _ => .error .fuel
  | _ + 1, w, none => .ok w
  | k + 1, w, some r1 => do
    let n1 ← w.load (some r1)
    let w ← w.modify (some r1) (fun c => { c with name_diff := true })
    instance_mark_lhier_diffs_set k w n1.parent

/-- `instance_mark_lhier_diffs` (instance.c 1024-1046). -/
def instance_mark_lhier_diffs (fuel : Nat) (w : World) (root1 root2 : Option Nat) :
    Except Fault World := do
  let r1 ← instance_mark_lhier_diffs_up fuel w root1 root2
  instance_mark_lhier_diffs_set fuel w r1

/-- `instance_merge_two_trees` (instance.c 1054-1144); the result is the
final state and the return value. -/
def instance_merge_two_trees (X : Externals) (fuel : Nat) (w : World) (root1 root2 : Option Nat) :
    Except Fault (World × Bool) := do
  let (lh1, tinst1) ← instance_get_leading_hierarchy fuel w root1 (some [])
  let (lh2, tinst2) ← instance_get_leading_hierarchy fuel w root2 (some [])
  let lhier1 := lh1.getD []
  let lhier2 := lh2.getD []
  let t1 ← w.load tinst1
  let same ← (match t1.funit with
    | none => pure false
    | some _ => do
      let t2 ← w.load tinst2
      match t2.funit with
      | none => pure false
      | some _ => do
        let f1 ← w.loadF t1.funit
        let f2 ← w.loadF t2.funit
        pure (decide (f1.name = f2.name)))
  if same then
    if lhier1 = lhier2 then do
      let w ← instance_merge_tree X.funit_merge fuel w tinst1 tinst2
      pure (w, true)
    else
      let rest1 := (scope_extract_back lhier1).2
      let rest2 := (scope_extract_back lhier2).2
      if rest1 ≠ rest2 then do
        let w ← instance_merge_tree X.funit_merge fuel w tinst1 tinst2
        let w ← instance_mark_lhier_diffs fuel w tinst1 tinst2
        pure (w, true)
      else do
        let t1 ← w.load tinst1
        let t2 ← w.load tinst2
        let w ← instance_merge_tree X.funit_merge fuel w t1.parent t2.parent
        pure (w, true)
  else if strncmp_eq_strlen lhier1 lhier2 then do
    let root2 ← instance_find_scope X fuel w root2 lhier1 false
    match root2 with
    | none => .error .assertion
    | some _ => do
      let w ← instance_merge_tree X.funit_merge fuel w tinst1 root2
      pure (w, true)
  else if strncmp_eq_strlen lhier2 lhier1 then do
    let root1 ← instance_find_scope X fuel w root1 lhier2 false
    match root1 with
    | none => .error .assertion
    | some _ => do
      let w ← instance_merge_tree X.funit_merge fuel w root1 tinst2
      pure (w, true)
  else do
    let t1 ← w.load tinst1
    let f1 ← w.loadF t1.funit
    let r2 ← instance_find_by_funit_name_if_one fuel w tinst2 f1.name
    match r2 with
    | some _ => do
      let w ← instance_merge_tree X.funit_merge fuel w tinst1 r2
      let w ← instance_mark_lhier_diffs fuel w tinst1 r2
      pure (w, true)
    | none => do
      let t2 ← w.load tinst2
      let f2 ← w.loadF t2.funit
      let r1 ← instance_find_by_funit_name_if_one fuel w tinst1 f2.name
      match r1 with
      | some _ => do
        let w ← instance_merge_tree X.funit_merge fuel w r1 tinst2
        let w ← instance_mark_lhier_diffs fuel w r1 tinst2
        pure (w, true)
      | none => pure (w, false)

/-!
## Abstract instance trees

An `ITree` records the addresses and the contents of the nodes of an
instance tree.  `cells` lists the heap cells such a tree occupies, for a given
parent pointer and `next` pointer of its root; the heap represents the tree
when it holds exactly these cells (`Sat`).  The links `child_head`,
`child_tail`, `next` and `parent` are therefore fixed by the tree:
`child_head` is the first child, `child_tail` the last, the `next` pointers
chain the children in order and end in `NULL`, and every child points back to
its parent.
-/

/-- Abstract instance tree: address and contents of the root, and children. -/
inductive ITree where
  | node (addr : Nat) (name : Str) (funit : Option Nat) (range : Option vector_width)
      (name_diff : Bool) (kids : List ITree)

namespace ITree

/-- Address of the root. -/
def addr : ITree → Nat
  | node a _ _ _ _ _ => a

/-- Name of the root. -/
def name : ITree → Str
  | node _ n _ _ _ _ => n

/-- Functional-unit pointer of the root. -/
def funit : ITree → Option Nat
  | node _ _ f _ _ _ => f

/-- Range of the root. -/
def range : ITree → Option vector_width
  | node _ _ _ r _ _ => r

/-- The flag `name_diff` of the root. -/
def name_diff : ITree → Bool
  | node _ _ _ _ d _ => d

/-- Children of the root, in list order. -/
def kids : ITree → List ITree
  | node _ _ _ _ _ ks => ks

mutual
/-- Number of nodes. -/
def size : ITree → Nat
  | node _ _ _ _ _ ks => 1 + sizeL ks
/-- Number of nodes of a forest. -/
def sizeL : List ITree → Nat
  | [] => 0
  | k :: ks => size k + sizeL ks
end

mutual
/-- Addresses of all nodes, in pre-order. -/
def addrs : ITree → List Nat
  | node a _ _ _ _ ks => a :: addrsL ks
/-- Addresses of all nodes of a forest. -/
def addrsL : List ITree → List Nat
  | [] => []
  | k :: ks => addrs k ++ addrsL ks
end

end ITree

/-- Address of the first tree of a forest, or `e` when the forest is empty. -/
def headAddrOr (e : Option Nat) : List ITree → Option Nat
  | [] => e
  | k :: _ => some k.addr

/-- Address of the last tree of a forest. -/
def lastAddr (ks : List ITree) : Option Nat :=
  ks.getLast?.map ITree.addr

/-- The heap cell of the root of `t`, for parent pointer `p` and `next` pointer `nx`. -/
def rootCell (t : ITree) (p nx : Option Nat) : funit_inst :=
  { name := t.name, funit := t.funit, range := t.range, name_diff := t.name_diff,
    parent := p, child_head := headAddrOr none t.kids, child_tail := lastAddr t.kids,
    next := nx }

mutual
/-- Heap cells of a tree whose root has parent pointer `p` and `next` pointer `nx`. -/
def cells : ITree → Option Nat → Option Nat → List (Nat × funit_inst)
  | .node a nm fu rg nd ks, p, nx =>
    (a, rootCell (.node a nm fu rg nd ks) p nx) :: cellsL ks (some a) none
/-- Heap cells of a sibling list with parent pointer `p`, whose last element
has `next` pointer `e`. -/
def cellsL : List ITree → Option Nat → Option Nat → List (Nat × funit_inst)
  | [], _, _ => []
  | k :: ks, p, e => cells k p (headAddrOr e ks) ++ cellsL ks p e
end

/-- The heap holds all the listed cells. -/
def Sat (h : Heap) (cs : List (Nat × funit_inst)) : Prop :=
  ∀ x ∈ cs, h x.1 = some x.2

instance (h : Heap) (cs : List (Nat × funit_inst)) : Decidable (Sat h cs) := by
  unfold Sat; infer_instance

/-- The heap represents the tree `t` as a root of its own: no parent, no
sibling, all addresses distinct. -/
def IsTree (h : Heap) (t : ITree) : Prop :=
  Sat h (cells t none none) ∧ t.addrs.Nodup

instance (h : Heap) (t : ITree) : Decidable (IsTree h t) := by
  unfold IsTree; infer_instance

/-- Split a sibling list at its first element named `nm`. -/
def splitAtName (nm : Str) : List ITree → Option (List ITree × ITree × List ITree)
  | [] => none
  | k :: ks =>
    if k.name = nm then some ([], k, ks)
    else (splitAtName nm ks).map (fun r => (k :: r.1, r.2.1, r.2.2))

mutual
/-- Functional model of `instance_merge_tree`, by recursion on the second
tree: the pair of trees the two roots carry afterwards. -/
def mergeT : ITree → ITree → ITree × ITree
  | .node a2 n2 f2 r2 d2 ks2, t1 =>
    let r := mergeKids ks2 t1.kids
    (.node t1.addr t1.name (if t1.funit = none then f2 else t1.funit) t1.range t1.name_diff r.1,
     .node a2 n2 (if t1.funit = none then none else f2) r2 d2 r.2)
/-- Functional model of the loop of `instance_merge_tree`: `ks1` are the
current children of the first root, the first argument the children of the
second root still to visit; the result is the final children of the first
root and the visited children that stay under the second root. -/
def mergeKids : List ITree → List ITree → List ITree × List ITree
  | [], ks1 => (ks1, [])
  | c2 :: rest, ks1 =>
    match splitAtName c2.name ks1 with
    | some (pre, c1, post) =>
      let m := mergeT c2 c1
      let r := mergeKids rest (pre ++ m.1 :: post)
      (r.1, m.2 :: r.2)
    | none => mergeKids rest (ks1 ++ [c2])
end

/-- The call of `funit_merge` that `instance_merge_tree` makes on its two
roots: one call when both have a functional unit, none otherwise. -/
def rootCall : Option Nat → Option Nat → List (Nat × Nat)
  | some g1, some g2 => [(g1, g2)]
  | _, _ => []

mutual
/-- The calls `funit_merge( root1->funit, root2->funit )` that
`instance_merge_tree` makes, in their order, as pairs of the two pointers; the
arguments are those of `mergeT`. -/
def mergeCalls : ITree → ITree → List (Nat × Nat)
  | .node _ _ f2 _ _ ks2, t1 => rootCall t1.funit f2 ++ mergeKidsCalls ks2 t1.kids
/-- The calls of `funit_merge` that the loop of `instance_merge_tree` makes;
the arguments are those of `mergeKids`. -/
def mergeKidsCalls : List ITree → List ITree → List (Nat × Nat)
  | [], _ => []
  | c2 :: rest, ks1 =>
    match splitAtName c2.name ks1 with
    | some (pre, c1, post) =>
      mergeCalls c2 c1 ++ mergeKidsCalls rest (pre ++ (mergeT c2 c1).1 :: post)
    | none => mergeKidsCalls rest (ks1 ++ [c2])
end

/-- The functional-unit heap after a sequence of calls of `funit_merge`. -/
def runCalls (fm : FHeap → Nat → Nat → FHeap) (ps : List (Nat × Nat)) (F : FHeap) : FHeap :=
  ps.foldl (fun G p => fm G p.1 p.2) F

/-- Read a sibling list off the heap by following `next` (at most `fuel`
elements). -/
def child_list : Nat → Heap → Option Nat → Option (List Nat)
  | 0, _, _ => none
  | _ + 1, _, none => some []
  | k + 1, h, some a =>
    match h a with
    | none => none
    | some c => (child_list k h c.next).map (fun l => a :: l)

/-- What a run of `instance_merge_tree` on the roots of `t1` and `t2`
achieves: it returns, the heap then represents the two trees of the functional
model with the links of the roots to their surroundings unchanged, no other
cell of the instance heap is touched, and the functional-unit heap is the one
the calls `mergeCalls` of `funit_merge` leave. -/
def MergeTreeSpec (fm : FHeap → Nat → Nat → FHeap) (t2 t1 : ITree) : Prop :=
  ∀ (w : World) (p1 nx1 p2 nx2 : Option Nat) (fuel : Nat),
    Sat w.inst (cells t1 p1 nx1) → Sat w.inst (cells t2 p2 nx2) →
    (t1.addrs ++ t2.addrs).Nodup → 2 * t1.size + 3 * t2.size ≤ fuel →
    ∃ w', instance_merge_tree fm fuel w (some t1.addr) (some t2.addr) = .ok w' ∧
      Sat w'.inst (cells (mergeT t2 t1).1 p1 nx1) ∧
      Sat w'.inst (cells (mergeT t2 t1).2 p2 nx2) ∧
      (∀ x, x ∉ t1.addrs → x ∉ t2.addrs → w'.inst x = w.inst x) ∧
      w'.brk = w.brk ∧ w'.inst_head = w.inst_head ∧
      w'.funit = runCalls fm (mergeCalls t2 t1) w.funit

/-- What the loop of `instance_merge_tree` achieves when the first root has
children `K`, the second root has kept the visited children `M` and still has
to visit `S`. -/
def MergeLoopSpec (fm : FHeap → Nat → Nat → FHeap) (S K : List ITree) : Prop :=
  ∀ (w : World) (k0 k a1 : Nat) (nm1 : Str) (fu1 : Option Nat) (rg1 : Option vector_width)
    (nd1 : Bool) (a2 : Nat) (nm2 : Str) (fu2 : Option Nat) (rg2 : Option vector_width)
    (nd2 : Bool) (M : List ITree) (p1 nx1 p2 nx2 : Option Nat),
    Sat w.inst (cells (.node a1 nm1 fu1 rg1 nd1 K) p1 nx1) →
    Sat w.inst (cells (.node a2 nm2 fu2 rg2 nd2 (M ++ S)) p2 nx2) →
    ((a1 :: ITree.addrsL K) ++ (a2 :: ITree.addrsL (M ++ S))).Nodup →
    2 * ITree.sizeL K + 3 * ITree.sizeL S + 1 ≤ k → k ≤ k0 →
    ∃ w', instance_merge_tree_loop (instance_merge_tree fm k0) k w (some a1) (some a2)
        (headAddrOr none S) (lastAddr M) = .ok w' ∧
      Sat w'.inst (cells (.node a1 nm1 fu1 rg1 nd1 (mergeKids S K).1) p1 nx1) ∧
      Sat w'.inst (cells (.node a2 nm2 fu2 rg2 nd2 (M ++ (mergeKids S K).2)) p2 nx2) ∧
      (∀ x, x ≠ a1 → x ∉ ITree.addrsL K → x ≠ a2 → x ∉ ITree.addrsL (M ++ S) →
        w'.inst x = w.inst x) ∧
      w'.brk = w.brk ∧ w'.inst_head = w.inst_head ∧
      w'.funit = runCalls fm (mergeKidsCalls S K) w.funit

/-!
## The merge as the specification words it

`merge_spec t1 t2` is the tree under the first root after the merge, and
`merge_rest t1 t2` what is left under the second root, both written from the
sentence of the specification: a child of the second root whose name also
exists under the first root is merged recursively into that child and stays
where it is; a child with no counterpart is moved to the end of the child list
of the first root.
-/

mutual
/-- The children of every node have pairwise distinct names. -/
def distinctNames : ITree → Bool
  | .node _ _ _ _ _ ks => decide ((ks.map ITree.name).Nodup) && distinctNamesL ks
/-- The children of every node of a forest have pairwise distinct names. -/
def distinctNamesL : List ITree → Bool
  | [] => true
  | k :: ks => distinctNames k && distinctNamesL ks
end

mutual
/-- The tree under the first root after the merge, in the words of the
specification. -/
def merge_spec : ITree → ITree → ITree
  | .node a1 n1 f1 r1 d1 ks1, t2 =>
    .node a1 n1 (if f1 = none then t2.funit else f1) r1 d1
      (merge_spec_kids ks1 t2.kids ++
        t2.kids.filter (fun c2 => decide (c2.name ∉ ks1.map ITree.name)))
/-- Each child of the first root, merged with its namesake under the second
root when there is one. -/
def merge_spec_kids : List ITree → List ITree → List ITree
  | [], _ => []
  | c1 :: ks1, ks2 =>
    (match ks2.find? (fun c2 => decide (c2.name = c1.name)) with
      | some c2 => merge_spec c1 c2
      | none => c1) :: merge_spec_kids ks1 ks2
end

mutual
/-- The tree left under the second root after the merge, in the words of the
specification. -/
def merge_rest : ITree → ITree → ITree
  | t1, .node a2 n2 f2 r2 d2 ks2 =>
    .node a2 n2 (if t1.funit = none then none else f2) r2 d2 (merge_rest_kids t1.kids ks2)
/-- The children of the second root that have a namesake under the first
root, each reduced to what the recursive merge leaves of it. -/
def merge_rest_kids : List ITree → List ITree → List ITree
  | _, [] => []
  | ks1, c2 :: ks2 =>
    match ks1.find? (fun c1 => decide (c1.name = c2.name)) with
    | some c1 => merge_rest c1 c2 :: merge_rest_kids ks1 ks2
    | none => merge_rest_kids ks1 ks2
end

/-- The `next` chain that starts at `p` runs through exactly the addresses
`l` and ends in `NULL`. -/
def next_chain (h : Heap) : Option Nat → List Nat → Prop
  | p, [] => p = none
  | p, a :: l => p = some a ∧ ∃ c, h a = some c ∧ next_chain h c.next l

/-- The child list of the node at `a` is well formed and consists of the
nodes `l`: `child_head` is the first element, `child_tail` is the last element,
following `next` from the head runs through `l` and ends in `NULL` (so the
tail's `next` is `NULL`), and head and tail are both `NULL` when `l` is empty.
Every child points back to `a` as its parent. -/
def child_list_wf (h : Heap) (a : Nat) (l : List Nat) : Prop :=
  ∃ n, h a = some n ∧ n.child_head = l.head? ∧ n.child_tail = l.getLast? ∧
    next_chain h n.child_head l ∧
    ∀ c ∈ l, ∃ m, h c = some m ∧ m.parent = some a

/-!
## Example heaps
-/

/-- A `funit_merge` that leaves the functional-unit heap alone (for examples
in which no instance has a functional unit). -/
def funit_merge_skip : FHeap → Nat → Nat → FHeap := fun f _ _ => f

/-- Leaf or inner node without functional unit, range or flag. -/
def plain (a : Nat) (s : String) (ks : List ITree) : ITree :=
  .node a s.toList none none false ks

/-- Two trees `top(a, b)` at address 0 and `top(c, a(x), d)` at address 1. -/
def merge_ex_world : World :=
  { inst := fun a => match a with
      | 0 => some ⟨"top".toList, none, none, false, none, some 2, some 3, none⟩
      | 1 => some ⟨"top".toList, none, none, false, none, some 4, some 6, none⟩
      | 2 => some ⟨"a".toList, none, none, false, some 0, none, none, some 3⟩
      | 3 => some ⟨"b".toList, none, none, false, some 0, none, none, none⟩
      | 4 => some ⟨"c".toList, none, none, false, some 1, none, none, some 5⟩
      | 5 => some ⟨"a".toList, none, none, false, some 1, some 7, some 7, some 6⟩
      | 6 => some ⟨"d".toList, none, none, false, some 1, none, none, none⟩
      | 7 => some ⟨"x".toList, none, none, false, some 5, none, none, none⟩
      | _ => none,
    funit := fun _ => none, brk := 8, inst_head := [0, 1] }

/-- The first tree of `merge_ex_world`. -/
def merge_ex_t1 : ITree := plain 0 "top" [plain 2 "a" [], plain 3 "b" []]

/-- The second tree of `merge_ex_world`. -/
def merge_ex_t2 : ITree :=
  plain 1 "top" [plain 4 "c" [], plain 5 "a" [plain 7 "x" []], plain 6 "d" []]

/-- A childless root at address 0 and a root at address 1 with two children
that are both named `a`. -/
def dup_ex_world : World :=
  { inst := fun a => match a with
      | 0 => some ⟨"top".toList, none, none, false, none, none, none, none⟩
      | 1 => some ⟨"top".toList, none, none, false, none, some 2, some 3, none⟩
      | 2 => some ⟨"a".toList, none, none, false, some 1, none, none, some 3⟩
      | 3 => some ⟨"a".toList, none, none, false, some 1, none, none, none⟩
      | _ => none,
    funit := fun _ => none, brk := 4, inst_head := [0, 1] }

/-- The first tree of `dup_ex_world`. -/
def dup_ex_t1 : ITree := plain 0 "top" []

/-- The second tree of `dup_ex_world`. -/
def dup_ex_t2 : ITree := plain 1 "top" [plain 2 "a" [], plain 3 "a" []]

/-!
## Functional models of the searches
-/

/-- First non-null result of `r` over a list of trees, as the loop
`child_search` computes it: a fault stops the search. -/
def searchL {α : Type} (r : ITree → Except Fault (Option α)) :
    List ITree → Except Fault (Option α)
  | [] => .ok none
  | c :: cs =>
    match r c with
    | .error e => .error e
    | .ok (some x) => .ok (some x)
    | .ok none => searchL r cs

mutual
/-- Functional model of `instance_find_signal_by_exclusion_id` on a tree. -/
def findSigT (fh : FHeap) (id : Int) : ITree → Except Fault (Option (vsignal × Nat))
  | .node _ _ fu _ _ ks =>
    match fu with
    | none => findSigL fh id ks
    | some f =>
      match fh f with
      | none => .error .null_deref
      | some u =>
        if sig_in_range u id then
          match sig_link_find id u.sigs with
          | none => .error .null_deref
          | some s => .ok (some (s, f))
        else findSigL fh id ks
/-- Functional model of the child loop of `instance_find_signal_by_exclusion_id`. -/
def findSigL (fh : FHeap) (id : Int) : List ITree → Except Fault (Option (vsignal × Nat))
  | [] => .ok none
  | c :: cs =>
    match findSigT fh id c with
    | .error e => .error e
    | .ok (some x) => .ok (some x)
    | .ok none => findSigL fh id cs
end

mutual
/-- The functional-unit pointers of all nodes of a tree, in pre-order. -/
def funitsOf : ITree → List Nat
  | .node _ _ fu _ _ ks => fu.toList ++ funitsOfL ks
/-- The functional-unit pointers of all nodes of a forest. -/
def funitsOfL : List ITree → List Nat
  | [] => []
  | k :: ks => funitsOf k ++ funitsOfL ks
end

/-- Every functional unit in `fs` is allocated and its signal list has
strictly increasing ids. -/
def sig_ids_increasing (fh : FHeap) (fs : List Nat) : Prop :=
  ∀ f ∈ fs, (fh f).isSome = true ∧
    ∀ u ∈ fh f, u.sigs.Pairwise (fun a b => a.id < b.id)

instance (fh : FHeap) (fs : List Nat) : Decidable (sig_ids_increasing fh fs) := by
  unfold sig_ids_increasing; infer_instance

/-- The ranges `[head id, tail id]` of the signal lists of distinct functional
units in `fs` do not overlap. -/
def sig_ranges_disjoint (fh : FHeap) (fs : List Nat) : Prop :=
  ∀ f ∈ fs, ∀ g ∈ fs, f ≠ g → ∀ u ∈ fh f, ∀ v ∈ fh g,
    ∀ a ∈ u.sigs.head?, ∀ b ∈ u.sigs.getLast?, ∀ c ∈ v.sigs.head?, ∀ d ∈ v.sigs.getLast?,
      b.id < c.id ∨ d.id < a.id

instance (fh : FHeap) (fs : List Nat) : Decidable (sig_ranges_disjoint fh fs) := by
  unfold sig_ranges_disjoint; infer_instance

/-- A signal with the given id. -/
def sig_ex (i : Int) : vsignal := { id := i, name := "s".toList }

/-- An expression with the given id. -/
def exp_ex (i : Int) : expression := { id := i, ulid := 0 }

/-- The tree `top(gap(leaf), other)`: `top` has functional unit 0 with the
signals 1 and 2, `gap` is a placeholder without functional unit, `leaf` has
functional unit 1 with the signals 3, 4 and 5, `other` has functional unit 2
without signals. -/
def lookup_ex_world : World :=
  { inst := fun a => match a with
      | 0 => some ⟨"top".toList, some 0, none, false, none, some 1, some 2, none⟩
      | 1 => some ⟨"gap".toList, none, none, false, some 0, some 3, some 3, some 2⟩
      | 2 => some ⟨"other".toList, some 2, none, false, some 0, none, none, none⟩
      | 3 => some ⟨"leaf".toList, some 1, none, false, some 1, none, none, none⟩
      | _ => none,
    funit := fun f => match f with
      | 0 => some ⟨"m0".toList, none, [sig_ex 1, sig_ex 2], [exp_ex 1], 0, []⟩
      | 1 => some ⟨"m1".toList, none, [sig_ex 3, sig_ex 4, sig_ex 5], [exp_ex 2, exp_ex 3], 0, []⟩
      | 2 => some ⟨"m2".toList, none, [], [], 0, []⟩
      | _ => none,
    brk := 4, inst_head := [0] }

/-- The tree of `lookup_ex_world`. -/
def lookup_ex_tree : ITree :=
  .node 0 "top".toList (some 0) none false
    [.node 1 "gap".toList none none false [.node 3 "leaf".toList (some 1) none false []],
     .node 2 "other".toList (some 2) none false []]

/-- A single instance whose functional unit 0 has the signals 1 and 3 and the
expressions 1 and 3: the ids have a gap at 2. -/
def gap_ex_world : World :=
  { inst := fun a => match a with
      | 0 => some ⟨"top".toList, some 0, none, false, none, none, none, none⟩
      | _ => none,
    funit := fun f => match f with
      | 0 => some ⟨"m0".toList, none, [sig_ex 1, sig_ex 3], [exp_ex 1, exp_ex 3], 0, []⟩
      | _ => none,
    brk := 1, inst_head := [0] }

/-- A placeholder root (no functional unit) above one populated instance. -/
def placeholder_ex_world : World :=
  { inst := fun a => match a with
      | 0 => some ⟨"tb".toList, none, none, false, none, some 1, some 1, none⟩
      | 1 => some ⟨"dut".toList, some 0, none, false, some 0, none, none, none⟩
      | _ => none,
    funit := fun f => match f with
      | 0 => some ⟨"m0".toList, none, [sig_ex 1], [exp_ex 1], 0, []⟩
      | _ => none,
    brk := 2, inst_head := [0] }

/-- An instantiation of the external helpers for examples: a name is that of
an unnamed scope when it starts with `$u`, a functional unit is unnamed when
its name starts with `$u`, and a range with constant bounds has the width
`|left - right| + 1` and the least index `min left right`. -/
def ext_ex : Externals :=
  { funit_merge := funit_merge_skip,
    db_is_unnamed_scope := fun s => decide (s.take 2 = ['$', 'u']),
    funit_is_unnamed := fun u =>
      match u with
      | none => false
      | some f => decide (f.name.take 2 = ['$', 'u']),
    static_expr_calc_lsb_and_width_post := fun r =>
      ((r.left.num - r.right.num).natAbs + 1, min r.left.num r.right.num) }

/-- A functional unit with the given name and no items. -/
def funit_ex (s : String) : func_unit := { name := s.toList, filename := none, sigs := [], exps := [] }

/-- Two one-node trees: `a` at address 0 with a functional unit named `m1`
and `ab` at address 1 with a functional unit named `m2`. -/
def prefix_ex_world : World :=
  { inst := fun a => match a with
      | 0 => some ⟨"a".toList, some 0, none, false, none, none, none, none⟩
      | 1 => some ⟨"ab".toList, some 1, none, false, none, none, none, none⟩
      | _ => none,
    funit := fun f => match f with
      | 0 => some (funit_ex "m1")
      | 1 => some (funit_ex "m2")
      | _ => none,
    brk := 2, inst_head := [0, 1] }

/-- Two one-node trees: `a` at address 0 and `b` at address 1, each with a
functional unit of its own named `m`. -/
def roots_ex_world : World :=
  { inst := fun a => match a with
      | 0 => some ⟨"a".toList, some 0, none, false, none, none, none, none⟩
      | 1 => some ⟨"b".toList, some 1, none, false, none, none, none, none⟩
      | _ => none,
    funit := fun f => match f with
      | 0 => some (funit_ex "m")
      | 1 => some (funit_ex "m")
      | _ => none,
    brk := 2, inst_head := [0, 1] }

/-- The trees `a(x(m))` at address 0 and `b(x(m))` at address 3: `a`, `b`
and the two `x` are placeholders, the two `m` have functional units of their
own named `mod`. -/
def lhier_ex_world : World :=
  { inst := fun a => match a with
      | 0 => some ⟨"a".toList, none, none, false, none, some 1, some 1, none⟩
      | 1 => some ⟨"x".toList, none, none, false, some 0, some 2, some 2, none⟩
      | 2 => some ⟨"m".toList, some 0, none, false, some 1, none, none, none⟩
      | 3 => some ⟨"b".toList, none, none, false, none, some 4, some 4, none⟩
      | 4 => some ⟨"x".toList, none, none, false, some 3, some 5, some 5, none⟩
      | 5 => some ⟨"m".toList, some 1, none, false, some 4, none, none, none⟩
      | _ => none,
    funit := fun f => match f with
      | 0 => some (funit_ex "mod")
      | 1 => some (funit_ex "mod")
      | _ => none,
    brk := 6, inst_head := [0, 3] }

/-- The trees `a(x, y)` at address 0 and `a(y)` at address 3: the two `a` are
placeholders, `x` and the `y` of the second tree have functional units named
`m`, the `y` of the first tree one named `n`. -/
def clash_ex_world : World :=
  { inst := fun a => match a with
      | 0 => some ⟨"a".toList, none, none, false, none, some 1, some 2, none⟩
      | 1 => some ⟨"x".toList, some 0, none, false, some 0, none, none, some 2⟩
      | 2 => some ⟨"y".toList, some 1, none, false, some 0, none, none, none⟩
      | 3 => some ⟨"a".toList, none, none, false, none, some 4, some 4, none⟩
      | 4 => some ⟨"y".toList, some 2, none, false, some 3, none, none, none⟩
      | _ => none,
    funit := fun f => match f with
      | 0 => some (funit_ex "m")
      | 1 => some (funit_ex "n")
      | 2 => some (funit_ex "m")
      | _ => none,
    brk := 5, inst_head := [0, 3] }

/-- Two one-node trees: `a` at address 0 with a functional unit named `m1`
and `b` at address 1 with a functional unit named `m2`. -/
def incompatible_ex_world : World :=
  { inst := fun a => match a with
      | 0 => some ⟨"a".toList, some 0, none, false, none, none, none, none⟩
      | 1 => some ⟨"b".toList, some 1, none, false, none, none, none, none⟩
      | _ => none,
    funit := fun f => match f with
      | 0 => some (funit_ex "m1")
      | 1 => some (funit_ex "m2")
      | _ => none,
    brk := 2, inst_head := [0, 1] }

/-!
## Scope strings
-/

mutual
/-- Functional model of `instance_find_scope` on a tree. -/
def findScopeT (X : Externals) (fh : FHeap) (rm_unnamed : Bool) :
    ITree → Str → Except Fault (Option Nat)
  | .node a nm fu rg nd ks, scope =>
    if !rm_unnamed && X.db_is_unnamed_scope nm && !X.funit_is_unnamed (fu.bind fh) then
      findScopeL X fh rm_unnamed ks scope
    else
      match instance_compare X (scope_extract_front scope).1
          (rootCell (.node a nm fu rg nd ks) none none) with
      | .error e => .error e
      | .ok true =>
        if (scope_extract_front scope).2 = [] then .ok (some a)
        else findScopeL X fh rm_unnamed ks (scope_extract_front scope).2
      | .ok false => .ok none
/-- Functional model of the child loops of `instance_find_scope`. -/
def findScopeL (X : Externals) (fh : FHeap) (rm_unnamed : Bool) :
    List ITree → Str → Except Fault (Option Nat)
  | [], _ => .ok none
  | c :: cs, scope =>
    match findScopeT X fh rm_unnamed c scope with
    | .error e => .error e
    | .ok (some x) => .ok (some x)
    | .ok none => findScopeL X fh rm_unnamed cs scope
end

/-- A list of trees in which each element is a child of the one before: a
path that leads down the tree at its head. -/
def IsPath : List ITree → Prop
  | [] => True
  | [_] => True
  | x :: y :: rest => y ∈ x.kids ∧ IsPath (y :: rest)

/-- One step of `instance_gen_scope`: what the visit of an instance named
`name` makes of the buffer `scope`. -/
def gen_scope_step (X : Externals) (flatten : Bool) (scope name : Str) : Str :=
  if !flatten || !X.db_is_unnamed_scope name then
    if scope ≠ [] then scope ++ ['.'] ++ name else name
  else scope

/-- The scope string `instance_gen_scope` builds for the names along a path,
root first. -/
def gen_scope_names (X : Externals) (flatten : Bool) (names : List Str) : Str :=
  names.foldl (gen_scope_step X flatten) []

/-- The instance is one whose name `instance_gen_scope` leaves out when
`flatten` is set. -/
def dropped (X : Externals) (flatten : Bool) (t : ITree) : Bool :=
  flatten && X.db_is_unnamed_scope t.name

/-- The instance is one `instance_find_scope` steps over when `rm_unnamed` is
not set. -/
def skipped (X : Externals) (fh : FHeap) (rm_unnamed : Bool) (t : ITree) : Bool :=
  !rm_unnamed && X.db_is_unnamed_scope t.name && !X.funit_is_unnamed (t.funit.bind fh)

mutual
/-- The children of a node once the dropped instances are flattened away:
each dropped child is replaced by its own flattened children. -/
def flatKids (X : Externals) (flatten : Bool) : ITree → List ITree
  | .node _ _ _ _ _ ks => flatKidsL X flatten ks
/-- Flattening of a sibling list. -/
def flatKidsL (X : Externals) (flatten : Bool) : List ITree → List ITree
  | [] => []
  | c :: cs =>
    (if dropped X flatten c then flatKids X flatten c else [c]) ++ flatKidsL X flatten cs
end

mutual
/-- All nodes of a tree, in pre-order. -/
def nodesOf : ITree → List ITree
  | .node a nm fu rg nd ks => .node a nm fu rg nd ks :: nodesOfL ks
/-- All nodes of a forest. -/
def nodesOfL : List ITree → List ITree
  | [] => []
  | k :: ks => nodesOf k ++ nodesOfL ks
end

/-- The heap holds the instances along a path, each with the one before as
its parent and the first with the parent pointer `p`. -/
def PathSat (h : Heap) : Option Nat → List ITree → Prop
  | _, [] => True
  | p, t :: rest => (∃ nx, Sat h (cells t p nx)) ∧ PathSat h (some t.addr) rest

/-- Names joined with dots. -/
def joinDots : List Str → Str
  | [] => []
  | [n] => n
  | n :: m :: rest => n ++ '.' :: joinDots (m :: rest)

/-- What a tree contributes to the flattened children of its parent: itself,
or its own flattened children when it is dropped. -/
def flat1 (X : Externals) (flatten : Bool) (c : ITree) : List ITree :=
  if dropped X flatten c then flatKids X flatten c else [c]

/-- The names along a path that `instance_gen_scope` does not leave out. -/
def keptNames (X : Externals) (flatten : Bool) (P : List ITree) : List Str :=
  (P.filter (fun t => !dropped X flatten t)).map ITree.name

/-- A functional unit with the given name and one signal. -/
def funit_sig_ex (s : String) (i : Int) : func_unit :=
  { name := s.toList, filename := none, sigs := [sig_ex i], exps := [] }

/-- The tree `top($u0(x), y)`: the unnamed scope `$u0` is an instance without
functional unit, which the search steps over. -/
def scope_ex_world : World :=
  { inst := fun a => match a with
      | 0 => some ⟨"top".toList, some 0, none, false, none, some 1, some 2, none⟩
      | 1 => some ⟨"$u0".toList, none, none, false, some 0, some 3, some 3, some 2⟩
      | 2 => some ⟨"y".toList, some 2, none, false, some 0, none, none, none⟩
      | 3 => some ⟨"x".toList, some 1, none, false, some 1, none, none, none⟩
      | _ => none,
    funit := fun f => match f with
      | 0 => some (funit_sig_ex "m" 1)
      | 1 => some (funit_sig_ex "mx" 2)
      | 2 => some (funit_sig_ex "my" 3)
      | _ => none,
    brk := 4, inst_head := [0] }

/-- The instance `x` of `scope_ex_world`. -/
def scope_ex_x : ITree := .node 3 "x".toList (some 1) none false []

/-- The instance `$u0` of `scope_ex_world`. -/
def scope_ex_u : ITree := .node 1 "$u0".toList none none false [scope_ex_x]

/-- The tree of `scope_ex_world`. -/
def scope_ex_tree : ITree :=
  .node 0 "top".toList (some 0) none false
    [scope_ex_u, .node 2 "y".toList (some 2) none false []]

/-- The tree `top($u0(x))` in which the unnamed scope `$u0` has a functional
unit of its own, named `$u0`, with a signal; `x` has a signal too. -/
def unnamed_ex_world : World :=
  { inst := fun a => match a with
      | 0 => some ⟨"top".toList, some 0, none, false, none, some 1, some 1, none⟩
      | 1 => some ⟨"$u0".toList, some 1, none, false, some 0, some 2, some 2, none⟩
      | 2 => some ⟨"x".toList, some 2, none, false, some 1, none, none, none⟩
      | _ => none,
    funit := fun f => match f with
      | 0 => some (funit_sig_ex "m" 1)
      | 1 => some (funit_sig_ex "$u0" 2)
      | 2 => some (funit_sig_ex "mx" 3)
      | _ => none,
    brk := 3, inst_head := [0] }

/-- The tree of `unnamed_ex_world`. -/
def unnamed_ex_tree : ITree :=
  .node 0 "top".toList (some 0) none false
    [.node 1 "$u0".toList (some 1) none false [.node 2 "x".toList (some 2) none false []]]

/-- The tree `top($u0(x), x)`: the unnamed scope is stepped over by the
search, and both instances `x` have a signal. -/
def ambiguous_ex_world : World :=
  { inst := fun a => match a with
      | 0 => some ⟨"top".toList, some 0, none, false, none, some 1, some 2, none⟩
      | 1 => some ⟨"$u0".toList, none, none, false, some 0, some 3, some 3, some 2⟩
      | 2 => some ⟨"x".toList, some 2, none, false, some 0, none, none, none⟩
      | 3 => some ⟨"x".toList, some 1, none, false, some 1, none, none, none⟩
      | _ => none,
    funit := fun f => match f with
      | 0 => some (funit_sig_ex "m" 1)
      | 1 => some (funit_sig_ex "mx" 2)
      | 2 => some (funit_sig_ex "my" 3)
      | _ => none,
    brk := 4, inst_head := [0] }

/-- The tree of `ambiguous_ex_world`. -/
def ambiguous_ex_tree : ITree :=
  .node 0 "top".toList (some 0) none false
    [.node 1 "$u0".toList none none false [.node 3 "x".toList (some 1) none false []],
     .node 2 "x".toList (some 2) none false []]

mutual
/-- The instances `instance_get_leading_hierarchy` visits, root first: from
the root down the first children for as long as the instance visited has no
functional unit. -/
def leading : ITree → List ITree
  | .node a nm fu rg nd ks =>
    .node a nm fu rg nd ks :: (if fu = none then leadingL ks else [])
/-- The instances visited from the head of a child list on. -/
def leadingL : List ITree → List ITree
  | [] => []
  | c :: _ => leading c
end

/-- The first loop of `instance_mark_lhier_diffs` on two chains of instances
listed from the bottom up: both chains are left level by level while the names
agree; the result is what remains of the first chain. -/
def lhier_diff : List ITree → List ITree → List ITree
  | [], _ => []
  | x :: xs, [] => x :: xs
  | x :: xs, y :: ys => if x.name = y.name then lhier_diff xs ys else x :: xs

/-- The heap holds a chain of instances listed from the bottom up: each has
the name of its entry and the next entry as its parent, the last has parent
pointer `p`. -/
def UpChain (h : Heap) (p : Option Nat) : List ITree → Prop
  | [] => True
  | x :: rest =>
    (∃ c, h x.addr = some c ∧ c.name = x.name ∧ c.parent = headAddrOr p rest) ∧
      UpChain h p rest

/-- The heap after `name_diff` is set in the cell at `a`. -/
def set_name_diff (h : Heap) (a : Nat) : Heap :=
  fun x => if x = a then (h a).map (fun c => { c with name_diff := true }) else h x

/-- The `name_diff` flag of the cell at an address (none when there is no cell). -/
def name_diff_at (h : Heap) (a : Nat) : Option Bool := (h a).map (fun c => c.name_diff)

/-- The first tree of `lhier_ex_world`. -/
def lhier_ex_t1 : ITree :=
  plain 0 "a" [plain 1 "x" [.node 2 "m".toList (some 0) none false []]]

/-- The second tree of `lhier_ex_world`. -/
def lhier_ex_t2 : ITree :=
  plain 3 "b" [plain 4 "x" [.node 5 "m".toList (some 1) none false []]]

/-- The first tree of `clash_ex_world`. -/
def clash_ex_t1 : ITree :=
  plain 0 "a" [.node 1 "x".toList (some 0) none false [], .node 2 "y".toList (some 1) none false []]

/-- The second tree of `clash_ex_world`. -/
def clash_ex_t2 : ITree := plain 3 "a" [.node 4 "y".toList (some 2) none false []]

/-- The trees `a(x)` at address 0 and `a(y)` at address 2: the two `a` are
placeholders, `x` and `y` have functional units of their own named `m`. -/
def parent_ex_world : World :=
  { inst := fun a => match a with
      | 0 => some ⟨"a".toList, none, none, false, none, some 1, some 1, none⟩
      | 1 => some ⟨"x".toList, some 0, none, false, some 0, none, none, none⟩
      | 2 => some ⟨"a".toList, none, none, false, none, some 3, some 3, none⟩
      | 3 => some ⟨"y".toList, some 1, none, false, some 2, none, none, none⟩
      | _ => none,
    funit := fun f => match f with
      | 0 => some (funit_ex "m")
      | 1 => some (funit_ex "m")
      | _ => none,
    brk := 4, inst_head := [0, 2] }

/-- The first tree of `parent_ex_world`. -/
def parent_ex_t1 : ITree := plain 0 "a" [.node 1 "x".toList (some 0) none false []]

/-- The second tree of `parent_ex_world`. -/
def parent_ex_t2 : ITree := plain 2 "a" [.node 3 "y".toList (some 1) none false []]

/-!
## Resolving arrays of instances
-/

/-- `instance_create` (instance.c 125-167): the new instance is stored at the
address `malloc_safe` hands out.  The range is copied by value; its two bounds
are not pointers here, so the two assertions on them have no counterpart. -/
def instance_create (w : World) (funit : Option Nat) (inst_name : Str) (name_diff : Bool)
    (range : Option vector_width) : World × Option Nat :=
  ({ w with
      inst := upd w.inst w.brk ⟨inst_name, funit, range, name_diff, none, none, none, none⟩,
      brk := w.brk + 1 }, some w.brk)

/-- The child loop of `instance_find_by_funit`:
`while( (curr_child != NULL) && (match_inst == NULL) )`; `rec` is the
recursive call, the result is `match_inst` and `*ignore`. -/
def instance_find_by_funit_loop (rec : Option Nat → Int → Except Fault (Option Nat × Int)) :
    Nat → World → Option Nat → Option Nat → Int → Except Fault (Option Nat × Int)
  | 0, _, _, _, _ => .error .fuel
  | k + 1, w, curr_child, match_inst, ignore =>
    match curr_child, match_inst with
    | some c, none => do
      let (m, ig) ← rec (some c) ignore
      let n ← w.load (some c)
      instance_find_by_funit_loop rec k w n.next m ig
    | _, _ => pure (match_inst, ignore)

/-- `instance_find_by_funit` (instance.c 307-342); the result is the return
value and `*ignore`.  (The callers pass a count that is not negative.) -/
def instance_find_by_funit :
    Nat → World → Option Nat → Option Nat → Int → Except Fault (Option Nat × Int)
  | 0, _, _, _, _ => .error .fuel
  | _ + 1, _, none, _, ignore => .ok (none, ignore)
  | k + 1, w, some r, funit, ignore => do
    let root ← w.load (some r)
    if root.funit = funit then
      if ignore = 0 then pure (some r, ignore) else pure (none, ignore - 1)
    else
      instance_find_by_funit_loop (fun c ig => instance_find_by_funit k w c funit ig)
        k w root.child_head none ignore

/-- The loop of `instance_add_child` over the root instances of the current
database, `while( (instl != NULL) && !instance_resolve_inst( instl->inst, new_inst ) )`;
`rec` is `instance_resolve_inst`. -/
def instance_add_child_resolve
    (rec : World → Option Nat → Option Nat → Except Fault (World × Bool)) :
    World → List Nat → Option Nat → Except Fault World
  | w, [], _ => .ok w
  | w, r :: rest, new_inst => do
    let (w, b) ← rec w (some r) new_inst
    if b then pure w else instance_add_child_resolve rec w rest new_inst

/-- `instance_add_child` (instance.c 538-590); `rec` is
`instance_resolve_inst`. -/
def instance_add_child (rec : World → Option Nat → Option Nat → Except Fault (World × Bool))
    (fuel : Nat) (w : World) (inst child : Option Nat) (name : Str)
    (range : Option vector_width) (resolve : Bool) : Except Fault (World × Option Nat) := do
  let i ← w.load inst
  let found ← find_child_by_name fuel w i.child_head name
  match found with
  | none => do
    let (w, new_inst) := instance_create w child name false range
    let w ← child_list_append w inst new_inst
    let w ← w.modify new_inst (fun c => { c with parent := inst })
    let w ← (if resolve then instance_add_child_resolve rec w w.inst_head new_inst else pure w)
    pure (w, new_inst)
  | some _ => pure (w, none)

/-- The child loop of `instance_copy`; `rec` is the recursive call for one
child. -/
def instance_copy_loop (rec : World → Option Nat → Except Fault World) :
    Nat → World → Option Nat → Except Fault World
  | 0, _, _ => .error .fuel
  | _ + 1, w, none => .ok w
  | k + 1, w, some curr => do
    let w ← rec w (some curr)
    let c ← w.load (some curr)
    instance_copy_loop rec k w c.next

/-- `instance_copy` (instance.c 596-628); `rr` is `instance_resolve_inst`. -/
def instance_copy (rr : World → Option Nat → Option Nat → Except Fault (World × Bool)) :
    Nat → World → Option Nat → Option Nat → Str → Option vector_width → Bool → Except Fault World
  | 0, _, _, _, _, _, _ => .error .fuel
  | k + 1, w, from_inst, to_inst, name, range, resolve =>
    if from_inst = none then .error .assertion
    else if to_inst = none then .error .assertion
    else do
      let f ← w.load from_inst
      let (w, new_inst) ← instance_add_child rr k w to_inst f.funit name range resolve
      match new_inst with
      | none => pure w
      | some _ => do
        let f ← w.load from_inst
        instance_copy_loop (fun w curr => do
            let c ← w.load curr
            instance_copy rr k w curr new_inst c.name c.range resolve) k w f.child_head

/-- The first loop of `instance_parse_add` (instance.c 720-725), which copies
the tree of `cinst` below every instance of the parent; the state is `i` and
`ignore`, the result the final `i`. -/
def instance_parse_add_copy
    (rr : World → Option Nat → Option Nat → Except Fault (World × Bool))
    (fuel : Nat) (root parent cinst : Option Nat) (inst_name : Str)
    (range : Option vector_width) (resolve child_gend : Bool) :
    Nat → World → Int → Int → Except Fault (World × Int)
  | 0, _, _, _ => .error .fuel
  | k + 1, w, i, ignore =>
    if ignore ≥ 0 then do
      let (inst, _) ← instance_find_by_funit fuel w root parent ignore
      match inst with
      | none => pure (w, i)
      | some _ => do
        let w ← instance_copy rr fuel w cinst inst inst_name range resolve
        let i := i + 1
        instance_parse_add_copy rr fuel root parent cinst inst_name range resolve child_gend
          k w i (if child_gend then -1 else i)
    else pure (w, i)

/-- The second loop of `instance_parse_add` (instance.c 729-734), which adds
a new child to every instance of the parent. -/
def instance_parse_add_new
    (rr : World → Option Nat → Option Nat → Except Fault (World × Bool))
    (fuel : Nat) (root parent child : Option Nat) (inst_name : Str)
    (range : Option vector_width) (resolve child_gend : Bool) :
    Nat → World → Int → Int → Except Fault (World × Int)
  | 0, _, _, _ => .error .fuel
  | k + 1, w, i, ignore =>
    if ignore ≥ 0 then do
      let (inst, _) ← instance_find_by_funit fuel w root parent ignore
      match inst with
      | none => pure (w, i)
      | some _ => do
        let (w, cinst) ← instance_add_child rr fuel w inst child inst_name range resolve
        let i := i + 1
        instance_parse_add_new rr fuel root parent child inst_name range resolve child_gend
          k w i (if child_gend && cinst ≠ none then -1 else i)
    else pure (w, i)

/-- `instance_parse_add` (instance.c 684-747); the result is the final state,
`*root` and the return value. -/
def instance_parse_add (rr : World → Option Nat → Option Nat → Except Fault (World × Bool))
    (fuel : Nat) (w : World) (root parent child : Option Nat) (inst_name : Str)
    (range : Option vector_width) (resolve child_gend : Bool) :
    Except Fault (World × Option Nat × Bool) :=
  match root with
  | none =>
    let (w, r) := instance_create w child inst_name false range
    pure (w, r, true)
  | some _ =>
    if parent = none then .error .assertion
    else do
      let (cinst, _) ← instance_find_by_funit fuel w root child 0
      let parsed ← (match cinst with
        | none => pure false
        | some _ => do
          let c ← w.load cinst
          let f ← w.loadF c.funit
          pure (decide (f.filename ≠ none)))
      if parsed then do
        let (w, i) ← instance_parse_add_copy rr fuel root parent cinst inst_name range resolve
          child_gend fuel w 0 0
        pure (w, root, decide (i > 0))
      else do
        let (w, i) ← instance_parse_add_new rr fuel root parent child inst_name range resolve
          child_gend fuel w 0 0
        pure (w, root, decide (i > 0))

/-- Decimal digits of a number, most significant first (at most `fuel`
digits). -/
def dec_digits : Nat → Nat → List Char
  | 0, _ => []
  | k + 1, n =>
    if n < 10 then [Nat.digitChar n] else dec_digits k (n / 10) ++ [Nat.digitChar (n % 10)]

/-- What the conversion `%d` of `snprintf` prints. -/
def printf_d (n : Int) : Str :=
  if n < 0 then '-' :: dec_digits (n.natAbs + 1) n.natAbs else dec_digits (n.toNat + 1) n.toNat

/-- What `snprintf( new_name, slen, "%s[%d]", name_copy, index )` would
print without a limit. -/
def snprintf_name_index (name_copy : Str) (index : Int) : Str :=
  name_copy ++ ['['] ++ printf_d index ++ [']']

/-- The value an `unsigned int` has when it is passed for a `%d`
conversion. -/
def int_of_unsigned (x : Int) : Int :=
  if x % 4294967296 < 2147483648 then x % 4294967296 else x % 4294967296 - 4294967296

/-- The `for( i=1; i<width; i++ )` loop of `instance_resolve_inst`
(instance.c 798-807); `add` is `instance_parse_add` with the functions it
calls, the state is `root` and `i`. -/
def instance_resolve_inst_loop
    (add : World → Option Nat → Option Nat → Option Nat → Str →
      Except Fault (World × Option Nat × Bool))
    (curr : Option Nat) (name_copy : Str) (slen : Nat) (lsb : Int) (width : Nat) :
    Nat → World → Option Nat → Nat → Except Fault World
  | 0, _, _, _ => .error .fuel
  | k + 1, w, root, i =>
    if i < width then
      let new_name := snprintf_name_index name_copy (int_of_unsigned (lsb + i))
      if new_name.length < slen then do
        let c ← w.load curr
        let parent ← (match c.parent with
          | none => pure none
          | some p => do
            let pn ← w.load (some p)
            pure pn.funit)
        let (w, root, _) ← add w root parent c.funit new_name
        instance_resolve_inst_loop add curr name_copy slen lsb width k w root (i + 1)
      else .error .assertion
    else pure w

/-- `instance_resolve_inst` (instance.c 756-819); the result is the final
state and the return value. -/
def instance_resolve_inst (X : Externals) :
    Nat → World → Option Nat → Option Nat → Except Fault (World × Bool)
  | 0, _, _, _ => .error .fuel
  | k + 1, w, root, curr =>
    if curr = none then .error .assertion
    else do
      let c ← w.load curr
      match c.range with
      | none => pure (w, false)
      | some range =>
        let (width, lsb) := X.static_expr_calc_lsb_and_width_post range
        if width = 0 then .error .assertion
        else if lsb = -1 then .error .assertion
        else do
          let w ← w.modify curr (fun c => { c with range := none })
          let name_copy := c.name
          let slen := name_copy.length + 23
          let new_name := snprintf_name_index name_copy lsb
          if new_name.length < slen then do
            let w ← w.modify curr (fun c => { c with name := new_name })
            let w ← instance_resolve_inst_loop
              (fun w root parent child nm =>
                instance_parse_add (instance_resolve_inst X k) k w root parent child nm none
                  true false)
              curr name_copy slen lsb width k w root 1
            pure (w, true)
          else .error .assertion

/-- A functional unit that has been parsed (its file name is set). -/
def funit_parsed_ex (s : String) : func_unit :=
  { name := s.toList, filename := some "m.v".toList, sigs := [], exps := [] }

/-- The range `[l:r]` of an instance array. -/
def range_ex (l r : Int) : vector_width := { left := ⟨l, none⟩, right := ⟨r, none⟩ }

/-- The tree `top(u)` in which `u` is an array of instances `u[4:2]`. -/
def resolve_ex_world : World :=
  { inst := fun a => match a with
      | 0 => some ⟨"top".toList, some 0, none, false, none, some 1, some 1, none⟩
      | 1 => some ⟨"u".toList, some 1, some (range_ex 4 2), false, some 0, none, none, none⟩
      | _ => none,
    funit := fun f => match f with
      | 0 => some (funit_parsed_ex "top_mod")
      | 1 => some (funit_parsed_ex "m")
      | _ => none,
    brk := 2, inst_head := [0] }

mutual
/-- Functional model of `instance_find_by_funit` on a tree: the instance
returned and the final value of `*ignore`. -/
def findFunitT (f : Option Nat) : ITree → Int → Option Nat × Int
  | .node a _ fu _ _ ks, ig =>
    if fu = f then (if ig = 0 then (some a, ig) else (none, ig - 1)) else findFunitL f ks ig
/-- Functional model of the child loop of `instance_find_by_funit`. -/
def findFunitL (f : Option Nat) : List ITree → Int → Option Nat × Int
  | [], ig => (none, ig)
  | c :: cs, ig =>
    match findFunitT f c ig with
    | (some a, ig') => (some a, ig')
    | (none, ig') => findFunitL f cs ig'
end

/-- One level of the surroundings of a subtree: its parent instance together
with the siblings before and after it. -/
structure Frame where
  addr : Nat
  name : Str
  funit : Option Nat
  range : Option vector_width
  name_diff : Bool
  pre : List ITree
  post : List ITree

/-- The parent instance of a frame with the subtree `t` put in its place. -/
def Frame.fill (fr : Frame) (t : ITree) : ITree :=
  .node fr.addr fr.name fr.funit fr.range fr.name_diff (fr.pre ++ t :: fr.post)

/-- The tree around a subtree `t`: the frames lead from the parent of `t` up
to the root. -/
def plug : List Frame → ITree → ITree
  | [], t => t
  | fr :: C, t => plug C (fr.fill t)

/-- The addresses of the instances outside the subtree. -/
def ctxAddrs : List Frame → List Nat
  | [] => []
  | fr :: C => (fr.addr :: (ITree.addrsL fr.pre ++ ITree.addrsL fr.post)) ++ ctxAddrs C

/-- The first instance of a resolved array: the instance itself, renamed to
`n[lsb]` and without its range. -/
def resolved_first (c : ITree) (lsb : Int) : ITree :=
  .node c.addr (snprintf_name_index c.name lsb) c.funit none c.name_diff c.kids

/-- The value of a string `printf_d` printed. -/
def printf_d_value (s : Str) : Int :=
  match s with
  | '-' :: r => - digits_value r
  | r => digits_value r

/-- The tree `top(u)` with a placeholder `top` and an array `u[4:2]`. -/
def array_placeholder_ex_world : World :=
  { inst := fun a => match a with
      | 0 => some ⟨"top".toList, none, none, false, none, some 1, some 1, none⟩
      | 1 => some ⟨"u".toList, some 1, some (range_ex 4 2), false, some 0, none, none, none⟩
      | _ => none,
    funit := fun f => match f with
      | 1 => some (funit_parsed_ex "m")
      | _ => none,
    brk := 2, inst_head := [0] }

/-- The tree `top(u)` with an array `u[1:-1]`. -/
def array_minus_ex_world : World :=
  { inst := fun a => match a with
      | 0 => some ⟨"top".toList, some 0, none, false, none, some 1, some 1, none⟩
      | 1 => some ⟨"u".toList, some 1, some (range_ex 1 (-1)), false, some 0, none, none, none⟩
      | _ => none,
    funit := fun f => match f with
      | 0 => some (funit_parsed_ex "top_mod")
      | 1 => some (funit_parsed_ex "m")
      | _ => none,
    brk := 2, inst_head := [0] }

/-- The tree `top(a(u), b(u))`: `a` and `b` are instances of the same
functional unit, and both `u` are the array `u[4:2]`. -/
def twin_ex_world : World :=
  { inst := fun a => match a with
      | 0 => some ⟨"top".toList, some 0, none, false, none, some 1, some 2, none⟩
      | 1 => some ⟨"a".toList, some 1, none, false, some 0, some 3, some 3, some 2⟩
      | 2 => some ⟨"b".toList, some 1, none, false, some 0, some 4, some 4, none⟩
      | 3 => some ⟨"u".toList, some 2, some (range_ex 4 2), false, some 1, none, none, none⟩
      | 4 => some ⟨"u".toList, some 2, some (range_ex 4 2), false, some 2, none, none, none⟩
      | _ => none,
    funit := fun f => match f with
      | 0 => some (funit_parsed_ex "top_mod")
      | 1 => some (funit_parsed_ex "amod")
      | 2 => some (funit_parsed_ex "m")
      | _ => none,
    brk := 5, inst_head := [0] }

/-- The tree of `twin_ex_world`. -/
def twin_ex_tree : ITree :=
  .node 0 "top".toList (some 0) none false
    [.node 1 "a".toList (some 1) none false
      [.node 3 "u".toList (some 2) (some (range_ex 4 2)) false []],
     .node 2 "b".toList (some 1) none false
      [.node 4 "u".toList (some 2) (some (range_ex 4 2)) false []]]

/-- The tree `r(c)` in which the instance `c` has the functional unit of its
parent `r`. -/
def nested_ex_world : World :=
  { inst := fun a => match a with
      | 0 => some ⟨"r".toList, some 0, none, false, none, some 1, some 1, none⟩
      | 1 => some ⟨"c".toList, some 0, none, false, some 0, none, none, none⟩
      | _ => none,
    funit := fun f => match f with
      | 0 => some (funit_ex "m")
      | _ => none,
    brk := 2, inst_head := [0] }

/-- The tree of `nested_ex_world`. -/
def nested_ex_tree : ITree :=
  .node 0 "r".toList (some 0) none false [.node 1 "c".toList (some 0) none false []]

/-- The tree `r(p, c)`: `r` and `c` have functional units named `m1` and
`m2`, `p` is a placeholder without functional unit. -/
def placeholder_child_ex_world : World :=
  { inst := fun a => match a with
      | 0 => some ⟨"r".toList, some 0, none, false, none, some 1, some 2, none⟩
      | 1 => some ⟨"p".toList, none, none, false, some 0, none, none, some 2⟩
      | 2 => some ⟨"c".toList, some 1, none, false, some 0, none, none, none⟩
      | _ => none,
    funit := fun f => match f with
      | 0 => some (funit_ex "m1")
      | 1 => some (funit_ex "m2")
      | _ => none,
    brk := 3, inst_head := [0] }

/-- The tree of `placeholder_child_ex_world`. -/
def placeholder_child_ex_tree : ITree :=
  .node 0 "r".toList (some 0) none false
    [plain 1 "p" [], .node 2 "c".toList (some 1) none false []]

mutual
/-- The instances of the functional unit `f` that `instance_find_by_funit`
counts, in the order of its visit: the search does not go below an instance of
`f`. -/
def topInstances (f : Option Nat) : ITree → List Nat
  | .node a _ fu _ _ ks => if fu = f then [a] else topInstancesL f ks
/-- The instances counted in a list of subtrees. -/
def topInstancesL (f : Option Nat) : List ITree → List Nat
  | [] => []
  | c :: cs => topInstances f c ++ topInstancesL f cs
end

/-- All instances of the tree that reference the functional unit `f`, in
depth-first pre-order. -/
def allInstances (f : Option Nat) (t : ITree) : List Nat :=
  ((nodesOf t).filter (fun n => decide (n.funit = f))).map ITree.addr

/-- No instance of the functional unit `f` is below another instance of `f`. -/
def noNest (f : Option Nat) (t : ITree) : Prop :=
  ∀ n ∈ nodesOf t, n.funit = f → ∀ m ∈ nodesOfL n.kids, m.funit ≠ f

instance (f : Option Nat) (t : ITree) : Decidable (noNest f t) := by
  unfold noNest; infer_instance

/-- Whether the instance `n` has a functional unit, and that one is named
`funit_name`. -/
def funitNamed (w : World) (funit_name : Str) (n : ITree) : Bool :=
  decide ((n.funit.bind w.funit).map (fun u => u.name) = some funit_name)

/-- The instances of the tree whose functional unit is named `funit_name`, in
depth-first pre-order. -/
def namedInstances (w : World) (funit_name : Str) (t : ITree) : List Nat :=
  ((nodesOf t).filter (funitNamed w funit_name)).map ITree.addr

/-- What the visit of one instance does to the pair `(*match_inst, *matches)`
of `instance_find_by_funit_name`. -/
def nameStep (w : World) (funit_name : Str) (st : Option Nat × Nat) (n : ITree) :
    Option Nat × Nat :=
  if funitNamed w funit_name n then (some n.addr, (st.2 + 1) % 4294967296) else st

/-- Every instance of the tree has a functional unit, which is allocated. -/
def allHaveFunit (w : World) (t : ITree) : Prop :=
  ∀ n ∈ nodesOf t, (n.funit.bind w.funit).isSome = true

instance (w : World) (t : ITree) : Decidable (allHaveFunit w t) := by
  unfold allHaveFunit; infer_instance

/-! ## Flattening and deallocation -/

/-- Release of the memory of one instance (`free_safe( inst, ... )`). -/
def World.free (w : World) (a : Nat) : World :=
  { w with inst := fun x => if x = a then none else w.inst x }

/-- `instance_dealloc_single` (instance.c 1580-1617).  The name, statistic,
range, parameter list and generate item list the instance owns are not part of
the state; what remains is that the instance is read and then released. -/
def instance_dealloc_single (w : World) (inst : Option Nat) : Except Fault World :=
  match inst with
  | none => .ok w
  | some a => do
    let _ ← w.load (some a)
    pure (w.free a)

/-- The two functions of `link.c` that `instance_flatten_helper` calls on the
list of functional units to remove; `link.c` is not part of the sources at
hand, so they are parameters.  The list holds pointers to functional units;
`funit_link_find` tells whether it found a link. -/
structure LinkOps where
  funit_link_find : FHeap → Str → Int → List Nat → Bool
  funit_link_add : Nat → List Nat → List Nat

/-- The loop of `instance_flatten_helper` that makes `root` the parent of
every grandchild. -/
def instance_flatten_reparent : Nat → World → Option Nat → Option Nat → Except Fault World
  | 0, _, _, _ => .error .fuel
  | _ + 1, w, none, _ => .ok w
  | k + 1, w, some g, root => do
    let w ← w.modify (some g) (fun c => { c with parent := root })
    let c ← w.load (some g)
    instance_flatten_reparent k w c.next root

/-- The part of the loop body of `instance_flatten_helper` that removes
`child` from the child list of `root`. -/
def instance_flatten_unlink (w : World) (root child last_child : Option Nat) :
    Except Fault World := do
  let r ← w.load root
  if child = r.child_head then
    if child = r.child_tail then
      w.modify root (fun r => { r with child_head := none, child_tail := none })
    else do
      let c ← w.load child
      w.modify root (fun r => { r with child_head := c.next })
  else
    if child = r.child_tail then do
      let w ← w.modify root (fun r => { r with child_tail := last_child })
      let r ← w.load root
      w.modify r.child_tail (fun t => { t with next := none })
    else do
      let c ← w.load child
      w.modify last_child (fun l => { l with next := c.next })

/-- The part of the loop body of `instance_flatten_helper` that adds the
grandchildren to `root`. -/
def instance_flatten_adopt (fuel : Nat) (w : World) (root child : Option Nat) :
    Except Fault World := do
  let c ← w.load child
  if c.child_head ≠ none then do
    let w ← instance_flatten_reparent fuel w c.child_head root
    let r ← w.load root
    if r.child_head = none then do
      let c ← w.load child
      w.modify root (fun r => { r with child_head := c.child_head, child_tail := c.child_head })
    else do
      let c ← w.load child
      let w ← w.modify r.child_tail (fun t => { t with next := c.child_head })
      let c ← w.load child
      w.modify root (fun r => { r with child_tail := c.child_head })
  else pure w

/-- The `while( child != NULL )` loop of `instance_flatten_helper`; `rm` is
the list `*rm_head .. *rm_tail`. -/
def instance_flatten_loop (X : Externals) (L : LinkOps)
    (rec : World → List Nat → Option Nat → Except Fault (World × List Nat)) (root : Option Nat) :
    Nat → World → List Nat → Option Nat → Option Nat → Except Fault (World × List Nat)
  | 0, _, _, _, _ => .error .fuel
  | _ + 1, w, rm, none, _ => .ok (w, rm)
  | k + 1, w, rm, some child, last_child => do
    let (w, rm) ← rec w rm (some child)
    let c ← w.load (some child)
    let cf ← w.loadF c.funit
    let _ := scope_extract_back cf.name
    if X.funit_is_unnamed (some cf) && decide (cf.sigs = []) then do
      let w ← instance_flatten_unlink w root (some child) last_child
      let w ← instance_flatten_adopt k w root (some child)
      let tmp ← w.load (some child)
      let tf ← w.loadF tmp.funit
      let rm := if L.funit_link_find w.funit tf.name tf.type rm then rm
        else (match tmp.funit with
          | some g => L.funit_link_add g rm
          | none => rm)
      let w ← instance_dealloc_single w (some child)
      instance_flatten_loop X L rec root k w rm tmp.next last_child
    else
      instance_flatten_loop X L rec root k w rm c.next (some child)

/-- `instance_flatten_helper` (instance.c 1373-1459). -/
def instance_flatten_helper (X : Externals) (L : LinkOps) :
    Nat → World → List Nat → Option Nat → Except Fault (World × List Nat)
  | 0, _, _, _ => .error .fuel
  | _ + 1, w, rm, none => .ok (w, rm)
  | k + 1, w, rm, some root => do
    let r ← w.load (some root)
    instance_flatten_loop X L (fun w rm c => instance_flatten_helper X L k w rm c) (some root)
      k w rm r.child_head none

/-- The child loop of `instance_dealloc_tree`. -/
def instance_dealloc_tree_loop (rec : World → Option Nat → Except Fault World) :
    Nat → World → Option Nat → Except Fault World
  | 0, _, _ => .error .fuel
  | _ + 1, w, none => .ok w
  | k + 1, w, some curr => do
    let c ← w.load (some curr)
    let tmp := c.next
    let w ← rec w (some curr)
    instance_dealloc_tree_loop rec k w tmp

/-- `instance_dealloc_tree` (instance.c 1648-1672). -/
def instance_dealloc_tree : Nat → World → Option Nat → Except Fault World
  | 0, _, _ => .error .fuel
  | _ + 1, w, none => .ok w
  | k + 1, w, some root => do
    let r ← w.load (some root)
    let w ← instance_dealloc_tree_loop (fun w c => instance_dealloc_tree k w c) k w r.child_head
    instance_dealloc_single w (some root)

/-- The search loop of `instance_dealloc` over the children of the parent;
the result is the pair `(curr, last)`. -/
def instance_dealloc_search :
    Nat → World → Option Nat → Option Nat → Str → Except Fault (Option Nat × Option Nat)
  | 0, _, _, _, _ => .error .fuel
  | _ + 1, _, none, last, _ => .ok (none, last)
  | k + 1, w, some curr, last, scope => do
    let c ← w.load (some curr)
    if !scope_compare c.name scope then instance_dealloc_search k w c.next (some curr) scope
    else pure (some curr, last)

/-- The part of `instance_dealloc` that takes `curr` out of the child list
of `inst`. -/
def instance_dealloc_unlink (w : World) (inst curr last : Option Nat) : Except Fault World := do
  if curr ≠ none then do
    let w ← (if last ≠ none then do
        let c ← w.load curr
        w.modify last (fun l => { l with next := c.next })
      else pure w)
    let i ← w.load inst
    let w ← (if curr = i.child_head then do
        let c ← w.load curr
        w.modify inst (fun i => { i with child_head := c.next })
      else pure w)
    let i ← w.load inst
    if curr = i.child_tail then w.modify inst (fun i => { i with child_tail := last })
    else pure w
  else pure w

/-- `instance_dealloc` (instance.c 1679-1737). -/
def instance_dealloc (X : Externals) (fuel : Nat) (w : World) (root : Option Nat)
    (scope : Option Str) : Except Fault World :=
  match root, scope with
  | none, _ => .error .assertion
  | some _, none => .error .assertion
  | some r, some scope => do
    let rt ← w.load (some r)
    if scope_compare rt.name scope then instance_dealloc_tree fuel w (some r)
    else do
      let (_, rest) := scope_extract_back scope
      if rest = [] then throw .assertion
      let inst ← instance_find_scope X fuel w (some r) rest true
      if inst = none then throw .assertion
      let i ← w.load inst
      let (curr, last) ← instance_dealloc_search fuel w i.child_head none scope
      let w ← instance_dealloc_unlink w inst curr last
      instance_dealloc_tree fuel w curr

/-- An instantiation of the list functions of `link.c` for examples:
`funit_link_find` looks for a functional unit of that name and type in the
list, `funit_link_add` appends to the list. -/
def link_ex : LinkOps :=
  { funit_link_find := fun h n t l =>
      l.any (fun g => match h g with
        | some u => decide (u.name = n ∧ u.type = t)
        | none => false),
    funit_link_add := fun g l => l ++ [g] }

/-- The tree `r(A(g1, g2), B(h1))` at the addresses 0, 1, 3, 4, 2, 5: the
functional units of `A` and `B` are unnamed scopes without signals, those of
the other instances are named. -/
def flatten_ex_world : World :=
  { inst := fun a => match a with
      | 0 => some ⟨"r".toList, some 0, none, false, none, some 1, some 2, none⟩
      | 1 => some ⟨"$u1".toList, some 1, none, false, some 0, some 3, some 4, some 2⟩
      | 2 => some ⟨"$u2".toList, some 2, none, false, some 0, some 5, some 5, none⟩
      | 3 => some ⟨"g1".toList, some 3, none, false, some 1, none, none, some 4⟩
      | 4 => some ⟨"g2".toList, some 3, none, false, some 1, none, none, none⟩
      | 5 => some ⟨"h1".toList, some 3, none, false, some 2, none, none, none⟩
      | _ => none,
    funit := fun f => match f with
      | 0 => some (funit_ex "m")
      | 1 => some (funit_ex "$u1")
      | 2 => some (funit_ex "$u2")
      | 3 => some (funit_ex "leaf")
      | _ => none,
    brk := 6, inst_head := [0] }

/-- The tree of `flatten_ex_world`. -/
def flatten_ex_tree : ITree :=
  .node 0 "r".toList (some 0) none false
    [.node 1 "$u1".toList (some 1) none false
      [.node 3 "g1".toList (some 3) none false [], .node 4 "g2".toList (some 3) none false []],
     .node 2 "$u2".toList (some 2) none false [.node 5 "h1".toList (some 3) none false []]]

/-- The tree `top(a, b)` at the addresses 0, 1, 2. -/
def dealloc_ex_world : World :=
  { inst := fun a => match a with
      | 0 => some ⟨"top".toList, some 0, none, false, none, some 1, some 2, none⟩
      | 1 => some ⟨"a".toList, some 1, none, false, some 0, none, none, some 2⟩
      | 2 => some ⟨"b".toList, some 1, none, false, some 0, none, none, none⟩
      | _ => none,
    funit := fun f => match f with
      | 0 => some (funit_ex "top_mod")
      | 1 => some (funit_ex "m")
      | _ => none,
    brk := 3, inst_head := [0] }

/-- The tree of `dealloc_ex_world`. -/
def dealloc_ex_tree : ITree :=
  .node 0 "top".toList (some 0) none false
    [.node 1 "a".toList (some 1) none false [], .node 2 "b".toList (some 1) none false []]

/-! ## Writing the tree and issuing ids -/

/-- The increment `c++` of an `int`, in two's complement. -/
def int_incr (c : Int) : Int := int_of_unsigned (c + 1)

/-- The state `instance_db_write` runs in: the heaps, the global counters
`curr_expr_id` and `curr_sig_id`, and the characters written to `file`. -/
structure DbState where
  w : World
  curr_expr_id : Int
  curr_sig_id : Int
  file : Str

/-- What `instance_db_write` uses of `defines.h`, `gen_item.c` and
`func_unit.c`, none of which is part of the sources at hand: the two constants
and the two functions are parameters.  A generate item is referred to by its
address. -/
structure DbOps where
  FUNIT_NO_SCORE : Int
  DB_TYPE_INST_ONLY : Int
  gen_item_assign_ids : Nat → Option Nat → DbState → Except Fault DbState
  funit_db_write : Option Nat → Str → Bool → Option Nat → Bool → Bool → DbState →
    Except Fault DbState

/-- The loop of `instance_db_write` over `exp_head`: each expression gets
the current value of the counter as its `ulid`; the result is the list and the
counter after the loop. -/
def issue_expr_ids : List expression → Int → List expression × Int
  | [], c => ([], c)
  | e :: es, c =>
    let r := issue_expr_ids es (int_incr c)
    ({ e with ulid := c } :: r.1, r.2)

/-- The loop of `instance_db_write` over `sig_head`: each signal gets the
current value of the counter as its `id`. -/
def issue_sig_ids : List vsignal → Int → List vsignal × Int
  | [], c => ([], c)
  | s :: ss, c =>
    let r := issue_sig_ids ss (int_incr c)
    ({ s with id := c } :: r.1, r.2)

/-- The state after both loops have run on the functional unit `u` at the
address `g`. -/
def issue_funit_ids (S : DbState) (g : Nat) (u : func_unit) : DbState :=
  let e := issue_expr_ids u.exps S.curr_expr_id
  let s := issue_sig_ids u.sigs S.curr_sig_id
  let u1 : func_unit := { u with exps := e.1, sigs := s.1 }
  let F : FHeap := fun x => if x = g then some u1 else S.w.funit x
  { S with w := { S.w with funit := F }, curr_expr_id := e.2, curr_sig_id := s.2 }

/-- The loop of `instance_db_write` over the generate items of the instance. -/
def instance_db_write_gitems (D : DbOps) (funit : Option Nat) :
    List Nat → DbState → Except Fault DbState
  | [], S => .ok S
  | gi :: gis, S => do
    let S ← D.gen_item_assign_ids gi funit S
    instance_db_write_gitems D funit gis S

/-- The loop of `instance_db_write` over the children. -/
def instance_db_write_loop (rec : DbState → Option Nat → Str → Except Fault DbState) :
    Nat → DbState → Option Nat → Option Str → Except Fault DbState
  | 0, _, _, _ => .error .fuel
  | _ + 1, S, none, _ => .ok S
  | _ + 1, _, some _, none => .error .null_deref
  | k + 1, S, some curr, some scope => do
    let c ← S.w.load (some curr)
    let tscope := scope ++ ['.'] ++ c.name
    if ¬ (tscope.length < 4096) then throw .assertion
    let S ← rec S (some curr) tscope
    let c ← S.w.load (some curr)
    instance_db_write_loop rec k S c.next (some scope)

/-- `instance_db_write` (instance.c 1154-1242).  The field `gitem_head` of
an instance is kept outside the instance heap: `gitems a` is the list of the
generate items of the instance at the address `a`. -/
def instance_db_write (D : DbOps) (gitems : Nat → List Nat) :
    Nat → DbState → Option Nat → Option Str → Bool → Bool → Bool → Except Fault DbState
  | 0, _, _, _, _, _, _ => .error .fuel
  | _ + 1, _, none, _, _, _, _ => .error .assertion
  | k + 1, S, some root, scope, parse_mode, issue_ids, report_save => do
    let r ← S.w.load (some root)
    let (S, stop_recursive) ← (match r.funit with
      | some g => do
        let u ← S.w.loadF (some g)
        if u.type ≠ D.FUNIT_NO_SCORE then
          match scope with
          | none => .error .assertion
          | some sc => do
            let curr := if parse_mode then some root else none
            let S ← (if issue_ids then
                instance_db_write_gitems D (some g) (gitems root) (issue_funit_ids S g u)
              else pure S)
            let r ← S.w.load (some root)
            let S ← D.funit_db_write r.funit sc r.name_diff curr report_save issue_ids S
            pure (S, false)
        else pure (S, true)
      | none =>
        match scope with
        | none => .error .null_deref
        | some sc =>
          let line := printf_d D.DB_TYPE_INST_ONLY ++ [' '] ++ sc ++ [' '] ++
            printf_d (if r.name_diff then 1 else 0) ++ ['\n']
          pure ({ S with file := S.file ++ line }, false))
    if !stop_recursive then do
      let r ← S.w.load (some root)
      instance_db_write_loop
        (fun S c sc => instance_db_write D gitems k S c (some sc) parse_mode issue_ids report_save)
        k S r.child_head scope
    else pure S

/-- The list `b, b + 1, ..., b + n - 1`. -/
def consec : Int → Nat → List Int
  | _, 0 => []
  | b, n + 1 => b :: consec (b + 1) n

mutual
/-- The functional units `instance_db_write` visits in the tree, in the
order of the visits: a placeholder has none, and below an instance whose
functional unit has the type `no_score` nothing is visited. -/
def visited (no_score : Int) (F : FHeap) : ITree → List Nat
  | .node _ _ fu _ _ ks =>
    match fu with
    | none => visitedL no_score F ks
    | some g =>
      if (F g).map (fun u => u.type) = some no_score then [] else g :: visitedL no_score F ks
/-- The functional units visited in a list of subtrees. -/
def visitedL (no_score : Int) (F : FHeap) : List ITree → List Nat
  | [] => []
  | k :: ks => visited no_score F k ++ visitedL no_score F ks
end

/-- Number of signals of the functional unit at `g`. -/
def sigCount (F : FHeap) (g : Nat) : Nat :=
  ((F g).map (fun u => u.sigs.length)).getD 0

mutual
/-- Length of the longest scope string below the instance, its own name
included. -/
def scopeLen : ITree → Nat
  | .node _ nm _ _ _ ks => nm.length + scopeLenL ks
/-- Length of the longest scope string that starts with a dot and a name of
the list. -/
def scopeLenL : List ITree → Nat
  | [] => 0
  | k :: ks => max (1 + scopeLen k) (scopeLenL ks)
end

/-- The state after the visits of the functional units in `V`, one after
the other. -/
def issueAll : List Nat → DbState → DbState
  | [], S => S
  | g :: V, S =>
    match S.w.funit g with
    | some u => issueAll V (issue_funit_ids S g u)
    | none => issueAll V S

/-- Two states agree on the heaps and on both counters. -/
def sameIds (A B : DbState) : Prop :=
  A.w = B.w ∧ A.curr_expr_id = B.curr_expr_id ∧ A.curr_sig_id = B.curr_sig_id

/-- Two functional-unit heaps hold functional units of the same types at the
same addresses. -/
def sameTypes (F G : FHeap) : Prop :=
  ∀ x, (F x).map (fun u => u.type) = (G x).map (fun u => u.type)

/-- An instantiation of the absent functions for examples: no generate item
issues ids, and `funit_db_write` writes the scope and a newline. -/
def db_ex : DbOps :=
  { FUNIT_NO_SCORE := 4,
    DB_TYPE_INST_ONLY := 15,
    gen_item_assign_ids := fun _ _ S => .ok S,
    funit_db_write := fun _ sc _ _ _ _ S => .ok { S with file := S.file ++ sc ++ ['\n'] } }

/-- The tree `top(a, p(b), n(c))`: `top` has the functional unit 0 with two
signals, `a` and `b` are instances of the functional unit 1 with three signals,
`p` is a placeholder, `n` has the functional unit 2 of the type 4, and `c` has
the functional unit 3 with one signal.  All ids are 0 and the counters are at
1. -/
def db_ex_state : DbState :=
  { w :=
    { inst := fun a => match a with
        | 0 => some ⟨"top".toList, some 0, none, false, none, some 1, some 4, none⟩
        | 1 => some ⟨"a".toList, some 1, none, false, some 0, none, none, some 2⟩
        | 2 => some ⟨"p".toList, none, none, false, some 0, some 3, some 3, some 4⟩
        | 3 => some ⟨"b".toList, some 1, none, false, some 2, none, none, none⟩
        | 4 => some ⟨"n".toList, some 2, none, false, some 0, some 5, some 5, none⟩
        | 5 => some ⟨"c".toList, some 3, none, false, some 4, none, none, none⟩
        | _ => none,
      funit := fun f => match f with
        | 0 => some ⟨"m0".toList, none, [sig_ex 0, sig_ex 0], [exp_ex 0], 0, []⟩
        | 1 => some ⟨"m1".toList, none, [sig_ex 0, sig_ex 0, sig_ex 0], [], 0, []⟩
        | 2 => some ⟨"m2".toList, none, [sig_ex 0], [], 4, []⟩
        | 3 => some ⟨"m3".toList, none, [sig_ex 0], [], 0, []⟩
        | _ => none,
      brk := 6, inst_head := [0] },
    curr_expr_id := 1, curr_sig_id := 1, file := [] }

/-- The tree of `db_ex_state`. -/
def db_ex_tree : ITree :=
  .node 0 "top".toList (some 0) none false
    [.node 1 "a".toList (some 1) none false [],
     plain 2 "p" [.node 3 "b".toList (some 1) none false []],
     .node 4 "n".toList (some 2) none false [.node 5 "c".toList (some 3) none false []]]

/-! ## FSM tables (`fsm.c`) -/

/-- `signal`, reduced to the fields the FSM code reads and writes; `value` is
a pointer, and so is `table`, which refers to the FSM whose output the signal
is. -/
structure signal where
  name : Str
  value : Option vector
  table : Option Nat := none
deriving DecidableEq, Repr

/-- Modelled from the spec: the arc table of `arc.c`, which is not among the
sources.  The specification describes it as a square bit matrix in which the
bit `(r, c)` says that the transition from the state `r` to the state `c` was
observed, together with the entries that are valid; `side` is its side
length. -/
structure ArcTable where
  side : Nat
  valid : Nat → Nat → Bool
  hit : Nat → Nat → Bool

/-- `fsm`.  The list `arc_head .. arc_tail` of declared arcs is kept as a list
of pairs of pointers to the `from_state` and `to_state` expressions. -/
structure fsm where
  from_sig : Option signal
  to_sig : Option signal
  table : ArcTable
  arcs : List (Nat × Nat) := []

/-- Ways in which a run of the FSM code fails to return normally; `exit` is
the call `exit( 1 )` after a fatal message, `bad_pointer` a pointer moved out of
the string it points into. -/
inductive FsmFault where
  | null_deref
  | assertion
  | exit
  | bad_pointer
deriving DecidableEq, Repr

/-- Modelled from the spec: `arc_add` of `arc.c` is not among the sources; the
specification says that the table entry for the pair of values is marked valid
when the table is seeded (`hit` is 0) and that the bit at
`(fromValue, toValue)` is set when a transition is observed (`hit` is 1). -/
def arc_add (t : ArcTable) (_width : Int) (fr_st to_st : vector) (hit : Int) : ArcTable :=
  if hit = 0 then
    { t with valid := fun r c => (r = fr_st.value ∧ c = to_st.value) || t.valid r c }
  else
    { t with hit := fun r c => (r = fr_st.value ∧ c = to_st.value) || t.hit r c }

/-- Modelled from the spec: `arc_db_merge` of `arc.c` is not among the sources;
the specification says that the merge performs a bitwise OR of the two tables.
`unpack` stands for the reading of the packed table from the line. -/
def arc_db_merge (unpack : Str → ArcTable) (base : ArcTable) (line : Str) (_same : Bool) :
    ArcTable :=
  { base with valid := fun r c => base.valid r c || (unpack line).valid r c,
              hit := fun r c => base.hit r c || (unpack line).hit r c }

/-- Number of set bits of a matrix of the given side. -/
def bitCount (side : Nat) (m : Nat → Nat → Bool) : Nat :=
  ((List.range side).map (fun r => ((List.range side).filter (fun c => m r c)).length)).sum

/-- Number of indices that have a set bit in their row or in their column. -/
def stateCount (side : Nat) (m : Nat → Nat → Bool) : Nat :=
  ((List.range side).filter
    (fun s => (List.range side).any (fun c => m s c || m c s))).length

/-- Modelled from the spec: `arc_get_stats` of `arc.c` is not among the
sources; the specification says that the state hits are the indices with a set
bit in their row or column, that the arc hits are the set bits, and that the
totals come from the valid entries.  The four numbers are added to
`*state_total`, `*state_hit`, `*arc_total` and `*arc_hit`. -/
def arc_get_stats (t : ArcTable) (acc : Int × Int × Int × Int) : Int × Int × Int × Int :=
  (acc.1 + stateCount t.side t.valid, acc.2.1 + stateCount t.side t.hit,
   acc.2.2.1 + bitCount t.side t.valid, acc.2.2.2 + bitCount t.side t.hit)

/-- The C library call `sscanf( line, "%s %s%n", iname, oname, &chars_read )`:
the return value and the contents of the three variables afterwards, which are
those before the call where nothing was stored. -/
def sscanf_s_s_n (line iname oname : Str) (chars_read : Int) : Int × Str × Str × Int :=
  let l1 := line.dropWhile (fun c => isspace c)
  if l1 = [] then (-1, iname, oname, chars_read)
  else
    let l2 := (l1.dropWhile (fun c => !isspace c)).dropWhile (fun c => isspace c)
    if l2 = [] then (1, l1.takeWhile (fun c => !isspace c), oname, chars_read)
    else
      (2, l1.takeWhile (fun c => !isspace c), l2.takeWhile (fun c => !isspace c),
        (line.length : Int) - ((l2.dropWhile (fun c => !isspace c)).length : Int))

/-- `fsm_db_merge` (fsm.c 388-424).  The local variables `iname`, `oname`
and `chars_read` are not initialised; their contents at the call of `sscanf`
are the last three arguments.  The result is the FSM, `*line` and the return
value. -/
def fsm_db_merge (unpack : Str → ArcTable) (base : Option fsm) (line : Str) (same : Bool)
    (iname oname : Str) (chars_read : Int) : Except FsmFault (fsm × Str × Bool) :=
  match base with
  | none => .error .assertion
  | some b =>
    match b.from_sig, b.to_sig with
    | none, _ => .error .assertion
    | some _, none => .error .assertion
    | some from_sig, some to_sig =>
      let r := sscanf_s_s_n line iname oname chars_read
      if r.1 = 1 then
        if r.2.2.2 < 0 ∨ (line.length : Int) < r.2.2.2 then .error .bad_pointer
        else
          let line := line.drop r.2.2.2.toNat
          if from_sig.name ≠ r.2.1 ∨ to_sig.name ≠ r.2.2.1 then .error .exit
          else .ok ({ b with table := arc_db_merge unpack b.table line same }, line, true)
      else .ok (b, line, false)

/-- `fsm_table_set` (fsm.c 433-437). -/
def fsm_table_set (table : Option fsm) : Except FsmFault fsm :=
  match table with
  | none => .error .null_deref
  | some t =>
    match t.to_sig, t.from_sig with
    | some to_sig, some from_sig =>
      match to_sig.value, from_sig.value with
      | some tv, some fv => .ok { t with table := arc_add t.table tv.width fv tv 1 }
      | _, _ => .error .null_deref
    | _, _ => .error .null_deref

/-- `fsm_get_stats` (fsm.c 448-463); the list is the list of the `table`
pointers of the links, the four numbers are `*state_total`, `*state_hit`,
`*arc_total` and `*arc_hit`. -/
def fsm_get_stats : List (Option fsm) → Int × Int × Int × Int →
    Except FsmFault (Int × Int × Int × Int)
  | [], acc => .ok acc
  | none :: _, _ => .error .null_deref
  | some t :: rest, acc => fsm_get_stats rest (arc_get_stats t.table acc)

/-- One operation on an FSM: the simulator has given the two state signals
new values and calls `fsm_table_set`, or a line is merged by `fsm_db_merge`. -/
inductive FsmOp where
  | set (from_value to_value : Option vector)
  | merge (line : Str) (same : Bool) (iname oname : Str) (chars_read : Int)

/-- The FSM after one operation. -/
def fsm_step (unpack : Str → ArcTable) (f : fsm) : FsmOp → Except FsmFault fsm
  | .set fv tv =>
    fsm_table_set (some { f with
      from_sig := f.from_sig.map (fun s => { s with value := fv }),
      to_sig := f.to_sig.map (fun s => { s with value := tv }) })
  | .merge line same iname oname chars_read =>
    (fsm_db_merge unpack (some f) line same iname oname chars_read).map (fun r => r.1)

/-- The FSM after a sequence of operations. -/
def fsm_run (unpack : Str → ArcTable) : List FsmOp → fsm → Except FsmFault fsm
  | [], f => .ok f
  | op :: ops, f => do
    let f ← fsm_step unpack f op
    fsm_run unpack ops f

/-- A reading of packed tables for examples: the line ` rc`, with two digits
`r` and `c`, holds the table whose only set bit is `(r, c)`. -/
def unpack_ex (line : Str) : ArcTable :=
  { side := 4, valid := fun _ _ => false,
    hit := fun r c =>
      decide (line.dropWhile (fun x => isspace x) = [Nat.digitChar r, Nat.digitChar c]) }

/-- An FSM with the state signals `st` and `nst` and an empty table of side 4. -/
def fsm_ex : fsm :=
  { from_sig := some { name := "st".toList, value := some { width := 2, value := 0 } },
    to_sig := some { name := "nst".toList, value := some { width := 2, value := 0 } },
    table := { side := 4, valid := fun _ _ => false, hit := fun _ _ => false } }

/-- Three operations: the transition from 0 to 1 is observed, the line
`st nst 12` is merged, the transition from 1 to 2 is observed. -/
def fsm_ex_ops : List FsmOp :=
  [.set (some ⟨2, 0⟩) (some ⟨2, 1⟩), .merge "st nst 12".toList false [] [] 0,
   .set (some ⟨2, 1⟩) (some ⟨2, 2⟩)]

/-- The FSM `fsm_ex` after the operations `fsm_ex_ops`. -/
def fsm_ex_after : fsm :=
  match fsm_run unpack_ex fsm_ex_ops fsm_ex with
  | .ok f => f
  | .error _ => fsm_ex

/-- The tree `r(p, c)` at the addresses 0, 1, 2: `r` and `p` are placeholders
without functional unit, `c` has the functional unit 0. -/
def branch_ex_world : World :=
  { inst := fun a => match a with
      | 0 => some ⟨"r".toList, none, none, false, none, some 1, some 2, none⟩
      | 1 => some ⟨"p".toList, none, none, false, some 0, none, none, some 2⟩
      | 2 => some ⟨"c".toList, some 0, none, false, some 0, none, none, none⟩
      | _ => none,
    funit := fun f => match f with
      | 0 => some (funit_ex "m")
      | _ => none,
    brk := 3, inst_head := [0] }

/-- The tree of `branch_ex_world`. -/
def branch_ex_tree : ITree :=
  plain 0 "r" [plain 1 "p" [], .node 2 "c".toList (some 0) none false []]

/-- The populated instance of `placeholder_ex_world`. -/
def placeholder_ex_dut : ITree := .node 1 "dut".toList (some 0) none false []

/-- The tree of `placeholder_ex_world`. -/
def placeholder_ex_tree : ITree := plain 0 "tb" [placeholder_ex_dut]

/-! ## Reading instances from the database -/

/-- The block that appends `new_inst` to the child list of `inst` and then
sets its parent pointer (instance.c 896-905 and 1272-1278). -/
def attach_child (w : World) (inst new_inst : Option Nat) : Except Fault World := do
  let w ← child_list_append w inst new_inst
  w.modify new_inst (fun c => { c with parent := inst })

/-- `instance_read_add` (instance.c 872-920); the result is the state,
`*root` and the return value. -/
def instance_read_add (X : Externals) (fuel : Nat) (w : World) (root : Option Nat)
    (parent : Option Str) (child : Option Nat) (inst_name : Str) :
    Except Fault (World × Option Nat × Bool) :=
  match root with
  | none =>
    let r := instance_create w child inst_name false none
    .ok (r.1, r.2, true)
  | some r =>
    match parent with
    | none => .error .assertion
    | some parent => do
      let inst ← instance_find_scope X fuel w (some r) parent true
      if inst ≠ none then do
        let c := instance_create w child inst_name false none
        let w ← attach_child c.1 inst c.2
        pure (w, some r, true)
      else pure (w, some r, false)

/-- The surroundings of `a` in `dealloc_ex_world`. -/
def dealloc_ex_ctx : List Frame :=
  [⟨0, "top".toList, some 0, none, false, [], [.node 2 "b".toList (some 1) none false []]⟩]

/-- The two functions of `link.c` that `instance_only_db_read` calls on the
list of root instances; `link.c` is not part of the sources at hand, so they
are parameters.  `inst_link_find_by_scope` is given the links from the one it
is called with to the end of the list. -/
structure InstLinkOps where
  inst_link_add : Nat → List Nat → List Nat
  inst_link_find_by_scope : World → Str → List Nat → Except Fault (Option Nat)

/-- The C library call `sscanf( line, "%s %d%n", scope, &name_diff,
&chars_read ) == 2`: the string, the number and the count of characters read
when both conversions succeed.  (A value outside the range of `int` is not
modelled.) -/
def sscanf_s_d_n (line : Str) : Option (Str × Int × Nat) :=
  let l1 := line.dropWhile (fun c => isspace c)
  if l1 = [] then none
  else
    let l2 := (l1.dropWhile (fun c => !isspace c)).dropWhile (fun c => isspace c)
    let sg : Bool × Str := (match l2 with
      | '-' :: r => (true, r)
      | '+' :: r => (false, r)
      | _ => (false, l2))
    let ds : Str := sg.2.takeWhile (fun c => c.isDigit)
    if ds = [] then none
    else
      some (l1.takeWhile (fun c => !isspace c),
        if sg.1 then - digits_value ds else digits_value ds,
        line.length - (sg.2.dropWhile (fun c => c.isDigit)).length)

/-- `instance_only_db_read` (instance.c 1247-1302); the list of root instances
is `inst_head`, and `inst_tail` is its last link.  The result is the state and
`*line`; a failure comes with the state it leaves behind. -/
def instance_only_db_read (L : InstLinkOps) (w : World) (line : Str) :
    Except (Fault × World) (World × Str) :=
  match sscanf_s_d_n line with
  | some (scope, name_diff, chars_read) =>
    let line := line.drop chars_read
    let rest := (scope_extract_back scope).2
    let c := instance_create w none (scope_extract_back scope).1 (decide (name_diff ≠ 0)) none
    if rest = [] then
      match c.2 with
      | some child => .ok ({ c.1 with inst_head := L.inst_link_add child c.1.inst_head }, line)
      | none => .error (.null_deref, c.1)
    else
      match L.inst_link_find_by_scope c.1 rest c.1.inst_head.getLast?.toList with
      | .error e => .error (e, c.1)
      | .ok (some parent) =>
        match attach_child c.1 (some parent) c.2 with
        | .ok w => .ok (w, line)
        | .error e => .error (e, c.1)
      | .ok none => .error (.thrown, c.1)
  | none => .error (.thrown, w)

/-- The search of a list of root instances for a scope, one tree after the
other. -/
def find_by_scope_ex : World → Str → List Nat → Except Fault (Option Nat)
  | _, _, [] => .ok none
  | w, scope, r :: rest =>
    match instance_find_scope ext_ex 100 w (some r) scope true with
    | .error e => .error e
    | .ok (some i) => .ok (some i)
    | .ok none => find_by_scope_ex w scope rest

/-- An instantiation of the list functions for examples: `inst_link_add`
appends to the list, `inst_link_find_by_scope` searches the trees of the links
it is given with `instance_find_scope`. -/
def inst_link_ex : InstLinkOps :=
  { inst_link_add := fun a l => l ++ [a],
    inst_link_find_by_scope := find_by_scope_ex }

/-! ## The lookup of an FSM arc by its exclusion id -/

/-- The loop of `instance_find_fsm_arc_index_by_exclusion_id` over the FSM
list of a functional unit; `find` is `arc_find_arc_by_exclusion_id` of `arc.c`,
which is not part of the sources at hand and is a parameter.  The result is
`arc_index` and the table at which the loop stopped. -/
def fsm_arc_scan (find : Option Nat → Int → Int) (id : Int) :
    List (Option Nat) → Int × Option (Option Nat)
  | [] => (-1, none)
  | tb :: rest => if find tb id = -1 then fsm_arc_scan find id rest else (find tb id, some tb)

/-- The loop of `instance_find_fsm_arc_index_by_exclusion_id` over the
children; `st` is the pair `(*found_fsm, *found_funit)`. -/
def instance_find_fsm_arc_loop
    (rec : Option Nat → Option Nat × Option Nat →
      Except Fault (Int × (Option Nat × Option Nat))) :
    Nat → World → Option Nat → Option Nat × Option Nat →
      Except Fault (Int × (Option Nat × Option Nat))
  | 0, _, _, _ => .error .fuel
  | _ + 1, _, none, st => .ok (-1, st)
  | k + 1, w, some child, st => do
    let r ← rec (some child) st
    if r.1 = -1 then do
      let c ← w.load (some child)
      instance_find_fsm_arc_loop rec k w c.next r.2
    else pure r

/-- `instance_find_fsm_arc_index_by_exclusion_id` (instance.c 489-529); `st`
is the pair `(*found_fsm, *found_funit)`, the result is the return value and
that pair. -/
def instance_find_fsm_arc_index_by_exclusion_id (find : Option Nat → Int → Int) :
    Nat → World → Option Nat → Int → Option Nat × Option Nat →
      Except Fault (Int × (Option Nat × Option Nat))
  | 0, _, _, _, _ => .error .fuel
  | _ + 1, _, none, _, st => .ok (-1, st)
  | k + 1, w, some r, id, st => do
    let root ← w.load (some r)
    if root.funit = none then throw .assertion
    let fu ← w.loadF root.funit
    match fsm_arc_scan find id fu.fsms with
    | (arc_index, some tb) => pure (arc_index, (tb, root.funit))
    | (_, none) =>
      instance_find_fsm_arc_loop
        (fun c st => instance_find_fsm_arc_index_by_exclusion_id find k w c id st)
        k w root.child_head st

/-- The arc tables of the tree with their functional units, in the order of
the visit: instances in depth-first pre-order, the FSM list of each functional
unit in list order. -/
def tablesOf (w : World) (ns : List ITree) : List (Option Nat × Nat) :=
  ns.flatMap (fun n =>
    match n.funit with
    | some g =>
      (match w.funit g with
        | some u => u.fsms.map (fun tb => (tb, g))
        | none => [])
    | none => [])

/-- The result the first table whose query succeeds gives; `st` is the pair
`(*found_fsm, *found_funit)` before the call. -/
def firstArc (find : Option Nat → Int → Int) (id : Int) (st : Option Nat × Option Nat) :
    List (Option Nat × Nat) → Int × (Option Nat × Option Nat)
  | [] => (-1, st)
  | p :: rest =>
    if find p.1 id = -1 then firstArc find id st rest else (find p.1 id, (p.1, some p.2))

/-- A stand-in for `arc_find_arc_by_exclusion_id` in examples: the table at
the address 7 holds the exclusion id 5 at the index 2. -/
def arc_find_ex (tb : Option Nat) (id : Int) : Int :=
  if tb = some 7 ∧ id = 5 then 2 else -1

/-- The tree `tb(dut)` with the placeholder `tb`; the functional unit of
`dut` has the arc tables 6 and 7. -/
def fsm_lookup_ex_world : World :=
  { inst := fun a => match a with
      | 0 => some ⟨"tb".toList, none, none, false, none, some 1, some 1, none⟩
      | 1 => some ⟨"dut".toList, some 0, none, false, some 0, none, none, none⟩
      | _ => none,
    funit := fun f => match f with
      | 0 => some { name := "m0".toList, filename := none, sigs := [], exps := [],
                    fsms := [some 6, some 7] }
      | _ => none,
    brk := 2, inst_head := [0] }

/-! ## Seeding, reading and reporting FSM tables (`fsm.c`) -/

/-- The functions of `expr.c`, `link.c` and `arc.c` that `fsm_create`,
`fsm_create_tables` and `fsm_db_read` call and that are not part of the sources
at hand, as parameters: `expression_operate` gives the `value` pointer of an
expression after its evaluation, `sig_link_find` the position of the link it
found, `arc_db_read` its return value, the table and `*line` afterwards. -/
structure FsmReadOps where
  expression_operate : Nat → Option vector
  sig_link_find : Str → List signal → Option Nat
  arc_create : Int → ArcTable
  arc_db_read : ArcTable → Str → Bool × ArcTable × Str
  fsm_link_add : fsm → List fsm → List fsm

/-- The loop of `fsm_create_tables` over the declared arcs. -/
def fsm_create_tables_loop (operate : Nat → Option vector) :
    List (Nat × Nat) → fsm → Except FsmFault fsm
  | [], t => .ok t
  | arc :: rest, t =>
    match t.to_sig with
    | none => .error .null_deref
    | some to_sig =>
      match to_sig.value, operate arc.1, operate arc.2 with
      | some tv, some from_state, some to_state =>
        fsm_create_tables_loop operate rest
          { t with table := arc_add t.table tv.width from_state to_state 0 }
      | _, _, _ => .error .null_deref

/-- `fsm_create_tables` (fsm.c 251-276). -/
def fsm_create_tables (operate : Nat → Option vector) (table : Option fsm) :
    Except FsmFault fsm :=
  match table with
  | none => .error .null_deref
  | some t => fsm_create_tables_loop operate t.arcs t

/-- `fsm_create` (fsm.c 202-215). -/
def fsm_create (O : FsmReadOps) (sig : Option signal) : Except FsmFault fsm :=
  match sig with
  | none => .error .null_deref
  | some s =>
    match s.value with
    | none => .error .null_deref
    | some v => .ok { from_sig := none, to_sig := some s, table := O.arc_create v.width,
                      arcs := [] }

/-- `module`, reduced to the signal list and the FSM list; `brk` is the
address the next FSM is allocated at. -/
structure module where
  sigs : List signal
  fsms : List fsm
  brk : Nat

/-- `fsm_db_read` (fsm.c 315-373).  The last three arguments are the contents
of the local variables `isig_name`, `osig_name` and `chars_read`, which are
not initialised, at the call of `sscanf`.  The signals of an FSM are held by
value, so the assignment `osigl->sig->table = table` is made before the copies
are taken.  The result is the module, `*line` and the return value. -/
def fsm_db_read (O : FsmReadOps) (line : Str) (mod : Option module)
    (isig_name osig_name : Str) (chars_read : Int) :
    Except FsmFault (Option module × Str × Bool) :=
  let r := sscanf_s_s_n line isig_name osig_name chars_read
  if r.1 = 2 then
    match mod with
    | none => .error .null_deref
    | some m =>
      match O.sig_link_find r.2.1 m.sigs with
      | none => .ok (some m, line.drop (r.2.2.2 + 1).toNat, false)
      | some i =>
        match O.sig_link_find r.2.2.1 m.sigs with
        | none => .ok (some m, line.drop (r.2.2.2 + 1).toNat, false)
        | some o =>
          match m.sigs[i]?, m.sigs[o]? with
          | some isig, some osig =>
            match fsm_create O (some { osig with table := some m.brk }) with
            | .error e => .error e
            | .ok t0 =>
              let from_sig : signal := if i = o then { osig with table := some m.brk } else isig
              match fsm_create_tables O.expression_operate
                  (some { t0 with from_sig := some from_sig }) with
              | .error e => .error e
              | .ok t =>
                let rd := O.arc_db_read t.table (line.drop (r.2.2.2 + 1).toNat)
                let sigs := m.sigs.set o { osig with table := some m.brk }
                if rd.1 then
                  .ok (some { sigs := sigs,
                              fsms := O.fsm_link_add { t with table := rd.2.1 } m.fsms,
                              brk := m.brk + 1 }, rd.2.2, true)
                else .ok (some { sigs := sigs, fsms := m.fsms, brk := m.brk + 1 }, rd.2.2, false)
          | _, _ => .error .null_deref
  else .ok (mod, line, false)

/-- The values of six expressions for examples: the pairs `(0, 1)`, `(2, 3)`
and `(4, 5)` evaluate to the transitions 0 to 1, 1 to 2 and 2 to 0 of a state
signal of two bits. -/
def operate_ex (e : Nat) : Option vector :=
  match e with
  | 0 => some ⟨2, 0⟩
  | 1 => some ⟨2, 1⟩
  | 2 => some ⟨2, 1⟩
  | 3 => some ⟨2, 2⟩
  | 4 => some ⟨2, 2⟩
  | 5 => some ⟨2, 0⟩
  | _ => none

/-- An FSM with the state signals `st` and `nst` of two bits, an empty table
of side 4 and the declared arcs 0 to 1, 1 to 2 and 2 to 0. -/
def fsm_arcs_ex : fsm :=
  { from_sig := some { name := "st".toList, value := some { width := 2, value := 0 } },
    to_sig := some { name := "nst".toList, value := some { width := 2, value := 0 } },
    table := { side := 4, valid := fun _ _ => false, hit := fun _ _ => false },
    arcs := [(0, 1), (2, 3), (4, 5)] }

/-- A reading of packed tables for examples: the line holds pairs of digits
separated by blanks, and the pair `rc` stands for the set bit `(r, c)`. -/
def unpack_pairs_ex (line : Str) : ArcTable :=
  { side := 4, valid := fun _ _ => false,
    hit := fun r c => (line.splitOn ' ').contains [Nat.digitChar r, Nat.digitChar c] }

/-- The FSM `fsm_arcs_ex` after `fsm_create_tables`. -/
def fsm_scn_seeded : fsm :=
  match fsm_create_tables operate_ex (some fsm_arcs_ex) with
  | .ok f => f
  | .error _ => fsm_arcs_ex

/-- The seeded FSM after the observation of the transitions 0 to 1 and 1 to
2. -/
def fsm_scn_observed : fsm :=
  match fsm_run unpack_pairs_ex [.set (some ⟨2, 0⟩) (some ⟨2, 1⟩),
      .set (some ⟨2, 1⟩) (some ⟨2, 2⟩)] fsm_scn_seeded with
  | .ok f => f
  | .error _ => fsm_scn_seeded

/-- The position of the first signal of the list that has the given name. -/
def find_sig_index (nm : Str) : List signal → Option Nat
  | [] => none
  | s :: rest => if s.name = nm then some 0 else (find_sig_index nm rest).map (fun i => i + 1)

/-- An instantiation of the absent functions for examples: signals are found
by name, a new table is empty and of side 4, `arc_db_read` reads a table as
`unpack_ex` does and uses up the line, and `fsm_link_add` appends. -/
def fsm_read_ex : FsmReadOps :=
  { expression_operate := operate_ex,
    sig_link_find := find_sig_index,
    arc_create := fun _ => { side := 4, valid := fun _ _ => false, hit := fun _ _ => false },
    arc_db_read := fun t l => (true, arc_db_merge unpack_ex t l false, []),
    fsm_link_add := fun f l => l ++ [f] }

/-- A module with the signals `st` and `nst` and no FSM. -/
def module_ex : module :=
  { sigs := [{ name := "st".toList, value := some { width := 2, value := 0 } },
             { name := "nst".toList, value := some { width := 2, value := 0 } }],
    fsms := [], brk := 0 }

/-! ## The information line of a CDD file (`rank.c`) -/

/-- The constants of `defines.h`, which is not part of the sources at hand,
that `rank_parse_info` uses. -/
structure RankConsts where
  CDD_VERSION : Nat
  CP_TYPE_NUM : Nat
  USER_MSG_LENGTH : Nat

/-- Value of a digit in the given base, if it is one. -/
def digit_in_base (base : Nat) (c : Char) : Option Nat :=
  let v := if c.isDigit then some (c.toNat - 48)
    else if 'a' ≤ c ∧ c ≤ 'f' then some (c.toNat - 87)
    else if 'A' ≤ c ∧ c ≤ 'F' then some (c.toNat - 55)
    else none
  v.bind (fun d => if d < base then some d else none)

/-- Value of a string of digits in the given base. -/
def digits_in_base (base : Nat) (ds : Str) : Nat :=
  ds.foldl (fun acc d => acc * base + (digit_in_base base d).getD 0) 0

/-- An unsigned conversion of `sscanf` (`%x` for the base 16, `%u` for the
base 10) into an `unsigned int`: white space is skipped, a sign and, for `%x`,
the prefix `0x` in front of a digit are accepted, and at least one digit is
read; the result is the value and the rest of the input.  (A value outside the
range of `unsigned long` is not modelled: the value is reduced modulo 2^32.) -/
def scan_unsigned (base : Nat) (s : Str) : Option (Nat × Str) :=
  let s1 := s.dropWhile (fun c => isspace c)
  let sg : Bool × Str := (match s1 with
    | '-' :: r => (true, r)
    | '+' :: r => (false, r)
    | _ => (false, s1))
  let s2 : Str := (match sg.2 with
    | '0' :: x :: d :: r =>
      if base = 16 ∧ (x = 'x' ∨ x = 'X') ∧ (digit_in_base 16 d).isSome then d :: r else sg.2
    | _ => sg.2)
  let ds : Str := s2.takeWhile (fun c => (digit_in_base base c).isSome)
  if ds = [] then none
  else
    let v := digits_in_base base ds % 4294967296
    some (if sg.1 then (4294967296 - v) % 4294967296 else v,
      s2.dropWhile (fun c => (digit_in_base base c).isSome))

/-- The conversion `%lld` of `sscanf`: the value and the rest of the input.
(A value outside the range of `long long` is not modelled.) -/
def scan_lld (s : Str) : Option (Int × Str) :=
  let s1 := s.dropWhile (fun c => isspace c)
  let sg : Bool × Str := (match s1 with
    | '-' :: r => (true, r)
    | '+' :: r => (false, r)
    | _ => (false, s1))
  let ds : Str := sg.2.takeWhile (fun c => c.isDigit)
  if ds = [] then none
  else some (if sg.1 then - digits_value ds else digits_value ds,
    sg.2.dropWhile (fun c => c.isDigit))

/-- The C library call
`sscanf( *line, "%x %x %lld%n", &version, &(suppl.all), &sim_events, &chars_read ) == 3`:
the three values and the line after `chars_read` characters when all three
conversions succeed. -/
def sscanf_x_x_lld_n (line : Str) : Option (Nat × Nat × Int × Str) :=
  match scan_unsigned 16 line with
  | none => none
  | some (version, r1) =>
    match scan_unsigned 16 r1 with
    | none => none
    | some (suppl, r2) =>
      match scan_lld r2 with
      | none => none
      | some (sim_events, r3) => some (version, suppl, sim_events, r3)

/-- `comp_cdd_cov`, as `rank_create_comp_cdd_cov` leaves it: the arrays
`cps_index` and `cps` have `CP_TYPE_NUM` entries, and `cps[i]` is the length of
the zeroed block it points to, or `none` where it was not set. -/
structure comp_cdd_cov where
  cdd_name : Str
  sim_events : Nat
  total_cps : Nat
  unique_cps : Nat
  cps_index : List Nat
  cps : List (Option Nat)
deriving DecidableEq, Repr

/-- `rank_create_comp_cdd_cov` (rank.c 96-121).  The embedding has no sizes of
allocated blocks: that the code asks `malloc_safe` for `sizeof( comp_cdd_cov* )`
bytes has no counterpart here. -/
def rank_create_comp_cdd_cov (K : RankConsts) (num_cps : List Nat) (cdd_name : Str)
    (sim_events : Nat) : comp_cdd_cov :=
  { cdd_name := cdd_name, sim_events := sim_events, total_cps := 0, unique_cps := 0,
    cps_index := List.replicate K.CP_TYPE_NUM 0,
    cps := (List.range K.CP_TYPE_NUM).map (fun i =>
      if num_cps.getD i 0 > 0 then some (num_cps.getD i 0 / 8 + 1) else none) }

/-- The text `snprintf` writes into `user_msg` when the counts differ. -/
def rank_not_mergeable_msg (cdd_name : Str) : Str :=
  "Specified CDD file \"".toList ++ cdd_name ++
    "\" that is not mergeable with its previous CDD files".toList

/-- The loop of `rank_parse_info` over the coverage point types: `n` is the
number of rounds left, `i` the loop variable; the result is the array
`num_cps` and `*line`, and a failure comes with the array it leaves behind. -/
def rank_parse_info_loop (K : RankConsts) (cdd_name : Str) (first : Bool) :
    Nat → Nat → List Nat → Str → Except (Fault × List Nat) (List Nat × Str)
  | 0, _, num_cps, line => .ok (num_cps, line)
  | n + 1, i, num_cps, line =>
    match scan_unsigned 10 line with
    | some (cp_num, rest) =>
      if first then rank_parse_info_loop K cdd_name first n (i + 1) (num_cps.set i cp_num) rest
      else if num_cps.getD i 0 ≠ cp_num then
        if (rank_not_mergeable_msg cdd_name).length < K.USER_MSG_LENGTH then
          .error (.thrown, num_cps)
        else .error (.assertion, num_cps)
      else rank_parse_info_loop K cdd_name first n (i + 1) num_cps rest
    | none => .error (.thrown, num_cps)

/-- `rank_parse_info` (rank.c 254-310); `num_cps` is the global array.  The
result is the array, `*line` and `*comp_cov`. -/
def rank_parse_info (K : RankConsts) (num_cps : List Nat) (cdd_name line : Str) (first : Bool) :
    Except (Fault × List Nat) (List Nat × Str × comp_cdd_cov) :=
  match sscanf_x_x_lld_n line with
  | some (version, _, sim_events, rest) =>
    if version ≠ K.CDD_VERSION then .error (.thrown, num_cps)
    else
      match rank_parse_info_loop K cdd_name first K.CP_TYPE_NUM 0 num_cps rest with
      | .error e => .error e
      | .ok (cps, rest) =>
        .ok (cps, rest,
          rank_create_comp_cdd_cov K cps cdd_name (sim_events % 18446744073709551616).toNat)
  | none => .error (.thrown, num_cps)

/-- The coverage point counts of an information line: `n` numbers, and the
rest of the line. -/
def scan_counts : Nat → Str → Option (List Nat × Str)
  | 0, line => some ([], line)
  | n + 1, line =>
    match scan_unsigned 10 line with
    | some (c, rest) => (scan_counts n rest).map (fun r => (c :: r.1, r.2))
    | none => none

/-- The version, the event count, the counts and the rest of a line that
carries a version, a flags field, an event count and `CP_TYPE_NUM` counts. -/
def info_record (K : RankConsts) (line : Str) : Option (Nat × Int × List Nat × Str) :=
  match sscanf_x_x_lld_n line with
  | some (version, _, sim_events, rest) =>
    (scan_counts K.CP_TYPE_NUM rest).map (fun r => (version, sim_events, r.1, r.2))
  | none => none

/-- Constants for examples: the version `0x18`, three coverage point types. -/
def rank_ex : RankConsts := { CDD_VERSION := 24, CP_TYPE_NUM := 3, USER_MSG_LENGTH := 8192 }

/-! ## Memory coverage (`memory.c`) -/

/-- What `memory_get_stat` and `memory_collect` use of `defines.h`,
`vector.c` and `link.c`, which are not part of the sources at hand, as
parameters: `vector_mem_rw_count` gives `(wr, rd)` after the call from the pair
before it, `vector_toggle_count` likewise for `(tog01_hit, tog10_hit)`. -/
structure MemOps where
  SSUPPL_TYPE_MEM : Nat
  vector_mem_rw_count : vector → Int → Int → Nat × Nat → Nat × Nat
  vector_toggle_count : vector → Nat × Nat → Nat × Nat
  sig_link_add : vsignal → List vsignal → List vsignal

/-- The six counters `memory_get_stat` adds to, each an `unsigned int`. -/
structure mem_stat where
  ae_total : Nat
  wr_hit : Nat
  rd_hit : Nat
  tog_total : Nat
  tog01_hit : Nat
  tog10_hit : Nat
deriving DecidableEq, Repr

/-- The value of an integer as an `unsigned int`. -/
def to_unsigned (n : Int) : Nat := (n % 4294967296).toNat

/-- The first loop of `memory_get_stat`, which multiplies the widths of the
packed dimensions; an index outside the array `dim` is a fault. -/
def memory_get_stat_pwidth (sig : vsignal) : Nat → Nat → Nat → Except Fault Nat
  | 0, _, _ => .error .fuel
  | k + 1, i, pwidth =>
    if i < (sig.udim_num + sig.pdim_num) % 4294967296 then
      match sig.dim[i]? with
      | none => .error .null_deref
      | some (msb, lsb) =>
        memory_get_stat_pwidth sig k ((i + 1) % 4294967296)
          (if msb > lsb then (pwidth * to_unsigned ((msb - lsb) + 1)) % 4294967296
           else (pwidth * to_unsigned ((lsb - msb) + 1)) % 4294967296)
    else .ok pwidth

/-- The second loop of `memory_get_stat`, over the addressable elements. -/
def memory_get_stat_elems (M : MemOps) (sig : vsignal) (pwidth : Nat) (ignore_excl : Bool) :
    Nat → Nat → mem_stat → Except Fault mem_stat
  | 0, _, _ => .error .fuel
  | k + 1, i, st =>
    match sig.value with
    | none => .error .null_deref
    | some v =>
      if i < to_unsigned v.width then
        let st1 : mem_stat :=
          if sig.excluded = 1 ∧ ignore_excl = false then
            { st with wr_hit := (st.wr_hit + 1) % 4294967296,
                      rd_hit := (st.rd_hit + 1) % 4294967296 }
          else
            let rw := M.vector_mem_rw_count v (int_of_unsigned i)
              (int_of_unsigned ((i + pwidth : Nat) - 1)) (0, 0)
            { st with
              wr_hit := if rw.1 > 0 then (st.wr_hit + 1) % 4294967296 else st.wr_hit,
              rd_hit := if rw.2 > 0 then (st.rd_hit + 1) % 4294967296 else st.rd_hit }
        memory_get_stat_elems M sig pwidth ignore_excl k ((i + pwidth) % 4294967296)
          { st1 with ae_total := (st1.ae_total + 1) % 4294967296 }
      else .ok st

/-- `memory_get_stat` (memory.c 52-108). -/
def memory_get_stat (M : MemOps) (fuel : Nat) (sig : vsignal) (st : mem_stat)
    (ignore_excl : Bool) : Except Fault mem_stat := do
  let pwidth ← memory_get_stat_pwidth sig fuel (sig.udim_num % 4294967296) 1
  let st ← memory_get_stat_elems M sig pwidth ignore_excl fuel 0 st
  match sig.value with
  | none => .error .null_deref
  | some v =>
    let w := to_unsigned v.width
    let st : mem_stat := { st with tog_total := (st.tog_total + w) % 4294967296 }
    if sig.excluded = 1 ∧ ignore_excl = false then
      pure { st with tog01_hit := (st.tog01_hit + w) % 4294967296,
                     tog10_hit := (st.tog10_hit + w) % 4294967296 }
    else
      let t := M.vector_toggle_count v (st.tog01_hit, st.tog10_hit)
      pure { st with tog01_hit := t.1 % 4294967296, tog10_hit := t.2 % 4294967296 }

/-- The loop of `memory_collect` over the signal list; `out` is the list
`*head .. *tail`. -/
def memory_collect_loop (M : MemOps) (fuel : Nat) (cov : Int) :
    List vsignal → mem_stat → List vsignal → Except Fault (List vsignal)
  | [], _, out => .ok out
  | sig :: rest, st, out =>
    if sig.suppl_type = M.SSUPPL_TYPE_MEM then do
      let st ← memory_get_stat M fuel sig { st with ae_total := 0 } true
      if (cov = 1 ∧ st.wr_hit > 0 ∧ st.rd_hit > 0 ∧ st.tog01_hit = st.tog_total ∧
            st.tog10_hit = st.tog_total) ∨
          (cov = 0 ∧ (st.wr_hit = 0 ∨ st.rd_hit = 0 ∨ st.tog01_hit < st.tog_total ∨
            st.tog10_hit < st.tog_total)) then
        memory_collect_loop M fuel cov rest st (M.sig_link_add sig out)
      else memory_collect_loop M fuel cov rest st out
    else memory_collect_loop M fuel cov rest st out

/-- `memory_collect` (memory.c 475-516); `out` is the list `*head .. *tail`
on entry, the result is that list on return. -/
def memory_collect (M : MemOps) (fuel : Nat) (funit : Option func_unit) (cov : Int)
    (out : List vsignal) : Except Fault (List vsignal) :=
  match funit with
  | none => .error .null_deref
  | some f => memory_collect_loop M fuel cov f.sigs ⟨0, 0, 0, 0, 0, 0⟩ out

/-- An instantiation of the absent functions for examples.  The number
`value` of a vector encodes its coverage: bit 0 says that every element was
written, bit 1 that every element was read, bit 2 that every bit toggled from 0
to 1, bit 3 that every bit toggled from 1 to 0. -/
def mem_ex : MemOps :=
  { SSUPPL_TYPE_MEM := 15,
    vector_mem_rw_count := fun v lsb msb c =>
      (c.1 + (if v.value % 2 = 1 then (msb - lsb + 1).toNat else 0),
       c.2 + (if v.value / 2 % 2 = 1 then (msb - lsb + 1).toNat else 0)),
    vector_toggle_count := fun v c =>
      (c.1 + (if v.value / 4 % 2 = 1 then v.width.toNat else 0),
       c.2 + (if v.value / 8 % 2 = 1 then v.width.toNat else 0)),
    sig_link_add := fun s l => l ++ [s] }

/-- A memory of four elements of eight bits, named `s`, with the coverage the
number `cv` encodes. -/
def mem_sig_ex (s : String) (cv : Nat) : vsignal :=
  { id := 0, name := s.toList, suppl_type := 15, udim_num := 1, pdim_num := 1,
    dim := [(3, 0), (7, 0)], value := some { width := 32, value := cv } }

/-- A functional unit with the given signals. -/
def funit_mem_ex (sigs : List vsignal) : func_unit :=
  { name := "m".toList, filename := none, sigs := sigs, exps := [] }

/-!
## Instance trees with their statistics

`funit_merge` is not part of the sources at hand.  The statements about the
statistics of merged trees assume of it what `MergesBy` says: the call
`funit_merge( a, b )` replaces the contents of `a` by a combination `op` of the
contents of `a` and of `b` and changes nothing else.  A `STree` is an instance
tree together with the contents of the functional units its nodes point to.
-/

/-- The call `fm F a b` replaces the contents of `a` by `op` of the contents
of `a` and of `b` and leaves every other functional unit alone. -/
def MergesBy (fm : FHeap → Nat → Nat → FHeap)
    (op : Option func_unit → Option func_unit → Option func_unit) : Prop :=
  ∀ (F : FHeap) (a b x : Nat), fm F a b x = if x = a then op (F a) (F b) else F x

/-- The calls of `funit_merge` that the loop of `instance_merge_tree` makes
when each child of the second root is looked up among the children `K` the
first root had on entry. -/
def callsOf (K : List ITree) : List ITree → List (Nat × Nat)
  | [] => []
  | c2 :: rest =>
    (match K.find? (fun c1 => decide (c1.name = c2.name)) with
      | some c1 => mergeCalls c2 c1
      | none => []) ++ callsOf K rest

/-- An instance tree together with the contents of the functional units of
its nodes. -/
inductive STree where
  | node (addr : Nat) (name : Str) (funit : Option (Nat × Option func_unit))
      (range : Option vector_width) (name_diff : Bool) (kids : List STree)

namespace STree

/-- Name of the root. -/
def name : STree → Str
  | node _ n _ _ _ _ => n

/-- Functional unit of the root: the pointer and the contents. -/
def funit : STree → Option (Nat × Option func_unit)
  | node _ _ f _ _ _ => f

/-- Children of the root, in list order. -/
def kids : STree → List STree
  | node _ _ _ _ _ ks => ks

end STree

mutual
/-- The instance tree `t` with the contents the functional-unit heap `F`
has for its nodes. -/
def snapshot (F : FHeap) : ITree → STree
  | .node a n f r d ks => .node a n (f.map (fun g => (g, F g))) r d (snapshotL F ks)
/-- The forest of the snapshots. -/
def snapshotL (F : FHeap) : List ITree → List STree
  | [] => []
  | k :: ks => snapshot F k :: snapshotL F ks
end

mutual
/-- The instance tree of a snapshot. -/
def forget : STree → ITree
  | .node a n f r d ks => .node a n (f.map Prod.fst) r d (forgetL ks)
/-- The instance trees of a forest of snapshots. -/
def forgetL : List STree → List ITree
  | [] => []
  | k :: ks => forget k :: forgetL ks
end

/-- The functional unit of a merged node: the first one that exists, with
the combined contents when both exist. -/
def combine (op : Option func_unit → Option func_unit → Option func_unit) :
    Option (Nat × Option func_unit) → Option (Nat × Option func_unit) →
    Option (Nat × Option func_unit)
  | none, p2 => p2
  | some p1, none => some p1
  | some p1, some p2 => some (p1.1, op p1.2 p2.2)

mutual
/-- The merge of two trees with statistics, in the shape of `merge_spec`: the
tree under the first root afterwards. -/
def mergeS (op : Option func_unit → Option func_unit → Option func_unit) : STree → STree → STree
  | .node a1 n1 f1 r1 d1 ks1, t2 =>
    .node a1 n1 (combine op f1 t2.funit) r1 d1
      (mergeS_kids op ks1 t2.kids ++
        t2.kids.filter (fun c2 => decide (c2.name ∉ ks1.map STree.name)))
/-- Each child of the first root, merged with its namesake under the second
root when there is one. -/
def mergeS_kids (op : Option func_unit → Option func_unit → Option func_unit) :
    List STree → List STree → List STree
  | [], _ => []
  | c1 :: ks1, ks2 =>
    (match ks2.find? (fun c2 => decide (c2.name = c1.name)) with
      | some c2 => mergeS op c1 c2
      | none => c1) :: mergeS_kids op ks1 ks2
end

/-- An example of statistics: the value of a signal, read as a set of bits,
with the width of the first vector. -/
def vec_or (v u : vector) : vector := { v with value := v.value ||| u.value }

/-- The values of two signals combined; a signal without a value has
none afterwards. -/
def sig_or (s t : vsignal) : vsignal :=
  { s with value := match s.value, t.value with
      | some v, some u => some (vec_or v u)
      | _, _ => none }

/-- The signals of two functional units combined position by position. -/
def funit_or (u v : func_unit) : func_unit := { u with sigs := List.zipWith sig_or u.sigs v.sigs }

/-- The combination of the contents of two functional units, for examples. -/
def stat_or : Option func_unit → Option func_unit → Option func_unit
  | some u, some v => some (funit_or u v)
  | _, _ => none

/-- A `funit_merge` that combines the contents by `stat_or`, for examples. -/
def funit_merge_or : FHeap → Nat → Nat → FHeap :=
  fun F a b x => if x = a then stat_or (F a) (F b) else F x

/-- A functional unit with one signal of eight bits and the given value. -/
def stat_funit_ex (v : Nat) : func_unit :=
  { name := "m".toList, filename := none,
    sigs := [{ id := 1, name := "s".toList, value := some { width := 8, value := v } }],
    exps := [] }

/-- Three trees `top(a)` at address 0, `top(a, b)` at address 2 and
`top(b(x))` at address 5; the instance at address `g` has the functional unit
`g`, whose signal has the bit `g` set. -/
def assoc_ex_world : World :=
  { inst := fun a => match a with
      | 0 => some ⟨"top".toList, some 0, none, false, none, some 1, some 1, none⟩
      | 1 => some ⟨"a".toList, some 1, none, false, some 0, none, none, none⟩
      | 2 => some ⟨"top".toList, some 2, none, false, none, some 3, some 4, none⟩
      | 3 => some ⟨"a".toList, some 3, none, false, some 2, none, none, some 4⟩
      | 4 => some ⟨"b".toList, some 4, none, false, some 2, none, none, none⟩
      | 5 => some ⟨"top".toList, some 5, none, false, none, some 6, some 6, none⟩
      | 6 => some ⟨"b".toList, some 6, none, false, some 5, some 7, some 7, none⟩
      | 7 => some ⟨"x".toList, some 7, none, false, some 6, none, none, none⟩
      | _ => none,
    funit := fun g => if g < 8 then some (stat_funit_ex (2 ^ g)) else none,
    brk := 8, inst_head := [0, 2, 5] }

/-- Node with the functional unit of its own address. -/
def unit_node (a : Nat) (s : String) (ks : List ITree) : ITree :=
  .node a s.toList (some a) none false ks

/-- The first tree of `assoc_ex_world`. -/
def assoc_ex_A : ITree := unit_node 0 "top" [unit_node 1 "a" []]

/-- The second tree of `assoc_ex_world`. -/
def assoc_ex_B : ITree := unit_node 2 "top" [unit_node 3 "a" [], unit_node 4 "b" []]

/-- The third tree of `assoc_ex_world`. -/
def assoc_ex_C : ITree := unit_node 5 "top" [unit_node 6 "b" [unit_node 7 "x" []]]

/-- Three trees `top()` at address 0, `top(a, a(x))` at address 1 and
`top(a(y))` at address 5: two children of the second root are both named `a`.
Every instance has a functional unit of its own, all with the same contents. -/
def assoc_dup_ex_world : World :=
  { inst := fun a => match a with
      | 0 => some ⟨"top".toList, some 0, none, false, none, none, none, none⟩
      | 1 => some ⟨"top".toList, some 1, none, false, none, some 2, some 3, none⟩
      | 2 => some ⟨"a".toList, some 2, none, false, some 1, none, none, some 3⟩
      | 3 => some ⟨"a".toList, some 3, none, false, some 1, some 4, some 4, none⟩
      | 4 => some ⟨"x".toList, some 4, none, false, some 3, none, none, none⟩
      | 5 => some ⟨"top".toList, some 5, none, false, none, some 6, some 6, none⟩
      | 6 => some ⟨"a".toList, some 6, none, false, some 5, some 7, some 7, none⟩
      | 7 => some ⟨"y".toList, some 7, none, false, some 6, none, none, none⟩
      | _ => none,
    funit := fun g => if g < 8 then some (stat_funit_ex 1) else none,
    brk := 8, inst_head := [0, 1, 5] }

/-- The first tree of `assoc_dup_ex_world`. -/
def assoc_dup_ex_A : ITree := unit_node 0 "top" []

/-- The second tree of `assoc_dup_ex_world`. -/
def assoc_dup_ex_B : ITree :=
  unit_node 1 "top" [unit_node 2 "a" [], unit_node 3 "a" [unit_node 4 "x" []]]

/-- The third tree of `assoc_dup_ex_world`. -/
def assoc_dup_ex_C : ITree := unit_node 5 "top" [unit_node 6 "a" [unit_node 7 "y" []]]

/-- The state after `instance_merge_tree( a, b )` and then
`instance_merge_tree( c, d )`, when both calls return. -/
def merge_twice (fm : FHeap → Nat → Nat → FHeap) (fuel : Nat) (w : World) (a b c d : Nat) :
    Except Fault World := do
  let w ← instance_merge_tree fm fuel w (some a) (some b)
  instance_merge_tree fm fuel w (some c) (some d)

/-! ## The list of FSM variables (`fsm.c`) -/

/-- `fsm_var` of `defines.h`, with the fields `fsm.c` sets when it creates
one. -/
structure fsm_var where
  mod : Str
  ivar : Str
  ovar : Str
  isig : Option Nat
  table : Option Nat
  next : Option Nat
deriving DecidableEq, Repr

/-- The heap of FSM variables with the globals `fsm_var_head` and
`fsm_var_tail`; `brk` is the next address `malloc_safe` hands out.  A freed
address holds nothing. -/
structure FvState where
  heap : Nat → Option fsm_var
  fsm_var_head : Option Nat
  fsm_var_tail : Option Nat
  brk : Nat

namespace FvState

/-- Read through a pointer to an FSM variable. -/
def load (s : FvState) (p : Option Nat) : Except Fault fsm_var :=
  match p with
  | none => .error .null_deref
  | some a =>
    match s.heap a with
    | none => .error .null_deref
    | some v => .ok v

/-- Write through a pointer to an FSM variable. -/
def modify (s : FvState) (p : Option Nat) (f : fsm_var → fsm_var) : Except Fault FvState :=
  match p with
  | none => .error .null_deref
  | some a =>
    match s.heap a with
    | none => .error .null_deref
    | some v => .ok { s with heap := fun x => if x = a then some (f v) else s.heap x }

end FvState

/-- `fsm_add_fsm_variable` (fsm.c 85-104). -/
def fsm_add_fsm_variable (s : FvState) (mod var1 var2 : Str) : Except Fault FvState :=
  let new_var := s.brk
  let s : FvState :=
    { s with
      heap := fun x => if x = new_var then some ⟨mod, var1, var2, none, none, none⟩ else s.heap x,
      brk := s.brk + 1 }
  if s.fsm_var_head = none then
    .ok { s with fsm_var_head := some new_var, fsm_var_tail := some new_var }
  else do
    let s ← s.modify s.fsm_var_tail (fun v => { v with next := some new_var })
    pure { s with fsm_var_tail := some new_var }

/-- The loop `while( (curr != NULL) && ((strcmp( mod, curr->mod ) != 0) ||
(strcmp( var, curr->ivar ) != 0)) ) curr = curr->next;` of
`fsm_is_fsm_in_variable`. -/
def fsm_is_fsm_in_variable_loop (s : FvState) (mod var : Str) :
    Nat → Option Nat → Except Fault (Option Nat)
  | 0, _ => .error .fuel
  | _ + 1, none => .ok none
  | k + 1, some c => do
    let v ← s.load (some c)
    if v.mod ≠ mod ∨ v.ivar ≠ var then fsm_is_fsm_in_variable_loop s mod var k v.next
    else pure (some c)

/-- `fsm_is_fsm_in_variable` (fsm.c 118-129). -/
def fsm_is_fsm_in_variable (fuel : Nat) (s : FvState) (mod var : Str) :
    Except Fault (Option Nat) :=
  fsm_is_fsm_in_variable_loop s mod var fuel s.fsm_var_head

/-- The search loop of `fsm_var_remove`,
`while( (curr != NULL) && (curr != fv) ) { last = curr; curr = curr->next; }`;
the result is `curr` and `last`. -/
def fsm_var_remove_search (s : FvState) (fv : Option Nat) :
    Nat → Option Nat → Option Nat → Except Fault (Option Nat × Option Nat)
  | 0, _, _ => .error .fuel
  | _ + 1, none, last => .ok (none, last)
  | k + 1, some c, last =>
    if some c ≠ fv then do
      let v ← s.load (some c)
      fsm_var_remove_search s fv k v.next (some c)
    else pure (some c, last)

/-- `fsm_var_remove` (fsm.c 156-190); `free_safe` empties the address. -/
def fsm_var_remove (fuel : Nat) (s : FvState) (fv : Option Nat) : Except Fault FvState := do
  let (curr, last) ← fsm_var_remove_search s fv fuel s.fsm_var_head none
  match curr with
  | none => pure s
  | some c => do
    let s ← (if curr = s.fsm_var_head ∧ curr = s.fsm_var_tail then
        pure { s with fsm_var_head := none, fsm_var_tail := none }
      else if curr = s.fsm_var_head then do
        let v ← s.load curr
        pure { s with fsm_var_head := v.next }
      else if curr = s.fsm_var_tail then
        pure { s with fsm_var_tail := last }
      else do
        let v ← s.load curr
        s.modify last (fun l => { l with next := v.next }))
    pure { s with heap := fun x => if x = c then none else s.heap x }

/-- The entries reachable from `p` by following `next`, when the chain ends
in `NULL` within `fuel` steps and every entry on it is allocated. -/
def fsm_var_list (s : FvState) : Nat → Option Nat → Option (List Nat)
  | 0, _ => none
  | _ + 1, none => some []
  | k + 1, some a =>
    match s.heap a with
    | none => none
    | some v => (fsm_var_list s k v.next).map (fun l => a :: l)

/-- The empty list of FSM variables. -/
def fv_empty : FvState := { heap := fun _ => none, fsm_var_head := none, fsm_var_tail := none, brk := 0 }

/-- The list after `fsm_add_fsm_variable` for the modules `m0`, `m1` and
`m2`: the entries 0, 1, 2. -/
def fv_ex : FvState :=
  match (do
    let s ← fsm_add_fsm_variable fv_empty "m0".toList "st".toList "nst".toList
    let s ← fsm_add_fsm_variable s "m1".toList "st".toList "nst".toList
    fsm_add_fsm_variable s "m2".toList "st".toList "nst".toList) with
  | .ok s => s
  | .error _ => fv_empty

/-- What is seen of a state: the list from the head, head, tail, and the
`next` pointer of the tail. -/
def fv_view (s : FvState) : Option (List Nat) × Option Nat × Option Nat × Option (Option Nat) :=
  (fsm_var_list s 10 s.fsm_var_head, s.fsm_var_head, s.fsm_var_tail,
    (s.fsm_var_tail.bind s.heap).map (fun v => v.next))

/-! ## Attaching a copy of a tree, and merging instance-only records -/

/-- `instance_attach_child` (instance.c 640-673); `rr` is
`instance_resolve_inst`, which `instance_copy` hands on.  The search loop reads
`child->name` only when the parent has a child. -/
def instance_attach_child (rr : World → Option Nat → Option Nat → Except Fault (World × Bool))
    (fuel : Nat) (w : World) (parent child : Option Nat) : Except Fault World := do
  let p ← w.load parent
  let curr_inst ← (match p.child_head with
    | none => pure none
    | some h => do
      let c ← w.load child
      find_child_by_name fuel w (some h) c.name)
  if curr_inst = none then do
    let c ← w.load child
    let w ← instance_copy rr fuel w child curr_inst c.name c.range false
    let w ← child_list_append w parent curr_inst
    w.modify curr_inst (fun n => { n with parent := parent })
  else pure w

/-- `instance_only_db_merge` (instance.c 1307-1366); the list of root
instances is `inst_head`.  The result is the state and `*line`; a failure comes
with the state it leaves behind. -/
def instance_only_db_merge (L : InstLinkOps) (w : World) (line : Str) :
    Except (Fault × World) (World × Str) :=
  match sscanf_s_d_n line with
  | some (scope, name_diff, chars_read) =>
    let line := line.drop chars_read
    let rest := (scope_extract_back scope).2
    let c := instance_create w none (scope_extract_back scope).1 (decide (name_diff ≠ 0)) none
    if rest = [] then
      match L.inst_link_find_by_scope c.1 scope c.1.inst_head with
      | .error e => .error (e, c.1)
      | .ok none =>
        match c.2 with
        | some child => .ok ({ c.1 with inst_head := L.inst_link_add child c.1.inst_head }, line)
        | none => .error (.null_deref, c.1)
      | .ok (some _) => .ok (c.1, line)
    else
      match L.inst_link_find_by_scope c.1 rest c.1.inst_head with
      | .error e => .error (e, c.1)
      | .ok (some parent) =>
        match attach_child c.1 (some parent) c.2 with
        | .ok w => .ok (w, line)
        | .error e => .error (e, c.1)
      | .ok none => .error (.thrown, c.1)
  | none => .error (.thrown, w)

/-- The names of the children of the instance at `a`, read off the heap. -/
def child_names (w : World) (a : Nat) : Option (List Str) :=
  (child_list 20 w.inst ((w.inst a).bind (fun n => n.child_head))).map
    (fun l => l.filterMap (fun c => (w.inst c).map (fun n => n.name)))

mutual
/-- The two trees have the same instance names in the same order at every
level. -/
def sameNames : ITree → ITree → Bool
  | .node _ n1 _ _ _ ks1, .node _ n2 _ _ _ ks2 => decide (n1 = n2) && sameNamesL ks1 ks2
/-- The two forests have the same instance names in the same order at every
level. -/
def sameNamesL : List ITree → List ITree → Bool
  | [], [] => true
  | k1 :: ks1, k2 :: ks2 => sameNames k1 k2 && sameNamesL ks1 ks2
  | [], _ :: _ => false
  | _ :: _, [] => false
end

mutual
/-- The hierarchy of a tree: the tree without its functional-unit
pointers. -/
def hierarchy : ITree → ITree
  | .node a n _ r d ks => .node a n none r d (hierarchyL ks)
/-- The hierarchies of a forest. -/
def hierarchyL : List ITree → List ITree
  | [] => []
  | k :: ks => hierarchy k :: hierarchyL ks
end

/-- The tree `r(A(g1, g2))` at the addresses 0, 1, 2, 3: the functional unit
of `A` is an unnamed scope without signals, those of the other instances are
named. -/
def flatten_tail_ex_world : World :=
  { inst := fun a => match a with
      | 0 => some ⟨"r".toList, some 0, none, false, none, some 1, some 1, none⟩
      | 1 => some ⟨"$u1".toList, some 1, none, false, some 0, some 2, some 3, none⟩
      | 2 => some ⟨"g1".toList, some 2, none, false, some 1, none, none, some 3⟩
      | 3 => some ⟨"g2".toList, some 2, none, false, some 1, none, none, none⟩
      | _ => none,
    funit := fun f => match f with
      | 0 => some (funit_ex "m")
      | 1 => some (funit_ex "$u1")
      | 2 => some (funit_ex "leaf")
      | _ => none,
    brk := 4, inst_head := [0] }

/-- The tree of `flatten_tail_ex_world`. -/
def flatten_tail_ex_tree : ITree :=
  .node 0 "r".toList (some 0) none false
    [.node 1 "$u1".toList (some 1) none false
      [.node 2 "g1".toList (some 2) none false [], .node 3 "g2".toList (some 2) none false []]]

/-- Two trees of the same shape, `r(a(x), a(y))` at the addresses 0, 1, 2, 3,
4 and 5, 6, 7, 8, 9: two children of each root are named `a`. -/
def same_dup_ex_world : World :=
  { inst := fun a => match a with
      | 0 => some ⟨"r".toList, none, none, false, none, some 1, some 3, none⟩
      | 1 => some ⟨"a".toList, none, none, false, some 0, some 2, some 2, some 3⟩
      | 2 => some ⟨"x".toList, none, none, false, some 1, none, none, none⟩
      | 3 => some ⟨"a".toList, none, none, false, some 0, some 4, some 4, none⟩
      | 4 => some ⟨"y".toList, none, none, false, some 3, none, none, none⟩
      | 5 => some ⟨"r".toList, none, none, false, none, some 6, some 8, none⟩
      | 6 => some ⟨"a".toList, none, none, false, some 5, some 7, some 7, some 8⟩
      | 7 => some ⟨"x".toList, none, none, false, some 6, none, none, none⟩
      | 8 => some ⟨"a".toList, none, none, false, some 5, some 9, some 9, none⟩
      | 9 => some ⟨"y".toList, none, none, false, some 8, none, none, none⟩
      | _ => none,
    funit := fun _ => none, brk := 10, inst_head := [0, 5] }

/-- The first tree of `same_dup_ex_world`. -/
def same_dup_ex_t1 : ITree :=
  plain 0 "r" [plain 1 "a" [plain 2 "x" []], plain 3 "a" [plain 4 "y" []]]

/-- The second tree of `same_dup_ex_world`. -/
def same_dup_ex_t2 : ITree :=
  plain 5 "r" [plain 6 "a" [plain 7 "x" []], plain 8 "a" [plain 9 "y" []]]

/-- Two trees of the same shape, `top(a(x), b)` at the addresses 0, 1, 2, 3
and 4, 5, 6, 7; the instances of the second tree have functional units, the
root and `b` of the first are placeholders. -/
def same_ex_world : World :=
  { inst := fun a => match a with
      | 0 => some ⟨"top".toList, none, none, false, none, some 1, some 3, none⟩
      | 1 => some ⟨"a".toList, some 1, none, false, some 0, some 2, some 2, some 3⟩
      | 2 => some ⟨"x".toList, some 2, none, false, some 1, none, none, none⟩
      | 3 => some ⟨"b".toList, none, none, false, some 0, none, none, none⟩
      | 4 => some ⟨"top".toList, some 4, none, false, none, some 5, some 7, none⟩
      | 5 => some ⟨"a".toList, some 5, none, false, some 4, some 6, some 6, some 7⟩
      | 6 => some ⟨"x".toList, some 6, none, false, some 5, none, none, none⟩
      | 7 => some ⟨"b".toList, some 7, none, false, some 4, none, none, none⟩
      | _ => none,
    funit := fun g => if g < 8 then some (stat_funit_ex (2 ^ g)) else none,
    brk := 8, inst_head := [0, 4] }

/-- The first tree of `same_ex_world`. -/
def same_ex_t1 : ITree :=
  plain 0 "top" [.node 1 "a".toList (some 1) none false [unit_node 2 "x" []], plain 3 "b" []]

/-- The second tree of `same_ex_world`. -/
def same_ex_t2 : ITree :=
  unit_node 4 "top" [unit_node 5 "a" [unit_node 6 "x" []], unit_node 7 "b" []]

/-- Two trees: a placeholder root `tb` without children at address 0 and the
populated instance `top` at address 1. -/
def lone_placeholder_ex_world : World :=
  { inst := fun a => match a with
      | 0 => some ⟨"tb".toList, none, none, false, none, none, none, none⟩
      | 1 => some ⟨"top".toList, some 0, none, false, none, none, none, none⟩
      | _ => none,
    funit := fun f => match f with
      | 0 => some (funit_ex "m")
      | _ => none,
    brk := 2, inst_head := [0, 1] }

/-- Every counter is within the range of an `unsigned int`. -/
def mem_stat.in_range (st : mem_stat) : Prop :=
  st.ae_total < 4294967296 ∧ st.wr_hit < 4294967296 ∧ st.rd_hit < 4294967296 ∧
  st.tog_total < 4294967296 ∧ st.tog01_hit < 4294967296 ∧ st.tog10_hit < 4294967296

instance (st : mem_stat) : Decidable st.in_range := by
  unfold mem_stat.in_range; infer_instance

/-- An excluded memory of four elements of eight bits that was never
written, read or toggled. -/
def mem_sig_excl_ex : vsignal := { mem_sig_ex "e" 0 with excluded := 1 }

/-- Three trees `top(a)` at address 0, `top(a, b)` at address 2 and
`top(a, b)` at address 5, with pairwise distinct sibling names.  The two
children of the second root are instances of one functional unit, number 3;
every other instance has the functional unit of its own address, and the signal
of the functional unit `g` has the bit `g` set. -/
def assoc_share_ex_world : World :=
  { inst := fun a => match a with
      | 0 => some ⟨"top".toList, some 0, none, false, none, some 1, some 1, none⟩
      | 1 => some ⟨"a".toList, some 1, none, false, some 0, none, none, none⟩
      | 2 => some ⟨"top".toList, some 2, none, false, none, some 3, some 4, none⟩
      | 3 => some ⟨"a".toList, some 3, none, false, some 2, none, none, some 4⟩
      | 4 => some ⟨"b".toList, some 3, none, false, some 2, none, none, none⟩
      | 5 => some ⟨"top".toList, some 5, none, false, none, some 6, some 7, none⟩
      | 6 => some ⟨"a".toList, some 6, none, false, some 5, none, none, some 7⟩
      | 7 => some ⟨"b".toList, some 7, none, false, some 5, none, none, none⟩
      | _ => none,
    funit := fun g => if g < 8 then some (stat_funit_ex (2 ^ g)) else none,
    brk := 8, inst_head := [0, 2, 5] }

/-- The first tree of `assoc_share_ex_world`. -/
def assoc_share_ex_A : ITree := unit_node 0 "top" [unit_node 1 "a" []]

/-- The second tree of `assoc_share_ex_world`. -/
def assoc_share_ex_B : ITree :=
  unit_node 2 "top" [unit_node 3 "a" [], .node 4 "b".toList (some 3) none false []]

/-- The third tree of `assoc_share_ex_world`. -/
def assoc_share_ex_C : ITree := unit_node 5 "top" [unit_node 6 "a" [], unit_node 7 "b" []]

/-- The values of the signals of a functional unit of the heap. -/
def sig_values (F : FHeap) (g : Nat) : Option (List (Option Nat)) :=
  (F g).map (fun u => u.sigs.map (fun s => s.value.map (fun v => v.value)))

/-- The width of the smallest addressable element of a memory, as the first
loop of `memory_get_stat` computes it when it runs over the entries
`udim_num`, ..., `udim_num + pdim_num - 1` of `dim`: the product of the widths
of the packed dimensions, as an `unsigned int`. -/
def packed_width (sig : vsignal) : Nat :=
  ((sig.dim.drop sig.udim_num).take sig.pdim_num).foldl
    (fun p d => if d.1 > d.2 then (p * to_unsigned ((d.1 - d.2) + 1)) % 4294967296
      else (p * to_unsigned ((d.2 - d.1) + 1)) % 4294967296) 1

/-- Two trees: `r(x, y)` at address 0, whose root `r` is a placeholder
without functional unit, `x` an instance of a functional unit named `m2` and
`y` one of a functional unit named `m1`; and the one-node tree `a` at address
3, an instance of a functional unit named `m1`. -/
def placeholder_root_ex_world : World :=
  { inst := fun a => match a with
      | 0 => some ⟨"r".toList, none, none, false, none, some 1, some 2, none⟩
      | 1 => some ⟨"x".toList, some 0, none, false, some 0, none, none, some 2⟩
      | 2 => some ⟨"y".toList, some 1, none, false, some 0, none, none, none⟩
      | 3 => some ⟨"a".toList, some 2, none, false, none, none, none, none⟩
      | _ => none,
    funit := fun f => match f with
      | 0 => some (funit_ex "m2")
      | 1 => some (funit_ex "m1")
      | 2 => some (funit_ex "m1")
      | _ => none,
    brk := 4, inst_head := [0, 3] }

/-- The first tree of `placeholder_root_ex_world`. -/
def placeholder_root_ex_t1 : ITree :=
  plain 0 "r" [.node 1 "x".toList (some 0) none false [],
    .node 2 "y".toList (some 1) none false []]

/-- The second tree of `placeholder_root_ex_world`. -/
def placeholder_root_ex_t2 : ITree := .node 3 "a".toList (some 2) none false []

/-!
## Trees in which an array of instances is resolved
-/

/-- The states array resolution runs in: the heap represents the tree `T`
as a root of its own, all addresses of `T` are distinct, and nothing is
allocated from `brk` on. -/
def TreeOK (w : World) (T : ITree) : Prop :=
  Sat w.inst (cells T none none) ∧ T.addrs.Nodup ∧ ∀ x, w.brk ≤ x → w.inst x = none

/-- What the copies of array resolution rely on, for the instances of the
functional unit `gc` at the address `s0` or at an address from `brk0` on:
below such an instance there is no instance with a range, it holds none of the
addresses `tops`, and its tree has at most `B` nodes.  The first instance of
`gc` that the search of the tree reaches is at such an address. -/
def CopyInv (gc : Nat) (tops : List Nat) (B s0 brk0 : Nat) (T : ITree) : Prop :=
  (∀ Q ∈ nodesOf T, Q.funit = some gc → (Q.addr = s0 ∨ brk0 ≤ Q.addr) →
    (∀ d ∈ nodesOfL Q.kids, d.range = none) ∧ (∀ a ∈ tops, a ∉ Q.addrs) ∧ Q.size ≤ B) ∧
  ∀ a ∈ (topInstances (some gc) T).head?, a = s0 ∨ brk0 ≤ a

/-- The invariant of the loops of array resolution: the heap represents the
tree `T` with the root address `root`; the instances of the functional unit
`gp` that the search reaches are `tops`; when the functional unit `gc` has been
parsed (`P`), `CopyInv` holds; in the mode `M`, in which the tree of the
instance `S` of `gc` is copied, `S` is a node of `T` at the address `s0` or at
an address from `brk0` on; and every node of the tree `T0` the loops started
from whose address is not in `tops` has a node of `T` at its address, with
children at the same addresses. -/
structure LoopInv (gp gc : Nat) (P M : Prop) (tops : List Nat) (B s0 brk0 root : Nat)
    (S T0 : ITree) (w : World) (T : ITree) : Prop where
  ok : TreeOK w T
  addr : T.addr = root
  tops_eq : topInstances (some gp) T = tops
  inv : P → CopyInv gc tops B s0 brk0 T
  src : M → P ∧ S ∈ nodesOf T ∧ S.funit = some gc ∧ (S.addr = s0 ∨ brk0 ≤ S.addr)
  corr : ∀ Q ∈ nodesOf T0, Q.addr ∉ tops → ∃ Q' ∈ nodesOf T, Q'.addr = Q.addr ∧
    Q'.kids.map ITree.addr = Q.kids.map ITree.addr

/-- The first instance of the functional unit `gc` that the search of the
tree reaches, the one `instance_parse_add` copies, can be copied below the
instances of `gp`: below it there is no instance with a range, and none of the
instances of `gp` that the search of the tree reaches lies in it. -/
def copyable (gp gc : Nat) (T : ITree) : Prop :=
  ∀ S ∈ nodesOf T, (topInstances (some gc) T).head? = some S.addr →
    (∀ d ∈ nodesOfL S.kids, d.range = none) ∧ ∀ a ∈ topInstances (some gp) T, a ∉ S.addrs

instance (gp gc : Nat) (T : ITree) : Decidable (copyable gp gc T) := by
  unfold copyable; infer_instance

/-- The tree `top(a(u(k)), b(v(m)))` in which `a` and `b` are instances of
one functional unit, `u` and `v` are instances of another, `u` is an array of
instances `u[4:2]` with a child `k`, and the child `m` of `v` carries the range
`[1:0]`. -/
def array_copy_ex_world : World :=
  { inst := fun a => match a with
      | 0 => some ⟨"top".toList, some 0, none, false, none, some 1, some 2, none⟩
      | 1 => some ⟨"a".toList, some 1, none, false, some 0, some 3, some 3, some 2⟩
      | 2 => some ⟨"b".toList, some 1, none, false, some 0, some 5, some 5, none⟩
      | 3 => some ⟨"u".toList, some 2, some (range_ex 4 2), false, some 1, some 4, some 4, none⟩
      | 4 => some ⟨"k".toList, some 3, none, false, some 3, none, none, none⟩
      | 5 => some ⟨"v".toList, some 2, none, false, some 2, some 6, some 6, none⟩
      | 6 => some ⟨"m".toList, some 3, some (range_ex 1 0), false, some 5, none, none, none⟩
      | _ => none,
    funit := fun f => match f with
      | 0 => some (funit_parsed_ex "top_mod")
      | 1 => some (funit_parsed_ex "amod")
      | 2 => some (funit_parsed_ex "m")
      | 3 => some (funit_parsed_ex "kmod")
      | _ => none,
    brk := 7, inst_head := [0] }

/-- The array instance `u` of `array_copy_ex_world` with its child `k`. -/
def array_copy_ex_u : ITree :=
  .node 3 "u".toList (some 2) (some (range_ex 4 2)) false
    [.node 4 "k".toList (some 3) none false []]

/-- The instance `b` of `array_copy_ex_world` with its subtree. -/
def array_copy_ex_b : ITree :=
  .node 2 "b".toList (some 1) none false
    [.node 5 "v".toList (some 2) none false
      [.node 6 "m".toList (some 3) (some (range_ex 1 0)) false []]]

/-- The surroundings of `a` in `array_copy_ex_world`. -/
def array_copy_ex_ctx : List Frame :=
  [⟨0, "top".toList, some 0, none, false, [], [array_copy_ex_b]⟩]

/-- The tree `top(p(u))` in which `top` and `p` are instances of one
functional unit and `u` is an array of instances `u[4:2]`. -/
def array_nested_ex_world : World :=
  { inst := fun a => match a with
      | 0 => some ⟨"top".toList, some 1, none, false, none, some 1, some 1, none⟩
      | 1 => some ⟨"p".toList, some 1, none, false, some 0, some 2, some 2, none⟩
      | 2 => some ⟨"u".toList, some 2, some (range_ex 4 2), false, some 1, none, none, none⟩
      | _ => none,
    funit := fun f => match f with
      | 1 => some (funit_parsed_ex "pmod")
      | 2 => some (funit_parsed_ex "m")
      | _ => none,
    brk := 3, inst_head := [0] }

/-- The tree `top(u, u[3])` in which `u` is an array of instances `u[4:2]` and
its sibling, an instance of another functional unit, is named `u[3]` and
carries the range `[1:0]`. -/
def array_sibling_ex_world : World :=
  { inst := fun a => match a with
      | 0 => some ⟨"top".toList, some 1, none, false, none, some 1, some 2, none⟩
      | 1 => some ⟨"u".toList, some 2, some (range_ex 4 2), false, some 0, none, none, some 2⟩
      | 2 => some ⟨"u[3]".toList, some 3, some (range_ex 1 0), false, some 0, none, none, none⟩
      | _ => none,
    funit := fun f => match f with
      | 1 => some (funit_parsed_ex "top_mod")
      | 2 => some (funit_parsed_ex "m")
      | 3 => some (funit_parsed_ex "other")
      | _ => none,
    brk := 3, inst_head := [0] }

/-- The tree `top(a(u(k)))` in which `u` is an array of instances `u[4:2]`
and its child `k` carries the range `[l:r]`. -/
def array_below_ex_world (l r : Int) : World :=
  { inst := fun a => match a with
      | 0 => some ⟨"top".toList, some 0, none, false, none, some 1, some 1, none⟩
      | 1 => some ⟨"a".toList, some 1, none, false, some 0, some 2, some 2, none⟩
      | 2 => some ⟨"u".toList, some 2, some (range_ex 4 2), false, some 1, some 3, some 3, none⟩
      | 3 => some ⟨"k".toList, some 3, some (range_ex l r), false, some 2, none, none, none⟩
      | _ => none,
    funit := fun f => match f with
      | 0 => some (funit_parsed_ex "top_mod")
      | 1 => some (funit_parsed_ex "amod")
      | 2 => some (funit_parsed_ex "m")
      | 3 => some (funit_parsed_ex "kmod")
      | _ => none,
    brk := 4, inst_head := [0] }

/-- The tree of `array_below_ex_world`. -/
def array_below_ex_tree (l r : Int) : ITree :=
  .node 0 "top".toList (some 0) none false
    [.node 1 "a".toList (some 1) none false
      [.node 2 "u".toList (some 2) (some (range_ex 4 2)) false
        [.node 3 "k".toList (some 3) (some (range_ex l r)) false []]]]

/-- The tree `top(c(r), p(u))` in which `c` and the array `u[4:2]` are
instances of one functional unit, and `r` and `p` of another. -/
def array_loop_ex_world : World :=
  { inst := fun a => match a with
      | 0 => some ⟨"top".toList, some 0, none, false, none, some 1, some 3, none⟩
      | 1 => some ⟨"c".toList, some 2, none, false, some 0, some 2, some 2, some 3⟩
      | 2 => some ⟨"r".toList, some 1, none, false, some 1, none, none, none⟩
      | 3 => some ⟨"p".toList, some 1, none, false, some 0, some 4, some 4, none⟩
      | 4 => some ⟨"u".toList, some 2, some (range_ex 4 2), false, some 3, none, none, none⟩
      | _ => none,
    funit := fun f => match f with
      | 0 => some (funit_parsed_ex "top_mod")
      | 1 => some (funit_parsed_ex "pmod")
      | 2 => some (funit_parsed_ex "m")
      | _ => none,
    brk := 5, inst_head := [0] }

/-- The tree of `array_loop_ex_world`. -/
def array_loop_ex_tree : ITree :=
  .node 0 "top".toList (some 0) none false
    [.node 1 "c".toList (some 2) none false [.node 2 "r".toList (some 1) none false []],
     .node 3 "p".toList (some 1) none false
      [.node 4 "u".toList (some 2) (some (range_ex 4 2)) false []]]

/-- The tree of `array_loop_ex_world` after the array `u` has been renamed. -/
def array_loop_ex_tree2 : ITree :=
  .node 0 "top".toList (some 0) none false
    [.node 1 "c".toList (some 2) none false [.node 2 "r".toList (some 1) none false []],
     .node 3 "p".toList (some 1) none false
      [.node 4 "u[2]".toList (some 2) none false []]]

/-- The tree `top(u)` with an array `u[4:2]` that has no functional unit. -/
def array_nofunit_ex_world : World :=
  { inst := fun a => match a with
      | 0 => some ⟨"top".toList, some 0, none, false, none, some 1, some 1, none⟩
      | 1 => some ⟨"u".toList, none, some (range_ex 4 2), false, some 0, none, none, none⟩
      | _ => none,
    funit := fun f => match f with
      | 0 => some (funit_parsed_ex "top_mod")
      | _ => none,
    brk := 2, inst_head := [0] }

/-- Externals whose `static_expr_calc_lsb_and_width_post` reports the width 2
and the least index 2147483647 for every range. -/
def ext_wrap_ex : Externals :=
  { ext_ex with static_expr_calc_lsb_and_width_post := fun _ => (2, 2147483647) }

/-- The names of the instances at the addresses below `n`. -/
def names_upto (w : World) (n : Nat) : List Str :=
  (List.range n).filterMap (fun a => (w.inst a).map (fun c => c.name))

/-- Whether the instances at the addresses below `n` carry a range. -/
def ranges_upto (w : World) (n : Nat) : List Bool :=
  (List.range n).filterMap (fun a => (w.inst a).map (fun c => c.range.isSome))

/-- The child lists of the instances at the addresses below `n`. -/
def child_lists_upto (w : World) (n : Nat) : List (Option (List Nat)) :=
  (List.range n).map (fun a => (w.inst a).bind (fun c => child_list 20 w.inst c.child_head))

/-- The tree of `array_copy_ex_world`. -/
def array_copy_ex_tree : ITree :=
  .node 0 "top".toList (some 0) none false
    [.node 1 "a".toList (some 1) none false [array_copy_ex_u], array_copy_ex_b]

/-- The tree of `array_nested_ex_world`. -/
def array_nested_ex_tree : ITree :=
  .node 0 "top".toList (some 1) none false
    [.node 1 "p".toList (some 1) none false
      [.node 2 "u".toList (some 2) (some (range_ex 4 2)) false []]]

/-- The tree of `array_sibling_ex_world`. -/
def array_sibling_ex_tree : ITree :=
  .node 0 "top".toList (some 1) none false
    [.node 1 "u".toList (some 2) (some (range_ex 4 2)) false [],
     .node 2 "u[3]".toList (some 3) (some (range_ex 1 0)) false []]

/-! # Theorems -/

/-! ## Basic facts about trees and their cells -/

@[simp] theorem ITree.addr_node (a : Nat) (n : Str) (f : Option Nat) (r : Option vector_width)
    (d : Bool) (ks : List ITree) : (ITree.node a n f r d ks).addr = a := rfl

@[simp] theorem ITree.name_node (a : Nat) (n : Str) (f : Option Nat) (r : Option vector_width)
    (d : Bool) (ks : List ITree) : (ITree.node a n f r d ks).name = n := rfl

@[simp] theorem ITree.funit_node (a : Nat) (n : Str) (f : Option Nat) (r : Option vector_width)
    (d : Bool) (ks : List ITree) : (ITree.node a n f r d ks).funit = f := rfl

@[simp] theorem ITree.range_node (a : Nat) (n : Str) (f : Option Nat) (r : Option vector_width)
    (d : Bool) (ks : List ITree) : (ITree.node a n f r d ks).range = r := rfl

@[simp] theorem ITree.name_diff_node (a : Nat) (n : Str) (f : Option Nat)
    (r : Option vector_width) (d : Bool) (ks : List ITree) :
    (ITree.node a n f r d ks).name_diff = d := rfl

@[simp] theorem ITree.kids_node (a : Nat) (n : Str) (f : Option Nat) (r : Option vector_width)
    (d : Bool) (ks : List ITree) : (ITree.node a n f r d ks).kids = ks := rfl

theorem ITree.eta (t : ITree) :
    ITree.node t.addr t.name t.funit t.range t.name_diff t.kids = t := by
  cases t; rfl

theorem ITree.addrs_eq (t : ITree) : t.addrs = t.addr :: ITree.addrsL t.kids := by
  cases t; simp [ITree.addrs, ITree.addr, ITree.kids]

theorem ITree.size_eq (t : ITree) : t.size = 1 + ITree.sizeL t.kids := by
  cases t; simp [ITree.size, ITree.kids]

theorem ITree.size_pos (t : ITree) : 0 < t.size := by
  rw [ITree.size_eq]; omega

theorem ITree.addrsL_append (K S : List ITree) :
    ITree.addrsL (K ++ S) = ITree.addrsL K ++ ITree.addrsL S := by
  induction K with
  | nil => simp [ITree.addrsL]
  | cons k K ih => simp [ITree.addrsL, ih]

theorem ITree.sizeL_append (K S : List ITree) :
    ITree.sizeL (K ++ S) = ITree.sizeL K + ITree.sizeL S := by
  induction K with
  | nil => simp [ITree.sizeL]
  | cons k K ih => simp [ITree.sizeL, ih]; omega

theorem ITree.length_le_sizeL (K : List ITree) : K.length ≤ ITree.sizeL K := by
  induction K with
  | nil => simp
  | cons k K ih => have := k.size_pos; simp [ITree.sizeL]; omega

theorem ITree.addr_mem_addrs (t : ITree) : t.addr ∈ t.addrs := by
  rw [ITree.addrs_eq]; simp

theorem ITree.addrs_subset_addrsL {k : ITree} {K : List ITree} (hk : k ∈ K) :
    ∀ x ∈ k.addrs, x ∈ ITree.addrsL K := by
  induction K with
  | nil => simp at hk
  | cons k' K ih =>
    intro x hx
    simp only [ITree.addrsL, List.mem_append]
    rcases List.mem_cons.1 hk with rfl | hk
    · exact Or.inl hx
    · exact Or.inr (ih hk x hx)

theorem cells_eq (t : ITree) (p nx : Option Nat) :
    cells t p nx = (t.addr, rootCell t p nx) :: cellsL t.kids (some t.addr) none := by
  cases t; simp [cells, ITree.addr, ITree.kids]

mutual
theorem map_fst_cells : ∀ (t : ITree) (p nx : Option Nat), (cells t p nx).map Prod.fst = t.addrs
  | .node a nm fu rg nd ks, p, nx => by
    simp [cells, ITree.addrs, map_fst_cellsL ks]
theorem map_fst_cellsL : ∀ (ks : List ITree) (p e : Option Nat),
    (cellsL ks p e).map Prod.fst = ITree.addrsL ks
  | [], _, _ => by simp [cellsL, ITree.addrsL]
  | k :: ks, p, e => by
    simp [cellsL, ITree.addrsL, map_fst_cells k, map_fst_cellsL ks]
end

mutual
theorem ITree.length_addrs : ∀ (t : ITree), t.addrs.length = t.size
  | .node a nm fu rg nd ks => by
    simp [ITree.addrs, ITree.size, ITree.length_addrsL ks]; omega
theorem ITree.length_addrsL : ∀ (ks : List ITree), (ITree.addrsL ks).length = ITree.sizeL ks
  | [] => by simp [ITree.addrsL, ITree.sizeL]
  | k :: ks => by
    simp [ITree.addrsL, ITree.sizeL, ITree.length_addrs k, ITree.length_addrsL ks]
end

theorem headAddrOr_append (e : Option Nat) (K S : List ITree) :
    headAddrOr e (K ++ S) = headAddrOr (headAddrOr e S) K := by
  cases K <;> simp [headAddrOr]

theorem cellsL_append (K S : List ITree) (p e : Option Nat) :
    cellsL (K ++ S) p e = cellsL K p (headAddrOr e S) ++ cellsL S p e := by
  induction K with
  | nil => simp [cellsL]
  | cons k K ih => simp [cellsL, ih, headAddrOr_append]

@[simp] theorem lastAddr_nil : lastAddr [] = none := rfl

@[simp] theorem lastAddr_singleton (k : ITree) : lastAddr [k] = some k.addr := rfl

@[simp] theorem lastAddr_concat (K : List ITree) (k : ITree) :
    lastAddr (K ++ [k]) = some k.addr := by
  simp [lastAddr]

@[simp] theorem lastAddr_append_cons (K S : List ITree) (k : ITree) :
    lastAddr (K ++ k :: S) = lastAddr (k :: S) := by
  have h : (k :: S).getLast? = some ((k :: S).getLast (by simp)) := List.getLast?_eq_getLast _ _
  simp only [lastAddr, List.getLast?_append, h, Option.or_some]

@[simp] theorem lastAddr_cons_cons (k k' : ITree) (S : List ITree) :
    lastAddr (k :: k' :: S) = lastAddr (k' :: S) := by
  simp [lastAddr, List.getLast?_cons_cons]

/-! ## Basic facts about `Sat` -/

theorem Sat_nil (h : Heap) : Sat h [] := by
  intro x hx; simp at hx

theorem Sat_cons {h : Heap} {x : Nat × funit_inst} {cs : List (Nat × funit_inst)} :
    Sat h (x :: cs) ↔ h x.1 = some x.2 ∧ Sat h cs := by
  simp [Sat]

theorem Sat_append {h : Heap} {as bs : List (Nat × funit_inst)} :
    Sat h (as ++ bs) ↔ Sat h as ∧ Sat h bs := by
  simp only [Sat, List.mem_append]
  constructor
  · intro H; exact ⟨fun x hx => H x (Or.inl hx), fun x hx => H x (Or.inr hx)⟩
  · rintro ⟨H1, H2⟩ x (hx | hx)
    · exact H1 x hx
    · exact H2 x hx

theorem Sat_congr {h h' : Heap} {cs : List (Nat × funit_inst)}
    (hs : Sat h cs) (hag : ∀ a ∈ cs.map Prod.fst, h' a = h a) : Sat h' cs := by
  intro x hx
  rw [hag x.1 (List.mem_map_of_mem _ hx)]
  exact hs x hx

theorem upd_same (h : Heap) (a : Nat) (c : funit_inst) : upd h a c a = some c := by
  simp [upd]

theorem upd_other (h : Heap) {a x : Nat} (c : funit_inst) (hne : x ≠ a) : upd h a c x = h x := by
  simp [upd, hne]

theorem Sat_upd {h : Heap} {cs : List (Nat × funit_inst)} {a : Nat} (c : funit_inst)
    (hs : Sat h cs) (ha : a ∉ cs.map Prod.fst) : Sat (upd h a c) cs := by
  refine Sat_congr hs ?_
  intro x hx
  exact upd_other h c (fun hxa => ha (hxa ▸ hx))

/-! ## Pure facts about the functional model of `instance_merge_tree` -/

theorem splitAtName_some {nm : Str} {K pre post : List ITree} {c : ITree}
    (h : splitAtName nm K = some (pre, c, post)) :
    K = pre ++ c :: post ∧ c.name = nm ∧ ∀ k ∈ pre, k.name ≠ nm := by
  induction K generalizing pre with
  | nil => simp [splitAtName] at h
  | cons k K ih =>
    simp only [splitAtName] at h
    split at h
    · rename_i hk
      simp only [Option.some.injEq, Prod.mk.injEq] at h
      obtain ⟨rfl, rfl, rfl⟩ := h
      simp [hk]
    · rename_i hk
      cases hs : splitAtName nm K with
      | none => simp [hs] at h
      | some r =>
        obtain ⟨pre', c', post'⟩ := r
        simp only [hs, Option.map_some', Option.some.injEq, Prod.mk.injEq] at h
        obtain ⟨rfl, rfl, rfl⟩ := h
        obtain ⟨h1, h2, h3⟩ := ih hs
        refine ⟨by simp [h1], h2, ?_⟩
        intro x hx
        rcases List.mem_cons.1 hx with rfl | hx
        · exact hk
        · exact h3 x hx

theorem splitAtName_none {nm : Str} {K : List ITree} (h : splitAtName nm K = none) :
    ∀ k ∈ K, k.name ≠ nm := by
  induction K with
  | nil => simp
  | cons k K ih =>
    simp only [splitAtName] at h
    split at h
    · simp at h
    · rename_i hk
      simp only [Option.map_eq_none'] at h
      intro x hx
      rcases List.mem_cons.1 hx with rfl | hx
      · exact hk
      · exact ih h x hx

theorem mergeT_fst_addr (t2 t1 : ITree) : (mergeT t2 t1).1.addr = t1.addr := by
  cases t2; simp [mergeT, ITree.addr]

theorem mergeT_fst_name (t2 t1 : ITree) : (mergeT t2 t1).1.name = t1.name := by
  cases t2; simp [mergeT, ITree.name]

theorem mergeT_snd_addr (t2 t1 : ITree) : (mergeT t2 t1).2.addr = t2.addr := by
  cases t2; simp [mergeT, ITree.addr]

theorem mergeT_snd_name (t2 t1 : ITree) : (mergeT t2 t1).2.name = t2.name := by
  cases t2; simp [mergeT, ITree.name]

theorem mergeKids_perm (S K : List ITree) :
    (ITree.addrsL (mergeKids S K).1 ++ ITree.addrsL (mergeKids S K).2).Perm
      (ITree.addrsL K ++ ITree.addrsL S) := by
  refine mergeKids.induct
    (fun t2 t1 => ((mergeT t2 t1).1.addrs ++ (mergeT t2 t1).2.addrs).Perm (t1.addrs ++ t2.addrs))
    (fun S K => (ITree.addrsL (mergeKids S K).1 ++ ITree.addrsL (mergeKids S K).2).Perm
      (ITree.addrsL K ++ ITree.addrsL S)) ?_ ?_ ?_ ?_ S K
  · intro a2 n2 f2 r2 d2 ks2 t1 ih
    rw [t1.addrs_eq]
    simp only [mergeT, ITree.addrs, ITree.addr, List.cons_append]
    refine List.Perm.cons _ ?_
    refine (List.perm_middle).trans ?_
    refine List.Perm.trans ?_ (List.perm_middle).symm
    exact List.Perm.cons _ ih
  · intro ks1
    simp [mergeKids, ITree.addrsL]
  · intro c2 rest ks1 pre c1 post hsp m ih1 ih2
    obtain ⟨hK, -, -⟩ := splitAtName_some hsp
    simp only [mergeKids, hsp, ITree.addrsL]
    subst hK
    simp only [ITree.addrsL_append, ITree.addrsL] at ih2 ⊢
    have e1 : (ITree.addrsL (mergeKids rest (pre ++ (mergeT c2 c1).1 :: post)).1 ++
        ((mergeT c2 c1).2.addrs ++ ITree.addrsL (mergeKids rest (pre ++ (mergeT c2 c1).1 :: post)).2)).Perm
        ((mergeT c2 c1).2.addrs ++ (ITree.addrsL (mergeKids rest (pre ++ (mergeT c2 c1).1 :: post)).1 ++
          ITree.addrsL (mergeKids rest (pre ++ (mergeT c2 c1).1 :: post)).2)) := by
      rw [← List.append_assoc, ← List.append_assoc]
      exact List.Perm.append_right _ List.perm_append_comm
    refine e1.trans ?_
    refine (List.Perm.append_left _ ih2).trans ?_
    have e2 : ((mergeT c2 c1).2.addrs ++ (ITree.addrsL pre ++ ((mergeT c2 c1).1.addrs ++ ITree.addrsL post) ++
        ITree.addrsL rest)).Perm
        (((mergeT c2 c1).1.addrs ++ (mergeT c2 c1).2.addrs) ++ (ITree.addrsL pre ++ ITree.addrsL post ++
          ITree.addrsL rest)) := by
      simp only [List.append_assoc]
      refine List.perm_iff_count.2 fun x => ?_
      simp only [List.count_append]; omega
    refine e2.trans ?_
    refine (List.Perm.append_right _ ih1).trans ?_
    refine List.perm_iff_count.2 fun x => ?_
    simp only [List.count_append, List.append_assoc]; omega
  · intro c2 rest ks1 hsp ih
    simp only [mergeKids, hsp]
    refine ih.trans ?_
    simp [ITree.addrsL_append, ITree.addrsL]

theorem mergeT_perm (t2 t1 : ITree) :
    ((mergeT t2 t1).1.addrs ++ (mergeT t2 t1).2.addrs).Perm (t1.addrs ++ t2.addrs) := by
  cases t2 with
  | node a2 n2 f2 r2 d2 ks2 =>
    have ih := mergeKids_perm ks2 t1.kids
    rw [t1.addrs_eq]
    simp only [mergeT, ITree.addrs, ITree.addr, List.cons_append]
    refine List.Perm.cons _ ?_
    refine (List.perm_middle).trans ?_
    refine List.Perm.trans ?_ (List.perm_middle).symm
    exact List.Perm.cons _ ih

theorem mergeT_size (t2 t1 : ITree) :
    (mergeT t2 t1).1.size + (mergeT t2 t1).2.size = t1.size + t2.size := by
  have := (mergeT_perm t2 t1).length_eq
  simpa [ITree.length_addrs] using this

/-! ## Running the code on a heap that represents a tree -/

@[simp] theorem Except.ok_bind {α β : Type} (a : α) (f : α → Except Fault β) :
    (Except.ok a >>= f) = f a := rfl

@[simp] theorem Except.pure_eq_ok {α : Type} (a : α) : (pure a : Except Fault α) = Except.ok a := rfl

theorem World.load_eq {w : World} {a : Nat} {c : funit_inst} (h : w.inst a = some c) :
    w.load (some a) = .ok c := by
  simp [World.load, h]

theorem World.modify_eq {w : World} {a : Nat} {c : funit_inst} (f : funit_inst → funit_inst)
    (h : w.inst a = some c) :
    w.modify (some a) f = .ok { w with inst := upd w.inst a (f c) } := by
  simp [World.modify, h]

theorem Sat_root {h : Heap} {t : ITree} {p nx : Option Nat} (hs : Sat h (cells t p nx)) :
    h t.addr = some (rootCell t p nx) := by
  rw [cells_eq] at hs
  exact (Sat_cons.1 hs).1

theorem Sat_kids {h : Heap} {t : ITree} {p nx : Option Nat} (hs : Sat h (cells t p nx)) :
    Sat h (cellsL t.kids (some t.addr) none) := by
  rw [cells_eq] at hs
  exact (Sat_cons.1 hs).2

theorem Sat_cells_iff {h : Heap} {t : ITree} {p nx : Option Nat} :
    Sat h (cells t p nx) ↔
      h t.addr = some (rootCell t p nx) ∧ Sat h (cellsL t.kids (some t.addr) none) := by
  rw [cells_eq]; exact Sat_cons

@[simp] theorem headAddrOr_nil (e : Option Nat) : headAddrOr e [] = e := rfl

@[simp] theorem headAddrOr_cons (e : Option Nat) (k : ITree) (K : List ITree) :
    headAddrOr e (k :: K) = some k.addr := rfl

theorem find_child_by_name_spec (w : World) (nm : Str) (p : Option Nat) :
    ∀ (K : List ITree) (fuel : Nat), Sat w.inst (cellsL K p none) → K.length + 1 ≤ fuel →
      find_child_by_name fuel w (headAddrOr none K) nm =
        .ok ((splitAtName nm K).map (fun r => r.2.1.addr)) := by
  intro K
  induction K with
  | nil =>
    intro fuel _ hf
    obtain ⟨k, rfl⟩ : ∃ k, fuel = k + 1 := ⟨fuel - 1, by omega⟩
    simp [find_child_by_name, splitAtName]
  | cons t K ih =>
    intro fuel hs hf
    obtain ⟨k, rfl⟩ : ∃ k, fuel = k + 1 := ⟨fuel - 1, by simp at hf; omega⟩
    simp only [cellsL, Sat_append] at hs
    have hroot := Sat_root hs.1
    simp only [headAddrOr_cons, find_child_by_name, World.load_eq hroot, Except.ok_bind, splitAtName]
    by_cases hn : t.name = nm
    · simp [rootCell, hn]
    · have := ih k hs.2 (by simp at hf; omega)
      simp only [rootCell, hn, if_false]
      rw [this]
      cases splitAtName nm K <;> simp

theorem headAddrOr_concat_ne_none (K : List ITree) (k : ITree) :
    headAddrOr none (K ++ [k]) ≠ none := by
  cases K <;> simp

theorem headAddrOr_append_concat (e : Option Nat) (K S : List ITree) (k : ITree) :
    headAddrOr e (K ++ [k] ++ S) = headAddrOr none (K ++ [k]) := by
  cases K <;> simp

theorem Sat_cellsL_set_last {h : Heap} {K : List ITree} {kl : ITree} {p e : Option Nat}
    (e' : Option Nat) (hs : Sat h (cellsL (K ++ [kl]) p e))
    (hnd : (ITree.addrsL (K ++ [kl])).Nodup) :
    Sat (upd h kl.addr { rootCell kl p e with next := e' }) (cellsL (K ++ [kl]) p e') := by
  rw [cellsL_append] at hs ⊢
  rw [Sat_append] at hs ⊢
  simp only [cellsL, List.append_nil, headAddrOr_nil, headAddrOr_cons] at hs ⊢
  rw [ITree.addrsL_append] at hnd
  simp only [ITree.addrsL, List.append_nil] at hnd
  rw [List.nodup_append] at hnd
  obtain ⟨-, hkl, hdisj⟩ := hnd
  rw [kl.addrs_eq] at hkl hdisj
  refine ⟨Sat_upd _ hs.1 ?_, ?_⟩
  · rw [map_fst_cellsL]
    intro hmem
    exact hdisj hmem (List.mem_cons_self _ _)
  · rw [Sat_cells_iff]
    refine ⟨by rw [upd_same]; rfl, Sat_upd _ (Sat_kids hs.2) ?_⟩
    rw [map_fst_cellsL]
    exact (List.nodup_cons.1 hkl).1

theorem child_list_append_spec (w : World) (a1 : Nat) (nm1 : Str) (fu1 : Option Nat)
    (rg1 : Option vector_width) (nd1 : Bool) (K : List ITree) (c2 : ITree) (p1 nx1 : Option Nat)
    (hroot : w.inst a1 = some (rootCell (.node a1 nm1 fu1 rg1 nd1 K) p1 nx1))
    (hK : Sat w.inst (cellsL K (some a1) none))
    (hnd : (a1 :: ITree.addrsL K).Nodup) :
    ∃ w1, child_list_append w (some a1) (some c2.addr) = .ok w1 ∧
      w1.inst a1 = some (rootCell (.node a1 nm1 fu1 rg1 nd1 (K ++ [c2])) p1 nx1) ∧
      Sat w1.inst (cellsL K (some a1) (some c2.addr)) ∧
      (∀ x, x ≠ a1 → x ∉ ITree.addrsL K → w1.inst x = w.inst x) ∧
      w1.funit = w.funit ∧ w1.brk = w.brk ∧ w1.inst_head = w.inst_head := by
  rcases List.eq_nil_or_concat K with rfl | ⟨K0, kl, hKeq⟩
  · refine ⟨⟨upd (upd w.inst a1
        { (rootCell (.node a1 nm1 fu1 rg1 nd1 []) p1 nx1) with child_head := some c2.addr }) a1
        (rootCell (.node a1 nm1 fu1 rg1 nd1 [c2]) p1 nx1), w.funit, w.brk, w.inst_head⟩,
        ?_, ?_, Sat_nil _, ?_, rfl, rfl, rfl⟩
    · simp [child_list_append, World.load, World.modify, hroot, upd_same, rootCell]
    · simp [upd_same]
    · intro x hx _
      simp [upd_other _ _ hx]
  · rw [List.concat_eq_append] at hKeq
    subst hKeq
    have hkl : w.inst kl.addr = some (rootCell kl (some a1) none) := by
      rw [cellsL_append, Sat_append] at hK
      simp only [cellsL, List.append_nil, headAddrOr_nil] at hK
      exact Sat_root hK.2
    have hne : kl.addr ≠ a1 := by
      intro he
      have := (List.nodup_cons.1 hnd).1
      apply this
      rw [ITree.addrsL_append]
      simp only [ITree.addrsL, List.append_nil, List.mem_append]
      exact Or.inr (he ▸ kl.addr_mem_addrs)
    refine ⟨⟨upd (upd w.inst kl.addr
        { rootCell kl (some a1) none with next := some c2.addr }) a1
        (rootCell (.node a1 nm1 fu1 rg1 nd1 (K0 ++ [kl] ++ [c2])) p1 nx1), w.funit, w.brk,
        w.inst_head⟩, ?_, ?_, ?_, ?_, rfl, rfl, rfl⟩
    · have hh : headAddrOr none (K0 ++ [kl]) ≠ none := headAddrOr_concat_ne_none K0 kl
      simp only [headAddrOr_append, headAddrOr_cons] at hh
      simp [child_list_append, World.load, World.modify, hroot, hkl, upd_same, rootCell, hh,
        upd_other _ _ (Ne.symm hne), headAddrOr_append]
    · simp [upd_same]
    · refine Sat_upd _ (Sat_cellsL_set_last _ hK (List.nodup_cons.1 hnd).2) ?_
      rw [map_fst_cellsL]
      exact (List.nodup_cons.1 hnd).1
    · intro x hx hxK
      have hx2 : x ≠ kl.addr := by
        intro he
        apply hxK
        rw [ITree.addrsL_append]
        simp only [ITree.addrsL, List.append_nil, List.mem_append]
        exact Or.inr (he ▸ kl.addr_mem_addrs)
      simp [upd_other _ _ hx, upd_other _ _ hx2]

theorem mem_addrsL_concat_last (K : List ITree) (k : ITree) :
    k.addr ∈ ITree.addrsL (K ++ [k]) := by
  rw [ITree.addrsL_append]
  simp only [ITree.addrsL, List.append_nil, List.mem_append]
  exact Or.inr k.addr_mem_addrs

theorem instance_merge_tree_unlink_spec (w : World) (a2 : Nat) (nm2 : Str) (fu2 : Option Nat)
    (rg2 : Option vector_width) (nd2 : Bool) (M rest : List ITree) (c2 : ITree)
    (p2 nx2 : Option Nat)
    (hroot : w.inst a2 = some (rootCell (.node a2 nm2 fu2 rg2 nd2 (M ++ c2 :: rest)) p2 nx2))
    (hM : Sat w.inst (cellsL M (some a2) (some c2.addr)))
    (hnd : (a2 :: ITree.addrsL M).Nodup) :
    ∃ w1, instance_merge_tree_unlink w (some a2) (lastAddr M) (headAddrOr none rest) = .ok w1 ∧
      w1.inst a2 = some (rootCell (.node a2 nm2 fu2 rg2 nd2 (M ++ rest)) p2 nx2) ∧
      Sat w1.inst (cellsL M (some a2) (headAddrOr none rest)) ∧
      (∀ x, x ≠ a2 → x ∉ ITree.addrsL M → w1.inst x = w.inst x) ∧
      w1.funit = w.funit ∧ w1.brk = w.brk ∧ w1.inst_head = w.inst_head := by
  rcases List.eq_nil_or_concat M with rfl | ⟨M0, ml, hMeq⟩
  · cases rest with
    | nil =>
      refine ⟨⟨upd (upd w.inst a2
        { (rootCell (.node a2 nm2 fu2 rg2 nd2 [c2]) p2 nx2) with child_head := none }) a2
        (rootCell (.node a2 nm2 fu2 rg2 nd2 []) p2 nx2), w.funit, w.brk, w.inst_head⟩,
        ?_, ?_, Sat_nil _, ?_, rfl, rfl, rfl⟩
      · simp [instance_merge_tree_unlink, World.modify, hroot, upd_same, rootCell] at hroot ⊢
      · simp [upd_same]
      · intro x hx _
        simp [upd_other _ _ hx]
    | cons r rs =>
      refine ⟨⟨upd w.inst a2 (rootCell (.node a2 nm2 fu2 rg2 nd2 (r :: rs)) p2 nx2), w.funit, w.brk,
        w.inst_head⟩, ?_, ?_, Sat_nil _, ?_, rfl, rfl, rfl⟩
      · simp [instance_merge_tree_unlink, World.modify, hroot, upd_same, rootCell] at hroot ⊢
      · simp [upd_same]
      · intro x hx _
        simp [upd_other _ _ hx]
  · rw [List.concat_eq_append] at hMeq
    subst hMeq
    have hml : w.inst ml.addr = some (rootCell ml (some a2) (some c2.addr)) := by
      rw [cellsL_append, Sat_append] at hM
      simp only [cellsL, List.append_nil, headAddrOr_nil] at hM
      exact Sat_root hM.2
    have hne : ml.addr ≠ a2 := by
      intro he
      exact (List.nodup_cons.1 hnd).1 (he ▸ mem_addrsL_concat_last M0 ml)
    have hfr : ∀ (c c' : funit_inst) (x : Nat), x ≠ a2 → x ∉ ITree.addrsL (M0 ++ [ml]) →
        upd (upd w.inst a2 c) ml.addr c' x = w.inst x ∧ upd w.inst ml.addr c' x = w.inst x := by
      intro c c' x hx hxM
      have hx2 : x ≠ ml.addr := fun he => hxM (he ▸ mem_addrsL_concat_last M0 ml)
      simp [upd_other _ _ hx, upd_other _ _ hx2]
    cases rest with
    | nil =>
      refine ⟨⟨upd (upd w.inst a2 (rootCell (.node a2 nm2 fu2 rg2 nd2 (M0 ++ [ml])) p2 nx2)) ml.addr
        { rootCell ml (some a2) (some c2.addr) with next := none }, w.funit, w.brk, w.inst_head⟩,
        ?_, ?_, ?_, ?_, rfl, rfl, rfl⟩
      · simp [instance_merge_tree_unlink, World.modify, hroot, hml, upd_same, rootCell,
          upd_other _ _ hne, headAddrOr_append]
      · simp [upd_other _ _ (Ne.symm hne), upd_same]
      · refine Sat_cellsL_set_last _ (Sat_upd _ hM ?_) (List.nodup_cons.1 hnd).2
        rw [map_fst_cellsL]
        exact (List.nodup_cons.1 hnd).1
      · intro x hx hxM
        exact (hfr _ _ x hx hxM).1
    | cons r rs =>
      refine ⟨⟨upd w.inst ml.addr
        { rootCell ml (some a2) (some c2.addr) with next := some r.addr }, w.funit, w.brk,
        w.inst_head⟩, ?_, ?_, ?_, ?_, rfl, rfl, rfl⟩
      · simp [instance_merge_tree_unlink, World.modify, hml]
      · simp [upd_other _ _ (Ne.symm hne), hroot, rootCell, headAddrOr_append]
      · exact Sat_cellsL_set_last _ hM (List.nodup_cons.1 hnd).2
      · intro x hx hxM
        exact (hfr (rootCell ml none none) _ x hx hxM).2

/-! ### Address bookkeeping: distinctness through counting -/

theorem count_cons_eq_add (x a : Nat) (l : List Nat) :
    List.count x (a :: l) = List.count x [a] + List.count x l := by
  simp [List.count_cons]; omega

theorem count_singleton_self (a : Nat) : List.count a [a] = 1 := by simp

theorem count_singleton_le (x a : Nat) : List.count x [a] ≤ 1 := by
  simp [List.count_cons]; split <;> omega

theorem one_le_count_of_mem {x : Nat} {l : List Nat} (h : x ∈ l) : 1 ≤ List.count x l :=
  List.count_pos_iff.2 h

theorem not_mem_of_count_eq_zero {x : Nat} {l : List Nat} (h : List.count x l = 0) : x ∉ l :=
  List.count_eq_zero.1 h

theorem ne_of_count_eq_zero {x a : Nat} (h : List.count x [a] = 0) : x ≠ a := by
  intro he; subst he; simp at h

theorem count_eq_zero_of_ne {x a : Nat} (h : x ≠ a) : List.count x [a] = 0 := by
  simp [List.count_cons, Ne.symm h]

theorem count_eq_zero_of_not_mem {x : Nat} {l : List Nat} (h : x ∉ l) : List.count x l = 0 :=
  List.count_eq_zero.2 h

theorem merge_loop_nil (fm : FHeap → Nat → Nat → FHeap) (K : List ITree) :
    MergeLoopSpec fm [] K := by
  intro w k0 k a1 nm1 fu1 rg1 nd1 a2 nm2 fu2 rg2 nd2 M p1 nx1 p2 nx2 h1 h2 _ hk _
  obtain ⟨k', rfl⟩ : ∃ k', k = k' + 1 := ⟨k - 1, by omega⟩
  refine ⟨w, ?_, ?_, ?_, fun _ _ _ _ _ => rfl, rfl, rfl, ?_⟩
  · simp [instance_merge_tree_loop]
  · simpa [mergeKids] using h1
  · simpa [mergeKids] using h2
  · simp [mergeKidsCalls, runCalls]

theorem merge_loop_unmatched (fm : FHeap → Nat → Nat → FHeap) (c2 : ITree) (rest K : List ITree)
    (hsp : splitAtName c2.name K = none) (ih : MergeLoopSpec fm rest (K ++ [c2])) :
    MergeLoopSpec fm (c2 :: rest) K := by
  intro w k0 k a1 nm1 fu1 rg1 nd1 a2 nm2 fu2 rg2 nd2 M p1 nx1 p2 nx2 h1 h2 hnd hk hk0
  obtain ⟨k', rfl⟩ : ∃ k', k = k' + 1 := ⟨k - 1, by omega⟩
  have hsz := c2.size_pos
  have hlen := ITree.length_le_sizeL K
  simp only [ITree.sizeL] at hk
  rw [Sat_cells_iff] at h1 h2
  simp only [ITree.addr_node, ITree.kids_node] at h1 h2
  obtain ⟨hr1, hK⟩ := h1
  obtain ⟨hr2, hMS⟩ := h2
  rw [cellsL_append, Sat_append] at hMS
  simp only [cellsL, headAddrOr_cons, Sat_append] at hMS
  obtain ⟨hM, hc2, hrest⟩ := hMS
  have hc2r := Sat_root hc2
  have hc2k := Sat_kids hc2
  -- every address occurs once
  have hnd' : ([a1] ++ ITree.addrsL K ++ ([a2] ++ (ITree.addrsL M ++
      (([c2.addr] ++ ITree.addrsL c2.kids) ++ ITree.addrsL rest)))).Nodup := by
    simpa [ITree.addrsL_append, ITree.addrsL, c2.addrs_eq] using hnd
  have hc : ∀ x, List.count x [a1] + List.count x (ITree.addrsL K) + List.count x [a2] +
      List.count x (ITree.addrsL M) + List.count x [c2.addr] +
      List.count x (ITree.addrsL c2.kids) + List.count x (ITree.addrsL rest) ≤ 1 := by
    intro x
    have := List.nodup_iff_count_le_one.1 hnd' x
    simp only [List.count_append] at this
    omega
  have hself1 := count_singleton_self a1
  have hself2 := count_singleton_self a2
  have hselfc := count_singleton_self c2.addr
  -- the inner search fails
  have hfind : find_child_by_name k' w (headAddrOr none K) c2.name = .ok none := by
    rw [find_child_by_name_spec w c2.name (some a1) K k' hK (by omega), hsp]; rfl
  -- the child is detached
  have hA : ∃ wA, (∀ f : World → Except Fault World, (do
        let w ← w.modify (some c2.addr) (fun c => { c with next := none })
        let w ← w.modify (some c2.addr) (fun c => { c with parent := some a1 })
        f w) = f wA) ∧
      wA.inst c2.addr = some (rootCell c2 (some a1) none) ∧
      (∀ x, x ≠ c2.addr → wA.inst x = w.inst x) ∧
      wA.funit = w.funit ∧ wA.brk = w.brk ∧ wA.inst_head = w.inst_head := by
    refine ⟨⟨upd (upd w.inst c2.addr
      { rootCell c2 (some a2) (headAddrOr none rest) with next := none }) c2.addr
      (rootCell c2 (some a1) none), w.funit, w.brk, w.inst_head⟩, ?_, ?_, ?_, rfl, rfl, rfl⟩
    · intro f
      simp [World.modify, hc2r, upd_same, rootCell]
    · simp [upd_same]
    · intro x hx
      simp [upd_other _ _ hx]
  obtain ⟨wA, hrunA, hAc, hAfr, hAf, hAb, hAi⟩ := hA
  have hAr1 : wA.inst a1 = some (rootCell (.node a1 nm1 fu1 rg1 nd1 K) p1 nx1) := by
    rw [hAfr a1 (Ne.symm (ne_of_count_eq_zero (by have := hc c2.addr; omega)))]; exact hr1
  have hAK : Sat wA.inst (cellsL K (some a1) none) := by
    refine Sat_congr hK fun x hx => hAfr x ?_
    rw [map_fst_cellsL] at hx
    have := one_le_count_of_mem hx
    exact ne_of_count_eq_zero (by have := hc x; omega)
  have hnd1 : (a1 :: ITree.addrsL K).Nodup := by
    refine List.nodup_cons.2 ⟨not_mem_of_count_eq_zero (by have := hc a1; omega), ?_⟩
    exact (List.nodup_append.1 (List.nodup_append.1 hnd').1).2.1
  obtain ⟨wB, hrunB, hBr1, hBK, hBfr, hBf, hBb, hBi⟩ :=
    child_list_append_spec wA a1 nm1 fu1 rg1 nd1 K c2 p1 nx1 hAr1 hAK hnd1
  -- the frame of the first two steps
  have hABfr : ∀ x, List.count x [a1] = 0 → List.count x (ITree.addrsL K) = 0 →
      List.count x [c2.addr] = 0 → wB.inst x = w.inst x := by
    intro x hx1 hxK hxc
    rw [hBfr x (ne_of_count_eq_zero hx1) (not_mem_of_count_eq_zero hxK),
      hAfr x (ne_of_count_eq_zero hxc)]
  have hBr2 : wB.inst a2 =
      some (rootCell (.node a2 nm2 fu2 rg2 nd2 (M ++ c2 :: rest)) p2 nx2) := by
    rw [hABfr a2 (by have := hc a2; omega) (by have := hc a2; omega) (by have := hc a2; omega)]
    exact hr2
  have hBM : Sat wB.inst (cellsL M (some a2) (some c2.addr)) := by
    refine Sat_congr hM fun x hx => ?_
    rw [map_fst_cellsL] at hx
    have := one_le_count_of_mem hx
    have := hc x
    exact hABfr x (by omega) (by omega) (by omega)
  have hnd2 : (a2 :: ITree.addrsL M).Nodup := by
    refine List.nodup_cons.2 ⟨not_mem_of_count_eq_zero (by have := hc a2; omega), ?_⟩
    exact (List.nodup_append.1 (List.nodup_append.1 (List.nodup_append.1 hnd').2.1).2.1).1
  obtain ⟨wC, hrunC, hCr2, hCM, hCfr, hCf, hCb, hCi⟩ :=
    instance_merge_tree_unlink_spec wB a2 nm2 fu2 rg2 nd2 M rest c2 p2 nx2 hBr2 hBM hnd2
  have hBCfr : ∀ x, List.count x [a2] = 0 → List.count x (ITree.addrsL M) = 0 →
      wC.inst x = wB.inst x := by
    intro x hx2 hxM
    exact hCfr x (ne_of_count_eq_zero hx2) (not_mem_of_count_eq_zero hxM)
  -- the heap now represents the two new trees
  have hS1 : Sat wC.inst (cells (.node a1 nm1 fu1 rg1 nd1 (K ++ [c2])) p1 nx1) := by
    rw [Sat_cells_iff]
    simp only [ITree.addr_node, ITree.kids_node]
    refine ⟨?_, ?_⟩
    · rw [hBCfr a1 (by have := hc a1; omega) (by have := hc a1; omega)]; exact hBr1
    · rw [cellsL_append, Sat_append]
      simp only [cellsL, headAddrOr_cons, headAddrOr_nil, List.append_nil]
      refine ⟨Sat_congr hBK fun x hx => ?_, ?_⟩
      · rw [map_fst_cellsL] at hx
        have := one_le_count_of_mem hx
        have := hc x
        exact hBCfr x (by omega) (by omega)
      · rw [Sat_cells_iff]
        refine ⟨?_, Sat_congr hc2k fun x hx => ?_⟩
        · rw [hBCfr c2.addr (by have := hc c2.addr; omega) (by have := hc c2.addr; omega),
            hBfr c2.addr (ne_of_count_eq_zero (by have := hc c2.addr; omega))
              (not_mem_of_count_eq_zero (by have := hc c2.addr; omega))]
          exact hAc
        · rw [map_fst_cellsL] at hx
          have := one_le_count_of_mem hx
          have := hc x
          rw [hBCfr x (by omega) (by omega), hABfr x (by omega) (by omega) (by omega)]
  have hS2 : Sat wC.inst (cells (.node a2 nm2 fu2 rg2 nd2 (M ++ rest)) p2 nx2) := by
    rw [Sat_cells_iff]
    simp only [ITree.addr_node, ITree.kids_node]
    refine ⟨hCr2, ?_⟩
    rw [cellsL_append, Sat_append]
    refine ⟨hCM, Sat_congr hrest fun x hx => ?_⟩
    rw [map_fst_cellsL] at hx
    have := one_le_count_of_mem hx
    have := hc x
    rw [hBCfr x (by omega) (by omega), hABfr x (by omega) (by omega) (by omega)]
  have hndC : ((a1 :: ITree.addrsL (K ++ [c2])) ++ (a2 :: ITree.addrsL (M ++ rest))).Nodup := by
    refine (List.Perm.nodup_iff ?_).1 hnd
    refine List.perm_iff_count.2 fun x => ?_
    simp only [ITree.addrsL_append, ITree.addrsL, c2.addrs_eq, List.count_append,
      List.count_cons, List.count_nil]
    omega
  obtain ⟨w', hrun', hR1, hR2, hRfr, hRb, hRi, hRf⟩ :=
    ih wC k0 k' a1 nm1 fu1 rg1 nd1 a2 nm2 fu2 rg2 nd2 M p1 nx1 p2 nx2 hS1 hS2 hndC
      (by simp only [ITree.sizeL_append, ITree.sizeL]; omega) (by omega)
  refine ⟨w', ?_, ?_, ?_, ?_, ?_, ?_, ?_⟩
  · simp only [instance_merge_tree_loop, headAddrOr_cons, World.load_eq hr1, World.load_eq hc2r,
      Except.ok_bind]
    simp only [rootCell, ITree.kids_node] at hfind ⊢
    rw [hfind]
    simp only [Except.ok_bind]
    rw [hrunA, hrunB]
    simp only [Except.ok_bind]
    rw [hrunC]
    exact hrun'
  · simpa [mergeKids, hsp] using hR1
  · simpa [mergeKids, hsp] using hR2
  · intro x hx1 hxK hx2 hxMS
    rw [ITree.addrsL_append] at hxMS
    simp only [ITree.addrsL, c2.addrs_eq, List.mem_append, List.mem_cons, not_or] at hxMS
    have e1 := count_eq_zero_of_ne hx1
    have e2 := count_eq_zero_of_not_mem hxK
    have e3 := count_eq_zero_of_ne hx2
    have e4 := count_eq_zero_of_not_mem hxMS.1
    have e5 := count_eq_zero_of_ne hxMS.2.1.1
    have e6 := count_eq_zero_of_not_mem hxMS.2.1.2
    have e7 := count_eq_zero_of_not_mem hxMS.2.2
    rw [hRfr x hx1 ?_ hx2 ?_, hBCfr x e3 e4, hABfr x e1 e2 e5]
    · rw [ITree.addrsL_append]
      simp only [ITree.addrsL, c2.addrs_eq, List.mem_append, List.mem_cons, not_or,
        List.append_nil]
      exact ⟨hxK, hxMS.2.1.1, hxMS.2.1.2⟩
    · rw [ITree.addrsL_append]
      simp only [List.mem_append, not_or]
      exact ⟨hxMS.1, hxMS.2.2⟩
  · rw [hRb, hCb, hBb, hAb]
  · rw [hRi, hCi, hBi, hAi]
  · rw [hRf, hCf, hBf, hAf]
    simp [mergeKidsCalls, hsp]

theorem headAddrOr_congr (e : Option Nat) {K K' : List ITree}
    (h : K.map ITree.addr = K'.map ITree.addr) : headAddrOr e K = headAddrOr e K' := by
  cases K <;> cases K' <;> simp_all

theorem lastAddr_congr {K K' : List ITree} (h : K.map ITree.addr = K'.map ITree.addr) :
    lastAddr K = lastAddr K' := by
  simp only [lastAddr, ← List.getLast?_map, h]

theorem rootCell_congr (a : Nat) (n : Str) (f : Option Nat) (r : Option vector_width) (d : Bool)
    {K K' : List ITree} (p nx : Option Nat) (h : K.map ITree.addr = K'.map ITree.addr) :
    rootCell (.node a n f r d K) p nx = rootCell (.node a n f r d K') p nx := by
  simp [rootCell, headAddrOr_congr none h, lastAddr_congr h]

theorem merge_loop_matched (fm : FHeap → Nat → Nat → FHeap) (c2 : ITree)
    (rest K pre : List ITree) (c1 : ITree) (post : List ITree)
    (hsp : splitAtName c2.name K = some (pre, c1, post))
    (ih1 : MergeTreeSpec fm c2 c1)
    (ih2 : MergeLoopSpec fm rest (pre ++ (mergeT c2 c1).1 :: post)) :
    MergeLoopSpec fm (c2 :: rest) K := by
  intro w k0 k a1 nm1 fu1 rg1 nd1 a2 nm2 fu2 rg2 nd2 M p1 nx1 p2 nx2 h1 h2 hnd hk hk0
  obtain ⟨k', rfl⟩ : ∃ k', k = k' + 1 := ⟨k - 1, by omega⟩
  have hfindK := find_child_by_name_spec w c2.name (some a1) K k'
  obtain ⟨hKeq, -, -⟩ := splitAtName_some hsp
  subst hKeq
  have hsz2 := c2.size_pos
  have hsz1 := c1.size_pos
  have hszm := (mergeT c2 c1).2.size_pos
  have hszs := mergeT_size c2 c1
  have hlen := ITree.length_le_sizeL (pre ++ c1 :: post)
  simp only [ITree.sizeL, ITree.sizeL_append] at hk hlen
  rw [Sat_cells_iff] at h1 h2
  simp only [ITree.addr_node, ITree.kids_node] at h1 h2
  obtain ⟨hr1, hK⟩ := h1
  obtain ⟨hr2, hMS⟩ := h2
  have hK' := hK
  rw [cellsL_append, Sat_append] at hK'
  simp only [cellsL, headAddrOr_cons, Sat_append] at hK'
  obtain ⟨hPre, hc1, hPost⟩ := hK'
  rw [cellsL_append, Sat_append] at hMS
  simp only [cellsL, headAddrOr_cons, Sat_append] at hMS
  obtain ⟨hM, hc2, hrest⟩ := hMS
  -- every address occurs once
  have hc : ∀ x, List.count x [a1] + List.count x (ITree.addrsL pre) + List.count x c1.addrs +
      List.count x (ITree.addrsL post) + List.count x [a2] + List.count x (ITree.addrsL M) +
      List.count x c2.addrs + List.count x (ITree.addrsL rest) ≤ 1 := by
    intro x
    have := List.nodup_iff_count_le_one.1 hnd x
    simp only [ITree.addrsL_append, ITree.addrsL, List.count_append, List.count_cons,
      List.count_nil] at this ⊢
    omega
  have hpc : ∀ x, List.count x (mergeT c2 c1).1.addrs + List.count x (mergeT c2 c1).2.addrs =
      List.count x c1.addrs + List.count x c2.addrs := by
    intro x
    have := (mergeT_perm c2 c1).count_eq x
    simpa only [List.count_append] using this
  have hself1 := count_singleton_self a1
  have hself2 := count_singleton_self a2
  -- the inner search finds `c1`
  have hfind : find_child_by_name k' w (headAddrOr none (pre ++ c1 :: post)) c2.name =
      .ok (some c1.addr) := by
    rw [hfindK hK (by omega), hsp]; rfl
  -- the recursive call
  have hnd12 : (c1.addrs ++ c2.addrs).Nodup := by
    refine List.nodup_iff_count_le_one.2 fun x => ?_
    have := hc x
    simp only [List.count_append]
    omega
  obtain ⟨w1, hrun1, hm1, hm2, hfr1, hb1, hi1, hf1⟩ :=
    ih1 w (some a1) (headAddrOr none post) (some a2) (headAddrOr none rest) k0 hc1 hc2 hnd12
      (by omega)
  have hfr1' : ∀ x, List.count x c1.addrs = 0 → List.count x c2.addrs = 0 →
      w1.inst x = w.inst x := fun x e1 e2 =>
    hfr1 x (not_mem_of_count_eq_zero e1) (not_mem_of_count_eq_zero e2)
  have hm2r := Sat_root hm2
  rw [mergeT_snd_addr] at hm2r
  -- the heap represents the trees the loop continues with
  have hS1 : Sat w1.inst (cells (.node a1 nm1 fu1 rg1 nd1 (pre ++ (mergeT c2 c1).1 :: post))
      p1 nx1) := by
    rw [Sat_cells_iff]
    simp only [ITree.addr_node, ITree.kids_node]
    refine ⟨?_, ?_⟩
    · rw [hfr1' a1 (by have := hc a1; omega) (by have := hc a1; omega), hr1]
      exact congrArg some (rootCell_congr _ _ _ _ _ _ _ (by simp [mergeT_fst_addr]))
    · rw [cellsL_append, Sat_append]
      simp only [cellsL, headAddrOr_cons, Sat_append, mergeT_fst_addr]
      refine ⟨Sat_congr hPre fun x hx => ?_, hm1, Sat_congr hPost fun x hx => ?_⟩
      · rw [map_fst_cellsL] at hx
        have := one_le_count_of_mem hx
        have := hc x
        exact hfr1' x (by omega) (by omega)
      · rw [map_fst_cellsL] at hx
        have := one_le_count_of_mem hx
        have := hc x
        exact hfr1' x (by omega) (by omega)
  have hS2 : Sat w1.inst (cells (.node a2 nm2 fu2 rg2 nd2 ((M ++ [(mergeT c2 c1).2]) ++ rest))
      p2 nx2) := by
    rw [Sat_cells_iff]
    simp only [ITree.addr_node, ITree.kids_node]
    refine ⟨?_, ?_⟩
    · rw [hfr1' a2 (by have := hc a2; omega) (by have := hc a2; omega), hr2]
      exact congrArg some (rootCell_congr _ _ _ _ _ _ _ (by simp [mergeT_snd_addr]))
    · rw [List.append_assoc, List.singleton_append, cellsL_append, Sat_append]
      simp only [cellsL, headAddrOr_cons, Sat_append, mergeT_snd_addr]
      refine ⟨Sat_congr hM fun x hx => ?_, hm2, Sat_congr hrest fun x hx => ?_⟩
      · rw [map_fst_cellsL] at hx
        have := one_le_count_of_mem hx
        have := hc x
        exact hfr1' x (by omega) (by omega)
      · rw [map_fst_cellsL] at hx
        have := one_le_count_of_mem hx
        have := hc x
        exact hfr1' x (by omega) (by omega)
  have hndC : ((a1 :: ITree.addrsL (pre ++ (mergeT c2 c1).1 :: post)) ++
      (a2 :: ITree.addrsL ((M ++ [(mergeT c2 c1).2]) ++ rest))).Nodup := by
    refine List.nodup_iff_count_le_one.2 fun x => ?_
    have h1 := hc x
    have h2 := hpc x
    simp only [ITree.addrsL_append, ITree.addrsL, List.count_append, List.count_cons,
      List.count_nil] at h1 ⊢
    omega
  obtain ⟨w', hrun', hR1, hR2, hRfr, hRb, hRi, hRf⟩ :=
    ih2 w1 k0 k' a1 nm1 fu1 rg1 nd1 a2 nm2 fu2 rg2 nd2 (M ++ [(mergeT c2 c1).2]) p1 nx1 p2 nx2
      hS1 hS2 hndC (by simp only [ITree.sizeL_append, ITree.sizeL]; omega) (by omega)
  refine ⟨w', ?_, ?_, ?_, ?_, ?_, ?_, ?_⟩
  · simp only [instance_merge_tree_loop, headAddrOr_cons, World.load_eq hr1,
      World.load_eq (Sat_root hc2), Except.ok_bind]
    simp only [rootCell, ITree.kids_node] at hfind ⊢
    rw [hfind]
    simp only [Except.ok_bind]
    rw [hrun1]
    simp only [Except.ok_bind, World.load_eq hm2r]
    simp only [lastAddr_concat, mergeT_snd_addr] at hrun'
    exact hrun'
  · simpa [mergeKids, hsp] using hR1
  · simpa [mergeKids, hsp] using hR2
  · intro x hx1 hxK hx2 hxMS
    rw [ITree.addrsL_append] at hxK hxMS
    simp only [ITree.addrsL, List.mem_append, not_or] at hxK hxMS
    have e1 := count_eq_zero_of_ne hx1
    have e2 := count_eq_zero_of_not_mem hxK.1
    have e3 := count_eq_zero_of_not_mem hxK.2.1
    have e4 := count_eq_zero_of_not_mem hxK.2.2
    have e5 := count_eq_zero_of_ne hx2
    have e6 := count_eq_zero_of_not_mem hxMS.1
    have e7 := count_eq_zero_of_not_mem hxMS.2.1
    have e8 := count_eq_zero_of_not_mem hxMS.2.2
    have := hpc x
    rw [hRfr x hx1 ?_ hx2 ?_, hfr1' x e3 e7]
    · apply not_mem_of_count_eq_zero
      simp only [ITree.addrsL_append, ITree.addrsL, List.count_append]
      omega
    · apply not_mem_of_count_eq_zero
      simp only [ITree.addrsL_append, ITree.addrsL, List.count_append, List.count_nil]
      omega
  · rw [hRb, hb1]
  · rw [hRi, hi1]
  · rw [hRf, hf1]
    simp [mergeKidsCalls, hsp, runCalls]

theorem merge_tree_of_loop (fm : FHeap → Nat → Nat → FHeap) (a2 : Nat) (n2 : Str)
    (f2 : Option Nat) (r2 : Option vector_width) (d2 : Bool) (ks2 : List ITree) (t1 : ITree)
    (ih : MergeLoopSpec fm ks2 t1.kids) :
    MergeTreeSpec fm (.node a2 n2 f2 r2 d2 ks2) t1 := by
  intro w p1 nx1 p2 nx2 fuel h1 h2 hnd hfuel
  obtain ⟨a1, nm1, fu1, rg1, nd1, K⟩ := t1
  simp only [ITree.size, ITree.kids_node, ITree.addr_node] at hfuel ih ⊢
  obtain ⟨k, rfl⟩ : ∃ k, fuel = k + 1 := ⟨fuel - 1, by omega⟩
  have hr1 := Sat_root h1
  have hr2 := Sat_root h2
  have hk1 := Sat_kids h1
  have hk2 := Sat_kids h2
  simp only [ITree.addr_node, ITree.kids_node] at hr1 hr2 hk1 hk2
  simp only [ITree.addrs, List.cons_append] at hnd
  have hne : a1 ≠ a2 := by
    intro he
    have := (List.nodup_cons.1 hnd).1
    apply this
    simp [he]
  have hnk1 : ∀ x ∈ ITree.addrsL K, x ≠ a1 ∧ x ≠ a2 := by
    intro x hx
    have hc := List.nodup_iff_count_le_one.1 hnd x
    have := one_le_count_of_mem hx
    simp only [List.count_append, List.count_cons] at hc
    constructor
    · intro he; subst he; simp at hc; omega
    · intro he; subst he; simp at hc; omega
  have hnk2 : ∀ x ∈ ITree.addrsL ks2, x ≠ a1 ∧ x ≠ a2 := by
    intro x hx
    have hc := List.nodup_iff_count_le_one.1 hnd x
    have := one_le_count_of_mem hx
    simp only [List.count_append, List.count_cons] at hc
    constructor
    · intro he; subst he; simp at hc; omega
    · intro he; subst he; simp at hc; omega
  -- the functional units of the two roots
  have hF : ∃ wF, (∀ f : World → Except Fault World,
        ((match fu1, f2 with
          | some f1, some f2 => pure { w with funit := fm w.funit f1 f2 }
          | some _, none => pure w
          | none, some _ => do
            let w ← w.modify (some a1) (fun c => { c with funit := f2 })
            w.modify (some a2) (fun c => { c with funit := none })
          | none, none => pure w) >>= f) = f wF) ∧
      wF.inst a1 = some (rootCell (.node a1 nm1 (if fu1 = none then f2 else fu1) rg1 nd1 K)
        p1 nx1) ∧
      wF.inst a2 = some (rootCell (.node a2 n2 (if fu1 = none then none else f2) r2 d2 ks2)
        p2 nx2) ∧
      (∀ x, x ≠ a1 → x ≠ a2 → wF.inst x = w.inst x) ∧
      wF.brk = w.brk ∧ wF.inst_head = w.inst_head ∧
      wF.funit = runCalls fm (rootCall fu1 f2) w.funit := by
    cases fu1 with
    | none =>
      cases f2 with
      | none => exact ⟨w, fun f => rfl, by simpa using hr1, by simpa using hr2,
          fun _ _ _ => rfl, rfl, rfl, rfl⟩
      | some g2 =>
        refine ⟨⟨upd (upd w.inst a1 (rootCell (.node a1 nm1 (some g2) rg1 nd1 K) p1 nx1)) a2
          (rootCell (.node a2 n2 none r2 d2 ks2) p2 nx2), w.funit, w.brk, w.inst_head⟩,
          ?_, ?_, ?_, ?_, rfl, rfl, rfl⟩
        · intro f
          simp [World.modify, hr1, hr2, upd_same, upd_other _ _ (Ne.symm hne), rootCell]
        · simp [upd_other _ _ hne, upd_same]
        · simp [upd_same]
        · intro x hx1 hx2
          simp [upd_other _ _ hx1, upd_other _ _ hx2]
    | some g1 =>
      cases f2 with
      | none => exact ⟨w, fun f => rfl, by simpa using hr1, by simpa using hr2,
          fun _ _ _ => rfl, rfl, rfl, rfl⟩
      | some g2 => exact ⟨{ w with funit := fm w.funit g1 g2 }, fun f => rfl, by simpa using hr1,
          by simpa using hr2, fun _ _ _ => rfl, rfl, rfl, rfl⟩
  obtain ⟨wF, hrunF, hF1, hF2, hFfr, hFb, hFi, hFf⟩ := hF
  have hS1 : Sat wF.inst (cells (.node a1 nm1 (if fu1 = none then f2 else fu1) rg1 nd1 K)
      p1 nx1) := by
    rw [Sat_cells_iff]
    refine ⟨hF1, Sat_congr hk1 fun x hx => ?_⟩
    rw [map_fst_cellsL] at hx
    exact hFfr x (hnk1 x hx).1 (hnk1 x hx).2
  have hS2 : Sat wF.inst (cells (.node a2 n2 (if fu1 = none then none else f2) r2 d2
      ([] ++ ks2)) p2 nx2) := by
    rw [Sat_cells_iff]
    refine ⟨hF2, Sat_congr hk2 fun x hx => ?_⟩
    rw [map_fst_cellsL] at hx
    exact hFfr x (hnk2 x hx).1 (hnk2 x hx).2
  obtain ⟨w', hrun', hR1, hR2, hRfr, hRb, hRi, hRf⟩ :=
    ih wF k k a1 nm1 (if fu1 = none then f2 else fu1) rg1 nd1 a2 n2
      (if fu1 = none then none else f2) r2 d2 [] p1 nx1 p2 nx2 hS1 hS2
      (by simpa using hnd) (by omega) (le_refl _)
  refine ⟨w', ?_, ?_, ?_, ?_, ?_, ?_, ?_⟩
  · simp only [instance_merge_tree, World.load_eq hr1, World.load_eq hr2, Except.ok_bind]
    simp only [rootCell, ITree.funit_node]
    rw [hrunF]
    simp only [World.load_eq hF2, Except.ok_bind]
    simpa [rootCell] using hrun'
  · simpa [mergeT] using hR1
  · simpa [mergeT] using hR2
  · intro x hx1 hx2
    simp only [ITree.addrs, List.mem_cons, not_or] at hx1 hx2
    rw [hRfr x hx1.1 hx1.2 hx2.1 (by simpa using hx2.2), hFfr x hx1.1 hx2.1]
  · rw [hRb, hFb]
  · rw [hRi, hFi]
  · rw [hRf, hFf]
    simp [mergeCalls, runCalls]

/-- The loop of `instance_merge_tree` refines its functional model. -/
theorem merge_loop_refines (fm : FHeap → Nat → Nat → FHeap) (S K : List ITree) :
    MergeLoopSpec fm S K :=
  mergeKids.induct (MergeTreeSpec fm) (MergeLoopSpec fm)
    (fun a2 n2 f2 r2 d2 ks2 t1 ih => merge_tree_of_loop fm a2 n2 f2 r2 d2 ks2 t1 ih)
    (fun K => merge_loop_nil fm K)
    (fun c2 rest K pre c1 post hsp ih1 ih2 => merge_loop_matched fm c2 rest K pre c1 post hsp ih1 ih2)
    (fun c2 rest K hsp ih => merge_loop_unmatched fm c2 rest K hsp ih) S K

/-- The code of `instance_merge_tree` refines its functional model `mergeT`. -/
theorem merge_tree_refines (fm : FHeap → Nat → Nat → FHeap) (t2 t1 : ITree) :
    MergeTreeSpec fm t2 t1 := by
  obtain ⟨a2, n2, f2, r2, d2, ks2⟩ := t2
  exact merge_tree_of_loop fm a2 n2 f2 r2 d2 ks2 t1 (merge_loop_refines fm ks2 t1.kids)

/-! ## The functional model against the wording of the specification -/

theorem distinctNamesL_iff (ks : List ITree) :
    distinctNamesL ks = true ↔ ∀ k ∈ ks, distinctNames k = true := by
  induction ks with
  | nil => simp [distinctNamesL]
  | cons k ks ih => simp [distinctNamesL, ih]

theorem distinctNames_iff (t : ITree) :
    distinctNames t = true ↔ (t.kids.map ITree.name).Nodup ∧ distinctNamesL t.kids = true := by
  cases t; simp [distinctNames]

theorem distinctNamesL_append (A B : List ITree) :
    distinctNamesL (A ++ B) = true ↔ distinctNamesL A = true ∧ distinctNamesL B = true := by
  simp only [distinctNamesL_iff, List.mem_append]
  constructor
  · intro h; exact ⟨fun k hk => h k (Or.inl hk), fun k hk => h k (Or.inr hk)⟩
  · rintro ⟨h1, h2⟩ k (hk | hk)
    · exact h1 k hk
    · exact h2 k hk

theorem merge_spec_addr (t1 t2 : ITree) : (merge_spec t1 t2).addr = t1.addr := by
  cases t1; simp [merge_spec]

theorem merge_spec_name (t1 t2 : ITree) : (merge_spec t1 t2).name = t1.name := by
  cases t1; simp [merge_spec]

theorem merge_rest_addr (t1 t2 : ITree) : (merge_rest t1 t2).addr = t2.addr := by
  cases t2; simp [merge_rest]

theorem merge_rest_name (t1 t2 : ITree) : (merge_rest t1 t2).name = t2.name := by
  cases t2; simp [merge_rest]

theorem merge_spec_kids_append (A B S : List ITree) :
    merge_spec_kids (A ++ B) S = merge_spec_kids A S ++ merge_spec_kids B S := by
  induction A with
  | nil => simp [merge_spec_kids]
  | cons a A ih => simp [merge_spec_kids, ih]

theorem merge_spec_kids_names (K S : List ITree) :
    (merge_spec_kids K S).map ITree.name = K.map ITree.name := by
  induction K with
  | nil => simp [merge_spec_kids]
  | cons a A ih =>
    simp only [merge_spec_kids, List.map_cons, ih, List.cons.injEq, and_true]
    split
    · exact merge_spec_name _ _
    · rfl

theorem merge_spec_kids_addrs (K S : List ITree) :
    (merge_spec_kids K S).map ITree.addr = K.map ITree.addr := by
  induction K with
  | nil => simp [merge_spec_kids]
  | cons a A ih =>
    simp only [merge_spec_kids, List.map_cons, ih, List.cons.injEq, and_true]
    split
    · exact merge_spec_addr _ _
    · rfl

theorem find_name_none {n : Str} {S : List ITree} (h : n ∉ S.map ITree.name) :
    S.find? (fun c => decide (c.name = n)) = none := by
  rw [List.find?_eq_none]
  intro c hc
  simp only [decide_eq_true_eq]
  intro he
  exact h (he ▸ List.mem_map_of_mem _ hc)

theorem merge_spec_kids_cons_skip {P : List ITree} {c2 : ITree} (rest : List ITree)
    (h : c2.name ∉ P.map ITree.name) :
    merge_spec_kids P (c2 :: rest) = merge_spec_kids P rest := by
  induction P with
  | nil => simp [merge_spec_kids]
  | cons a A ih =>
    simp only [List.map_cons, List.mem_cons, not_or] at h
    simp only [merge_spec_kids, ih h.2, List.find?_cons, decide_eq_true_eq, h.1, decide_False]

theorem merge_rest_kids_congr {K K' : List ITree} (S : List ITree)
    (h : ∀ c2 ∈ S, K.find? (fun c1 => decide (c1.name = c2.name)) =
      K'.find? (fun c1 => decide (c1.name = c2.name))) :
    merge_rest_kids K S = merge_rest_kids K' S := by
  induction S with
  | nil => simp [merge_rest_kids]
  | cons c2 S ih =>
    simp only [merge_rest_kids, h c2 (List.mem_cons_self _ _),
      ih (fun c hc => h c (List.mem_cons_of_mem _ hc))]

theorem merge_rest_kids_names_sublist (K S : List ITree) :
    ((merge_rest_kids K S).map ITree.name).Sublist (S.map ITree.name) := by
  induction S with
  | nil => simp [merge_rest_kids]
  | cons c2 S ih =>
    simp only [merge_rest_kids]
    split
    · simp only [List.map_cons, merge_rest_name]
      exact ih.cons₂ _
    · exact ih.cons _

theorem find_split {K pre post : List ITree} {c1 : ITree} {n : Str}
    (hK : K = pre ++ c1 :: post) (hc1 : c1.name = n) (hpre : ∀ k ∈ pre, k.name ≠ n) :
    K.find? (fun c => decide (c.name = n)) = some c1 := by
  subst hK
  induction pre with
  | nil => simp [hc1]
  | cons a A ih =>
    have ha : a.name ≠ n := hpre a (List.mem_cons_self _ _)
    simp only [List.cons_append, List.find?_cons, ha, decide_False]
    exact ih (fun k hk => hpre k (List.mem_cons_of_mem _ hk))

theorem find_replace {pre post : List ITree} {c1 c1' : ITree} {n : Str}
    (h1 : c1.name ≠ n) (h1' : c1'.name ≠ n) :
    (pre ++ c1 :: post).find? (fun c => decide (c.name = n)) =
      (pre ++ c1' :: post).find? (fun c => decide (c.name = n)) := by
  simp [List.find?_append, List.find?_cons, h1, h1']

theorem find_concat_skip {K : List ITree} {c : ITree} {n : Str} (h : c.name ≠ n) :
    (K ++ [c]).find? (fun c => decide (c.name = n)) = K.find? (fun c => decide (c.name = n)) := by
  simp [List.find?_append, List.find?_cons, h]

theorem mergeKids_spec_nil (K : List ITree) (_hK : (K.map ITree.name).Nodup)
    (hdK : distinctNamesL K = true) :
    mergeKids [] K = (merge_spec_kids K [] ++
        ([] : List ITree).filter (fun c2 => decide (c2.name ∉ K.map ITree.name)),
      merge_rest_kids K []) ∧
    distinctNamesL (merge_spec_kids K []) = true ∧ distinctNamesL (merge_rest_kids K []) = true := by
  have hid : merge_spec_kids K [] = K := by
    induction K with
    | nil => simp [merge_spec_kids]
    | cons a A ih =>
      simp only [distinctNamesL, Bool.and_eq_true] at hdK
      simp [merge_spec_kids, ih (List.nodup_cons.1 (by simpa using _hK)).2 hdK.2]
  simp [mergeKids, merge_rest_kids, hid, hdK, distinctNamesL]

theorem mergeKids_spec_matched (c2 : ITree) (rest K pre : List ITree) (c1 : ITree)
    (post : List ITree) (hsp : splitAtName c2.name K = some (pre, c1, post))
    (ih1 : distinctNames c1 = true → distinctNames c2 = true →
      mergeT c2 c1 = (merge_spec c1 c2, merge_rest c1 c2) ∧
      distinctNames (merge_spec c1 c2) = true ∧ distinctNames (merge_rest c1 c2) = true)
    (ih2 : ((pre ++ (mergeT c2 c1).1 :: post).map ITree.name).Nodup →
      (rest.map ITree.name).Nodup → distinctNamesL (pre ++ (mergeT c2 c1).1 :: post) = true →
      distinctNamesL rest = true →
      mergeKids rest (pre ++ (mergeT c2 c1).1 :: post) =
        (merge_spec_kids (pre ++ (mergeT c2 c1).1 :: post) rest ++
          rest.filter (fun c => decide (c.name ∉ (pre ++ (mergeT c2 c1).1 :: post).map ITree.name)),
         merge_rest_kids (pre ++ (mergeT c2 c1).1 :: post) rest) ∧
      distinctNamesL (merge_spec_kids (pre ++ (mergeT c2 c1).1 :: post) rest) = true ∧
      distinctNamesL (merge_rest_kids (pre ++ (mergeT c2 c1).1 :: post) rest) = true)
    (hK : (K.map ITree.name).Nodup) (hS : ((c2 :: rest).map ITree.name).Nodup)
    (hdK : distinctNamesL K = true) (hdS : distinctNamesL (c2 :: rest) = true) :
    mergeKids (c2 :: rest) K =
      (merge_spec_kids K (c2 :: rest) ++
        (c2 :: rest).filter (fun c => decide (c.name ∉ K.map ITree.name)),
       merge_rest_kids K (c2 :: rest)) ∧
    distinctNamesL (merge_spec_kids K (c2 :: rest)) = true ∧
    distinctNamesL (merge_rest_kids K (c2 :: rest)) = true := by
  obtain ⟨hKeq, hn1, hpre⟩ := splitAtName_some hsp
  subst hKeq
  simp only [List.map_cons, List.nodup_cons] at hS
  obtain ⟨hc2rest, hrest⟩ := hS
  have hdK' := hdK
  rw [distinctNamesL_append] at hdK'
  simp only [distinctNamesL, Bool.and_eq_true] at hdK' hdS
  obtain ⟨hdpre, hdc1, hdpost⟩ := hdK'
  obtain ⟨hm, hd1, hd2⟩ := ih1 hdc1 hdS.1
  have hnames : (pre ++ (mergeT c2 c1).1 :: post).map ITree.name =
      (pre ++ c1 :: post).map ITree.name := by
    simp [mergeT_fst_name]
  have hprenm : c2.name ∉ pre.map ITree.name := by
    intro hmem
    obtain ⟨k, hk, hke⟩ := List.mem_map.1 hmem
    exact hpre k hk hke
  have hpostnm : c2.name ∉ post.map ITree.name := by
    intro hmem
    rw [List.map_append, List.map_cons, List.nodup_append] at hK
    have := (List.nodup_cons.1 hK.2.1).1
    exact this (hn1 ▸ hmem)
  have hdK2 : distinctNamesL (pre ++ (mergeT c2 c1).1 :: post) = true := by
    rw [distinctNamesL_append]
    simp only [distinctNamesL, Bool.and_eq_true]
    exact ⟨hdpre, by rw [hm]; exact hd1, hdpost⟩
  obtain ⟨e, hr1, hr2⟩ := ih2 (by rw [hnames]; exact hK) hrest hdK2 hdS.2
  -- the two sides of the first component
  have hspec : merge_spec_kids (pre ++ c1 :: post) (c2 :: rest) =
      merge_spec_kids (pre ++ (mergeT c2 c1).1 :: post) rest := by
    rw [merge_spec_kids_append, merge_spec_kids_append, merge_spec_kids_cons_skip rest hprenm]
    simp only [merge_spec_kids, merge_spec_kids_cons_skip rest hpostnm, List.find?_cons, hn1,
      decide_True, mergeT_fst_name, find_name_none hc2rest, hm, merge_spec_name]
  have hrestk : merge_rest_kids (pre ++ (mergeT c2 c1).1 :: post) rest =
      merge_rest_kids (pre ++ c1 :: post) rest := by
    refine merge_rest_kids_congr rest fun c hc => find_replace ?_ ?_
    · rw [mergeT_fst_name, hn1]
      intro he
      exact hc2rest (he ▸ List.mem_map_of_mem _ hc)
    · rw [hn1]
      intro he
      exact hc2rest (he ▸ List.mem_map_of_mem _ hc)
  have hfind : (pre ++ c1 :: post).find? (fun c => decide (c.name = c2.name)) = some c1 :=
    find_split rfl hn1 hpre
  have hc2in : c2.name ∈ (pre ++ c1 :: post).map ITree.name := by
    simp [hn1]
  refine ⟨?_, ?_, ?_⟩
  · have hfilt : (c2 :: rest).filter (fun c => decide (c.name ∉ (pre ++ c1 :: post).map ITree.name)) =
        rest.filter (fun c => decide (c.name ∉ (pre ++ c1 :: post).map ITree.name)) := by
      rw [List.filter_cons]
      simp only [hc2in, not_true_eq_false, decide_False, Bool.false_eq_true, if_false]
    rw [hfilt, hspec, ← hnames]
    simp only [mergeKids, hsp, e, merge_rest_kids, hfind, hrestk]
    simp only [hm]
  · rw [hspec]; exact hr1
  · simp only [merge_rest_kids, hfind, distinctNamesL, Bool.and_eq_true]
    exact ⟨hd2, hrestk ▸ hr2⟩

theorem mergeKids_spec_unmatched (c2 : ITree) (rest K : List ITree)
    (hsp : splitAtName c2.name K = none)
    (ih : ((K ++ [c2]).map ITree.name).Nodup → (rest.map ITree.name).Nodup →
      distinctNamesL (K ++ [c2]) = true → distinctNamesL rest = true →
      mergeKids rest (K ++ [c2]) =
        (merge_spec_kids (K ++ [c2]) rest ++
          rest.filter (fun c => decide (c.name ∉ (K ++ [c2]).map ITree.name)),
         merge_rest_kids (K ++ [c2]) rest) ∧
      distinctNamesL (merge_spec_kids (K ++ [c2]) rest) = true ∧
      distinctNamesL (merge_rest_kids (K ++ [c2]) rest) = true)
    (hK : (K.map ITree.name).Nodup) (hS : ((c2 :: rest).map ITree.name).Nodup)
    (hdK : distinctNamesL K = true) (hdS : distinctNamesL (c2 :: rest) = true) :
    mergeKids (c2 :: rest) K =
      (merge_spec_kids K (c2 :: rest) ++
        (c2 :: rest).filter (fun c => decide (c.name ∉ K.map ITree.name)),
       merge_rest_kids K (c2 :: rest)) ∧
    distinctNamesL (merge_spec_kids K (c2 :: rest)) = true ∧
    distinctNamesL (merge_rest_kids K (c2 :: rest)) = true := by
  have hnone := splitAtName_none hsp
  simp only [List.map_cons, List.nodup_cons] at hS
  obtain ⟨hc2rest, hrest⟩ := hS
  simp only [distinctNamesL, Bool.and_eq_true] at hdS
  have hc2K : c2.name ∉ K.map ITree.name := by
    intro hmem
    obtain ⟨k, hk, hke⟩ := List.mem_map.1 hmem
    exact hnone k hk hke
  have hKc : ((K ++ [c2]).map ITree.name).Nodup := by
    rw [List.map_append, List.nodup_append]
    refine ⟨hK, by simp, ?_⟩
    intro n hn1 hn2
    simp only [List.map_cons, List.map_nil, List.mem_singleton] at hn2
    exact hc2K (hn2 ▸ hn1)
  have hdKc : distinctNamesL (K ++ [c2]) = true := by
    rw [distinctNamesL_append]
    simp only [distinctNamesL, Bool.and_eq_true, and_true]
    exact ⟨hdK, hdS.1⟩
  obtain ⟨e, hr1, hr2⟩ := ih hKc hrest hdKc hdS.2
  have hspec : merge_spec_kids (K ++ [c2]) rest = merge_spec_kids K (c2 :: rest) ++ [c2] := by
    rw [merge_spec_kids_append, merge_spec_kids_cons_skip rest hc2K]
    simp only [merge_spec_kids, find_name_none hc2rest]
  have hfind : K.find? (fun c => decide (c.name = c2.name)) = none := by
    rw [List.find?_eq_none]
    intro c hc
    simpa using hnone c hc
  have hrestk : merge_rest_kids (K ++ [c2]) rest = merge_rest_kids K rest := by
    refine merge_rest_kids_congr rest fun c hc => find_concat_skip ?_
    intro he
    exact hc2rest (he ▸ List.mem_map_of_mem _ hc)
  have hfilt : rest.filter (fun c => decide (c.name ∉ (K ++ [c2]).map ITree.name)) =
      rest.filter (fun c => decide (c.name ∉ K.map ITree.name)) := by
    refine List.filter_congr fun c hc => ?_
    have hne : c.name ≠ c2.name := fun he => hc2rest (he ▸ List.mem_map_of_mem _ hc)
    simp [hne]
  refine ⟨?_, ?_, ?_⟩
  · simp only [mergeKids, hsp, e, hspec, hrestk, hfilt, merge_rest_kids, hfind,
      List.filter_cons, hc2K, not_false_eq_true, decide_True, if_true, List.append_assoc,
      List.singleton_append]
  · rw [hspec, distinctNamesL_append] at hr1
    exact hr1.1
  · simp only [merge_rest_kids, hfind]
    exact hrestk ▸ hr2

theorem mergeT_spec_of_kids (a2 : Nat) (n2 : Str) (f2 : Option Nat) (r2 : Option vector_width)
    (d2 : Bool) (ks2 : List ITree) (t1 : ITree)
    (ih : (t1.kids.map ITree.name).Nodup → (ks2.map ITree.name).Nodup →
      distinctNamesL t1.kids = true → distinctNamesL ks2 = true →
      mergeKids ks2 t1.kids =
        (merge_spec_kids t1.kids ks2 ++
          ks2.filter (fun c => decide (c.name ∉ t1.kids.map ITree.name)),
         merge_rest_kids t1.kids ks2) ∧
      distinctNamesL (merge_spec_kids t1.kids ks2) = true ∧
      distinctNamesL (merge_rest_kids t1.kids ks2) = true)
    (h1 : distinctNames t1 = true) (h2 : distinctNames (.node a2 n2 f2 r2 d2 ks2) = true) :
    mergeT (.node a2 n2 f2 r2 d2 ks2) t1 =
      (merge_spec t1 (.node a2 n2 f2 r2 d2 ks2), merge_rest t1 (.node a2 n2 f2 r2 d2 ks2)) ∧
    distinctNames (merge_spec t1 (.node a2 n2 f2 r2 d2 ks2)) = true ∧
    distinctNames (merge_rest t1 (.node a2 n2 f2 r2 d2 ks2)) = true := by
  obtain ⟨a1, n1, f1, r1, d1, K⟩ := t1
  rw [distinctNames_iff] at h1 h2
  simp only [ITree.kids_node] at h1 h2 ih
  obtain ⟨e, hr1, hr2⟩ := ih h1.1 h2.1 h1.2 h2.2
  refine ⟨?_, ?_, ?_⟩
  · simp [mergeT, merge_spec, merge_rest, e]
  · rw [distinctNames_iff]
    simp only [merge_spec, ITree.kids_node]
    refine ⟨?_, ?_⟩
    · rw [List.map_append, merge_spec_kids_names, List.nodup_append]
      refine ⟨h1.1, (h2.1.sublist ((List.filter_sublist _).map _)), ?_⟩
      intro n hn1 hn2
      obtain ⟨c, hc, hce⟩ := List.mem_map.1 hn2
      have := (List.mem_filter.1 hc).2
      simp only [decide_eq_true_eq] at this
      exact this (hce ▸ hn1)
    · rw [distinctNamesL_append]
      refine ⟨hr1, (distinctNamesL_iff _).2 fun k hk => ?_⟩
      exact (distinctNamesL_iff _).1 h2.2 k (List.mem_filter.1 hk).1
  · rw [distinctNames_iff]
    simp only [merge_rest, ITree.kids_node]
    exact ⟨h2.1.sublist (merge_rest_kids_names_sublist K ks2), hr2⟩

/-- On trees with pairwise distinct sibling names the loop of the functional
model computes what the specification says, and the results again have
pairwise distinct sibling names. -/
theorem mergeKids_eq_spec (S K : List ITree) (hK : (K.map ITree.name).Nodup)
    (hS : (S.map ITree.name).Nodup) (hdK : distinctNamesL K = true)
    (hdS : distinctNamesL S = true) :
    mergeKids S K =
      (merge_spec_kids K S ++ S.filter (fun c => decide (c.name ∉ K.map ITree.name)),
       merge_rest_kids K S) ∧
    distinctNamesL (merge_spec_kids K S) = true ∧
    distinctNamesL (merge_rest_kids K S) = true :=
  mergeKids.induct
    (fun t2 t1 => distinctNames t1 = true → distinctNames t2 = true →
      mergeT t2 t1 = (merge_spec t1 t2, merge_rest t1 t2) ∧
      distinctNames (merge_spec t1 t2) = true ∧ distinctNames (merge_rest t1 t2) = true)
    (fun S K => (K.map ITree.name).Nodup → (S.map ITree.name).Nodup →
      distinctNamesL K = true → distinctNamesL S = true →
      mergeKids S K =
        (merge_spec_kids K S ++ S.filter (fun c => decide (c.name ∉ K.map ITree.name)),
         merge_rest_kids K S) ∧
      distinctNamesL (merge_spec_kids K S) = true ∧
      distinctNamesL (merge_rest_kids K S) = true)
    (fun a2 n2 f2 r2 d2 ks2 t1 ih => mergeT_spec_of_kids a2 n2 f2 r2 d2 ks2 t1 ih)
    (fun K hK _ hdK _ => mergeKids_spec_nil K hK hdK)
    (fun c2 rest K pre c1 post hsp ih1 ih2 =>
      mergeKids_spec_matched c2 rest K pre c1 post hsp ih1 ih2)
    (fun c2 rest K hsp ih => mergeKids_spec_unmatched c2 rest K hsp ih) S K hK hS hdK hdS

/-- On trees with pairwise distinct sibling names the functional model of
`instance_merge_tree` computes what the specification says. -/
theorem mergeT_eq_spec (t1 t2 : ITree) (h1 : distinctNames t1 = true)
    (h2 : distinctNames t2 = true) :
    mergeT t2 t1 = (merge_spec t1 t2, merge_rest t1 t2) ∧
    distinctNames (merge_spec t1 t2) = true ∧ distinctNames (merge_rest t1 t2) = true := by
  obtain ⟨a2, n2, f2, r2, d2, ks2⟩ := t2
  refine mergeT_spec_of_kids a2 n2 f2 r2 d2 ks2 t1 ?_ h1 h2
  intro hK hS hdK hdS
  exact mergeKids_eq_spec ks2 t1.kids hK hS hdK hdS

/-! ## Reading child lists off a heap that represents a tree -/

theorem next_chain_of_Sat {h : Heap} {p : Option Nat} :
    ∀ (K : List ITree), Sat h (cellsL K p none) →
      next_chain h (headAddrOr none K) (K.map ITree.addr) := by
  intro K
  induction K with
  | nil => intro _; simp [next_chain]
  | cons k K ih =>
    intro hs
    simp only [cellsL, Sat_append] at hs
    refine ⟨rfl, _, Sat_root hs.1, ?_⟩
    exact ih hs.2

theorem cells_of_mem {h : Heap} {p e : Option Nat} {K : List ITree} {c : ITree}
    (hs : Sat h (cellsL K p e)) (hc : c ∈ K) : ∃ nx, Sat h (cells c p nx) := by
  induction K with
  | nil => simp at hc
  | cons k K ih =>
    simp only [cellsL, Sat_append] at hs
    rcases List.mem_cons.1 hc with rfl | hc
    · exact ⟨_, hs.1⟩
    · exact ih hs.2 hc

theorem child_list_wf_of_Sat {h : Heap} {t : ITree} {p nx : Option Nat}
    (hs : Sat h (cells t p nx)) : child_list_wf h t.addr (t.kids.map ITree.addr) := by
  refine ⟨_, Sat_root hs, ?_, ?_, next_chain_of_Sat _ (Sat_kids hs), ?_⟩
  · show headAddrOr none t.kids = (t.kids.map ITree.addr).head?
    cases t.kids <;> simp
  · simp [rootCell, lastAddr, List.getLast?_map]
  · intro c hc
    obtain ⟨k, hk, rfl⟩ := List.mem_map.1 hc
    obtain ⟨nx', hk'⟩ := cells_of_mem (Sat_kids hs) hk
    exact ⟨_, Sat_root hk', rfl⟩

theorem mergeKids_snd_addrs (S : List ITree) :
    ∀ (K : List ITree), (S.map ITree.name).Nodup →
      (mergeKids S K).2.map ITree.addr =
        (S.filter (fun c2 => decide (c2.name ∈ K.map ITree.name))).map ITree.addr := by
  induction S with
  | nil => intro K _; simp [mergeKids]
  | cons c2 rest ih =>
    intro K hS
    simp only [List.map_cons, List.nodup_cons] at hS
    obtain ⟨hc2rest, hrest⟩ := hS
    cases hsp : splitAtName c2.name K with
    | none =>
      have hnone := splitAtName_none hsp
      have hc2K : c2.name ∉ K.map ITree.name := by
        intro hmem
        obtain ⟨k, hk, hke⟩ := List.mem_map.1 hmem
        exact hnone k hk hke
      simp only [mergeKids, hsp, ih (K ++ [c2]) hrest, List.filter_cons, hc2K, decide_False,
        Bool.false_eq_true, if_false]
      congr 1
      refine List.filter_congr fun c hc => ?_
      have hne : c.name ≠ c2.name := fun he => hc2rest (he ▸ List.mem_map_of_mem _ hc)
      simp [hne]
    | some r =>
      obtain ⟨pre, c1, post⟩ := r
      obtain ⟨hKeq, hn1, -⟩ := splitAtName_some hsp
      have hc2K : c2.name ∈ K.map ITree.name := by
        subst hKeq; simp [hn1]
      have hnames : (pre ++ (mergeT c2 c1).1 :: post).map ITree.name = K.map ITree.name := by
        subst hKeq; simp [mergeT_fst_name]
      simp only [mergeKids, hsp, List.map_cons, mergeT_snd_addr,
        ih (pre ++ (mergeT c2 c1).1 :: post) hrest, List.filter_cons, hc2K, decide_True, if_true,
        hnames]

/-! ## Claims about `instance_merge_tree` -/

/-- C1. `instance_merge_tree(n1, n2)` on two separate trees in which the
children of every node have pairwise distinct names: the call returns, and
afterwards the heap holds under `n1` the tree `merge_spec t1 t2` that the
specification describes (children of `n2` with a namesake under `n1` merged
recursively into that namesake by the same rule).  In particular the child
list of `n1` consists of its original children in their original order
followed by the children of `n2` whose name matched no child of `n1`, in their
original order; each relinked child is the same node, at its old address with
its subtree unchanged, and its parent pointer is `n1`; no node is allocated. -/
theorem instance_merge_tree_children (fm : FHeap → Nat → Nat → FHeap) (w : World)
    (t1 t2 : ITree) (p1 nx1 p2 nx2 : Option Nat) (fuel : Nat)
    (h1 : Sat w.inst (cells t1 p1 nx1)) (h2 : Sat w.inst (cells t2 p2 nx2))
    (hnd : (t1.addrs ++ t2.addrs).Nodup)
    (hd1 : distinctNames t1 = true) (hd2 : distinctNames t2 = true)
    (hfuel : 2 * t1.size + 3 * t2.size ≤ fuel) :
    ∃ w', instance_merge_tree fm fuel w (some t1.addr) (some t2.addr) = .ok w' ∧
      Sat w'.inst (cells (merge_spec t1 t2) p1 nx1) ∧
      child_list_wf w'.inst t1.addr
        (t1.kids.map ITree.addr ++
          (t2.kids.filter (fun c2 => decide (c2.name ∉ t1.kids.map ITree.name))).map
            ITree.addr) ∧
      (∀ c2 ∈ t2.kids, c2.name ∉ t1.kids.map ITree.name →
        ∃ nx, Sat w'.inst (cells c2 (some t1.addr) nx)) ∧
      w'.brk = w.brk := by
  obtain ⟨w', hrun, hs1, -, -, hb, -⟩ :=
    merge_tree_refines fm t2 t1 w p1 nx1 p2 nx2 fuel h1 h2 hnd hfuel
  rw [(mergeT_eq_spec t1 t2 hd1 hd2).1] at hs1
  simp only at hs1
  have hkids : (merge_spec t1 t2).kids = merge_spec_kids t1.kids t2.kids ++
      t2.kids.filter (fun c2 => decide (c2.name ∉ t1.kids.map ITree.name)) := by
    cases t1; simp [merge_spec]
  refine ⟨w', hrun, hs1, ?_, ?_, hb⟩
  · have := child_list_wf_of_Sat hs1
    rw [merge_spec_addr, hkids, List.map_append, merge_spec_kids_addrs] at this
    exact this
  · intro c2 hc2 hn
    have hmem : c2 ∈ (merge_spec t1 t2).kids := by
      rw [hkids]
      refine List.mem_append_right _ (List.mem_filter.2 ⟨hc2, ?_⟩)
      simpa using hn
    have := cells_of_mem (Sat_kids hs1) hmem
    rw [merge_spec_addr] at this
    exact this

/-- C1, at the trees `top(a, b)` and `top(c, a(x), d)`. -/
theorem instance_merge_tree_children_witness :
    ∃ w', instance_merge_tree funit_merge_skip 30 merge_ex_world (some merge_ex_t1.addr)
        (some merge_ex_t2.addr) = .ok w' ∧
      Sat w'.inst (cells (merge_spec merge_ex_t1 merge_ex_t2) none none) ∧
      child_list_wf w'.inst merge_ex_t1.addr
        (merge_ex_t1.kids.map ITree.addr ++
          (merge_ex_t2.kids.filter
            (fun c2 => decide (c2.name ∉ merge_ex_t1.kids.map ITree.name))).map ITree.addr) ∧
      (∀ c2 ∈ merge_ex_t2.kids, c2.name ∉ merge_ex_t1.kids.map ITree.name →
        ∃ nx, Sat w'.inst (cells c2 (some merge_ex_t1.addr) nx)) ∧
      w'.brk = merge_ex_world.brk :=
  instance_merge_tree_children funit_merge_skip merge_ex_world merge_ex_t1 merge_ex_t2
    none none none none 30 (by decide) (by decide) (by decide) (by decide) (by decide)
    (by decide)

/-- C2, as amended: after `instance_merge_tree(n1, n2)` on two separate
trees the child lists of `n1` and of `n2` are both well formed (`child_head`
the first element, `child_tail` the last, the `next` chain runs through the
list and ends in `NULL`, head and tail `NULL` for the empty list), whatever the
names are; and when the children of `n2` have pairwise distinct names, the
child list of `n2` consists of exactly the children that had a same-named
counterpart under `n1`, in their original order. -/
theorem instance_merge_tree_child_lists (fm : FHeap → Nat → Nat → FHeap) (w : World)
    (t1 t2 : ITree) (p1 nx1 p2 nx2 : Option Nat) (fuel : Nat)
    (h1 : Sat w.inst (cells t1 p1 nx1)) (h2 : Sat w.inst (cells t2 p2 nx2))
    (hnd : (t1.addrs ++ t2.addrs).Nodup)
    (hfuel : 2 * t1.size + 3 * t2.size ≤ fuel) :
    ∃ w', instance_merge_tree fm fuel w (some t1.addr) (some t2.addr) = .ok w' ∧
      child_list_wf w'.inst t1.addr ((mergeT t2 t1).1.kids.map ITree.addr) ∧
      child_list_wf w'.inst t2.addr ((mergeT t2 t1).2.kids.map ITree.addr) ∧
      ((t2.kids.map ITree.name).Nodup →
        (mergeT t2 t1).2.kids.map ITree.addr =
          (t2.kids.filter (fun c2 => decide (c2.name ∈ t1.kids.map ITree.name))).map
            ITree.addr) := by
  obtain ⟨w', hrun, hs1, hs2, -, -, -⟩ :=
    merge_tree_refines fm t2 t1 w p1 nx1 p2 nx2 fuel h1 h2 hnd hfuel
  refine ⟨w', hrun, ?_, ?_, ?_⟩
  · have := child_list_wf_of_Sat hs1
    rwa [mergeT_fst_addr] at this
  · have := child_list_wf_of_Sat hs2
    rwa [mergeT_snd_addr] at this
  · intro hS
    have hk : (mergeT t2 t1).2.kids = (mergeKids t2.kids t1.kids).2 := by
      cases t2; simp [mergeT]
    rw [hk, mergeKids_snd_addrs _ _ hS]

/-- C2 as amended, at the trees `top(a, b)` and `top(c, a(x), d)`: the child
list of the first root is `a, b, c, d` (addresses 2, 3, 4, 6), that of the
second root is `a` (address 5). -/
theorem instance_merge_tree_child_lists_witness :
    (merge_ex_t2.kids.map ITree.name).Nodup ∧
    (mergeT merge_ex_t2 merge_ex_t1).1.kids.map ITree.addr = [2, 3, 4, 6] ∧
    (merge_ex_t2.kids.filter
      (fun c2 => decide (c2.name ∈ merge_ex_t1.kids.map ITree.name))).map ITree.addr = [5] ∧
    ∃ w', instance_merge_tree funit_merge_skip 30 merge_ex_world (some merge_ex_t1.addr)
        (some merge_ex_t2.addr) = .ok w' ∧
      child_list_wf w'.inst merge_ex_t1.addr
        ((mergeT merge_ex_t2 merge_ex_t1).1.kids.map ITree.addr) ∧
      child_list_wf w'.inst merge_ex_t2.addr
        ((mergeT merge_ex_t2 merge_ex_t1).2.kids.map ITree.addr) ∧
      (mergeT merge_ex_t2 merge_ex_t1).2.kids.map ITree.addr =
        (merge_ex_t2.kids.filter
          (fun c2 => decide (c2.name ∈ merge_ex_t1.kids.map ITree.name))).map ITree.addr := by
  refine ⟨by decide, by decide, by decide, ?_⟩
  obtain ⟨w', hrun, hw1, hw2, heq⟩ :=
    instance_merge_tree_child_lists funit_merge_skip merge_ex_world merge_ex_t1 merge_ex_t2
      none none none none 30 (by decide) (by decide) (by decide) (by decide)
  exact ⟨w', hrun, hw1, hw2, heq (by decide)⟩

/-- C2 as stated fails when two children of `n2` share a name: `n1` has no
child, `n2` has the children 2 and 3, both named `a`.  The first is relinked
under `n1`; the second then finds it there and stays under `n2`, although no
child of `n1` had its name before the merge. -/
theorem instance_merge_tree_child_lists_counterexample :
    IsTree dup_ex_world.inst dup_ex_t1 ∧ IsTree dup_ex_world.inst dup_ex_t2 ∧
    (dup_ex_t2.kids.filter
      (fun c2 => decide (c2.name ∈ dup_ex_t1.kids.map ITree.name))).map ITree.addr = [] ∧
    ∃ w', instance_merge_tree funit_merge_skip 10 dup_ex_world (some 0) (some 1) = .ok w' ∧
      child_list 10 w'.inst ((w'.inst 1).bind (fun n => n.child_head)) = some [3] ∧
      child_list 10 w'.inst ((w'.inst 0).bind (fun n => n.child_head)) = some [2] :=
  ⟨by decide, by decide, by decide, _, rfl, by decide, by decide⟩

/-! ## Searches over a heap that represents a tree -/

@[simp] theorem Except.error_bind {α β : Type} (e : Fault) (f : α → Except Fault β) :
    (Except.error e >>= f) = Except.error e := rfl

theorem child_search_spec {α : Type} (w : World) (rec : Option Nat → Except Fault (Option α))
    (p : Option Nat) :
    ∀ (K : List ITree) (fuel : Nat), Sat w.inst (cellsL K p none) → K.length + 1 ≤ fuel →
      child_search rec fuel w (headAddrOr none K) = searchL (fun c => rec (some c.addr)) K := by
  intro K
  induction K with
  | nil =>
    intro fuel _ hf
    obtain ⟨k, rfl⟩ : ∃ k, fuel = k + 1 := ⟨fuel - 1, by omega⟩
    simp [child_search, searchL]
  | cons t K ih =>
    intro fuel hs hf
    obtain ⟨k, rfl⟩ : ∃ k, fuel = k + 1 := ⟨fuel - 1, by simp at hf; omega⟩
    simp only [cellsL, Sat_append] at hs
    have hroot := Sat_root hs.1
    simp only [headAddrOr_cons, child_search, searchL]
    cases hr : rec (some t.addr) with
    | error e => rfl
    | ok r =>
      cases r with
      | some x => rfl
      | none =>
        simp only [Except.ok_bind, World.load_eq hroot]
        exact ih k hs.2 (by simp at hf; omega)

theorem searchL_congr {α : Type} {r r' : ITree → Except Fault (Option α)} {K : List ITree}
    (h : ∀ c ∈ K, r c = r' c) : searchL r K = searchL r' K := by
  induction K with
  | nil => rfl
  | cons c K ih =>
    simp only [searchL, h c (List.mem_cons_self _ _),
      ih (fun x hx => h x (List.mem_cons_of_mem _ hx))]

theorem findSigL_eq_searchL (fh : FHeap) (id : Int) (K : List ITree) :
    findSigL fh id K = searchL (findSigT fh id) K := by
  induction K with
  | nil => rfl
  | cons c K ih =>
    cases hc : findSigT fh id c with
    | error e => simp [findSigL, searchL, hc]
    | ok r => cases r <;> simp [findSigL, searchL, hc, ih]

theorem ITree.size_le_sizeL {c : ITree} {K : List ITree} (h : c ∈ K) :
    c.size ≤ ITree.sizeL K := by
  induction K with
  | nil => simp at h
  | cons k K ih =>
    simp only [ITree.sizeL]
    rcases List.mem_cons.1 h with rfl | h
    · omega
    · have := ih h; omega

/-- The code of `instance_find_signal_by_exclusion_id` refines its functional model. -/
theorem find_signal_refines (w : World) (id : Int) :
    ∀ (n : Nat) (t : ITree) (p nx : Option Nat) (fuel : Nat), t.size ≤ n →
      Sat w.inst (cells t p nx) → t.size + 1 ≤ fuel →
      instance_find_signal_by_exclusion_id fuel w (some t.addr) id = findSigT w.funit id t := by
  intro n
  induction n with
  | zero =>
    intro t _ _ _ hn
    have := t.size_pos
    omega
  | succ n ih =>
    intro t p nx fuel hn hs hf
    obtain ⟨k, rfl⟩ : ∃ k, fuel = k + 1 := ⟨fuel - 1, by omega⟩
    obtain ⟨a, nm, fu, rg, nd, ks⟩ := t
    have hroot := Sat_root hs
    have hkids := Sat_kids hs
    simp only [ITree.addr_node, ITree.kids_node, ITree.size] at hroot hkids hn hf
    have hlen := ITree.length_le_sizeL ks
    have hloop : child_search (fun c => instance_find_signal_by_exclusion_id k w c id) k w
        (headAddrOr none ks) = findSigL w.funit id ks := by
      rw [child_search_spec w _ (some a) ks k hkids (by omega), findSigL_eq_searchL]
      refine searchL_congr fun c hc => ?_
      obtain ⟨nx', hc'⟩ := cells_of_mem hkids hc
      have := ITree.size_le_sizeL hc
      exact ih c (some a) nx' k (by omega) hc' (by omega)
    simp only [ITree.addr_node, instance_find_signal_by_exclusion_id, World.load_eq hroot,
      Except.ok_bind, findSigT]
    cases fu with
    | none => simpa [rootCell] using hloop
    | some f =>
      simp only [rootCell, ITree.funit_node, ITree.kids_node]
      cases hfu : w.funit f with
      | none => simp [World.loadF, hfu]
      | some u =>
        simp only [World.loadF, hfu, Except.ok_bind]
        by_cases hr : sig_in_range u id = true
        · simp only [hr, if_true, Except.pure_eq_ok, Except.ok_bind]
        · simp only [hr, if_false, Except.pure_eq_ok, Except.ok_bind]
          simpa using hloop

/-! ## Exclusion-id lookup of signals -/

theorem sig_link_find_mem {id : Int} :
    ∀ {l : List vsignal} {s : vsignal}, l.Pairwise (fun a b => a.id < b.id) → s ∈ l →
      s.id = id → sig_link_find id l = some s := by
  intro l
  induction l with
  | nil => intro s _ hs; simp at hs
  | cons a l ih =>
    intro s hp hs hid
    rw [List.pairwise_cons] at hp
    rcases List.mem_cons.1 hs with rfl | hs
    · simp [sig_link_find, hid]
    · have hlt := hp.1 s hs
      have hne : a.id ≠ id := by omega
      simp only [sig_link_find, hne, ne_eq, not_false_eq_true, if_true]
      exact ih hp.2 hs hid

theorem sig_in_range_of_mem {u : func_unit} {s : vsignal}
    (hp : u.sigs.Pairwise (fun a b => a.id < b.id)) (hs : s ∈ u.sigs) :
    sig_in_range u s.id = true := by
  unfold sig_in_range
  cases hl : u.sigs with
  | nil => rw [hl] at hs; simp at hs
  | cons a l =>
    rw [hl] at hs hp
    have hlast : ∃ tl, (a :: l).getLast? = some tl ∧ s.id ≤ tl.id := by
      rcases List.eq_nil_or_concat (a :: l) with h | ⟨init, tl, h⟩
      · simp at h
      · rw [List.concat_eq_append] at h
        rw [h] at hs hp ⊢
        refine ⟨tl, by simp, ?_⟩
        rw [List.pairwise_append] at hp
        rcases List.mem_append.1 hs with hs | hs
        · have := hp.2.2 s hs tl (by simp); omega
        · simp only [List.mem_singleton] at hs; rw [hs]
    obtain ⟨tl, htl, hle⟩ := hlast
    have hhd : a.id ≤ s.id := by
      rw [List.pairwise_cons] at hp
      rcases List.mem_cons.1 hs with rfl | hs
      · exact le_refl _
      · have := hp.1 s hs; omega
    simp only [List.head?_cons, htl, decide_eq_true_eq]
    exact ⟨hhd, hle⟩

theorem sig_in_range_bounds {u : func_unit} {id : Int} (h : sig_in_range u id = true) :
    ∃ hd tl, u.sigs.head? = some hd ∧ u.sigs.getLast? = some tl ∧ hd.id ≤ id ∧ id ≤ tl.id := by
  unfold sig_in_range at h
  cases hh : u.sigs.head? with
  | none => simp [hh] at h
  | some hd =>
    cases ht : u.sigs.getLast? with
    | none => simp [hh, ht] at h
    | some tl =>
      simp only [hh, ht, decide_eq_true_eq] at h
      exact ⟨hd, tl, rfl, rfl, h.1, h.2⟩

mutual
theorem findSigT_owner (fh : FHeap) (id : Int) (g : Nat) (v : func_unit) (s : vsignal)
    (hv : fh g = some v) (hin : sig_in_range v id = true)
    (hfind : sig_link_find id v.sigs = some s) :
    ∀ (t : ITree), (∀ f ∈ funitsOf t, (fh f).isSome = true) →
      (∀ f ∈ funitsOf t, f ≠ g → ∀ u, fh f = some u → sig_in_range u id = false) →
      findSigT fh id t = .ok (if g ∈ funitsOf t then some (s, g) else none)
  | .node a nm fu rg nd ks, hF, hO => by
    cases fu with
    | none =>
      simp only [funitsOf, Option.toList, List.nil_append] at hF hO ⊢
      simp only [findSigT]
      exact findSigL_owner fh id g v s hv hin hfind ks hF hO
    | some f =>
      simp only [funitsOf, Option.toList, List.singleton_append, List.mem_cons] at hF hO ⊢
      have hsome := hF f (Or.inl rfl)
      obtain ⟨u, hu⟩ := Option.isSome_iff_exists.1 hsome
      have ih := findSigL_owner fh id g v s hv hin hfind ks
        (fun x hx => hF x (Or.inr hx)) (fun x hx => hO x (Or.inr hx))
      by_cases hfg : f = g
      · subst hfg
        rw [hv] at hu
        cases hu
        simp [findSigT, hv, hin, hfind]
      · have hno := hO f (Or.inl rfl) hfg u hu
        simp only [findSigT, hu, hno, Bool.false_eq_true, if_false, ih]
        have : (g = f ∨ g ∈ funitsOfL ks) ↔ g ∈ funitsOfL ks := by
          constructor
          · rintro (h | h)
            · exact absurd h.symm hfg
            · exact h
          · exact Or.inr
        simp only [this]
theorem findSigL_owner (fh : FHeap) (id : Int) (g : Nat) (v : func_unit) (s : vsignal)
    (hv : fh g = some v) (hin : sig_in_range v id = true)
    (hfind : sig_link_find id v.sigs = some s) :
    ∀ (ks : List ITree), (∀ f ∈ funitsOfL ks, (fh f).isSome = true) →
      (∀ f ∈ funitsOfL ks, f ≠ g → ∀ u, fh f = some u → sig_in_range u id = false) →
      findSigL fh id ks = .ok (if g ∈ funitsOfL ks then some (s, g) else none)
  | [], _, _ => by simp [findSigL, funitsOfL]
  | c :: cs, hF, hO => by
    simp only [funitsOfL, List.mem_append] at hF hO ⊢
    have ih1 := findSigT_owner fh id g v s hv hin hfind c
      (fun x hx => hF x (Or.inl hx)) (fun x hx => hO x (Or.inl hx))
    have ih2 := findSigL_owner fh id g v s hv hin hfind cs
      (fun x hx => hF x (Or.inr hx)) (fun x hx => hO x (Or.inr hx))
    by_cases hc : g ∈ funitsOf c
    · simp [findSigL, ih1, hc]
    · simp [findSigL, ih1, ih2, hc]
end

/-- C4. On an instance tree in which every functional unit's signal list has
strictly increasing ids and the id ranges of distinct functional units do not
overlap, `instance_find_signal_by_exclusion_id(root, id)` returns, for the id
of any signal `s` of any functional unit `g` of the tree, exactly `s`, and
stores `g` in `*found_funit`. -/
theorem instance_find_signal_by_exclusion_id_found (w : World) (t : ITree)
    (p nx : Option Nat) (fuel : Nat) (g : Nat) (v : func_unit) (s : vsignal)
    (hs : Sat w.inst (cells t p nx)) (hfuel : t.size + 1 ≤ fuel)
    (hinc : sig_ids_increasing w.funit (funitsOf t))
    (hdis : sig_ranges_disjoint w.funit (funitsOf t))
    (hg : g ∈ funitsOf t) (hv : w.funit g = some v) (hsv : s ∈ v.sigs) :
    instance_find_signal_by_exclusion_id fuel w (some t.addr) s.id = .ok (some (s, g)) := by
  rw [find_signal_refines w s.id t.size t p nx fuel (le_refl _) hs hfuel]
  have hpv := (hinc g hg).2 v hv
  have hin := sig_in_range_of_mem hpv hsv
  have hfind := sig_link_find_mem hpv hsv rfl
  have := findSigT_owner w.funit s.id g v s hv hin hfind t (fun f hf => (hinc f hf).1) ?_
  · simpa [hg] using this
  · intro f hf hfg u hu
    by_contra hcon
    have hcon' : sig_in_range u s.id = true := by simpa using hcon
    obtain ⟨a, b, ha, hb, hab1, hab2⟩ := sig_in_range_bounds hcon'
    obtain ⟨c, d, hc, hd, hcd1, hcd2⟩ := sig_in_range_bounds hin
    have := hdis f hf g hg hfg u hu v hv a ha b hb c hc d hd
    omega

/-- C4 on the tree `top(gap(leaf), other)`: id 4 belongs to the second signal
of the functional unit of `leaf`. -/
theorem instance_find_signal_by_exclusion_id_found_witness :
    instance_find_signal_by_exclusion_id 10 lookup_ex_world (some lookup_ex_tree.addr)
      (sig_ex 4).id = .ok (some (sig_ex 4, 1)) :=
  instance_find_signal_by_exclusion_id_found lookup_ex_world lookup_ex_tree none none 10 1
    ⟨"m1".toList, none, [sig_ex 3, sig_ex 4, sig_ex 5], [exp_ex 2, exp_ex 3], 0, []⟩ (sig_ex 4)
    (by decide) (by decide) (by decide) (by decide) (by decide) rfl (by decide)

/-- C5 fails on the code.  With the ids 1 and 3 in one functional unit, the
lookup of the id 2, which no signal and no expression carries, runs off the end
of the list and follows the null link inside the assertion, in the signal
lookup and in the expression lookup.  On a tree with a placeholder instance the
expression lookup fails its assertion `root->funit != NULL`, for an id that no
expression carries (7) and even for one that an expression below the
placeholder carries (1); the signal lookup tests for the missing functional
unit and returns the null result there. -/
theorem exclusion_id_lookup_faults :
    instance_find_signal_by_exclusion_id 10 gap_ex_world (some 0) 2 = .error .null_deref ∧
    instance_find_expression_by_exclusion_id 10 gap_ex_world (some 0) 2 = .error .null_deref ∧
    instance_find_expression_by_exclusion_id 10 placeholder_ex_world (some 0) 7 =
      .error .assertion ∧
    instance_find_expression_by_exclusion_id 10 placeholder_ex_world (some 0) 1 =
      .error .assertion ∧
    instance_find_signal_by_exclusion_id 10 placeholder_ex_world (some 0) 7 = .ok none := by
  decide

/-! ## `instance_merge_two_trees`: control flow -/

theorem Except.bind_eq_ok {α β : Type} {x : Except Fault α} {f : α → Except Fault β} {b : β}
    (h : (x >>= f) = .ok b) : ∃ a, x = .ok a ∧ f a = .ok b := by
  cases x with
  | error e => simp at h
  | ok a => exact ⟨a, rfl, h⟩

theorem get_leading_hierarchy_loop_some :
    ∀ (fuel : Nat) (w : World) (root : Option Nat) (s : Str) (r : Option Str × Option Nat),
      instance_get_leading_hierarchy_loop fuel w root (some s) = .ok r → ∃ lh, r.1 = some lh := by
  intro fuel
  induction fuel with
  | zero => intro w root s r h; simp [instance_get_leading_hierarchy_loop] at h
  | succ k ih =>
    intro w root s r h
    simp only [instance_get_leading_hierarchy_loop] at h
    obtain ⟨n, -, h⟩ := Except.bind_eq_ok h
    obtain ⟨lh, hlh, h⟩ := Except.bind_eq_ok h
    obtain ⟨c, -, hlh⟩ := Except.bind_eq_ok hlh
    simp only [Except.pure_eq_ok, Except.ok.injEq] at hlh
    subst hlh
    cases hch : n.child_head with
    | none =>
      simp only [hch, Except.pure_eq_ok, Except.ok.injEq] at h
      subst h
      exact ⟨_, rfl⟩
    | some c' =>
      simp only [hch] at h
      obtain ⟨cn, -, h⟩ := Except.bind_eq_ok h
      split at h
      · exact ih w _ _ r h
      · simp only [Except.pure_eq_ok, Except.ok.injEq] at h
        subst h
        exact ⟨_, rfl⟩

theorem get_leading_hierarchy_some {fuel : Nat} {w : World} {root : Option Nat} {s : Str}
    {r : Option Str × Option Nat}
    (h : instance_get_leading_hierarchy fuel w root (some s) = .ok r) : ∃ lh, r.1 = some lh := by
  simp only [instance_get_leading_hierarchy] at h
  obtain ⟨n, -, h⟩ := Except.bind_eq_ok h
  split at h
  · exact get_leading_hierarchy_loop_some fuel w root _ r h
  · simp only [Except.pure_eq_ok, Except.ok.injEq, Option.map_some'] at h
    subst h
    exact ⟨_, rfl⟩

/-! ## `instance_find_scope` and `instance_gen_scope` on a heap that represents a tree -/

theorem instance_compare_rootCell (X : Externals) (s : Str) (t : ITree) (p nx : Option Nat) :
    instance_compare X s (rootCell t p nx) = instance_compare X s (rootCell t none none) := rfl

theorem findScopeL_eq_searchL (X : Externals) (fh : FHeap) (rm : Bool) (K : List ITree)
    (scope : Str) :
    findScopeL X fh rm K scope = searchL (fun c => findScopeT X fh rm c scope) K := by
  induction K with
  | nil => rfl
  | cons c K ih =>
    cases hc : findScopeT X fh rm c scope with
    | error e => simp [findScopeL, searchL, hc]
    | ok r => cases r <;> simp [findScopeL, searchL, hc, ih]

/-- The code of `instance_find_scope` refines its functional model. -/
theorem find_scope_refines (X : Externals) (w : World) (rm : Bool) :
    ∀ (n : Nat) (t : ITree) (p nx : Option Nat) (fuel : Nat) (scope : Str), t.size ≤ n →
      Sat w.inst (cells t p nx) → t.size + 1 ≤ fuel →
      instance_find_scope X fuel w (some t.addr) scope rm = findScopeT X w.funit rm t scope := by
  intro n
  induction n with
  | zero =>
    intro t _ _ _ _ hn
    have := t.size_pos
    omega
  | succ n ih =>
    intro t p nx fuel scope hn hs hf
    obtain ⟨k, rfl⟩ : ∃ k, fuel = k + 1 := ⟨fuel - 1, by omega⟩
    obtain ⟨a, nm, fu, rg, nd, ks⟩ := t
    have hroot := Sat_root hs
    have hkids := Sat_kids hs
    simp only [ITree.addr_node, ITree.kids_node, ITree.size] at hroot hkids hn hf
    have hlen := ITree.length_le_sizeL ks
    have hloop : ∀ sc, child_search (fun c => instance_find_scope X k w c sc rm) k w
        (headAddrOr none ks) = findScopeL X w.funit rm ks sc := by
      intro sc
      rw [child_search_spec w _ (some a) ks k hkids (by omega), findScopeL_eq_searchL]
      refine searchL_congr fun c hc => ?_
      obtain ⟨nx', hc'⟩ := cells_of_mem hkids hc
      have := ITree.size_le_sizeL hc
      exact ih c (some a) nx' k sc (by omega) hc' (by omega)
    simp only [ITree.addr_node, instance_find_scope, World.load_eq hroot, Except.ok_bind,
      findScopeT]
    have hc : instance_compare X (scope_extract_front scope).1
        (rootCell (.node a nm fu rg nd ks) p nx) =
        instance_compare X (scope_extract_front scope).1
        (rootCell (.node a nm fu rg nd ks) none none) := rfl
    simp only [rootCell, ITree.name_node, ITree.funit_node, ITree.kids_node] at hc ⊢
    split
    · exact hloop scope
    · rw [hc]
      cases instance_compare X (scope_extract_front scope).1
          { name := nm, funit := fu, range := (ITree.node a nm fu rg nd ks).range,
            name_diff := (ITree.node a nm fu rg nd ks).name_diff, parent := none,
            child_head := headAddrOr none ks, child_tail := lastAddr ks, next := none } with
      | error e => rfl
      | ok b =>
        cases b with
        | false => simp
        | true =>
          simp only [Except.ok_bind, if_true]
          split
          · rfl
          · exact hloop _

theorem PathSat_of_isPath {h : Heap} :
    ∀ (rest : List ITree) (t : ITree) (p nx : Option Nat), Sat h (cells t p nx) →
      IsPath (t :: rest) → PathSat h p (t :: rest) := by
  intro rest
  induction rest with
  | nil => intro t p nx hs _; exact ⟨⟨nx, hs⟩, trivial⟩
  | cons y rest ih =>
    intro t p nx hs hp
    obtain ⟨hy, hp'⟩ := hp
    obtain ⟨nx', hy'⟩ := cells_of_mem (Sat_kids hs) hy
    exact ⟨⟨nx, hs⟩, ih y (some t.addr) nx' hy' hp'⟩

theorem PathSat_concat {h : Heap} :
    ∀ (Q : List ITree) (p : Option Nat) (t : ITree), PathSat h p (Q ++ [t]) →
      PathSat h p Q ∧ ∃ nx, Sat h (cells t ((lastAddr Q).or p) nx) := by
  intro Q
  induction Q with
  | nil =>
    intro p t hps
    exact ⟨trivial, by simpa [PathSat] using hps.1⟩
  | cons q Q ih =>
    intro p t hps
    obtain ⟨hq, hrest⟩ := hps
    obtain ⟨h1, nx, h2⟩ := ih (some q.addr) t hrest
    refine ⟨⟨hq, h1⟩, nx, ?_⟩
    have : (lastAddr (q :: Q)).or p = (lastAddr Q).or (some q.addr) := by
      cases Q with
      | nil => simp
      | cons q' Q' =>
        rw [lastAddr_cons_cons]
        have hsome : ∃ x, lastAddr (q' :: Q') = some x := by
          rcases List.eq_nil_or_concat (q' :: Q') with h | ⟨L, b, h⟩
          · simp at h
          · rw [List.concat_eq_append] at h
            rw [h]; exact ⟨_, lastAddr_concat _ _⟩
        obtain ⟨x, hx⟩ := hsome
        simp [hx]
    rw [this]
    exact h2

theorem gen_scope_names_concat (X : Externals) (fl : Bool) (ns : List Str) (n : Str) :
    gen_scope_names X fl (ns ++ [n]) = gen_scope_step X fl (gen_scope_names X fl ns) n := by
  simp [gen_scope_names, List.foldl_append]

/-- The code of `instance_gen_scope`, started with an empty buffer at the end
of a path that begins at a root, builds `gen_scope_names` of the names along
the path. -/
theorem gen_scope_spec (X : Externals) (w : World) (fl : Bool) :
    ∀ (Q : List ITree) (fuel : Nat), PathSat w.inst none Q → Q.length + 1 ≤ fuel →
      instance_gen_scope X fuel w [] (lastAddr Q) fl =
        .ok (gen_scope_names X fl (Q.map ITree.name)) := by
  intro Q
  induction Q using List.reverseRecOn with
  | nil =>
    intro fuel _ hf
    obtain ⟨k, rfl⟩ : ∃ k, fuel = k + 1 := ⟨fuel - 1, by omega⟩
    simp [instance_gen_scope, gen_scope_names]
  | append_singleton Q t ih =>
    intro fuel hps hf
    obtain ⟨k, rfl⟩ : ∃ k, fuel = k + 1 := ⟨fuel - 1, by omega⟩
    obtain ⟨hQ, nx, ht⟩ := PathSat_concat Q none t hps
    have hroot := Sat_root ht
    have hpar : (lastAddr Q).or none = lastAddr Q := by cases lastAddr Q <;> rfl
    rw [hpar] at hroot
    have ih' := ih k hQ (by simp at hf; omega)
    simp only [lastAddr_concat, instance_gen_scope, World.load_eq hroot, Except.ok_bind,
      List.map_append, List.map_cons, List.map_nil, gen_scope_names_concat]
    simp only [rootCell] at ih' ⊢
    rw [ih']
    simp only [Except.ok_bind, gen_scope_step]
    split
    · split <;> rfl
    · rfl

/-! ## Scope strings: joining and splitting -/

theorem takeWhile_append_stop {α : Type} (p : α → Bool) (l : List α) (a : α) (r : List α)
    (hl : ∀ x ∈ l, p x = true) (ha : p a = false) :
    (l ++ a :: r).takeWhile p = l := by
  induction l with
  | nil => simp [List.takeWhile, ha]
  | cons x l ih =>
    have hx := hl x (List.mem_cons_self _ _)
    rw [List.cons_append, List.takeWhile_cons, hx, if_pos rfl,
      ih (fun y hy => hl y (List.mem_cons_of_mem _ hy))]

theorem dropWhile_append_stop {α : Type} (p : α → Bool) (l : List α) (a : α) (r : List α)
    (hl : ∀ x ∈ l, p x = true) (ha : p a = false) :
    (l ++ a :: r).dropWhile p = a :: r := by
  induction l with
  | nil => simp [List.dropWhile, ha]
  | cons x l ih =>
    have hx := hl x (List.mem_cons_self _ _)
    rw [List.cons_append, List.dropWhile_cons, hx, if_pos rfl,
      ih (fun y hy => hl y (List.mem_cons_of_mem _ hy))]

theorem takeWhile_all {α : Type} (p : α → Bool) (l : List α) (hl : ∀ x ∈ l, p x = true) :
    l.takeWhile p = l := by
  induction l with
  | nil => rfl
  | cons x l ih =>
    simp only [List.takeWhile, hl x (List.mem_cons_self _ _)]
    rw [ih (fun y hy => hl y (List.mem_cons_of_mem _ hy))]

theorem dropWhile_all {α : Type} (p : α → Bool) (l : List α) (hl : ∀ x ∈ l, p x = true) :
    l.dropWhile p = [] := by
  induction l with
  | nil => rfl
  | cons x l ih =>
    simp only [List.dropWhile, hl x (List.mem_cons_self _ _)]
    exact ih (fun y hy => hl y (List.mem_cons_of_mem _ hy))

theorem not_dot_of_not_mem {n : Str} (h : '.' ∉ n) : ∀ x ∈ n, decide (x ≠ '.') = true := by
  intro x hx
  simp only [decide_eq_true_eq]
  intro he
  exact h (he ▸ hx)

theorem scope_extract_front_join (n : Str) (rest : List Str) (hdot : '.' ∉ n) :
    scope_extract_front (joinDots (n :: rest)) = (n, joinDots rest) := by
  cases rest with
  | nil =>
    simp only [joinDots, scope_extract_front]
    rw [takeWhile_all _ n (not_dot_of_not_mem hdot), dropWhile_all _ n (not_dot_of_not_mem hdot)]
    rfl
  | cons m r =>
    simp only [joinDots, scope_extract_front]
    rw [takeWhile_append_stop _ n '.' _ (not_dot_of_not_mem hdot) (by simp),
      dropWhile_append_stop _ n '.' _ (not_dot_of_not_mem hdot) (by simp)]
    rfl

theorem joinDots_ne_nil {n : Str} (rest : List Str) (hn : n ≠ []) : joinDots (n :: rest) ≠ [] := by
  cases rest with
  | nil => simpa [joinDots] using hn
  | cons m r => simp [joinDots, hn]

theorem joinDots_concat (A : List Str) (a n : Str) :
    joinDots ((a :: A) ++ [n]) = joinDots (a :: A) ++ '.' :: n := by
  induction A generalizing a with
  | nil => simp [joinDots]
  | cons b A ih =>
    have := ih b
    simp only [List.cons_append] at this ⊢
    simp only [joinDots, this, List.append_assoc, List.cons_append]

theorem gen_scope_foldl (X : Externals) (b : Bool) :
    ∀ (P : List ITree) (A : List Str), (∀ a ∈ A, a ≠ []) →
      (∀ n ∈ P, dropped X b n = false → n.name ≠ []) →
      (P.map ITree.name).foldl (gen_scope_step X b) (joinDots A) =
        joinDots (A ++ keptNames X b P) := by
  intro P
  induction P with
  | nil => intro A _ _; simp [keptNames]
  | cons t P ih =>
    intro A hA hP
    simp only [List.map_cons, List.foldl_cons]
    by_cases hd : dropped X b t = true
    · have hstep : gen_scope_step X b (joinDots A) t.name = joinDots A := by
        simp only [dropped, Bool.and_eq_true] at hd
        simp [gen_scope_step, hd.1, hd.2]
      rw [hstep, ih A hA (fun n hn => hP n (List.mem_cons_of_mem _ hn))]
      simp [keptNames, hd]
    · have hd' : dropped X b t = false := by simpa using hd
      have hne := hP t (List.mem_cons_self _ _) hd'
      have hcond : (!b || !X.db_is_unnamed_scope t.name) = true := by
        simp only [dropped] at hd'
        cases b <;> simp_all
      have hstep : gen_scope_step X b (joinDots A) t.name = joinDots (A ++ [t.name]) := by
        simp only [gen_scope_step, hcond, if_true]
        cases A with
        | nil => simp [joinDots]
        | cons a A =>
          have : joinDots (a :: A) ≠ [] := joinDots_ne_nil A (hA a (List.mem_cons_self _ _))
          simp only [this, ne_eq, not_false_eq_true, if_true, joinDots_concat,
            List.append_assoc, List.singleton_append]
      rw [hstep, ih (A ++ [t.name]) ?_ (fun n hn => hP n (List.mem_cons_of_mem _ hn))]
      · simp [keptNames, hd']
      · intro a ha
        rcases List.mem_append.1 ha with ha | ha
        · exact hA a ha
        · simp only [List.mem_singleton] at ha; rw [ha]; exact hne

theorem gen_scope_names_eq_join (X : Externals) (b : Bool) (P : List ITree)
    (hP : ∀ n ∈ P, dropped X b n = false → n.name ≠ []) :
    gen_scope_names X b (P.map ITree.name) = joinDots (keptNames X b P) := by
  have := gen_scope_foldl X b P [] (by simp) hP
  simpa [gen_scope_names, joinDots] using this

/-! ## Nodes and flattened children -/

theorem nodesOf_eq (t : ITree) : nodesOf t = t :: nodesOfL t.kids := by
  cases t; simp [nodesOf]

theorem mem_nodesOf_self (t : ITree) : t ∈ nodesOf t := by
  rw [nodesOf_eq]; exact List.mem_cons_self _ _

theorem nodesOf_subset_nodesOfL {c : ITree} {ks : List ITree} (hc : c ∈ ks) :
    ∀ n ∈ nodesOf c, n ∈ nodesOfL ks := by
  induction ks with
  | nil => simp at hc
  | cons k ks ih =>
    intro n hn
    simp only [nodesOfL, List.mem_append]
    rcases List.mem_cons.1 hc with rfl | hc
    · exact Or.inl hn
    · exact Or.inr (ih hc n hn)

theorem nodesOf_subset_of_kid {c t : ITree} (hc : c ∈ t.kids) :
    ∀ n ∈ nodesOf c, n ∈ nodesOf t := by
  intro n hn
  rw [nodesOf_eq]
  exact List.mem_cons_of_mem _ (nodesOf_subset_nodesOfL hc n hn)

theorem flatKids_eq (X : Externals) (b : Bool) (t : ITree) :
    flatKids X b t = flatKidsL X b t.kids := by
  cases t; simp [flatKids]

theorem flatKidsL_cons (X : Externals) (b : Bool) (c : ITree) (cs : List ITree) :
    flatKidsL X b (c :: cs) = flat1 X b c ++ flatKidsL X b cs := by
  simp [flatKidsL, flat1]

theorem flatKidsL_append (X : Externals) (b : Bool) (A B : List ITree) :
    flatKidsL X b (A ++ B) = flatKidsL X b A ++ flatKidsL X b B := by
  induction A with
  | nil => simp [flatKidsL]
  | cons a A ih => simp [flatKidsL_cons, ih]

theorem flat1_subset {X : Externals} {b : Bool} {c : ITree} {ks : List ITree} (hc : c ∈ ks) :
    ∀ z ∈ flat1 X b c, z ∈ flatKidsL X b ks := by
  induction ks with
  | nil => simp at hc
  | cons k ks ih =>
    intro z hz
    rw [flatKidsL_cons, List.mem_append]
    rcases List.mem_cons.1 hc with rfl | hc
    · exact Or.inl hz
    · exact Or.inr (ih hc z hz)

theorem findScopeL_hit (X : Externals) (fh : FHeap) (rm : Bool) (S : Str) (y : ITree)
    (r : Nat) (post : List ITree) :
    ∀ (pre : List ITree), (∀ c ∈ pre, findScopeT X fh rm c S = .ok none) →
      findScopeT X fh rm y S = .ok (some r) →
      findScopeL X fh rm (pre ++ y :: post) S = .ok (some r) := by
  intro pre
  induction pre with
  | nil => intro _ hy; simp [findScopeL, hy]
  | cons c pre ih =>
    intro hpre hy
    simp only [List.cons_append, findScopeL, hpre c (List.mem_cons_self _ _)]
    exact ih (fun x hx => hpre x (List.mem_cons_of_mem _ hx)) hy

mutual
theorem findScopeT_miss (X : Externals) (fh : FHeap) (rm b : Bool) (fr : Str) :
    ∀ (c : ITree), (∀ n ∈ nodesOf c, n.range = none) →
      (∀ n ∈ nodesOf c, dropped X b n = skipped X fh rm n) →
      (∀ x ∈ flat1 X b c, x.name ≠ fr) →
      ∀ S, (scope_extract_front S).1 = fr → findScopeT X fh rm c S = .ok none
  | .node a nm fu rg nd ks, hnr, hag, hfl, S, hS => by
    have hself := mem_nodesOf_self (.node a nm fu rg nd ks)
    have hrg : rg = none := hnr _ hself
    have hagc := hag _ hself
    subst hrg
    by_cases hd : dropped X b (.node a nm fu none nd ks) = true
    · have hsk : (!rm && X.db_is_unnamed_scope nm && !X.funit_is_unnamed (fu.bind fh)) = true := by
        rw [hd] at hagc; exact hagc.symm
      simp only [findScopeT, hsk, if_true]
      refine findScopeL_miss X fh rm b fr ks ?_ ?_ ?_ S hS
      · intro n hn; exact hnr n (by rw [nodesOf_eq]; exact List.mem_cons_of_mem _ hn)
      · intro n hn; exact hag n (by rw [nodesOf_eq]; exact List.mem_cons_of_mem _ hn)
      · intro x hx
        refine hfl x ?_
        simp only [flat1, hd, if_true, flatKids]
        exact hx
    · have hd' : dropped X b (.node a nm fu none nd ks) = false := by simpa using hd
      have hsk : (!rm && X.db_is_unnamed_scope nm && !X.funit_is_unnamed (fu.bind fh)) = false := by
        rw [hd'] at hagc; exact hagc.symm
      have hne : nm ≠ fr := by
        have := hfl (.node a nm fu none nd ks) (by simp [flat1, hd'])
        simpa using this
      have hcmp : instance_compare X (scope_extract_front S).1
          (rootCell (.node a nm fu none nd ks) none none) = .ok false := by
        simp [instance_compare, rootCell, scope_compare, hS, Ne.symm hne]
      simp only [findScopeT, hsk, Bool.false_eq_true, if_false, hcmp]
theorem findScopeL_miss (X : Externals) (fh : FHeap) (rm b : Bool) (fr : Str) :
    ∀ (ks : List ITree), (∀ n ∈ nodesOfL ks, n.range = none) →
      (∀ n ∈ nodesOfL ks, dropped X b n = skipped X fh rm n) →
      (∀ x ∈ flatKidsL X b ks, x.name ≠ fr) →
      ∀ S, (scope_extract_front S).1 = fr → findScopeL X fh rm ks S = .ok none
  | [], _, _, _, _, _ => by simp [findScopeL]
  | c :: cs, hnr, hag, hfl, S, hS => by
    simp only [nodesOfL, List.mem_append] at hnr hag
    rw [flatKidsL_cons] at hfl
    have h1 := findScopeT_miss X fh rm b fr c (fun n hn => hnr n (Or.inl hn))
      (fun n hn => hag n (Or.inl hn)) (fun x hx => hfl x (List.mem_append_left _ hx)) S hS
    have h2 := findScopeL_miss X fh rm b fr cs (fun n hn => hnr n (Or.inr hn))
      (fun n hn => hag n (Or.inr hn)) (fun x hx => hfl x (List.mem_append_right _ hx)) S hS
    simp only [findScopeL, h1, h2]
end

theorem keptNames_cons_kept {X : Externals} {b : Bool} {t : ITree} (P : List ITree)
    (h : dropped X b t = false) : keptNames X b (t :: P) = t.name :: keptNames X b P := by
  simp [keptNames, h]

theorem keptNames_cons_dropped {X : Externals} {b : Bool} {t : ITree} (P : List ITree)
    (h : dropped X b t = true) : keptNames X b (t :: P) = keptNames X b P := by
  simp [keptNames, h]

theorem first_kept (X : Externals) (b : Bool) (I : ITree) (hI : dropped X b I = false) :
    ∀ (P : List ITree) (T : ITree), IsPath (T :: P) → (T :: P).getLast? = some I →
      ∃ x more, x ∈ flat1 X b T ∧ x ∈ T :: P ∧ dropped X b x = false ∧
        keptNames X b (T :: P) = x.name :: more := by
  intro P
  induction P with
  | nil =>
    intro T _ hl
    simp only [List.getLast?_singleton, Option.some.injEq] at hl
    subst hl
    exact ⟨T, [], by simp [flat1, hI], List.mem_cons_self _ _, hI, by simp [keptNames, hI]⟩
  | cons y P ih =>
    intro T hp hl
    obtain ⟨hy, hp'⟩ := hp
    rw [List.getLast?_cons_cons] at hl
    obtain ⟨x, more, hx1, hx2, hx3, hx4⟩ := ih y hp' hl
    by_cases hd : dropped X b T = true
    · refine ⟨x, more, ?_, List.mem_cons_of_mem _ hx2, hx3, ?_⟩
      · simp only [flat1, hd, if_true, flatKids_eq]
        exact flat1_subset hy x hx1
      · rw [keptNames_cons_dropped _ hd, hx4]
    · have hd' : dropped X b T = false := by simpa using hd
      exact ⟨T, _, by simp [flat1, hd'], List.mem_cons_self _ _, hd',
        keptNames_cons_kept _ hd'⟩

/-- Round trip on the functional model: the search for the joined kept names
of a path finds the end of the path. -/
theorem findScopeT_path (X : Externals) (fh : FHeap) (b : Bool) (I : ITree)
    (hI : dropped X b I = false) :
    ∀ (P : List ITree) (T : ITree), IsPath (T :: P) → (T :: P).getLast? = some I →
      (∀ n ∈ nodesOf T, n.range = none) →
      (∀ n ∈ nodesOf T, dropped X b n = skipped X fh (!b) n) →
      (∀ n ∈ nodesOf T, ((flatKids X b n).map ITree.name).Nodup) →
      (∀ n ∈ T :: P, dropped X b n = false → n.name ≠ [] ∧ '.' ∉ n.name) →
      findScopeT X fh (!b) T (joinDots (keptNames X b (T :: P))) = .ok (some I.addr) := by
  intro P
  induction P with
  | nil =>
    intro T _ hl hnr hag _ hnm
    simp only [List.getLast?_singleton, Option.some.injEq] at hl
    subst hl
    obtain ⟨a, nm, fu, rg, nd, ks⟩ := T
    have hself := mem_nodesOf_self (.node a nm fu rg nd ks)
    have hrg : rg = none := hnr _ hself
    subst hrg
    have hagc := hag _ hself
    rw [hI] at hagc
    have hsk : (!(!b) && X.db_is_unnamed_scope nm && !X.funit_is_unnamed (fu.bind fh)) = false :=
      hagc.symm
    have hn := hnm _ (List.mem_cons_self _ _) hI
    simp only [ITree.name_node] at hn
    have hfront : scope_extract_front nm = (nm, []) := by
      simpa [joinDots] using scope_extract_front_join nm [] hn.2
    rw [keptNames_cons_kept _ hI]
    simp only [keptNames, List.filter_nil, List.map_nil, ITree.name_node]
    simp only [findScopeT, hsk, Bool.false_eq_true, if_false, hfront, instance_compare,
      rootCell, ITree.range_node, ITree.name_node, scope_compare, decide_True, joinDots, if_true,
      ITree.addr_node]
  | cons y P ih =>
    intro T hp hl hnr hag hfd hnm
    obtain ⟨hy, hp'⟩ := hp
    rw [List.getLast?_cons_cons] at hl
    have hsub := nodesOf_subset_of_kid hy
    have ihy := ih y hp' hl (fun n hn => hnr n (hsub n hn)) (fun n hn => hag n (hsub n hn))
      (fun n hn => hfd n (hsub n hn)) (fun n hn => hnm n (List.mem_cons_of_mem _ hn))
    obtain ⟨x, more, hx1, hx2, hx3, hx4⟩ := first_kept X b I hI P y hp' hl
    have hxn := hnm x (List.mem_cons_of_mem _ hx2) hx3
    rw [hx4] at ihy
    have hfrontS := scope_extract_front_join x.name more hxn.2
    -- the children of `T` are searched with the string that starts at `x`
    obtain ⟨pre, post, hks⟩ := List.append_of_mem hy
    have hTfd := hfd T (mem_nodesOf_self T)
    rw [flatKids_eq, hks, flatKidsL_append, flatKidsL_cons, List.map_append, List.map_append,
      List.nodup_append] at hTfd
    have hpre : ∀ c ∈ pre, findScopeT X fh (!b) c (joinDots (x.name :: more)) = .ok none := by
      intro c hc
      have hcT : c ∈ T.kids := by rw [hks]; exact List.mem_append_left _ hc
      have hsubc := nodesOf_subset_of_kid hcT
      refine findScopeT_miss X fh (!b) b x.name c (fun n hn => hnr n (hsubc n hn))
        (fun n hn => hag n (hsubc n hn)) ?_ _ (by rw [hfrontS])
      intro z hz hzx
      have hz1 : z.name ∈ (flatKidsL X b pre).map ITree.name :=
        List.mem_map_of_mem _ (flat1_subset hc z hz)
      have hz2 : x.name ∈ (flat1 X b y).map ITree.name ++ (flatKidsL X b post).map ITree.name :=
        List.mem_append_left _ (List.mem_map_of_mem _ hx1)
      exact hTfd.2.2 hz1 (hzx ▸ hz2)
    have hkids : findScopeL X fh (!b) T.kids (joinDots (x.name :: more)) = .ok (some I.addr) := by
      rw [hks]
      exact findScopeL_hit X fh (!b) _ y I.addr post pre hpre ihy
    obtain ⟨a, nm, fu, rg, nd, ks⟩ := T
    have hself := mem_nodesOf_self (.node a nm fu rg nd ks)
    have hrg : rg = none := hnr _ hself
    subst hrg
    have hagc := hag _ hself
    simp only [ITree.kids_node] at hkids
    by_cases hd : dropped X b (.node a nm fu none nd ks) = true
    · have hsk : (!(!b) && X.db_is_unnamed_scope nm && !X.funit_is_unnamed (fu.bind fh)) = true := by
        rw [hd] at hagc; exact hagc.symm
      rw [keptNames_cons_dropped _ hd, hx4]
      simp only [findScopeT, hsk, if_true]
      exact hkids
    · have hd' : dropped X b (.node a nm fu none nd ks) = false := by simpa using hd
      have hsk : (!(!b) && X.db_is_unnamed_scope nm && !X.funit_is_unnamed (fu.bind fh)) = false := by
        rw [hd'] at hagc; exact hagc.symm
      have hn := hnm _ (List.mem_cons_self _ _) hd'
      simp only [ITree.name_node] at hn
      rw [keptNames_cons_kept _ hd', hx4]
      have hfront := scope_extract_front_join nm (x.name :: more) hn.2
      have hne := joinDots_ne_nil more hxn.1
      simp only [ITree.name_node, findScopeT, hsk, Bool.false_eq_true, if_false, hfront,
        instance_compare, rootCell, ITree.range_node, scope_compare, decide_True, hne, if_true]
      exact hkids

theorem path_length_le_size :
    ∀ (P : List ITree) (T : ITree), IsPath (T :: P) → (T :: P).length ≤ T.size := by
  intro P
  induction P with
  | nil => intro T _; have := T.size_pos; simp; omega
  | cons y P ih =>
    intro T hp
    obtain ⟨hy, hp'⟩ := hp
    have h1 := ih y hp'
    have h2 := ITree.size_le_sizeL hy
    rw [T.size_eq]
    simp only [List.length_cons] at h1 ⊢
    omega

/-- C3, as amended.  `T` is a root (no parent) whose instances carry no
Range, `I` is the end of the path `T :: P`, and `b` is the flattening mode:
the scope string is built with `flatten = b` and searched with
`rm_unnamed = !b`.  Given that, after flattening, sibling names are pairwise
distinct (`flatKids`; without flattening these are the plain children), that
the instances the string leaves out are the ones the search steps over, that
the names that enter the string are non-empty and free of dots, and that `I`
itself is not left out, `instance_gen_scope` builds a string `s` for `I` and
`instance_find_scope(T, s)` returns `I`. -/
theorem instance_scope_round_trip (X : Externals) (w : World) (T I : ITree) (P : List ITree)
    (b : Bool) (fuel : Nat)
    (ht : IsTree w.inst T) (hP : IsPath (T :: P)) (hI : (T :: P).getLast? = some I)
    (hnr : ∀ n ∈ nodesOf T, n.range = none)
    (hag : ∀ n ∈ nodesOf T, dropped X b n = skipped X w.funit (!b) n)
    (hfd : ∀ n ∈ nodesOf T, ((flatKids X b n).map ITree.name).Nodup)
    (hnm : ∀ n ∈ T :: P, dropped X b n = false → n.name ≠ [] ∧ '.' ∉ n.name)
    (hk : dropped X b I = false) (hfuel : T.size + 1 ≤ fuel) :
    ∃ s, instance_gen_scope X fuel w [] (some I.addr) b = .ok s ∧
      instance_find_scope X fuel w (some T.addr) s (!b) = .ok (some I.addr) := by
  have hps := PathSat_of_isPath P T none none ht.1 hP
  have hlen := path_length_le_size P T hP
  have hlast : lastAddr (T :: P) = some I.addr := by simp [lastAddr, hI]
  have hgen := gen_scope_spec X w b (T :: P) fuel hps (by omega)
  rw [hlast, gen_scope_names_eq_join X b (T :: P) (fun n hn hd => (hnm n hn hd).1)] at hgen
  refine ⟨_, hgen, ?_⟩
  rw [find_scope_refines X w (!b) T.size T none none fuel _ (le_refl _) ht.1 hfuel]
  exact findScopeT_path X w.funit b I hk P T hP hI hnr hag hfd hnm

/-- C3 as amended, with flattening, for the instance `x` of `top($u0(x), y)`:
the string is `top.x`. -/
theorem instance_scope_round_trip_witness :
    ∃ s, instance_gen_scope ext_ex 10 scope_ex_world [] (some scope_ex_x.addr) true = .ok s ∧
      instance_find_scope ext_ex 10 scope_ex_world (some scope_ex_tree.addr) s (!true) =
        .ok (some scope_ex_x.addr) :=
  instance_scope_round_trip ext_ex scope_ex_world scope_ex_tree scope_ex_x
    [scope_ex_u, scope_ex_x] true 10 (by decide)
    ⟨List.mem_cons_self _ _, List.mem_cons_self _ _, trivial⟩ rfl (by decide) (by decide)
    (by decide) (by decide) (by decide) (by decide)

/-- C3 as stated fails with flattening.  In `top($u0(x))`, where the unnamed
scope `$u0` has a signal, its string is `top` and the search returns `top`;
the string of `x` is `top.x`, which the search does not find because it does
not step over `$u0`.  In `top($u0(x), x)` the two instances `x` have the same
string `top.x`, and the search for the string of the second returns the
first. -/
theorem instance_scope_round_trip_counterexample :
    IsTree unnamed_ex_world.inst unnamed_ex_tree ∧ distinctNames unnamed_ex_tree = true ∧
    instance_gen_scope ext_ex 10 unnamed_ex_world [] (some 1) true = .ok "top".toList ∧
    instance_find_scope ext_ex 10 unnamed_ex_world (some 0) "top".toList false = .ok (some 0) ∧
    instance_gen_scope ext_ex 10 unnamed_ex_world [] (some 2) true = .ok "top.x".toList ∧
    instance_find_scope ext_ex 10 unnamed_ex_world (some 0) "top.x".toList false = .ok none ∧
    IsTree ambiguous_ex_world.inst ambiguous_ex_tree ∧ distinctNames ambiguous_ex_tree = true ∧
    instance_gen_scope ext_ex 10 ambiguous_ex_world [] (some 2) true = .ok "top.x".toList ∧
    instance_find_scope ext_ex 10 ambiguous_ex_world (some 0) "top.x".toList false =
      .ok (some 3) := by
  decide

/-! ## The leading hierarchy -/

theorem leading_eq (t : ITree) :
    leading t = t :: (if t.funit = none then leadingL t.kids else []) := by
  cases t; simp [leading]

theorem leading_ne_nil (t : ITree) : leading t ≠ [] := by
  rw [leading_eq]; simp

theorem foldl_dots_append (rest : List Str) :
    ∀ (a b : Str), rest.foldl (fun s n => s ++ ['.'] ++ n) (a ++ b) =
      a ++ rest.foldl (fun s n => s ++ ['.'] ++ n) b := by
  induction rest with
  | nil => intro a b; rfl
  | cons m rest ih =>
    intro a b
    simp only [List.foldl_cons]
    rw [List.append_assoc a b, List.append_assoc a, ih]

theorem joinDots_eq_foldl (rest : List Str) :
    ∀ (n : Str), joinDots (n :: rest) = rest.foldl (fun s n => s ++ ['.'] ++ n) n := by
  induction rest with
  | nil => intro n; rfl
  | cons m rest ih =>
    intro n
    simp only [joinDots, List.foldl_cons]
    rw [ih m, foldl_dots_append rest (n ++ ['.']) m]
    simp

theorem get_leading_hierarchy_loop_spec (w : World) :
    ∀ (fuel : Nat) (t : ITree) (acc : Str) (p nx : Option Nat) (L : ITree),
      Sat w.inst (cells t p nx) → t.funit = none → (leading t).getLast? = some L →
      L.funit ≠ none → (leading t).length ≤ fuel + 1 →
      instance_get_leading_hierarchy_loop fuel w (some t.addr) (some acc) =
        .ok (some (((leading t).tail.map ITree.name).foldl (fun s n => s ++ ['.'] ++ n) acc),
          some L.addr) := by
  intro fuel
  induction fuel with
  | zero =>
    intro t acc p nx L hs hf hl hL hlen
    exfalso
    rw [leading_eq] at hl hlen
    have : (if t.funit = none then leadingL t.kids else []) = [] := by
      apply List.eq_nil_of_length_eq_zero
      simp only [List.length_cons] at hlen
      omega
    rw [this] at hl
    simp only [List.getLast?_singleton, Option.some.injEq] at hl
    subst hl
    exact hL hf
  | succ k ih =>
    intro t acc p nx L hs hf hl hL hlen
    obtain ⟨a, nm, fu, rg, nd, ks⟩ := t
    simp only [ITree.funit_node] at hf
    subst hf
    cases ks with
    | nil =>
      exfalso
      simp only [leading, leadingL, if_true, List.getLast?_singleton, Option.some.injEq] at hl
      subst hl
      exact hL rfl
    | cons c cs =>
      have hroot := Sat_root hs
      have hkids := Sat_kids hs
      simp only [ITree.kids_node, cellsL, Sat_append, ITree.addr_node] at hkids hroot
      have hc := Sat_root hkids.1
      simp only [leading, leadingL, if_true, List.tail_cons] at hl hlen ⊢
      have hx : ∃ x xs, leading c = x :: xs := by rw [leading_eq]; exact ⟨_, _, rfl⟩
      obtain ⟨x, xs, hx⟩ := hx
      rw [hx, List.getLast?_cons_cons, ← hx] at hl
      simp only [instance_get_leading_hierarchy_loop, ITree.addr_node]
      rw [World.load_eq hroot]
      simp only [Except.ok_bind, rootCell, ITree.kids_node, headAddrOr_cons]
      rw [World.load_eq hc]
      simp only [Except.ok_bind, Except.pure_eq_ok, rootCell]
      by_cases hcf : c.funit = none
      · rw [if_pos hcf]
        have := ih c (acc ++ ['.'] ++ c.name) (some a) _ L hkids.1 hcf hl hL
          (by simp only [List.length_cons] at hlen; omega)
        rw [this]
        congr 2
        rw [leading_eq c]
        simp
      · rw [if_neg hcf]
        rw [leading_eq c, if_neg hcf] at hl ⊢
        simp only [List.getLast?_singleton, Option.some.injEq] at hl
        subst hl
        simp

theorem get_leading_hierarchy_spec (w : World) (fuel : Nat) (t : ITree) (p nx : Option Nat)
    (L : ITree) (hs : Sat w.inst (cells t p nx)) (hl : (leading t).getLast? = some L)
    (hL : L.funit ≠ none) (hlen : (leading t).length ≤ fuel + 1) :
    instance_get_leading_hierarchy fuel w (some t.addr) (some []) =
      .ok (some (joinDots ((leading t).map ITree.name)), some L.addr) := by
  simp only [instance_get_leading_hierarchy]
  rw [World.load_eq (Sat_root hs)]
  simp only [Except.ok_bind, rootCell, Option.map_some', List.nil_append]
  by_cases hf : t.funit = none
  · rw [if_pos hf, get_leading_hierarchy_loop_spec w fuel t t.name p nx L hs hf hl hL hlen]
    congr 2
    rw [leading_eq t]
    simp only [List.tail_cons, List.map_cons]
    rw [joinDots_eq_foldl]
  · rw [if_neg hf]
    rw [leading_eq t, if_neg hf] at hl ⊢
    simp only [List.getLast?_singleton, Option.some.injEq] at hl
    subst hl
    simp [joinDots]

theorem leading_split : ∀ (A : List ITree) (t x : ITree) (B : List ITree),
    leading t = A ++ x :: B →
      leading x = x :: B ∧ (A.map ITree.addr ++ x.addrs).Sublist t.addrs := by
  intro A
  induction A with
  | nil =>
    intro t x B h
    have ht := leading_eq t
    rw [h] at ht
    simp only [List.nil_append, List.cons.injEq] at ht
    obtain ⟨rfl, -⟩ := ht
    exact ⟨h, by simp⟩
  | cons a A ih =>
    intro t x B h
    obtain ⟨ta, nm, fu, rg, nd, ks⟩ := t
    simp only [leading, List.cons_append, List.cons.injEq] at h
    obtain ⟨rfl, h⟩ := h
    by_cases hf : fu = none
    · rw [if_pos hf] at h
      cases ks with
      | nil => simp [leadingL] at h
      | cons c cs =>
        simp only [leadingL] at h
        obtain ⟨h1, h2⟩ := ih c x B h
        refine ⟨h1, ?_⟩
        simp only [List.map_cons, ITree.addr_node, List.cons_append, ITree.addrs, ITree.addrsL]
        exact List.Sublist.cons₂ _ (h2.trans (List.sublist_append_left _ _))
    · rw [if_neg hf] at h
      simp at h

theorem leading_PathSat {h : Heap} : ∀ (P : List ITree) (t : ITree) (p nx : Option Nat),
    leading t = P → Sat h (cells t p nx) → PathSat h p P := by
  intro P
  induction P with
  | nil => intro t p nx _ _; trivial
  | cons a P ih =>
    intro t p nx hl hs
    obtain ⟨ta, nm, fu, rg, nd, ks⟩ := t
    simp only [leading, List.cons.injEq] at hl
    obtain ⟨rfl, hl⟩ := hl
    refine ⟨⟨nx, hs⟩, ?_⟩
    by_cases hf : fu = none
    · rw [if_pos hf] at hl
      cases ks with
      | nil => simp only [leadingL] at hl; subst hl; trivial
      | cons c cs =>
        simp only [leadingL] at hl
        have hk := Sat_kids hs
        simp only [ITree.kids_node, cellsL, Sat_append, ITree.addr_node] at hk
        exact ih c _ _ hl hk.1
    · rw [if_neg hf] at hl
      subst hl
      trivial

theorem UpChain_concat {h : Heap} {p : Option Nat} {t : ITree} :
    ∀ (R : List ITree), UpChain h (some t.addr) R →
      (∃ c, h t.addr = some c ∧ c.name = t.name ∧ c.parent = p) → UpChain h p (R ++ [t]) := by
  intro R
  induction R with
  | nil => intro _ ht; exact ⟨ht, trivial⟩
  | cons x R ih =>
    intro hR ht
    obtain ⟨⟨c, hc, hn, hp⟩, hR⟩ := hR
    refine ⟨⟨c, hc, hn, ?_⟩, ih hR ht⟩
    rw [hp]
    cases R <;> simp

theorem UpChain_of_PathSat {h : Heap} : ∀ (P : List ITree) (p : Option Nat),
    PathSat h p P → UpChain h p P.reverse := by
  intro P
  induction P with
  | nil => intro _ _; trivial
  | cons t rest ih =>
    intro p hP
    obtain ⟨⟨nx, hs⟩, hP⟩ := hP
    rw [List.reverse_cons]
    exact UpChain_concat _ (ih _ hP) ⟨_, Sat_root hs, rfl, rfl⟩

theorem UpChain_congr {h h' : Heap} {p : Option Nat} : ∀ (U : List ITree), UpChain h p U →
    (∀ x ∈ U, ∀ c, h x.addr = some c →
      ∃ c', h' x.addr = some c' ∧ c'.name = c.name ∧ c'.parent = c.parent) →
    UpChain h' p U := by
  intro U
  induction U with
  | nil => intro _ _; trivial
  | cons x U ih =>
    intro hU hx
    obtain ⟨⟨c, hc, hn, hp⟩, hU⟩ := hU
    obtain ⟨c', hc', hn', hp'⟩ := hx x (List.mem_cons_self _ _) c hc
    exact ⟨⟨c', hc', hn'.trans hn, hp'.trans hp⟩,
      ih hU (fun y hy => hx y (List.mem_cons_of_mem _ hy))⟩

/-! ## Marking the leading hierarchy -/

theorem mark_lhier_diffs_up_spec (w : World) : ∀ (U1 U2 : List ITree) (fuel : Nat),
    UpChain w.inst none U1 → UpChain w.inst none U2 → U1.length + 1 ≤ fuel →
      instance_mark_lhier_diffs_up fuel w (headAddrOr none U1) (headAddrOr none U2) =
        .ok (headAddrOr none (lhier_diff U1 U2)) ∧ UpChain w.inst none (lhier_diff U1 U2) := by
  intro U1
  induction U1 with
  | nil =>
    intro U2 fuel _ _ hf
    obtain ⟨k, rfl⟩ : ∃ k, fuel = k + 1 := ⟨fuel - 1, by omega⟩
    simp [instance_mark_lhier_diffs_up, lhier_diff, UpChain]
  | cons x xs ih =>
    intro U2 fuel h1 h2 hf
    obtain ⟨k, rfl⟩ : ∃ k, fuel = k + 1 := ⟨fuel - 1, by omega⟩
    cases U2 with
    | nil => simpa [instance_mark_lhier_diffs_up, lhier_diff] using h1
    | cons y ys =>
      obtain ⟨⟨c1, hc1, hn1, hp1⟩, h1'⟩ := h1
      obtain ⟨⟨c2, hc2, hn2, hp2⟩, h2'⟩ := h2
      simp only [headAddrOr_cons, instance_mark_lhier_diffs_up, lhier_diff]
      rw [World.load_eq hc1, World.load_eq hc2]
      simp only [Except.ok_bind, hn1, hn2, hp1, hp2, Except.pure_eq_ok]
      by_cases hn : x.name = y.name
      · rw [if_pos hn, if_pos hn]
        exact ih ys k h1' h2' (by simp only [List.length_cons] at hf; omega)
      · rw [if_neg hn, if_neg hn]
        exact ⟨by simp, ⟨c1, hc1, hn1, hp1⟩, h1'⟩

theorem set_name_diff_of_some {h : Heap} {a : Nat} {c : funit_inst} (hc : h a = some c) :
    upd h a { c with name_diff := true } = set_name_diff h a := by
  funext x
  simp only [upd, set_name_diff, hc, Option.map_some']

theorem mark_lhier_diffs_set_spec : ∀ (U : List ITree) (fuel : Nat) (w : World),
    UpChain w.inst none U → U.length + 1 ≤ fuel →
      instance_mark_lhier_diffs_set fuel w (headAddrOr none U) =
        .ok { w with inst := (U.map ITree.addr).foldl set_name_diff w.inst } := by
  intro U
  induction U with
  | nil =>
    intro fuel w _ hf
    obtain ⟨k, rfl⟩ : ∃ k, fuel = k + 1 := ⟨fuel - 1, by omega⟩
    simp [instance_mark_lhier_diffs_set]
  | cons x xs ih =>
    intro fuel w hU hf
    obtain ⟨k, rfl⟩ : ∃ k, fuel = k + 1 := ⟨fuel - 1, by omega⟩
    obtain ⟨⟨c, hc, hn, hp⟩, hU'⟩ := hU
    simp only [headAddrOr_cons, instance_mark_lhier_diffs_set]
    rw [World.load_eq hc, World.modify_eq _ hc]
    simp only [Except.ok_bind]
    rw [set_name_diff_of_some hc, hp]
    have hU2 : UpChain (set_name_diff w.inst x.addr) none xs := by
      refine UpChain_congr xs hU' ?_
      intro y _ d hd
      by_cases hy : y.addr = x.addr
      · refine ⟨{ d with name_diff := true }, ?_, rfl, rfl⟩
        simp only [set_name_diff, hy, if_true]
        rw [← hy, hd]; rfl
      · exact ⟨d, by simp only [set_name_diff, hy, if_false, hd], rfl, rfl⟩
    have := ih k ⟨set_name_diff w.inst x.addr, w.funit, w.brk, w.inst_head⟩ hU2
      (by simp only [List.length_cons] at hf; omega)
    rw [this]
    simp

theorem foldl_set_name_diff_apply : ∀ (l : List Nat) (h : Heap) (x : Nat),
    (l.foldl set_name_diff h) x =
      if x ∈ l then (h x).map (fun c => { c with name_diff := true }) else h x := by
  intro l
  induction l with
  | nil => intro h x; simp
  | cons a l ih =>
    intro h x
    rw [List.foldl_cons, ih]
    by_cases hxa : x = a
    · subst hxa
      by_cases hl : x ∈ l
      · simp only [hl, List.mem_cons, true_or, or_true, if_true, set_name_diff]
        cases h x <;> simp
      · simp [hl, set_name_diff]
    · by_cases hl : x ∈ l
      · simp [hl, hxa, set_name_diff]
      · simp [hl, hxa, set_name_diff]

theorem leading_facts {h : Heap} {T L : ITree} {A : List ITree} {p nx : Option Nat}
    (hs : Sat h (cells T p nx)) (hl : leading T = A ++ [L]) :
    (leading T).getLast? = some L ∧ (∃ nx', Sat h (cells L ((lastAddr A).or p) nx')) ∧
      UpChain h p (L :: A.reverse) ∧ (A.map ITree.addr ++ L.addrs).Sublist T.addrs ∧
      A.length + L.size ≤ T.size := by
  have hP := leading_PathSat _ T p nx hl hs
  have hsub := (leading_split A T L [] hl).2
  refine ⟨by rw [hl]; simp, (PathSat_concat A p L hP).2, ?_, hsub, ?_⟩
  · have := UpChain_of_PathSat _ _ hP
    simpa using this
  · have := hsub.length_le
    simpa [ITree.length_addrs] using this

theorem loadF_ne_none {w : World} {p : Option Nat} {f : func_unit} (h : w.loadF p = .ok f) :
    ∃ g, p = some g := by
  cases p with
  | none => simp [World.loadF] at h
  | some g => exact ⟨g, rfl⟩

theorem merge_two_trees_same (X : Externals) (w : World) (fuel : Nat) (T1 T2 L1 L2 : ITree)
    (A1 A2 : List ITree) (f1 f2 : func_unit)
    (hs1 : Sat w.inst (cells T1 none none)) (hs2 : Sat w.inst (cells T2 none none))
    (hl1 : leading T1 = A1 ++ [L1]) (hl2 : leading T2 = A2 ++ [L2])
    (hf1 : w.loadF L1.funit = .ok f1) (hf2 : w.loadF L2.funit = .ok f2)
    (hname : f1.name = f2.name)
    (hne : joinDots ((leading T1).map ITree.name) ≠ joinDots ((leading T2).map ITree.name))
    (hfuel : T1.size + T2.size ≤ fuel) :
    instance_merge_two_trees X fuel w (some T1.addr) (some T2.addr) =
      (if (scope_extract_back (joinDots ((leading T1).map ITree.name))).2 ≠
          (scope_extract_back (joinDots ((leading T2).map ITree.name))).2 then do
        let w ← instance_merge_tree X.funit_merge fuel w (some L1.addr) (some L2.addr)
        let w ← instance_mark_lhier_diffs fuel w (some L1.addr) (some L2.addr)
        pure (w, true)
      else do
        let w ← instance_merge_tree X.funit_merge fuel w (lastAddr A1) (lastAddr A2)
        pure (w, true)) := by
  obtain ⟨hg1, ⟨nx1, hc1⟩, -, -, hz1⟩ := leading_facts hs1 hl1
  obtain ⟨hg2, ⟨nx2, hc2⟩, -, -, hz2⟩ := leading_facts hs2 hl2
  obtain ⟨g1, hg1'⟩ := loadF_ne_none hf1
  obtain ⟨g2, hg2'⟩ := loadF_ne_none hf2
  have hT2 := T2.size_pos
  have hT1 := T1.size_pos
  have e1 := get_leading_hierarchy_spec w fuel T1 none none L1 hs1 hg1 (by simp [hg1'])
    (by rw [hl1]; simp only [List.length_append, List.length_singleton]; omega)
  have e2 := get_leading_hierarchy_spec w fuel T2 none none L2 hs2 hg2 (by simp [hg2'])
    (by rw [hl2]; simp only [List.length_append, List.length_singleton]; omega)
  simp only [Option.or_none] at hc1 hc2
  simp only [instance_merge_two_trees]
  rw [e1, e2]
  simp only [Except.ok_bind, Option.getD_some]
  rw [World.load_eq (Sat_root hc1), World.load_eq (Sat_root hc2)]
  simp only [Except.ok_bind, rootCell]
  rw [hg1'] at hf1 ⊢
  rw [hg2'] at hf2 ⊢
  simp only [Except.ok_bind, hf1, hf2, Except.pure_eq_ok, hname, decide_True, if_true, if_neg hne]

theorem lhier_diff_length_le : ∀ (U1 U2 : List ITree), (lhier_diff U1 U2).length ≤ U1.length := by
  intro U1
  induction U1 with
  | nil => intro U2; simp [lhier_diff]
  | cons x xs ih =>
    intro U2
    cases U2 with
    | nil => simp [lhier_diff]
    | cons y ys =>
      simp only [lhier_diff]
      split
      · have := ih ys
        simp only [List.length_cons]; omega
      · exact le_refl _

theorem UpChain_mem {h : Heap} {p : Option Nat} : ∀ (U : List ITree), UpChain h p U →
    ∀ x ∈ U, ∃ c, h x.addr = some c := by
  intro U
  induction U with
  | nil => intro _ x hx; simp at hx
  | cons y U ih =>
    intro hU x hx
    obtain ⟨⟨c, hc, -, -⟩, hU⟩ := hU
    rcases List.mem_cons.1 hx with rfl | hx
    · exact ⟨c, hc⟩
    · exact ih hU x hx

theorem nodup_append_of_disjoint {l1 l2 : List Nat} (h1 : l1.Nodup) (h2 : l2.Nodup)
    (hd : List.Disjoint l1 l2) : (l1 ++ l2).Nodup :=
  List.nodup_append.2 ⟨h1, h2, hd⟩

/-- After `instance_merge_tree` on the last instances of two leading
hierarchies, the two chains of ancestors are still in the heap. -/
theorem UpChain_after_merge {w w1 : World} {T Tother L Lother M : ITree} {A : List ITree}
    {p nx : Option Nat}
    (hU : UpChain w.inst none (L :: A.reverse))
    (hc : Sat w.inst (cells L p nx)) (hM : Sat w1.inst (cells M p nx))
    (hMa : M.addr = L.addr) (hMn : M.name = L.name)
    (hsub : (A.map ITree.addr ++ L.addrs).Sublist T.addrs) (hnd : T.addrs.Nodup)
    (hsubo : Lother.addrs.Sublist Tother.addrs) (hd : List.Disjoint T.addrs Tother.addrs)
    (hframe : ∀ x, x ∉ L.addrs → x ∉ Lother.addrs → w1.inst x = w.inst x) :
    UpChain w1.inst none (L :: A.reverse) := by
  refine UpChain_congr _ hU ?_
  intro x hx c hxc
  rcases List.mem_cons.1 hx with rfl | hx
  · have h0 := Sat_root hc
    have h2 := Sat_root hM
    rw [hMa] at h2
    rw [h0] at hxc
    simp only [Option.some.injEq] at hxc
    subst hxc
    exact ⟨_, h2, by simp [rootCell, hMn], by simp [rootCell]⟩
  · have hxA : x ∈ A := List.mem_reverse.1 hx
    have hnd2 := hnd.sublist hsub
    have hxa : x.addr ∈ A.map ITree.addr := List.mem_map_of_mem _ hxA
    have h1 : x.addr ∉ L.addrs := fun hin => (List.nodup_append.1 hnd2).2.2 hxa hin
    have h2 : x.addr ∉ Lother.addrs := fun hin =>
      hd (hsub.subset (List.mem_append_left _ hxa)) (hsubo.subset hin)
    exact ⟨c, by rw [hframe _ h1 h2]; exact hxc, rfl, rfl⟩

/-- C7 (amended). When the two first populated instances `L1`, `L2` have
functional units of the same name and the leading hierarchies without their
last component differ, `instance_merge_two_trees` returns TRUE; the two
instances are merged by `instance_merge_tree`, and afterwards `name_diff` is
set in the first tree only: in the instances of the chain from `L1` up to the
root that remain when both chains are left level by level, from `L1` and `L2`
upwards, while the names agree.  Nothing else changes after the merge, and the
cells marked differ from those after the merge in the flag only. -/
theorem instance_merge_two_trees_marks (X : Externals) (w : World) (fuel : Nat)
    (T1 T2 L1 L2 : ITree) (A1 A2 : List ITree) (f1 f2 : func_unit)
    (h1 : IsTree w.inst T1) (h2 : IsTree w.inst T2) (hdis : (T1.addrs ++ T2.addrs).Nodup)
    (hl1 : leading T1 = A1 ++ [L1]) (hl2 : leading T2 = A2 ++ [L2])
    (hf1 : w.loadF L1.funit = .ok f1) (hf2 : w.loadF L2.funit = .ok f2)
    (hname : f1.name = f2.name)
    (hrest : (scope_extract_back (joinDots ((leading T1).map ITree.name))).2 ≠
        (scope_extract_back (joinDots ((leading T2).map ITree.name))).2)
    (hfuel : 2 * T1.size + 3 * T2.size ≤ fuel) :
    ∃ w1 w' nx1 nx2,
      instance_merge_tree X.funit_merge fuel w (some L1.addr) (some L2.addr) = .ok w1 ∧
      Sat w1.inst (cells (mergeT L2 L1).1 (lastAddr A1) nx1) ∧
      Sat w1.inst (cells (mergeT L2 L1).2 (lastAddr A2) nx2) ∧
      instance_merge_two_trees X fuel w (some T1.addr) (some T2.addr) = .ok (w', true) ∧
      (∀ x ∈ lhier_diff (L1 :: A1.reverse) (L2 :: A2.reverse),
        name_diff_at w'.inst x.addr = some true) ∧
      (∀ a, a ∉ (lhier_diff (L1 :: A1.reverse) (L2 :: A2.reverse)).map ITree.addr →
        w'.inst a = w1.inst a) ∧
      (∀ a, (w'.inst a).map (fun c => { c with name_diff := true }) =
        (w1.inst a).map (fun c => { c with name_diff := true })) := by
  have hd : List.Disjoint T1.addrs T2.addrs := (List.nodup_append.1 hdis).2.2
  obtain ⟨-, ⟨nx1, hc1⟩, hU1, hsub1, hz1⟩ := leading_facts h1.1 hl1
  obtain ⟨-, ⟨nx2, hc2⟩, hU2, hsub2, hz2⟩ := leading_facts h2.1 hl2
  simp only [Option.or_none] at hc1 hc2
  have hL1 : L1.addrs.Sublist T1.addrs := (List.sublist_append_right _ _).trans hsub1
  have hL2 : L2.addrs.Sublist T2.addrs := (List.sublist_append_right _ _).trans hsub2
  have hnd : (L1.addrs ++ L2.addrs).Nodup :=
    (nodup_append_of_disjoint h1.2 h2.2 hd).sublist (hL1.append hL2)
  have hs1 := L1.size_pos
  have hs2 := L2.size_pos
  obtain ⟨w1, hm, hS1, hS2, hframe, -, -⟩ :=
    merge_tree_refines X.funit_merge L2 L1 w (lastAddr A1) nx1 (lastAddr A2) nx2 fuel hc1 hc2
      hnd (by omega)
  have hV1 : UpChain w1.inst none (L1 :: A1.reverse) :=
    UpChain_after_merge hU1 hc1 hS1 (mergeT_fst_addr _ _) (mergeT_fst_name _ _) hsub1 h1.2 hL2 hd
      hframe
  have hV2 : UpChain w1.inst none (L2 :: A2.reverse) :=
    UpChain_after_merge hU2 hc2 hS2 (mergeT_snd_addr _ _) (mergeT_snd_name _ _) hsub2 h2.2 hL1
      hd.symm (fun x hx2 hx1 => hframe x hx1 hx2)
  have hlen1 : (L1 :: A1.reverse).length ≤ T1.size := by
    simp only [List.length_cons, List.length_reverse]; omega
  obtain ⟨hup, hV⟩ := mark_lhier_diffs_up_spec w1 _ _ fuel hV1 hV2 (by omega)
  have hset := mark_lhier_diffs_set_spec _ fuel w1 hV
    (by have := lhier_diff_length_le (L1 :: A1.reverse) (L2 :: A2.reverse); omega)
  have hmark : instance_mark_lhier_diffs fuel w1 (some L1.addr) (some L2.addr) =
      .ok { w1 with inst := ((lhier_diff (L1 :: A1.reverse) (L2 :: A2.reverse)).map
        ITree.addr).foldl set_name_diff w1.inst } := by
    simp only [headAddrOr_cons] at hup
    simp only [instance_mark_lhier_diffs, hup, Except.ok_bind, hset]
  refine ⟨w1, ⟨((lhier_diff (L1 :: A1.reverse) (L2 :: A2.reverse)).map
    ITree.addr).foldl set_name_diff w1.inst, w1.funit, w1.brk, w1.inst_head⟩,
    nx1, nx2, hm, hS1, hS2, ?_, ?_, ?_, ?_⟩
  · rw [merge_two_trees_same X w fuel T1 T2 L1 L2 A1 A2 f1 f2 h1.1 h2.1 hl1 hl2 hf1 hf2 hname
      (fun h => hrest (by rw [h])) (by omega), if_pos hrest, hm]
    simp only [Except.ok_bind, hmark, Except.pure_eq_ok]
  · intro x hx
    obtain ⟨c, hc⟩ := UpChain_mem _ hV x hx
    simp only [name_diff_at, foldl_set_name_diff_apply, List.mem_map_of_mem _ hx, if_true, hc,
      Option.map_some']
  · intro a ha
    simp only [foldl_set_name_diff_apply, if_neg ha]
  · intro a
    simp only [foldl_set_name_diff_apply]
    split
    · cases w1.inst a <;> simp
    · rfl

/-- C7 (amended) on the trees `a(x(m))` and `b(x(m))`: the two `m` are merged
and only the root `a` is marked. -/
theorem instance_merge_two_trees_marks_witness :
    ∃ w1 w' nx1 nx2,
      instance_merge_tree ext_ex.funit_merge 20 lhier_ex_world (some 2) (some 5) = .ok w1 ∧
      Sat w1.inst (cells (mergeT (.node 5 "m".toList (some 1) none false [])
        (.node 2 "m".toList (some 0) none false [])).1 (some 1) nx1) ∧
      Sat w1.inst (cells (mergeT (.node 5 "m".toList (some 1) none false [])
        (.node 2 "m".toList (some 0) none false [])).2 (some 4) nx2) ∧
      instance_merge_two_trees ext_ex 20 lhier_ex_world (some 0) (some 3) = .ok (w', true) ∧
      (∀ x ∈ [lhier_ex_t1], name_diff_at w'.inst x.addr = some true) ∧
      (∀ a, a ∉ [0] → w'.inst a = w1.inst a) ∧
      (∀ a, (w'.inst a).map (fun c => { c with name_diff := true }) =
        (w1.inst a).map (fun c => { c with name_diff := true })) :=
  instance_merge_two_trees_marks ext_ex lhier_ex_world 20 lhier_ex_t1 lhier_ex_t2
    (.node 2 "m".toList (some 0) none false []) (.node 5 "m".toList (some 1) none false [])
    [lhier_ex_t1, plain 1 "x" [.node 2 "m".toList (some 0) none false []]]
    [lhier_ex_t2, plain 4 "x" [.node 5 "m".toList (some 1) none false []]]
    (funit_ex "mod") (funit_ex "mod") (by decide) (by decide) (by decide) rfl rfl rfl rfl rfl
    (by decide) (by decide)

/-- C7 as stated fails on the trees `a(x(m))` and `b(x(m))`: the call returns
TRUE and sets `name_diff` in the root `a` of the first tree, but neither in
`x`, the parent of the merge point in the first tree, nor in `b` and `x`, the
ancestors in the second tree. -/
theorem instance_merge_two_trees_marks_counterexample :
    IsTree lhier_ex_world.inst lhier_ex_t1 ∧ IsTree lhier_ex_world.inst lhier_ex_t2 ∧
    (instance_merge_two_trees ext_ex 20 lhier_ex_world (some 0) (some 3)).map
      (fun r => (r.2, [0, 1, 2, 3, 4, 5].map (name_diff_at r.1.inst))) =
      .ok (true, [some true, some false, some false, some false, some false, some false]) :=
  ⟨by decide, by decide, by decide⟩

/-! ## Merging one level up -/

theorem PathSat_append {h : Heap} : ∀ (A R : List ITree) (p : Option Nat),
    PathSat h p (A ++ R) → PathSat h ((lastAddr A).or p) R := by
  intro A
  induction A using List.reverseRecOn with
  | nil => intro R p hP; simpa using hP
  | append_singleton A a ih =>
    intro R p hP
    rw [List.append_assoc] at hP
    have := ih _ p hP
    simpa [lastAddr_concat] using this.2

theorem leading_head_kid {P L : ITree} {B : List ITree} (h : leading P = P :: L :: B) :
    ∃ cs, P.kids = L :: cs := by
  obtain ⟨a, nm, fu, rg, nd, ks⟩ := P
  simp only [leading, List.cons.injEq, true_and] at h
  by_cases hf : fu = none
  · rw [if_pos hf] at h
    cases ks with
    | nil => simp [leadingL] at h
    | cons c cs =>
      simp only [leadingL] at h
      have hc := leading_eq c
      rw [h] at hc
      simp only [List.cons.injEq] at hc
      exact ⟨cs, by simp [hc.1]⟩
  · rw [if_neg hf] at h
    simp at h

theorem splitAtName_of_not_mem {nm : Str} {K : List ITree} (h : nm ∉ K.map ITree.name) :
    splitAtName nm K = none := by
  cases hs : splitAtName nm K with
  | none => rfl
  | some r =>
    obtain ⟨pre, c, post⟩ := r
    obtain ⟨h1, h2, -⟩ := splitAtName_some hs
    exact absurd (List.mem_map.2 ⟨c, by rw [h1]; simp, h2⟩) h

theorem splitAtName_of_mem {nm : Str} {K : List ITree} (h : nm ∈ K.map ITree.name) :
    ∃ pre c post, splitAtName nm K = some (pre, c, post) := by
  cases hs : splitAtName nm K with
  | none =>
    obtain ⟨k, hk, hn⟩ := List.mem_map.1 h
    exact absurd hn (splitAtName_none hs k hk)
  | some r =>
    obtain ⟨pre, c, post⟩ := r
    exact ⟨pre, c, post, rfl⟩

theorem mergeKids_fst_addrs (S : List ITree) :
    ∀ (K : List ITree), ∃ more, (mergeKids S K).1.map ITree.addr = K.map ITree.addr ++ more := by
  induction S with
  | nil => intro K; exact ⟨[], by simp [mergeKids]⟩
  | cons c2 rest ih =>
    intro K
    cases hs : splitAtName c2.name K with
    | none =>
      obtain ⟨more, hm⟩ := ih (K ++ [c2])
      refine ⟨c2.addr :: more, ?_⟩
      simp only [mergeKids, hs, hm]
      simp
    | some r =>
      obtain ⟨pre, c1, post⟩ := r
      obtain ⟨hK, -, -⟩ := splitAtName_some hs
      obtain ⟨more, hm⟩ := ih (pre ++ (mergeT c2 c1).1 :: post)
      refine ⟨more, ?_⟩
      simp only [mergeKids, hs, hm]
      rw [hK]
      simp [mergeT_fst_addr]

theorem mergeT_fst_kids (t2 t1 : ITree) :
    (mergeT t2 t1).1.kids = (mergeKids t2.kids t1.kids).1 := by
  cases t2; simp [mergeT]

theorem mergeT_snd_kids (t2 t1 : ITree) :
    (mergeT t2 t1).2.kids = (mergeKids t2.kids t1.kids).2 := by
  cases t2; simp [mergeT]

/-- Where the first child of the second root is after the merge. -/
theorem mergeT_first_kid (P2 P1 L2 : ITree) (cs : List ITree) (hk : P2.kids = L2 :: cs) :
    (L2.name ∉ P1.kids.map ITree.name → L2.addr ∈ (mergeT P2 P1).1.kids.map ITree.addr) ∧
    (L2.name ∈ P1.kids.map ITree.name → L2.addr ∈ (mergeT P2 P1).2.kids.map ITree.addr) := by
  rw [mergeT_fst_kids, mergeT_snd_kids, hk]
  constructor
  · intro hn
    obtain ⟨more, hm⟩ := mergeKids_fst_addrs cs (P1.kids ++ [L2])
    simp only [mergeKids, splitAtName_of_not_mem hn, hm]
    simp
  · intro hn
    obtain ⟨pre, c, post, hs⟩ := splitAtName_of_mem hn
    simp only [mergeKids, hs]
    simp [mergeT_snd_addr]

/-- C8 (amended). When the two first populated instances `L1`, `L2` both have
a parent (`P1`, `P2`), their functional units have the same name, the leading
hierarchies differ and agree without their last component,
`instance_merge_two_trees` returns TRUE and its final state is that of
`instance_merge_tree` on the two parents: the heap represents the merged
trees, the child lists of both parents are well formed, and `L2` is a child of
`P1` afterwards if `P1` had no child of that name; otherwise it is still a
child of `P2`. -/
theorem instance_merge_two_trees_parents (X : Externals) (w : World) (fuel : Nat)
    (T1 T2 P1 P2 L1 L2 : ITree) (B1 B2 : List ITree) (f1 f2 : func_unit)
    (h1 : IsTree w.inst T1) (h2 : IsTree w.inst T2) (hdis : (T1.addrs ++ T2.addrs).Nodup)
    (hl1 : leading T1 = B1 ++ [P1, L1]) (hl2 : leading T2 = B2 ++ [P2, L2])
    (hf1 : w.loadF L1.funit = .ok f1) (hf2 : w.loadF L2.funit = .ok f2)
    (hname : f1.name = f2.name)
    (hne : joinDots ((leading T1).map ITree.name) ≠ joinDots ((leading T2).map ITree.name))
    (hrest : (scope_extract_back (joinDots ((leading T1).map ITree.name))).2 =
        (scope_extract_back (joinDots ((leading T2).map ITree.name))).2)
    (hfuel : 2 * T1.size + 3 * T2.size ≤ fuel) :
    ∃ w' nx1 nx2,
      instance_merge_two_trees X fuel w (some T1.addr) (some T2.addr) = .ok (w', true) ∧
      instance_merge_tree X.funit_merge fuel w (some P1.addr) (some P2.addr) = .ok w' ∧
      Sat w'.inst (cells (mergeT P2 P1).1 (lastAddr B1) nx1) ∧
      Sat w'.inst (cells (mergeT P2 P1).2 (lastAddr B2) nx2) ∧
      child_list_wf w'.inst P1.addr ((mergeT P2 P1).1.kids.map ITree.addr) ∧
      child_list_wf w'.inst P2.addr ((mergeT P2 P1).2.kids.map ITree.addr) ∧
      (L2.name ∉ P1.kids.map ITree.name →
        L2.addr ∈ (mergeT P2 P1).1.kids.map ITree.addr) ∧
      (L2.name ∈ P1.kids.map ITree.name →
        L2.addr ∈ (mergeT P2 P1).2.kids.map ITree.addr) := by
  obtain ⟨-, hsub1⟩ := leading_split B1 T1 P1 [L1] hl1
  obtain ⟨hlp2, hsub2⟩ := leading_split B2 T2 P2 [L2] hl2
  obtain ⟨cs, hk2⟩ := leading_head_kid hlp2
  obtain ⟨⟨nx1, hc1⟩, -⟩ := PathSat_append B1 [P1, L1] none (leading_PathSat _ T1 none none hl1 h1.1)
  obtain ⟨⟨nx2, hc2⟩, -⟩ := PathSat_append B2 [P2, L2] none (leading_PathSat _ T2 none none hl2 h2.1)
  simp only [Option.or_none] at hc1 hc2
  have hP1 : P1.addrs.Sublist T1.addrs := (List.sublist_append_right _ _).trans hsub1
  have hP2 : P2.addrs.Sublist T2.addrs := (List.sublist_append_right _ _).trans hsub2
  have hnd : (P1.addrs ++ P2.addrs).Nodup := hdis.sublist (hP1.append hP2)
  have hz1 := hP1.length_le
  have hz2 := hP2.length_le
  simp only [ITree.length_addrs] at hz1 hz2
  obtain ⟨w', hm, hS1, hS2, -, -, -⟩ :=
    merge_tree_refines X.funit_merge P2 P1 w (lastAddr B1) nx1 (lastAddr B2) nx2 fuel hc1 hc2
      hnd (by omega)
  have hw1 := child_list_wf_of_Sat hS1
  have hw2 := child_list_wf_of_Sat hS2
  rw [mergeT_fst_addr] at hw1
  rw [mergeT_snd_addr] at hw2
  refine ⟨w', nx1, nx2, ?_, hm, hS1, hS2, hw1, hw2, mergeT_first_kid P2 P1 L2 cs hk2⟩
  have hl1' : leading T1 = (B1 ++ [P1]) ++ [L1] := by rw [hl1]; simp
  have hl2' : leading T2 = (B2 ++ [P2]) ++ [L2] := by rw [hl2]; simp
  rw [merge_two_trees_same X w fuel T1 T2 L1 L2 _ _ f1 f2 h1.1 h2.1 hl1' hl2' hf1 hf2 hname hne
    (by omega), if_neg (not_not.2 hrest), lastAddr_concat, lastAddr_concat, hm]
  rfl

/-- C8 (amended) on the trees `a(x)` and `a(y)`: the parents `a` are merged
and `y` becomes the second child of the first `a`. -/
theorem instance_merge_two_trees_parents_witness :
    ∃ w' nx1 nx2,
      instance_merge_two_trees ext_ex 20 parent_ex_world (some 0) (some 2) = .ok (w', true) ∧
      instance_merge_tree ext_ex.funit_merge 20 parent_ex_world (some 0) (some 2) = .ok w' ∧
      Sat w'.inst (cells (mergeT parent_ex_t2 parent_ex_t1).1 none nx1) ∧
      Sat w'.inst (cells (mergeT parent_ex_t2 parent_ex_t1).2 none nx2) ∧
      child_list_wf w'.inst 0 [1, 3] ∧
      child_list_wf w'.inst 2 [] ∧
      ("y".toList ∉ ["x".toList] → 3 ∈ [1, 3]) ∧
      ("y".toList ∈ ["x".toList] → 3 ∈ ([] : List Nat)) :=
  instance_merge_two_trees_parents ext_ex parent_ex_world 20 parent_ex_t1 parent_ex_t2
    parent_ex_t1 parent_ex_t2 (.node 1 "x".toList (some 0) none false [])
    (.node 3 "y".toList (some 1) none false []) [] [] (funit_ex "m") (funit_ex "m")
    (by decide) (by decide) (by decide) rfl rfl rfl rfl rfl (by decide) (by decide) (by decide)

/-- C8 as stated fails in two ways.  On the trees `a(x, y)` and `a(y)`, where
`x` and the second `y` are the first populated instances (functional units
named `m`, leading hierarchies `a.x` and `a.y`), the call returns TRUE, but the
first `a` keeps the children `x`, `y` it had and the second `y` keeps its
parent: the merge of the parents found a child named `y` and merged into it.
On the one-node trees `a` and `b` with functional units named `m` the leading
hierarchies `a` and `b` differ, what is left without the last component is
empty on both sides, and the call follows the null parent pointers. -/
theorem instance_merge_two_trees_parents_counterexample :
    IsTree clash_ex_world.inst clash_ex_t1 ∧ IsTree clash_ex_world.inst clash_ex_t2 ∧
    instance_get_leading_hierarchy 20 clash_ex_world (some 0) (some []) =
      .ok (some "a.x".toList, some 1) ∧
    instance_get_leading_hierarchy 20 clash_ex_world (some 3) (some []) =
      .ok (some "a.y".toList, some 4) ∧
    (scope_extract_back "a.x".toList).2 = (scope_extract_back "a.y".toList).2 ∧
    (clash_ex_world.load (some 1)).bind (fun n => clash_ex_world.loadF n.funit) =
      .ok (funit_ex "m") ∧
    (clash_ex_world.load (some 4)).bind (fun n => clash_ex_world.loadF n.funit) =
      .ok (funit_ex "m") ∧
    (instance_merge_two_trees ext_ex 20 clash_ex_world (some 0) (some 3)).map
      (fun r => (r.2, child_list 10 r.1.inst ((r.1.inst 0).bind (fun n => n.child_head)),
        (r.1.inst 4).bind (fun n => n.parent))) = .ok (true, some [1, 2], some 3) ∧
    instance_get_leading_hierarchy 20 roots_ex_world (some 0) (some []) =
      .ok (some "a".toList, some 0) ∧
    instance_get_leading_hierarchy 20 roots_ex_world (some 1) (some []) =
      .ok (some "b".toList, some 1) ∧
    (scope_extract_back "a".toList).2 = (scope_extract_back "b".toList).2 ∧
    (instance_merge_two_trees ext_ex 20 roots_ex_world (some 0) (some 1)).map
      (fun r => r.2) = .error .null_deref :=
  ⟨by decide, by decide, by decide, by decide, by decide, by decide, by decide, by decide,
    by decide, by decide, by decide, by decide⟩

/-- C9 fails on the one-node trees `a` (functional unit `m1`) and `ab`
(functional unit `m2`): the names of the functional units differ, the leading
hierarchy `a` of the first tree is a prefix of the leading hierarchy `ab` of
the second as `strncmp` sees it, the scope lookup of `a` in the second tree
returns NULL, and the call stops at `assert( root2 != NULL )`. -/
theorem instance_merge_two_trees_prefix_assertion :
    instance_get_leading_hierarchy 20 prefix_ex_world (some 0) (some []) =
      .ok (some "a".toList, some 0) ∧
    instance_get_leading_hierarchy 20 prefix_ex_world (some 1) (some []) =
      .ok (some "ab".toList, some 1) ∧
    (prefix_ex_world.load (some 0)).bind (fun n => prefix_ex_world.loadF n.funit) =
      .ok (funit_ex "m1") ∧
    (prefix_ex_world.load (some 1)).bind (fun n => prefix_ex_world.loadF n.funit) =
      .ok (funit_ex "m2") ∧
    strncmp_eq_strlen "a".toList "ab".toList = true ∧
    instance_find_scope ext_ex 20 prefix_ex_world (some 1) "a".toList false = .ok none ∧
    (instance_merge_two_trees ext_ex 20 prefix_ex_world (some 0) (some 1)).map
      (fun r => r.2) = .error .assertion :=
  ⟨by decide, by decide, by decide, by decide, by decide, by decide, by decide⟩

/-! ## Printing the index of an instance name -/

theorem digitChar_value (n : Nat) (h : n < 10) : ((Nat.digitChar n).toNat : Int) - 48 = n := by
  interval_cases n <;> rfl

theorem digitChar_ne_minus (n : Nat) (h : n < 10) : Nat.digitChar n ≠ '-' := by
  interval_cases n <;> decide

theorem digits_value_concat (a : List Char) (d : Char) :
    digits_value (a ++ [d]) = digits_value a * 10 + ((d.toNat : Int) - 48) := by
  simp [digits_value, List.foldl_append]

theorem digits_value_dec_digits : ∀ (k n : Nat), n < k → digits_value (dec_digits k n) = n := by
  intro k
  induction k with
  | zero => intro n h; omega
  | succ k ih =>
    intro n h
    simp only [dec_digits]
    by_cases h10 : n < 10
    · rw [if_pos h10]
      have := digits_value_concat [] (Nat.digitChar n)
      simp only [List.nil_append] at this
      rw [this, digitChar_value n h10]
      simp [digits_value]
    · rw [if_neg h10, digits_value_concat, ih (n / 10) (by omega),
        digitChar_value (n % 10) (by omega)]
      omega

theorem dec_digits_head : ∀ (k n : Nat), n < k → ∃ c r, dec_digits k n = c :: r ∧ c ≠ '-' := by
  intro k
  induction k with
  | zero => intro n h; omega
  | succ k ih =>
    intro n h
    simp only [dec_digits]
    by_cases h10 : n < 10
    · rw [if_pos h10]
      exact ⟨_, [], rfl, digitChar_ne_minus n h10⟩
    · rw [if_neg h10]
      obtain ⟨c, r, hcr, hc⟩ := ih (n / 10) (by omega)
      exact ⟨c, r ++ [Nat.digitChar (n % 10)], by rw [hcr]; rfl, hc⟩

theorem printf_d_value_cons {c : Char} (r : List Char) (hc : c ≠ '-') :
    printf_d_value (c :: r) = digits_value (c :: r) := by
  unfold printf_d_value
  split
  · rename_i r' heq
    simp only [List.cons.injEq] at heq
    exact absurd heq.1 hc
  · rfl

theorem printf_d_value_printf_d (n : Int) : printf_d_value (printf_d n) = n := by
  unfold printf_d
  by_cases hn : n < 0
  · rw [if_pos hn]
    show - digits_value (dec_digits (n.natAbs + 1) n.natAbs) = n
    rw [digits_value_dec_digits _ _ (by omega)]
    omega
  · rw [if_neg hn]
    obtain ⟨c, r, hcr, hc⟩ := dec_digits_head (n.toNat + 1) n.toNat (by omega)
    rw [hcr, printf_d_value_cons r hc, ← hcr, digits_value_dec_digits _ _ (by omega)]
    omega

theorem snprintf_name_index_inj {nm : Str} {a b : Int}
    (h : snprintf_name_index nm a = snprintf_name_index nm b) : a = b := by
  unfold snprintf_name_index at h
  rw [List.append_assoc, List.append_assoc, List.append_assoc, List.append_assoc] at h
  have h1 := List.append_cancel_left h
  simp only [List.singleton_append, List.cons.injEq, true_and] at h1
  have h2 := List.append_cancel_right h1
  have := congrArg printf_d_value h2
  simpa [printf_d_value_printf_d] using this

theorem dec_digits_length : ∀ (k n m : Nat), n < 10 ^ (m + 1) →
    (dec_digits k n).length ≤ m + 1 := by
  intro k
  induction k with
  | zero => intro n m _; simp [dec_digits]
  | succ k ih =>
    intro n m h
    simp only [dec_digits]
    by_cases h10 : n < 10
    · rw [if_pos h10]; simp
    · rw [if_neg h10]
      cases m with
      | zero => simp at h; omega
      | succ m =>
        have hdiv : n / 10 < 10 ^ (m + 1) := by
          rw [Nat.div_lt_iff_lt_mul (by norm_num)]
          rw [pow_succ] at h
          exact h
        have := ih (n / 10) m hdiv
        simp only [List.length_append, List.length_singleton]
        omega

theorem printf_d_length (n : Int) (h1 : -2147483648 ≤ n) (h2 : n ≤ 2147483648) :
    (printf_d n).length ≤ 11 := by
  unfold printf_d
  by_cases hn : n < 0
  · rw [if_pos hn]
    have := dec_digits_length (n.natAbs + 1) n.natAbs 9 (by norm_num; omega)
    simp only [List.length_cons]
    omega
  · rw [if_neg hn]
    have := dec_digits_length (n.toNat + 1) n.toNat 9 (by norm_num; omega)
    omega

theorem snprintf_name_index_length (nm : Str) (n : Int) (h1 : -2147483648 ≤ n)
    (h2 : n ≤ 2147483648) : (snprintf_name_index nm n).length < nm.length + 23 := by
  have := printf_d_length n h1 h2
  simp only [snprintf_name_index, List.length_append, List.length_singleton]
  omega

theorem int_of_unsigned_eq (x : Int) (h1 : -2147483648 ≤ x) (h2 : x < 2147483648) :
    int_of_unsigned x = x := by
  unfold int_of_unsigned
  split <;> omega

/-! ## Searching the tree for the instances of a functional unit -/

theorem find_by_funit_loop_found (rec : Option Nat → Int → Except Fault (Option Nat × Int))
    (w : World) (k : Nat) (cc : Option Nat) (a : Nat) (ig : Int) :
    instance_find_by_funit_loop rec (k + 1) w cc (some a) ig = .ok (some a, ig) := by
  cases cc <;> simp [instance_find_by_funit_loop]

theorem find_by_funit_loop_spec (w : World) (f : Option Nat)
    (rec : Option Nat → Int → Except Fault (Option Nat × Int)) (p : Option Nat) :
    ∀ (K : List ITree) (fuel : Nat) (ig : Int), Sat w.inst (cellsL K p none) →
      K.length + 1 ≤ fuel →
      (∀ c ∈ K, ∀ ig, rec (some c.addr) ig = .ok (findFunitT f c ig)) →
      instance_find_by_funit_loop rec fuel w (headAddrOr none K) none ig =
        .ok (findFunitL f K ig) := by
  intro K
  induction K with
  | nil =>
    intro fuel ig _ hf _
    obtain ⟨k, rfl⟩ : ∃ k, fuel = k + 1 := ⟨fuel - 1, by omega⟩
    simp [instance_find_by_funit_loop, findFunitL]
  | cons t K ih =>
    intro fuel ig hs hf hrec
    obtain ⟨k, rfl⟩ : ∃ k, fuel = k + 1 := ⟨fuel - 1, by simp at hf; omega⟩
    obtain ⟨k', rfl⟩ : ∃ k', k = k' + 1 := ⟨k - 1, by simp at hf; omega⟩
    simp only [cellsL, Sat_append] at hs
    have hroot := Sat_root hs.1
    simp only [headAddrOr_cons, instance_find_by_funit_loop, findFunitL,
      hrec t (List.mem_cons_self _ _) ig, Except.ok_bind, World.load_eq hroot]
    cases hr : findFunitT f t ig with
    | mk m ig' =>
      cases m with
      | some a => cases (rootCell t p (headAddrOr none K)).next <;> rfl
      | none =>
        simp only [rootCell]
        exact ih (k' + 1) ig' hs.2 (by simp at hf; omega)
          (fun c hc => hrec c (List.mem_cons_of_mem _ hc))

/-- The code of `instance_find_by_funit` refines its functional model. -/
theorem find_by_funit_refines (w : World) (f : Option Nat) :
    ∀ (n : Nat) (t : ITree) (p nx : Option Nat) (fuel : Nat) (ig : Int), t.size ≤ n →
      Sat w.inst (cells t p nx) → t.size + 1 ≤ fuel →
      instance_find_by_funit fuel w (some t.addr) f ig = .ok (findFunitT f t ig) := by
  intro n
  induction n with
  | zero =>
    intro t _ _ _ _ hn
    have := t.size_pos
    omega
  | succ n ih =>
    intro t p nx fuel ig hn hs hf
    obtain ⟨k, rfl⟩ : ∃ k, fuel = k + 1 := ⟨fuel - 1, by omega⟩
    obtain ⟨a, nm, fu, rg, nd, ks⟩ := t
    have hroot := Sat_root hs
    have hkids := Sat_kids hs
    simp only [ITree.addr_node, ITree.kids_node, ITree.size] at hroot hkids hn hf
    have hlen := ITree.length_le_sizeL ks
    simp only [ITree.addr_node, instance_find_by_funit, World.load_eq hroot, Except.ok_bind,
      findFunitT, rootCell, ITree.funit_node, ITree.kids_node]
    by_cases hfu : fu = f
    · simp only [hfu, if_true]
      split <;> rfl
    · simp only [hfu, if_false]
      refine find_by_funit_loop_spec w f _ (some a) ks k ig hkids (by omega) ?_
      intro c hc ig2
      obtain ⟨nx', hc'⟩ := cells_of_mem hkids hc
      have := ITree.size_le_sizeL hc
      exact ih c (some a) nx' k ig2 (by omega) hc' (by omega)

theorem find_by_funit_loop_sound (w : World) (f : Option Nat)
    (rec : Option Nat → Int → Except Fault (Option Nat × Int))
    (hrec : ∀ c ig x ig', rec c ig = .ok (some x, ig') → ∃ d, w.inst x = some d ∧ d.funit = f) :
    ∀ (k : Nat) (cc m : Option Nat) (ig : Int) (x : Nat) (ig' : Int),
      (∀ y, m = some y → ∃ d, w.inst y = some d ∧ d.funit = f) →
      instance_find_by_funit_loop rec k w cc m ig = .ok (some x, ig') →
      ∃ d, w.inst x = some d ∧ d.funit = f := by
  intro k
  induction k with
  | zero => intro cc m ig x ig' _ h; simp [instance_find_by_funit_loop] at h
  | succ k ih =>
    intro cc m ig x ig' hm h
    cases m with
    | some y =>
      rw [find_by_funit_loop_found] at h
      simp only [Except.ok.injEq, Prod.mk.injEq, Option.some.injEq] at h
      obtain ⟨rfl, -⟩ := h
      exact hm y rfl
    | none =>
      cases cc with
      | none => simp [instance_find_by_funit_loop] at h
      | some c =>
        simp only [instance_find_by_funit_loop] at h
        obtain ⟨⟨m1, ig1⟩, h1, h⟩ := Except.bind_eq_ok h
        obtain ⟨n, -, h⟩ := Except.bind_eq_ok h
        refine ih n.next m1 ig1 x ig' ?_ h
        intro y hy
        subst hy
        exact hrec _ _ _ _ h1

/-- Whatever `instance_find_by_funit` returns is an instance of the
functional unit asked for. -/
theorem find_by_funit_sound (w : World) (f : Option Nat) :
    ∀ (fuel : Nat) (root : Option Nat) (ig : Int) (x : Nat) (ig' : Int),
      instance_find_by_funit fuel w root f ig = .ok (some x, ig') →
      ∃ d, w.inst x = some d ∧ d.funit = f := by
  intro fuel
  induction fuel with
  | zero => intro root ig x ig' h; simp [instance_find_by_funit] at h
  | succ k ih =>
    intro root ig x ig' h
    cases root with
    | none => simp [instance_find_by_funit] at h
    | some r =>
      simp only [instance_find_by_funit] at h
      obtain ⟨n, hn, h⟩ := Except.bind_eq_ok h
      have hcell : w.inst r = some n := by
        simp only [World.load] at hn
        cases hr : w.inst r with
        | none => simp [hr] at hn
        | some c => simp only [hr, Except.ok.injEq] at hn; rw [hn]
      by_cases hfu : n.funit = f
      · rw [if_pos hfu] at h
        by_cases hig : ig = 0
        · rw [if_pos hig] at h
          simp only [Except.pure_eq_ok, Except.ok.injEq, Prod.mk.injEq, Option.some.injEq] at h
          obtain ⟨rfl, -⟩ := h
          exact ⟨n, hcell, hfu⟩
        · rw [if_neg hig] at h
          simp at h
      · rw [if_neg hfu] at h
        exact find_by_funit_loop_sound w f _ (fun c ig x ig' hc => ih c ig x ig' hc) k _ none ig
          x ig' (by simp) h

mutual
theorem findFunitT_nomatch (g : Nat) :
    ∀ (t : ITree) (ig : Int), g ∉ funitsOf t → findFunitT (some g) t ig = (none, ig)
  | .node a nm fu rg nd ks, ig, h => by
    simp only [funitsOf, List.mem_append, not_or] at h
    have hfu : fu ≠ some g := by
      intro e
      subst e
      simp at h
    simp only [findFunitT, if_neg hfu]
    exact findFunitL_nomatch g ks ig h.2
theorem findFunitL_nomatch (g : Nat) :
    ∀ (ks : List ITree) (ig : Int), g ∉ funitsOfL ks → findFunitL (some g) ks ig = (none, ig)
  | [], ig, _ => by simp [findFunitL]
  | c :: cs, ig, h => by
    simp only [funitsOfL, List.mem_append, not_or] at h
    simp only [findFunitL, findFunitT_nomatch g c ig h.1]
    exact findFunitL_nomatch g cs ig h.2
end

theorem findFunitL_append (f : Option Nat) (B : List ITree) :
    ∀ (A : List ITree) (ig : Int), findFunitL f (A ++ B) ig =
      match findFunitL f A ig with
      | (some a, ig') => (some a, ig')
      | (none, ig') => findFunitL f B ig' := by
  intro A
  induction A with
  | nil => intro ig; simp [findFunitL]
  | cons c A ih =>
    intro ig
    simp only [List.cons_append, findFunitL]
    cases hr : findFunitT f c ig with
    | mk m ig' =>
      cases m with
      | some a => rfl
      | none => exact ih ig'

/-! ## A subtree and the tree around it -/

theorem plug_addrs_perm : ∀ (C : List Frame) (t : ITree),
    (plug C t).addrs.Perm (t.addrs ++ ctxAddrs C) := by
  intro C
  induction C with
  | nil => intro t; simp [plug, ctxAddrs]
  | cons fr C ih =>
    intro t
    simp only [plug]
    refine (ih (fr.fill t)).trans ?_
    simp only [Frame.fill, ITree.addrs, ITree.addrsL_append, ITree.addrsL, ctxAddrs]
    refine List.perm_iff_count.2 fun x => ?_
    simp only [List.count_append, List.count_cons, List.cons_append]
    omega

theorem plug_addr_congr : ∀ (C : List Frame) (t t' : ITree), t'.addr = t.addr →
    (plug C t').addr = (plug C t).addr := by
  intro C
  induction C with
  | nil => intro t t' h; exact h
  | cons fr C ih => intro t t' _; exact ih _ _ rfl

theorem plug_size (C : List Frame) (t : ITree) :
    (plug C t).size = t.size + (ctxAddrs C).length := by
  have := (plug_addrs_perm C t).length_eq
  simpa [ITree.length_addrs] using this

theorem plug_Sat (h : Heap) : ∀ (C : List Frame) (t : ITree) (P NX : Option Nat),
    Sat h (cells (plug C t) P NX) →
    ∃ ps nxs, Sat h (cells t ps nxs) ∧
      ∀ (h' : Heap) (t' : ITree), t'.addr = t.addr → Sat h' (cells t' ps nxs) →
        (∀ x ∈ ctxAddrs C, h' x = h x) → Sat h' (cells (plug C t') P NX) := by
  intro C
  induction C with
  | nil =>
    intro t P NX hs
    exact ⟨P, NX, hs, fun h' t' _ hs' _ => hs'⟩
  | cons fr C ih =>
    intro t P NX hs
    obtain ⟨ps', nxs', hfill, hrep⟩ := ih (fr.fill t) P NX hs
    have hroot := Sat_root hfill
    have hkids := Sat_kids hfill
    simp only [Frame.fill, ITree.addr_node, ITree.kids_node, cellsL_append, cellsL, Sat_append,
      headAddrOr_cons] at hroot hkids
    obtain ⟨hpre, ht, hpost⟩ := hkids
    refine ⟨some fr.addr, headAddrOr none fr.post, ht, ?_⟩
    intro h' t' hta hs' hframe
    refine hrep h' (fr.fill t') rfl ?_ ?_
    · rw [Sat_cells_iff]
      simp only [Frame.fill, ITree.addr_node, ITree.kids_node, cellsL_append, cellsL, Sat_append,
        headAddrOr_cons]
      refine ⟨?_, ?_, hs', ?_⟩
      · rw [hframe fr.addr (by simp [ctxAddrs]), hroot]
        congr 1
        refine rootCell_congr _ _ _ _ _ _ _ ?_
        simp [hta]
      · rw [hta]
        refine Sat_congr hpre ?_
        intro a ha
        rw [map_fst_cellsL] at ha
        exact hframe a (by simp [ctxAddrs, ha])
      · refine Sat_congr hpost ?_
        intro a ha
        rw [map_fst_cellsL] at ha
        exact hframe a (by simp [ctxAddrs, ha])
    · intro x hx
      exact hframe x (by simp [ctxAddrs, hx])

/-! ## Adding a child instance -/

theorem resolve_inst_no_range (X : Externals) (k : Nat) (w : World) (r : Option Nat) (x : Nat)
    (c : funit_inst) (hc : w.inst x = some c) (hr : c.range = none) :
    instance_resolve_inst X (k + 1) w r (some x) = .ok (w, false) := by
  simp [instance_resolve_inst, World.load_eq hc, hr]

theorem add_child_resolve_none
    (rr : World → Option Nat → Option Nat → Except Fault (World × Bool)) (w : World) (x : Nat)
    (hrr : ∀ r, rr w (some r) (some x) = .ok (w, false)) :
    ∀ (l : List Nat), instance_add_child_resolve rr w l (some x) = .ok w := by
  intro l
  induction l with
  | nil => rfl
  | cons r l ih => simp [instance_add_child_resolve, hrr r, ih]

theorem instance_add_child_spec
    (rr : World → Option Nat → Option Nat → Except Fault (World × Bool)) (w : World)
    (pa : Nat) (pn : Str) (pf : Option Nat) (prg : Option vector_width) (pnd : Bool)
    (K : List ITree) (ps nxs : Option Nat) (child : Option Nat) (nm : Str)
    (range : Option vector_width) (resolve : Bool) (fuel : Nat)
    (hs : Sat w.inst (cells (.node pa pn pf prg pnd K) ps nxs))
    (hnd : (pa :: ITree.addrsL K).Nodup)
    (hfresh : ∀ a ∈ pa :: ITree.addrsL K, a < w.brk)
    (hname : nm ∉ K.map ITree.name)
    (hrr : ∀ (w' : World) (r x : Nat) (c : funit_inst), w'.inst x = some c → c.range = none →
      rr w' (some r) (some x) = .ok (w', false))
    (hres : resolve = true → range = none)
    (hfuel : K.length + 1 ≤ fuel) :
    ∃ w1, instance_add_child rr fuel w (some pa) child nm range resolve =
        .ok (w1, some w.brk) ∧
      Sat w1.inst (cells (.node pa pn pf prg pnd
        (K ++ [.node w.brk nm child range false []])) ps nxs) ∧
      (∀ x, x ≠ pa → x ∉ ITree.addrsL K → x ≠ w.brk → w1.inst x = w.inst x) ∧
      w1.brk = w.brk + 1 ∧ w1.funit = w.funit ∧ w1.inst_head = w.inst_head := by
  have hroot := Sat_root hs
  have hK := Sat_kids hs
  simp only [ITree.addr_node, ITree.kids_node] at hroot hK
  have hpab : pa ≠ w.brk := by
    have := hfresh pa (List.mem_cons_self _ _); omega
  have hKb : w.brk ∉ ITree.addrsL K := by
    intro hin
    have := hfresh _ (List.mem_cons_of_mem _ hin); omega
  have hfind := find_child_by_name_spec w nm (some pa) K fuel hK hfuel
  rw [splitAtName_of_not_mem hname] at hfind
  let cell0 : funit_inst := ⟨nm, child, range, false, none, none, none, none⟩
  let w0 : World := ⟨upd w.inst w.brk cell0, w.funit, w.brk + 1, w.inst_head⟩
  have hroot0 : w0.inst pa = some (rootCell (.node pa pn pf prg pnd K) ps nxs) := by
    show upd w.inst w.brk cell0 pa = _
    rw [upd_other _ _ hpab, hroot]
  have hK0 : Sat w0.inst (cellsL K (some pa) none) :=
    Sat_upd _ hK (by rw [map_fst_cellsL]; exact hKb)
  obtain ⟨w1, happ, hroot1, hK1, hframe1, hfu1, hbrk1, hih1⟩ :=
    child_list_append_spec w0 pa pn pf prg pnd K (.node w.brk nm child range false []) ps nxs
      hroot0 hK0 hnd
  simp only [ITree.addr_node] at happ hK1
  have hnew1 : w1.inst w.brk = some cell0 := by
    rw [hframe1 w.brk (Ne.symm hpab) hKb]
    exact upd_same _ _ _
  let w2 : World := ⟨upd w1.inst w.brk { cell0 with parent := some pa }, w1.funit, w1.brk,
    w1.inst_head⟩
  have hnew2 : w2.inst w.brk = some { cell0 with parent := some pa } := upd_same _ _ _
  refine ⟨w2, ?_, ?_, ?_, hbrk1, hfu1, hih1⟩
  · simp only [instance_add_child, World.load_eq hroot, Except.ok_bind, rootCell,
      ITree.kids_node, hfind, Option.map_none', instance_create]
    have happ' : child_list_append w0 (some pa) (some w.brk) = .ok w1 := happ
    rw [happ']
    simp only [Except.ok_bind, World.modify_eq _ hnew1]
    cases resolve with
    | false => rfl
    | true =>
      have hrn : range = none := hres rfl
      have hloop := add_child_resolve_none rr w2 w.brk
        (fun r => hrr w2 r w.brk _ hnew2 hrn) w2.inst_head
      have hloop' : instance_add_child_resolve rr
          { w1 with inst := upd w1.inst w.brk { cell0 with parent := some pa } }
          w1.inst_head (some w.brk) = .ok w2 := hloop
      simp only [if_true]
      rw [hloop']
      rfl
  · rw [Sat_cells_iff]
    simp only [ITree.addr_node, ITree.kids_node, cellsL_append, cellsL, Sat_append,
      headAddrOr_cons, headAddrOr_nil, cells, List.append_nil]
    refine ⟨?_, ?_, ?_⟩
    · show upd w1.inst w.brk _ pa = _
      rw [upd_other _ _ hpab, hroot1]
    · exact Sat_upd _ hK1 (by rw [map_fst_cellsL]; exact hKb)
    · rw [Sat_cons]
      exact ⟨hnew2, Sat_nil _⟩
  · intro x hx1 hx2 hx3
    show upd w1.inst w.brk _ x = _
    rw [upd_other _ _ hx3, hframe1 x hx1 hx2]
    exact upd_other _ _ hx3

theorem cells_next_indep (t : ITree) (p nx nx' : Option Nat) (x : Nat) (c : funit_inst)
    (h : (x, c) ∈ cells t p nx) :
    ∃ c0, (x, c0) ∈ cells t p nx' ∧ c0.funit = c.funit ∧ c0.child_head = c.child_head := by
  rw [cells_eq] at h ⊢
  rcases List.mem_cons.1 h with h | h
  · simp only [Prod.mk.injEq] at h
    obtain ⟨rfl, rfl⟩ := h
    exact ⟨rootCell t p nx', List.mem_cons_self _ _, rfl, rfl⟩
  · exact ⟨c, List.mem_cons_of_mem _ h, rfl, rfl⟩

theorem cellsL_next_indep (p : Option Nat) (x : Nat) (c : funit_inst) :
    ∀ (K : List ITree) (e e' : Option Nat), (x, c) ∈ cellsL K p e →
      ∃ c0, (x, c0) ∈ cellsL K p e' ∧ c0.funit = c.funit ∧ c0.child_head = c.child_head := by
  intro K
  induction K with
  | nil => intro e e' h; simp [cellsL] at h
  | cons k K ih =>
    intro e e' h
    simp only [cellsL, List.mem_append] at h ⊢
    rcases h with h | h
    · obtain ⟨c0, h0, hf, hc⟩ := cells_next_indep k p _ (headAddrOr e' K) x c h
      exact ⟨c0, Or.inl h0, hf, hc⟩
    · obtain ⟨c0, h0, hf, hc⟩ := ih e e' h
      exact ⟨c0, Or.inr h0, hf, hc⟩

theorem Sat_mem_addrs {h : Heap} {t : ITree} {p nx : Option Nat} (hs : Sat h (cells t p nx))
    {a : Nat} (ha : a ∈ t.addrs) : ∃ c, h a = some c := by
  rw [← map_fst_cells t p nx] at ha
  obtain ⟨⟨x, c⟩, hx, rfl⟩ := List.mem_map.1 ha
  exact ⟨c, hs _ hx⟩

/-- What adding the child at address `b` to the instance at `pa` does to the
rest of the heap: cells stay allocated with their functional unit, and the
instances of the functional unit `gc` still have no children. -/
theorem add_child_heap (w w1 : World) (pa : Nat) (pn : Str) (pf : Option Nat)
    (prg : Option vector_width) (pnd : Bool) (K : List ITree) (ps nxs : Option Nat)
    (child : Option Nat) (nm : Str) (b gc : Nat)
    (hs : Sat w.inst (cells (.node pa pn pf prg pnd K) ps nxs))
    (hs1 : Sat w1.inst (cells (.node pa pn pf prg pnd
      (K ++ [.node b nm child none false []])) ps nxs))
    (hframe : ∀ x, x ≠ pa → x ∉ ITree.addrsL K → x ≠ b → w1.inst x = w.inst x)
    (hb : w.inst b = none) (hpf : pf ≠ some gc)
    (hleaf : ∀ x c, w.inst x = some c → c.funit = some gc → c.child_head = none) :
    (∀ x c, w.inst x = some c → ∃ c', w1.inst x = some c' ∧ c'.funit = c.funit) ∧
    (∀ x c, w1.inst x = some c → c.funit = some gc → c.child_head = none) ∧
    (∀ x, x ≠ b → w.inst x = none → w1.inst x = none) := by
  have hroot := Sat_root hs
  have hK := Sat_kids hs
  have hroot1 := Sat_root hs1
  have hK1 := Sat_kids hs1
  simp only [ITree.addr_node, ITree.kids_node, cellsL_append, cellsL, Sat_append,
    headAddrOr_cons, headAddrOr_nil, cells, List.append_nil] at hroot hK hroot1 hK1
  obtain ⟨hK1, hnew⟩ := hK1
  have hnew' := hnew _ (List.mem_cons_self _ _)
  simp only at hnew'
  have key : ∀ x, x ∈ ITree.addrsL K → ∃ c0 c1, w.inst x = some c0 ∧ w1.inst x = some c1 ∧
      c0.funit = c1.funit ∧ c0.child_head = c1.child_head := by
    intro x hx
    rw [← map_fst_cellsL K (some pa) (some b)] at hx
    obtain ⟨⟨y, c1⟩, hy, rfl⟩ := List.mem_map.1 hx
    obtain ⟨c0, h0, hf, hc⟩ := cellsL_next_indep (some pa) y c1 K _ none hy
    exact ⟨c0, c1, hK _ h0, hK1 _ hy, hf, hc⟩
  refine ⟨?_, ?_, ?_⟩
  · intro x c hx
    by_cases hxa : x = pa
    · subst hxa
      rw [hroot] at hx
      simp only [Option.some.injEq] at hx
      subst hx
      exact ⟨_, hroot1, rfl⟩
    · by_cases hxK : x ∈ ITree.addrsL K
      · obtain ⟨c0, c1, h0, h1, hf, -⟩ := key x hxK
        rw [h0] at hx
        simp only [Option.some.injEq] at hx
        subst hx
        exact ⟨c1, h1, hf.symm⟩
      · have hxb : x ≠ b := by
          intro e
          subst e
          rw [hb] at hx
          exact absurd hx (by simp)
        exact ⟨c, by rw [hframe x hxa hxK hxb]; exact hx, rfl⟩
  · intro x c hx hf
    by_cases hxa : x = pa
    · subst hxa
      rw [hroot1] at hx
      simp only [Option.some.injEq] at hx
      subst hx
      exact absurd hf hpf
    · by_cases hxK : x ∈ ITree.addrsL K
      · obtain ⟨c0, c1, h0, h1, hf1, hc1⟩ := key x hxK
        rw [h1] at hx
        simp only [Option.some.injEq] at hx
        subst hx
        rw [← hc1]
        exact hleaf x c0 h0 (hf1.trans hf)
      · by_cases hxb : x = b
        · subst hxb
          rw [hnew'] at hx
          simp only [Option.some.injEq] at hx
          subst hx
          rfl
        · rw [hframe x hxa hxK hxb] at hx
          exact hleaf x c hx hf
  · intro x hxb hx
    by_cases hxa : x = pa
    · subst hxa
      rw [hroot] at hx
      exact absurd hx (by simp)
    · by_cases hxK : x ∈ ITree.addrsL K
      · obtain ⟨c0, c1, h0, -, -, -⟩ := key x hxK
        rw [h0] at hx
        exact absurd hx (by simp)
      · rw [hframe x hxa hxK hxb]
        exact hx

theorem plug_size_add_kid (C : List Frame) (pa : Nat) (pn : Str) (pf : Option Nat)
    (prg : Option vector_width) (pnd : Bool) (K : List ITree) (n : ITree) :
    (plug C (.node pa pn pf prg pnd (K ++ [n]))).size =
      (plug C (.node pa pn pf prg pnd K)).size + n.size := by
  rw [plug_size, plug_size]
  simp only [ITree.size, ITree.sizeL_append, ITree.sizeL]
  omega

theorem copy_loop_none (rec : World → Option Nat → Except Fault World) (k : Nat) (w : World) :
    instance_copy_loop rec (k + 1) w none = .ok w := rfl

theorem instance_resolve_inst_succ (X : Externals) (k : Nat) (w : World) (root curr : Option Nat) :
    instance_resolve_inst X (k + 1) w root curr =
      (if curr = none then .error .assertion
      else do
        let c ← w.load curr
        match c.range with
        | none => pure (w, false)
        | some range =>
          let (width, lsb) := X.static_expr_calc_lsb_and_width_post range
          if width = 0 then .error .assertion
          else if lsb = -1 then .error .assertion
          else do
            let w ← w.modify curr (fun c => { c with range := none })
            let name_copy := c.name
            let slen := name_copy.length + 23
            let new_name := snprintf_name_index name_copy lsb
            if new_name.length < slen then do
              let w ← w.modify curr (fun c => { c with name := new_name })
              let w ← instance_resolve_inst_loop
                (fun w root parent child nm =>
                  instance_parse_add (instance_resolve_inst X k) k w root parent child nm none
                    true false)
                curr name_copy slen lsb width k w root 1
              pure (w, true)
            else .error .assertion) := rfl

/-! ## The instances that a resolution leaves alone -/

mutual
theorem cells_of_node {h : Heap} : ∀ (t : ITree) (p nx : Option Nat) (q : ITree),
    Sat h (cells t p nx) → q ∈ nodesOf t → ∃ p' nx', Sat h (cells q p' nx')
  | .node a nm fu rg nd ks, p, nx, q, hs, hq => by
    simp only [nodesOf, List.mem_cons] at hq
    rcases hq with rfl | hq
    · exact ⟨p, nx, hs⟩
    · exact cellsL_of_node ks (some a) none q (Sat_kids hs) hq
theorem cellsL_of_node {h : Heap} : ∀ (ks : List ITree) (p e : Option Nat) (q : ITree),
    Sat h (cellsL ks p e) → q ∈ nodesOfL ks → ∃ p' nx', Sat h (cells q p' nx')
  | [], _, _, q, _, hq => by simp [nodesOfL] at hq
  | k :: ks, p, e, q, hs, hq => by
    simp only [cellsL, Sat_append] at hs
    simp only [nodesOfL, List.mem_append] at hq
    rcases hq with hq | hq
    · exact cells_of_node k p _ q hs.1 hq
    · exact cellsL_of_node ks p e q hs.2 hq
end

theorem nodesOfL_append (A B : List ITree) : nodesOfL (A ++ B) = nodesOfL A ++ nodesOfL B := by
  induction A with
  | nil => simp [nodesOfL]
  | cons a A ih => simp [nodesOfL, ih]

/-- Every instance of a tree has its children as its child list in the heap. -/
theorem child_list_wf_of_node {h : Heap} {t : ITree} {p nx : Option Nat}
    (hs : Sat h (cells t p nx)) {q : ITree} (hq : q ∈ nodesOf t) :
    child_list_wf h q.addr (q.kids.map ITree.addr) := by
  obtain ⟨p', nx', hq'⟩ := cells_of_node t p nx q hs hq
  exact child_list_wf_of_Sat hq'

/-- C13 (amended). `instance_add_child( inst, child, name, range, resolve )`
on an instance whose child list the heap represents: if a child named `name`
exists, the call returns NULL and the state is unchanged; otherwise, when the
new instance is not to be resolved at once (`resolve` is FALSE or `range` is
NULL), it returns a new instance with that name, functional unit and range,
which is the last child of `inst` and points back to it, while the former
children keep their order and nothing outside the child list changes. -/
theorem instance_add_child_result (X : Externals) (k0 : Nat) (w : World) (pa : Nat) (pn : Str)
    (pf : Option Nat) (prg : Option vector_width) (pnd : Bool) (K : List ITree)
    (ps nxs : Option Nat) (child : Option Nat) (nm : Str) (range : Option vector_width)
    (resolve : Bool) (fuel : Nat)
    (hs : Sat w.inst (cells (.node pa pn pf prg pnd K) ps nxs))
    (hnd : (pa :: ITree.addrsL K).Nodup)
    (hfresh : ∀ a ∈ pa :: ITree.addrsL K, a < w.brk)
    (hfuel : K.length + 1 ≤ fuel) :
    (nm ∈ K.map ITree.name →
      instance_add_child (instance_resolve_inst X (k0 + 1)) fuel w (some pa) child nm range
        resolve = .ok (w, none)) ∧
    (nm ∉ K.map ITree.name → (resolve = true → range = none) →
      ∃ w1, instance_add_child (instance_resolve_inst X (k0 + 1)) fuel w (some pa) child nm range
          resolve = .ok (w1, some w.brk) ∧
        Sat w1.inst (cells (.node pa pn pf prg pnd
          (K ++ [.node w.brk nm child range false []])) ps nxs) ∧
        child_list_wf w1.inst pa (K.map ITree.addr ++ [w.brk]) ∧
        (∀ x, x ≠ pa → x ∉ ITree.addrsL K → x ≠ w.brk → w1.inst x = w.inst x)) := by
  constructor
  · intro hin
    have hroot := Sat_root hs
    have hK := Sat_kids hs
    simp only [ITree.addr_node, ITree.kids_node] at hroot hK
    have hfind := find_child_by_name_spec w nm (some pa) K fuel hK hfuel
    obtain ⟨pre, c, post, hsp⟩ := splitAtName_of_mem hin
    rw [hsp] at hfind
    simp only [instance_add_child, World.load_eq hroot, Except.ok_bind, rootCell,
      ITree.kids_node, hfind, Option.map_some']
    rfl
  · intro hout hres
    obtain ⟨w1, hadd, hs1, hframe, -, -, -⟩ :=
      instance_add_child_spec (instance_resolve_inst X (k0 + 1)) w pa pn pf prg pnd K ps nxs
        child nm range resolve fuel hs hnd hfresh hout
        (fun w' r x c hc hr => resolve_inst_no_range X k0 w' (some r) x c hc hr) hres hfuel
    refine ⟨w1, hadd, hs1, ?_, hframe⟩
    have := child_list_wf_of_Sat hs1
    simpa using this

/-- C13 (amended) on the tree `top(u)`: a child `v` is added to `top`. -/
theorem instance_add_child_result_witness :
    ("v".toList ∈ ["u".toList] →
      instance_add_child (instance_resolve_inst ext_ex (5 + 1)) 10 resolve_ex_world (some 0)
        (some 1) "v".toList none false = .ok (resolve_ex_world, none)) ∧
    ("v".toList ∉ ["u".toList] → (false = true → (none : Option vector_width) = none) →
      ∃ w1, instance_add_child (instance_resolve_inst ext_ex (5 + 1)) 10 resolve_ex_world
          (some 0) (some 1) "v".toList none false = .ok (w1, some resolve_ex_world.brk) ∧
        Sat w1.inst (cells (.node 0 "top".toList (some 0) none false
          ([.node 1 "u".toList (some 1) (some (range_ex 4 2)) false []] ++
            [.node resolve_ex_world.brk "v".toList (some 1) none false []])) none none) ∧
        child_list_wf w1.inst 0 ([1] ++ [resolve_ex_world.brk]) ∧
        (∀ x, x ≠ 0 → x ∉ [1] → x ≠ resolve_ex_world.brk →
          w1.inst x = resolve_ex_world.inst x)) :=
  instance_add_child_result ext_ex 5 resolve_ex_world 0 "top".toList (some 0) none false
    [.node 1 "u".toList (some 1) (some (range_ex 4 2)) false []] none none (some 1) "v".toList
    none false 10 (by decide) (by decide) (by decide) (by decide)

/-- C13 as stated fails when the new instance is to be resolved at once and
has a range: in the tree `top(u)` the call for the name `v` with the range
`[4:2]` returns the new instance at address 2, which is named `v[2]` and is
followed in the child list of `top` by the instances `v[3]` and `v[4]`. -/
theorem instance_add_child_result_counterexample :
    IsTree resolve_ex_world.inst (.node 0 "top".toList (some 0) none false
      [.node 1 "u".toList (some 1) (some (range_ex 4 2)) false []]) ∧
    (instance_add_child (instance_resolve_inst ext_ex 20) 20 resolve_ex_world (some 0) (some 1)
      "v".toList (some (range_ex 4 2)) true).map
      (fun r => (r.2, child_list 10 r.1.inst ((r.1.inst 0).bind (fun n => n.child_head)))) =
      .ok (some 2, some [1, 2, 3, 4]) ∧
    (instance_add_child (instance_resolve_inst ext_ex 20) 20 resolve_ex_world (some 0) (some 1)
      "v".toList (some (range_ex 4 2)) true).map
      (fun r => (r.1.inst 2).map (fun n => n.name)) = .ok (some "v[2]".toList) :=
  ⟨by decide, by decide, by decide⟩

/-! ## The instance `instance_find_by_funit` returns -/

mutual
theorem findFunitT_nth (f : Option Nat) : ∀ (t : ITree) (k : Nat),
    findFunitT f t (k : Int) = ((topInstances f t)[k]?,
      if k < (topInstances f t).length then 0 else (k : Int) - (topInstances f t).length)
  | .node a nm fu rg nd ks, k => by
    simp only [findFunitT, topInstances]
    by_cases hfu : fu = f
    · simp only [hfu, if_true, List.length_singleton]
      cases k with
      | zero => simp
      | succ k =>
        have h1 : ((k + 1 : Nat) : Int) ≠ 0 := by omega
        have h2 : ¬ (k + 1 < 1) := by omega
        simp only [h1, h2, if_false, Prod.mk.injEq]
        constructor
        · simp
        · rfl
    · simp only [hfu, if_false]
      exact findFunitL_nth f ks k
theorem findFunitL_nth (f : Option Nat) : ∀ (ks : List ITree) (k : Nat),
    findFunitL f ks (k : Int) = ((topInstancesL f ks)[k]?,
      if k < (topInstancesL f ks).length then 0 else (k : Int) - (topInstancesL f ks).length)
  | [], k => by simp [findFunitL, topInstancesL]
  | c :: cs, k => by
    simp only [findFunitL, topInstancesL, findFunitT_nth f c k, List.length_append]
    by_cases hk : k < (topInstances f c).length
    · obtain ⟨x, hx⟩ : ∃ x, (topInstances f c)[k]? = some x :=
        ⟨_, List.getElem?_eq_getElem hk⟩
      have hlt : k < (topInstances f c).length + (topInstancesL f cs).length := by omega
      simp only [hx, hk, hlt, if_true, Prod.mk.injEq, and_true]
      rw [List.getElem?_append_left hk, hx]
    · have hnone : (topInstances f c)[k]? = none := List.getElem?_eq_none (by omega)
      have hcast : (k : Int) - ((topInstances f c).length : Int) =
          ((k - (topInstances f c).length : Nat) : Int) := by omega
      simp only [hnone, hk, if_false, hcast, findFunitL_nth f cs (k - (topInstances f c).length)]
      rw [List.getElem?_append_right (by omega)]
      refine Prod.ext rfl ?_
      simp only
      split <;> split <;> first | rfl | omega
end

mutual
theorem topInstances_eq_all (f : Option Nat) : ∀ (t : ITree),
    (∀ n ∈ nodesOf t, n.funit = f → ∀ m ∈ nodesOfL n.kids, m.funit ≠ f) →
    topInstances f t = ((nodesOf t).filter (fun n => decide (n.funit = f))).map ITree.addr
  | .node a nm fu rg nd ks, h => by
    simp only [topInstances, nodesOf]
    by_cases hfu : fu = f
    · have hk := h (.node a nm fu rg nd ks) (by simp [nodesOf]) (by simpa using hfu)
      simp only [ITree.kids_node] at hk
      have hnil : (nodesOfL ks).filter (fun n => decide (n.funit = f)) = [] := by
        rw [List.filter_eq_nil_iff]
        intro m hm
        simpa using hk m hm
      simp [hfu, List.filter_cons, hnil]
    · rw [if_neg hfu, List.filter_cons]
      simp only [ITree.funit_node, hfu, decide_False, Bool.false_eq_true, if_false]
      exact topInstancesL_eq_all f ks (fun n hn => h n (by simp [nodesOf, hn]))
theorem topInstancesL_eq_all (f : Option Nat) : ∀ (ks : List ITree),
    (∀ n ∈ nodesOfL ks, n.funit = f → ∀ m ∈ nodesOfL n.kids, m.funit ≠ f) →
    topInstancesL f ks = ((nodesOfL ks).filter (fun n => decide (n.funit = f))).map ITree.addr
  | [], _ => by simp [topInstancesL, nodesOfL]
  | c :: cs, h => by
    simp only [topInstancesL, nodesOfL, List.filter_append, List.map_append]
    rw [topInstances_eq_all f c (fun n hn => h n (by simp [nodesOfL, hn])),
      topInstancesL_eq_all f cs (fun n hn => h n (by simp [nodesOfL, hn]))]
end

/-- C14 (amended). On a tree in which no instance of `funit` is below another
instance of `funit`, `instance_find_by_funit( root, funit, ignore )` called
with `*ignore = k` returns the `k`-th (zero-based) instance, in depth-first
pre-order, among all instances of the tree that reference `funit`, and NULL
when the tree has at most `k` such instances. -/
theorem instance_find_by_funit_nth (w : World) (f : Option Nat) (t : ITree) (p nx : Option Nat)
    (k fuel : Nat) (hs : Sat w.inst (cells t p nx)) (hnest : noNest f t)
    (hfuel : t.size + 1 ≤ fuel) :
    ∃ ig, instance_find_by_funit fuel w (some t.addr) f (k : Int) =
      .ok ((allInstances f t)[k]?, ig) := by
  rw [find_by_funit_refines w f t.size t p nx fuel k (le_refl _) hs hfuel, findFunitT_nth,
    topInstances_eq_all f t hnest]
  exact ⟨_, rfl⟩

/-- C14 (amended) on the tree `top(a(u), b(u))`: the second instance of the
functional unit of `u` is the one at address 4. -/
theorem instance_find_by_funit_nth_witness :
    ∃ ig, instance_find_by_funit 10 twin_ex_world (some twin_ex_tree.addr) (some 2) ((1 : Nat) : Int)
      = .ok ((allInstances (some 2) twin_ex_tree)[1]?, ig) :=
  instance_find_by_funit_nth twin_ex_world (some 2) twin_ex_tree none none 1 10 (by decide)
    (by decide) (by decide)

/-- C14 as stated fails when an instance of the functional unit is below
another one: in the tree `r(c)`, where `r` and `c` reference the same
functional unit, the instances in pre-order are `r` and `c`, but the call with
`*ignore = 1` returns NULL: the search does not go below `r`. -/
theorem instance_find_by_funit_nth_counterexample :
    IsTree nested_ex_world.inst nested_ex_tree ∧
    allInstances (some 0) nested_ex_tree = [0, 1] ∧
    instance_find_by_funit 10 nested_ex_world (some 0) (some 0) 1 = .ok (none, 0) :=
  ⟨by decide, by decide, by decide⟩

/-- C15 as stated fails on the tree `r(p, c)` in which `p` is a placeholder
without functional unit: exactly one instance, `c`, has a functional unit named
`m2`, but the search follows the null `funit` pointer of `p` in
`strcmp( root->funit->name, funit_name )` instead of returning `c`. -/
theorem instance_find_by_funit_name_if_one_unique_counterexample :
    IsTree placeholder_child_ex_world.inst placeholder_child_ex_tree ∧
    ((nodesOf placeholder_child_ex_tree).filter (fun n =>
      decide (((n.funit.bind placeholder_child_ex_world.funit).map (fun u => u.name)) =
        some "m2".toList))).map ITree.addr = [2] ∧
    instance_find_by_funit_name_if_one 10 placeholder_child_ex_world (some 0) "m2".toList =
      .error .null_deref :=
  ⟨by decide, by decide, by decide⟩

/-! ## The unique instance of a named functional unit -/

mutual
theorem nodesOf_length : ∀ t : ITree, (nodesOf t).length = t.size
  | .node _ _ _ _ _ ks => by
    simp only [nodesOf, List.length_cons, ITree.size, nodesOfL_length ks]; omega
theorem nodesOfL_length : ∀ ks : List ITree, (nodesOfL ks).length = ITree.sizeL ks
  | [] => by simp [nodesOfL, ITree.sizeL]
  | c :: cs => by
    simp only [nodesOfL, List.length_append, ITree.sizeL, nodesOf_length c, nodesOfL_length cs]
end

theorem find_by_funit_name_loop_spec (w : World) (nm : Str)
    (rec : Option Nat → Option Nat × Nat → Except Fault (Option Nat × Nat)) (p : Option Nat) :
    ∀ (K : List ITree) (fuel : Nat) (st : Option Nat × Nat), Sat w.inst (cellsL K p none) →
      K.length + 1 ≤ fuel →
      (∀ c ∈ K, ∀ st, rec (some c.addr) st = .ok ((nodesOf c).foldl (nameStep w nm) st)) →
      instance_find_by_funit_name_loop rec fuel w (headAddrOr none K) st =
        .ok ((nodesOfL K).foldl (nameStep w nm) st) := by
  intro K
  induction K with
  | nil =>
    intro fuel st _ hf _
    obtain ⟨k, rfl⟩ : ∃ k, fuel = k + 1 := ⟨fuel - 1, by omega⟩
    simp [instance_find_by_funit_name_loop, nodesOfL]
  | cons t K ih =>
    intro fuel st hs hf hrec
    obtain ⟨k, rfl⟩ : ∃ k, fuel = k + 1 := ⟨fuel - 1, by simp at hf; omega⟩
    simp only [cellsL, Sat_append] at hs
    have hroot := Sat_root hs.1
    simp only [headAddrOr_cons, instance_find_by_funit_name_loop, nodesOfL, List.foldl_append,
      hrec t (List.mem_cons_self _ _) st, Except.ok_bind, World.load_eq hroot]
    simp only [rootCell]
    exact ih k _ hs.2 (by simp at hf; omega) (fun c hc => hrec c (List.mem_cons_of_mem _ hc))

/-- On a tree all of whose instances have a functional unit, the code of
`instance_find_by_funit_name` visits the instances in pre-order. -/
theorem find_by_funit_name_refines (w : World) (nm : Str) :
    ∀ (n : Nat) (t : ITree) (p nx : Option Nat) (fuel : Nat) (st : Option Nat × Nat),
      t.size ≤ n → Sat w.inst (cells t p nx) → allHaveFunit w t → t.size + 1 ≤ fuel →
      instance_find_by_funit_name fuel w (some t.addr) nm st =
        .ok ((nodesOf t).foldl (nameStep w nm) st) := by
  intro n
  induction n with
  | zero =>
    intro t _ _ _ _ hn
    have := t.size_pos
    omega
  | succ n ih =>
    intro t p nx fuel st hn hs hall hf
    obtain ⟨k, rfl⟩ : ∃ k, fuel = k + 1 := ⟨fuel - 1, by omega⟩
    have hself := hall t (mem_nodesOf_self t)
    obtain ⟨a, nm', fu, rg, nd, ks⟩ := t
    have hroot := Sat_root hs
    have hkids := Sat_kids hs
    simp only [ITree.addr_node, ITree.kids_node, ITree.size] at hroot hkids hn hf
    have hlen := ITree.length_le_sizeL ks
    obtain ⟨g, rfl⟩ : ∃ g, fu = some g := by
      cases fu with
      | none => simp [ITree.funit] at hself
      | some g => exact ⟨g, rfl⟩
    obtain ⟨u, hu⟩ : ∃ u, w.funit g = some u := by
      cases hu : w.funit g with
      | none => simp [ITree.funit, hu] at hself
      | some u => exact ⟨u, rfl⟩
    have hstep : nameStep w nm st (.node a nm' (some g) rg nd ks) =
        (if u.name = nm then (some a, (st.2 + 1) % 4294967296) else st) := by
      simp [nameStep, funitNamed, ITree.funit, hu, ITree.addr]
    simp only [ITree.addr_node, instance_find_by_funit_name, World.load_eq hroot, Except.ok_bind,
      rootCell, ITree.funit_node, ITree.kids_node, World.loadF, hu, nodesOf, List.foldl_cons,
      hstep]
    refine find_by_funit_name_loop_spec w nm _ (some a) ks k _ hkids (by omega) ?_
    intro c hc st2
    obtain ⟨nx', hc'⟩ := cells_of_mem hkids hc
    have := ITree.size_le_sizeL hc
    exact ih c (some a) nx' k st2 (by omega) hc'
      (fun m hm => hall m (nodesOf_subset_of_kid (by simpa using hc) m hm)) (by omega)

theorem foldl_nameStep_none (w : World) (nm : Str) :
    ∀ (L : List ITree) (st : Option Nat × Nat), L.filter (funitNamed w nm) = [] →
      L.foldl (nameStep w nm) st = st := by
  intro L
  induction L with
  | nil => intro st _; rfl
  | cons x L ih =>
    intro st h
    by_cases hx : funitNamed w nm x = true
    · simp [List.filter_cons, hx] at h
    · simp only [List.filter_cons, hx, if_false] at h
      simp only [List.foldl_cons, nameStep, hx, if_false]
      exact ih st h

theorem foldl_nameStep_one (w : World) (nm : Str) (a : Nat) :
    ∀ (L : List ITree) (st : Option Nat × Nat), st.2 = 0 →
      (L.filter (funitNamed w nm)).map ITree.addr = [a] →
      L.foldl (nameStep w nm) st = (some a, 1) := by
  intro L
  induction L with
  | nil => intro st _ h; simp at h
  | cons x L ih =>
    intro st h0 h
    by_cases hx : funitNamed w nm x = true
    · simp only [List.filter_cons, hx, if_true, List.map_cons, List.cons.injEq,
        List.map_eq_nil_iff] at h
      simp only [List.foldl_cons, nameStep, hx, if_true, h0, h.1]
      exact foldl_nameStep_none w nm L _ h.2
    · simp only [List.filter_cons, hx, if_false] at h
      simp only [List.foldl_cons, nameStep, hx, if_false]
      exact ih st h0 h

theorem foldl_nameStep_count (w : World) (nm : Str) :
    ∀ (L : List ITree) (st : Option Nat × Nat), st.2 < 4294967296 →
      (L.foldl (nameStep w nm) st).2 =
        (st.2 + (L.filter (funitNamed w nm)).length) % 4294967296 := by
  intro L
  induction L with
  | nil => intro st h; simp [Nat.mod_eq_of_lt h]
  | cons x L ih =>
    intro st h
    by_cases hx : funitNamed w nm x = true
    · simp only [List.foldl_cons, nameStep, hx, if_true, List.filter_cons, List.length_cons]
      rw [ih _ (Nat.mod_lt _ (by norm_num))]
      simp only [Nat.mod_add_mod]
      congr 1
      omega
    · simp only [List.foldl_cons, nameStep, hx, if_false, List.filter_cons]
      exact ih st h

/-- C15 (amended). On a tree of fewer than 2^32 instances, all of which have
a functional unit, `instance_find_by_funit_name_if_one( root, name )` returns
the instance whose functional unit is named `name` when there is exactly one
such instance in the tree under `root`, and NULL when there is none or more
than one. -/
theorem instance_find_by_funit_name_if_one_unique (w : World) (nm : Str) (t : ITree)
    (p nx : Option Nat) (fuel : Nat) (hs : Sat w.inst (cells t p nx)) (hall : allHaveFunit w t)
    (hsize : t.size < 4294967296) (hfuel : t.size + 1 ≤ fuel) :
    instance_find_by_funit_name_if_one fuel w (some t.addr) nm =
      .ok (match namedInstances w nm t with
        | [a] => some a
        | _ => none) := by
  have hrun := find_by_funit_name_refines w nm t.size t p nx fuel (none, 0) (le_refl _) hs hall
    hfuel
  have hcnt := foldl_nameStep_count w nm (nodesOf t) (none, 0) (by norm_num)
  have hle : ((nodesOf t).filter (funitNamed w nm)).length ≤ t.size := by
    rw [← nodesOf_length t]
    exact List.length_filter_le _ _
  simp only [instance_find_by_funit_name_if_one, hrun, Except.ok_bind]
  have hlen : (namedInstances w nm t).length = ((nodesOf t).filter (funitNamed w nm)).length := by
    simp [namedInstances]
  cases hl : namedInstances w nm t with
  | nil =>
    have h0 : (nodesOf t).filter (funitNamed w nm) = [] := by
      simpa [namedInstances] using hl
    rw [foldl_nameStep_none w nm _ _ h0]
    rfl
  | cons a l =>
    cases l with
    | nil =>
      rw [foldl_nameStep_one w nm a (nodesOf t) (none, 0) rfl hl]
      rfl
    | cons b l =>
      rw [hl] at hlen
      simp only [List.length_cons] at hlen
      have h2 : ((nodesOf t).foldl (nameStep w nm) (none, 0)).2 ≠ 1 := by
        rw [hcnt, Nat.mod_eq_of_lt (by simp only []; omega)]
        simp only []
        omega
      simp only [h2, if_false]
      rfl

/-- C15 (amended) on the tree `top(a(u), b(u))`: the one instance of the
functional unit `top_mod` is `top`, at address 0. -/
theorem instance_find_by_funit_name_if_one_unique_witness :
    instance_find_by_funit_name_if_one 10 twin_ex_world (some twin_ex_tree.addr) "top_mod".toList =
      .ok (match namedInstances twin_ex_world "top_mod".toList twin_ex_tree with
        | [a] => some a
        | _ => none) ∧
    namedInstances twin_ex_world "top_mod".toList twin_ex_tree = [0] :=
  ⟨instance_find_by_funit_name_if_one_unique twin_ex_world "top_mod".toList twin_ex_tree none none 10
    (by decide) (by decide) (by decide) (by decide), by decide⟩

/-! ## Flattening and deallocation on examples -/

/-- C16 fails on the tree `r(A(g1, g2), B(h1))` in which `A` and `B` are
unnamed scopes without signals: after `instance_flatten_helper( r )` the
children of `r` are `g1` and `h1` only.  The instance `g2` was not folded, is
still allocated and points to `r` as its parent, but no child list holds it:
when the grandchildren of `A` were added, `root->child_tail` was set to
`child->child_head` (`g1`), so adding `h1` overwrote the `next` pointer of
`g1`. -/
theorem instance_flatten_helper_loses_instance :
    IsTree flatten_ex_world.inst flatten_ex_tree ∧
    (instance_flatten_helper ext_ex link_ex 20 flatten_ex_world [] (some 0)).map
      (fun r => (child_list 10 r.1.inst ((r.1.inst 0).bind (fun n => n.child_head)),
        child_list 10 r.1.inst ((r.1.inst 3).bind (fun n => n.child_head)),
        child_list 10 r.1.inst ((r.1.inst 5).bind (fun n => n.child_head)))) =
      .ok (some [3, 5], some [], some []) ∧
    (instance_flatten_helper ext_ex link_ex 20 flatten_ex_world [] (some 0)).map
      (fun r => ((r.1.inst 4).map (fun n => (n.name, n.parent)),
        (r.1.inst 1).isSome, (r.1.inst 2).isSome, r.2)) =
      .ok (some ("g2".toList, some 0), false, false, [1, 2]) :=
  ⟨by decide, by decide, by decide⟩

/-- C17 fails on the tree `top(a, b)` with the scope `top.a`: the scope names
the instance `a` (`instance_find_scope` finds it), but after
`instance_dealloc( top, "top.a" )` the children of `top` are still `a` and `b`
and `a` is still allocated.  The loop over the children of the parent compares
each child name with the whole scope `top.a`, not with its last component. -/
theorem instance_dealloc_keeps_instance :
    IsTree dealloc_ex_world.inst dealloc_ex_tree ∧
    instance_find_scope ext_ex 10 dealloc_ex_world (some 0) "top.a".toList true = .ok (some 1) ∧
    (instance_dealloc ext_ex 10 dealloc_ex_world (some 0) (some "top.a".toList)).map
      (fun w => (child_list 10 w.inst ((w.inst 0).bind (fun n => n.child_head)),
        (w.inst 0).map (fun n => (n.child_head, n.child_tail)), (w.inst 1).isSome)) =
      .ok (some [1, 2], some (some 1, some 2), true) :=
  ⟨by decide, by decide, by decide⟩

/-! ## Issuing signal ids -/

theorem mem_consec : ∀ (n : Nat) (b x : Int), x ∈ consec b n ↔ b ≤ x ∧ x < b + n
  | 0, b, x => by simp [consec]
  | n + 1, b, x => by
    simp only [consec, List.mem_cons, mem_consec n (b + 1) x]
    push_cast
    omega

theorem int_incr_eq (c : Int) (h1 : -2147483648 ≤ c) (h2 : c + 1 ≤ 2147483647) :
    int_incr c = c + 1 :=
  int_of_unsigned_eq (c + 1) (by omega) (by omega)

theorem issue_sig_ids_length : ∀ (l : List vsignal) (c : Int),
    (issue_sig_ids l c).1.length = l.length
  | [], c => rfl
  | s :: ss, c => by simp [issue_sig_ids, issue_sig_ids_length ss]

theorem issue_sig_ids_spec : ∀ (l : List vsignal) (c : Int), -2147483648 ≤ c →
    c + l.length ≤ 2147483647 →
    (issue_sig_ids l c).2 = c + l.length ∧
      (issue_sig_ids l c).1.map (fun s => s.id) = consec c l.length
  | [], c, _, _ => by simp [issue_sig_ids, consec]
  | s :: ss, c, h1, h2 => by
    simp only [List.length_cons, Nat.cast_add, Nat.cast_one] at h2
    have hc := int_incr_eq c h1 (by omega)
    obtain ⟨ih1, ih2⟩ := issue_sig_ids_spec ss (c + 1) (by omega) (by omega)
    simp only [issue_sig_ids]
    rw [hc]
    simp only [ih1, List.map_cons, ih2, List.length_cons, consec, Nat.cast_add, Nat.cast_one]
    exact ⟨by omega, trivial⟩

theorem issue_funit_ids_inst (S : DbState) (g : Nat) (u : func_unit) :
    (issue_funit_ids S g u).w.inst = S.w.inst := rfl

theorem issue_funit_ids_self (S : DbState) (g : Nat) (u : func_unit) :
    (issue_funit_ids S g u).w.funit g =
      some { u with exps := (issue_expr_ids u.exps S.curr_expr_id).1,
                    sigs := (issue_sig_ids u.sigs S.curr_sig_id).1 } := by
  simp [issue_funit_ids]

theorem issue_funit_ids_other (S : DbState) (g : Nat) (u : func_unit) (x : Nat) (hx : x ≠ g) :
    (issue_funit_ids S g u).w.funit x = S.w.funit x := by
  simp [issue_funit_ids, hx]

theorem issue_funit_ids_sig (S : DbState) (g : Nat) (u : func_unit) :
    (issue_funit_ids S g u).curr_sig_id = (issue_sig_ids u.sigs S.curr_sig_id).2 := rfl

theorem issue_funit_ids_meta (S : DbState) (g : Nat) (u : func_unit) (hu : S.w.funit g = some u)
    (x : Nat) :
    ((issue_funit_ids S g u).w.funit x).map (fun v => (v.type, v.sigs.length)) =
      (S.w.funit x).map (fun v => (v.type, v.sigs.length)) := by
  by_cases hx : x = g
  · subst hx
    rw [issue_funit_ids_self, hu]
    simp [issue_sig_ids_length]
  · rw [issue_funit_ids_other S g u x hx]

theorem issueAll_inst : ∀ (V : List Nat) (S : DbState), (issueAll V S).w.inst = S.w.inst
  | [], S => rfl
  | g :: V, S => by
    simp only [issueAll]
    cases hu : S.w.funit g with
    | none => exact issueAll_inst V S
    | some u => simp only []; rw [issueAll_inst V, issue_funit_ids_inst]

theorem issueAll_append : ∀ (A B : List Nat) (S : DbState),
    issueAll (A ++ B) S = issueAll B (issueAll A S)
  | [], B, S => rfl
  | g :: A, B, S => by
    simp only [List.cons_append, issueAll]
    cases hu : S.w.funit g with
    | none => exact issueAll_append A B S
    | some u => exact issueAll_append A B _

theorem issueAll_meta : ∀ (V : List Nat) (S : DbState) (x : Nat),
    ((issueAll V S).w.funit x).map (fun v => (v.type, v.sigs.length)) =
      (S.w.funit x).map (fun v => (v.type, v.sigs.length))
  | [], S, x => rfl
  | g :: V, S, x => by
    simp only [issueAll]
    cases hu : S.w.funit g with
    | none => exact issueAll_meta V S x
    | some u =>
      simp only []
      rw [issueAll_meta V, issue_funit_ids_meta S g u hu]

theorem issueAll_other : ∀ (V : List Nat) (S : DbState) (x : Nat), x ∉ V →
    (issueAll V S).w.funit x = S.w.funit x
  | [], S, x, _ => rfl
  | g :: V, S, x, hx => by
    simp only [List.mem_cons, not_or] at hx
    simp only [issueAll]
    cases hu : S.w.funit g with
    | none => exact issueAll_other V S x hx.2
    | some u =>
      simp only []
      rw [issueAll_other V _ x hx.2, issue_funit_ids_other S g u x hx.1]

theorem sigCount_of_meta {F G : FHeap}
    (h : ∀ x, (F x).map (fun v => (v.type, v.sigs.length)) =
      (G x).map (fun v => (v.type, v.sigs.length))) (g : Nat) : sigCount F g = sigCount G g := by
  have := h g
  unfold sigCount
  cases hF : F g <;> cases hG : G g <;> simp_all

theorem sameIds_refl (A : DbState) : sameIds A A := ⟨rfl, rfl, rfl⟩

theorem sameIds_trans {A B C : DbState} (h1 : sameIds A B) (h2 : sameIds B C) : sameIds A C :=
  ⟨h1.1.trans h2.1, h1.2.1.trans h2.2.1, h1.2.2.trans h2.2.2⟩

theorem issue_funit_ids_congr {A B : DbState} (h : sameIds A B) (g : Nat) (u : func_unit) :
    sameIds (issue_funit_ids A g u) (issue_funit_ids B g u) := by
  obtain ⟨h1, h2, h3⟩ := h
  simp only [sameIds, issue_funit_ids, h1, h2, h3, and_self]

theorem issueAll_congr : ∀ (V : List Nat) {A B : DbState}, sameIds A B →
    sameIds (issueAll V A) (issueAll V B)
  | [], _, _, h => h
  | g :: V, A, B, h => by
    simp only [issueAll, h.1]
    cases hu : B.w.funit g with
    | none => exact issueAll_congr V h
    | some u => exact issueAll_congr V (issue_funit_ids_congr h g u)

theorem ids_bounds_of_consec {u : func_unit} {b : Int}
    (h : u.sigs.map (fun s => s.id) = consec b u.sigs.length) (s : vsignal) (hs : s ∈ u.sigs) :
    b ≤ s.id ∧ s.id < b + u.sigs.length := by
  have : s.id ∈ u.sigs.map (fun s => s.id) := List.mem_map_of_mem _ hs
  rw [h] at this
  exact (mem_consec _ _ _).1 this

theorem isSome_of_meta {F G : FHeap}
    (h : ∀ x, (F x).map (fun v => (v.type, v.sigs.length)) =
      (G x).map (fun v => (v.type, v.sigs.length))) (g : Nat) (hg : (G g).isSome = true) :
    (F g).isSome = true := by
  have := h g
  cases hF : F g <;> cases hG : G g <;> simp_all

/-- The ids after a sequence of visits: the counter has advanced by the
number of signals visited, every visited functional unit has consecutive ids
from the range the counter ran through, and the ranges of distinct functional
units do not overlap. -/
theorem issueAll_spec : ∀ (V : List Nat) (S : DbState),
    (∀ g ∈ V, (S.w.funit g).isSome = true) → -2147483648 ≤ S.curr_sig_id →
    S.curr_sig_id + ((V.map (sigCount S.w.funit)).sum : Nat) ≤ 2147483647 →
    (issueAll V S).curr_sig_id = S.curr_sig_id + ((V.map (sigCount S.w.funit)).sum : Nat) ∧
    (∀ g ∈ V, ∃ u b, (issueAll V S).w.funit g = some u ∧
      u.sigs.map (fun s => s.id) = consec b u.sigs.length ∧ S.curr_sig_id ≤ b ∧
      b + u.sigs.length ≤ (issueAll V S).curr_sig_id) ∧
    sig_ranges_disjoint (issueAll V S).w.funit V
  | [], S, _, _, _ => by
    refine ⟨by simp [issueAll], by simp, ?_⟩
    intro f hf
    simp at hf
  | g :: V, S, halloc, hlo, hhi => by
    obtain ⟨u, hu⟩ : ∃ u, S.w.funit g = some u := by
      have := halloc g (List.mem_cons_self _ _)
      cases h : S.w.funit g with
      | none => simp [h] at this
      | some u => exact ⟨u, rfl⟩
    have hcnt : sigCount S.w.funit g = u.sigs.length := by simp [sigCount, hu]
    have hmeta := issue_funit_ids_meta S g u hu
    have hsc : ∀ x, sigCount (issue_funit_ids S g u).w.funit x = sigCount S.w.funit x :=
      sigCount_of_meta hmeta
    have hmap : V.map (sigCount (issue_funit_ids S g u).w.funit) = V.map (sigCount S.w.funit) :=
      List.map_congr_left (fun x _ => hsc x)
    simp only [List.map_cons, List.sum_cons, hcnt, Nat.cast_add] at hhi
    obtain ⟨hc1, hids1⟩ := issue_sig_ids_spec u.sigs S.curr_sig_id hlo (by omega)
    have hS1 : (issue_funit_ids S g u).curr_sig_id = S.curr_sig_id + u.sigs.length := by
      rw [issue_funit_ids_sig, hc1]
    obtain ⟨ih1, ih2, ih3⟩ := issueAll_spec V (issue_funit_ids S g u)
      (fun x hx => isSome_of_meta hmeta x (halloc x (List.mem_cons_of_mem _ hx)))
      (by rw [hS1]; omega) (by rw [hS1, hmap]; omega)
    rw [hS1, hmap] at ih1
    have hfin : issueAll (g :: V) S = issueAll V (issue_funit_ids S g u) := by
      simp [issueAll, hu]
    rw [hfin]
    -- the ids of the functional unit visited first, when it is not visited again
    have hfirst : g ∉ V → ∃ u1, (issueAll V (issue_funit_ids S g u)).w.funit g = some u1 ∧
        u1.sigs.map (fun s => s.id) = consec S.curr_sig_id u1.sigs.length ∧
        u1.sigs.length = u.sigs.length := by
      intro hg
      refine ⟨_, by rw [issueAll_other V _ g hg, issue_funit_ids_self], ?_, ?_⟩
      · simp only [issue_sig_ids_length]
        exact hids1
      · simp only [issue_sig_ids_length]
    have hall : ∀ f ∈ g :: V, ∃ v b, (issueAll V (issue_funit_ids S g u)).w.funit f = some v ∧
        v.sigs.map (fun s => s.id) = consec b v.sigs.length ∧ S.curr_sig_id ≤ b ∧
        b + v.sigs.length ≤ (issueAll V (issue_funit_ids S g u)).curr_sig_id ∧
        (f ∈ V → S.curr_sig_id + u.sigs.length ≤ b) ∧
        (f ∉ V → b + v.sigs.length ≤ S.curr_sig_id + u.sigs.length) := by
      intro f hf
      by_cases hfV : f ∈ V
      · obtain ⟨v, b, h1, h2, h3, h4⟩ := ih2 f hfV
        rw [hS1] at h3
        exact ⟨v, b, h1, h2, by omega, h4, fun _ => h3, fun h => absurd hfV h⟩
      · have hfg : f = g := by
          rcases List.mem_cons.1 hf with h | h
          · exact h
          · exact absurd h hfV
        subst hfg
        obtain ⟨u1, h1, h2, h3⟩ := hfirst hfV
        refine ⟨u1, S.curr_sig_id, h1, h2, le_refl _, ?_, fun h => absurd h hfV, fun _ => ?_⟩
        · rw [ih1, h3]; omega
        · rw [h3]
    refine ⟨?_, ?_, ?_⟩
    · rw [ih1]
      simp only [List.map_cons, List.sum_cons, hcnt, Nat.cast_add]
      omega
    · intro f hf
      obtain ⟨v, b, h1, h2, h3, h4, -, -⟩ := hall f hf
      exact ⟨v, b, h1, h2, h3, h4⟩
    · intro f hf h hh hne uf huf vh hvh a ha b hb c hc d hd
      by_cases hfV : f ∈ V
      · by_cases hhV : h ∈ V
        · exact ih3 f hfV h hhV hne uf huf vh hvh a ha b hb c hc d hd
        · obtain ⟨v1, b1, e1, c1, -, -, lo1, -⟩ := hall f hf
          obtain ⟨v2, b2, e2, c2, -, -, -, hi2⟩ := hall h hh
          have e1' : uf = v1 := by
            have := huf; rw [Option.mem_def, e1] at this; exact (Option.some.inj this).symm
          have e2' : vh = v2 := by
            have := hvh; rw [Option.mem_def, e2] at this; exact (Option.some.inj this).symm
          subst e1' e2'
          have ha' := ids_bounds_of_consec c1 a (List.mem_of_mem_head? ha)
          have hd' := ids_bounds_of_consec c2 d (List.mem_of_mem_getLast? hd)
          have := lo1 hfV
          have := hi2 hhV
          right; omega
      · by_cases hhV : h ∈ V
        · obtain ⟨v1, b1, e1, c1, -, -, -, hi1⟩ := hall f hf
          obtain ⟨v2, b2, e2, c2, -, -, lo2, -⟩ := hall h hh
          have e1' : uf = v1 := by
            have := huf; rw [Option.mem_def, e1] at this; exact (Option.some.inj this).symm
          have e2' : vh = v2 := by
            have := hvh; rw [Option.mem_def, e2] at this; exact (Option.some.inj this).symm
          subst e1' e2'
          have hb' := ids_bounds_of_consec c1 b (List.mem_of_mem_getLast? hb)
          have hc' := ids_bounds_of_consec c2 c (List.mem_of_mem_head? hc)
          have := hi1 hfV
          have := lo2 hhV
          left; omega
        · exfalso
          apply hne
          rcases List.mem_cons.1 hf with h1 | h1
          · rcases List.mem_cons.1 hh with h2 | h2
            · rw [h1, h2]
            · exact absurd h2 hhV
          · exact absurd h1 hfV

/-! ## The visits of `instance_db_write` -/

theorem funitsOf_subset_funitsOfL {c : ITree} {ks : List ITree} (hc : c ∈ ks) :
    ∀ g ∈ funitsOf c, g ∈ funitsOfL ks := by
  induction ks with
  | nil => simp at hc
  | cons k ks ih =>
    intro g hg
    simp only [funitsOfL, List.mem_append]
    rcases List.mem_cons.1 hc with rfl | hc
    · exact Or.inl hg
    · exact Or.inr (ih hc g hg)

theorem scopeLen_eq (t : ITree) : scopeLen t = t.name.length + scopeLenL t.kids := by
  cases t; simp [scopeLen]

theorem scopeLen_le_scopeLenL {c : ITree} {ks : List ITree} (hc : c ∈ ks) :
    1 + scopeLen c ≤ scopeLenL ks := by
  induction ks with
  | nil => simp at hc
  | cons k ks ih =>
    simp only [scopeLenL]
    rcases List.mem_cons.1 hc with rfl | hc
    · exact le_max_left _ _
    · exact le_trans (ih hc) (le_max_right _ _)

theorem sameTypes_of_meta {F G H : FHeap}
    (h : ∀ x, (F x).map (fun v => (v.type, v.sigs.length)) =
      (G x).map (fun v => (v.type, v.sigs.length))) (hG : sameTypes G H) : sameTypes F H := by
  intro x
  rw [← hG x]
  have := h x
  cases hF : F x <;> cases hG : G x <;> simp_all

theorem issueAll_sameTypes (V : List Nat) (S : DbState) (F0 : FHeap)
    (h : sameTypes S.w.funit F0) : sameTypes (issueAll V S).w.funit F0 :=
  sameTypes_of_meta (issueAll_meta V S) h

theorem db_write_loop_spec (ns : Int) (h0 : Heap) (F0 : FHeap)
    (rec : DbState → Option Nat → Str → Except Fault DbState) (p : Option Nat) (scope : Str) :
    ∀ (K : List ITree) (fuel : Nat) (S : DbState), Sat h0 (cellsL K p none) → S.w.inst = h0 →
      sameTypes S.w.funit F0 → K.length + 1 ≤ fuel → scope.length + scopeLenL K < 4096 →
      (∀ c ∈ K, ∀ S2 : DbState, S2.w.inst = h0 → sameTypes S2.w.funit F0 →
        ∃ S3, rec S2 (some c.addr) (scope ++ ['.'] ++ c.name) = .ok S3 ∧
          sameIds S3 (issueAll (visited ns F0 c) S2)) →
      ∃ S', instance_db_write_loop rec fuel S (headAddrOr none K) (some scope) = .ok S' ∧
        sameIds S' (issueAll (visitedL ns F0 K) S) := by
  intro K
  induction K with
  | nil =>
    intro fuel S _ _ _ hf _ _
    obtain ⟨k, rfl⟩ : ∃ k, fuel = k + 1 := ⟨fuel - 1, by omega⟩
    exact ⟨S, by simp [instance_db_write_loop, headAddrOr], by
      simp only [visitedL, issueAll]; exact sameIds_refl S⟩
  | cons t K ih =>
    intro fuel S hs hinst hty hf hlen hrec
    obtain ⟨k, rfl⟩ : ∃ k, fuel = k + 1 := ⟨fuel - 1, by simp at hf; omega⟩
    simp only [cellsL, Sat_append] at hs
    have hroot := Sat_root hs.1
    have hroot1 : S.w.inst t.addr = some (rootCell t p (headAddrOr none K)) := by
      rw [hinst]; exact hroot
    have hl1 := scopeLen_le_scopeLenL (List.mem_cons_self t K)
    have hl2 := scopeLen_eq t
    obtain ⟨S3, hrun, hsame⟩ := hrec t (List.mem_cons_self _ _) S hinst hty
    have hinst3 : S3.w.inst = h0 := by rw [hsame.1, issueAll_inst, hinst]
    have hty3 : sameTypes S3.w.funit F0 := by
      rw [hsame.1]; exact issueAll_sameTypes _ S F0 hty
    have hroot3 : S3.w.inst t.addr = some (rootCell t p (headAddrOr none K)) := by
      rw [hinst3]; exact hroot
    have hlenK : scope.length + scopeLenL K < 4096 := by
      have : scopeLenL K ≤ scopeLenL (t :: K) := by
        simp only [scopeLenL]; exact le_max_right _ _
      omega
    obtain ⟨S', hrun', hsame'⟩ := ih k S3 hs.2 hinst3 hty3 (by simp at hf; omega) hlenK
      (fun c hc => hrec c (List.mem_cons_of_mem _ hc))
    refine ⟨S', ?_, ?_⟩
    · have hlt : (scope ++ ['.'] ++ (rootCell t p (headAddrOr none K)).name).length < 4096 := by
        simp only [rootCell, List.length_append, List.length_singleton]
        omega
      simp only [headAddrOr_cons, instance_db_write_loop, World.load_eq hroot1, Except.ok_bind,
        hlt, not_true_eq_false, if_false]
      have hname : (rootCell t p (headAddrOr none K)).name = t.name := rfl
      rw [hname, hrun]
      simp only [Except.ok_bind, World.load_eq hroot3]
      exact hrun'
    · simp only [visitedL, issueAll_append]
      exact sameIds_trans hsame' (issueAll_congr _ hsame)

/-- The code of `instance_db_write`, called with `issue_ids`, visits the
functional units `visited` lists and issues ids at each visit. -/
theorem db_write_refines (D : DbOps) (gitems : Nat → List Nat) (pm rs : Bool) (h0 : Heap)
    (F0 : FHeap)
    (hwrite : ∀ f sc nd i S, ∃ S', D.funit_db_write f sc nd i rs true S = .ok S' ∧ sameIds S' S) :
    ∀ (n : Nat) (T : ITree) (p nx : Option Nat) (fuel : Nat) (S : DbState) (scope : Str),
      T.size ≤ n → Sat h0 (cells T p nx) → S.w.inst = h0 → sameTypes S.w.funit F0 →
      (∀ g ∈ funitsOf T, (F0 g).isSome = true) → (∀ a ∈ T.addrs, gitems a = []) →
      scope.length + scopeLenL T.kids < 4096 → T.size + 1 ≤ fuel →
      ∃ S', instance_db_write D gitems fuel S (some T.addr) (some scope) pm true rs = .ok S' ∧
        sameIds S' (issueAll (visited D.FUNIT_NO_SCORE F0 T) S) := by
  intro n
  induction n with
  | zero =>
    intro T _ _ _ _ _ hn
    have := T.size_pos
    omega
  | succ n ih =>
    intro T p nx fuel S scope hn hs hinst hty halloc hgi hlen hf
    obtain ⟨k, rfl⟩ : ∃ k, fuel = k + 1 := ⟨fuel - 1, by omega⟩
    obtain ⟨a, nm, fu, rg, nd, ks⟩ := T
    have hroot := Sat_root hs
    have hkids := Sat_kids hs
    simp only [ITree.addr_node, ITree.kids_node, ITree.size] at hroot hkids hn hf hlen
    have hklen := ITree.length_le_sizeL ks
    -- the recursive calls on the children
    have hrec : ∀ c ∈ ks, ∀ S2 : DbState, S2.w.inst = h0 → sameTypes S2.w.funit F0 →
        ∃ S3, instance_db_write D gitems k S2 (some c.addr) (some (scope ++ ['.'] ++ c.name))
            pm true rs = .ok S3 ∧
          sameIds S3 (issueAll (visited D.FUNIT_NO_SCORE F0 c) S2) := by
      intro c hc S2 hi2 ht2
      obtain ⟨nx', hc'⟩ := cells_of_mem hkids hc
      have h1 := ITree.size_le_sizeL hc
      have h2 := scopeLen_le_scopeLenL hc
      have h3 := scopeLen_eq c
      refine ih c (some a) nx' k S2 _ (by omega) hc' hi2 ht2
        (fun g hg => halloc g ?_) (fun x hx => hgi x ?_) ?_ (by omega)
      · simp only [funitsOf, List.mem_append]
        exact Or.inr (funitsOf_subset_funitsOfL hc g hg)
      · simp only [ITree.addrs, List.mem_cons]
        exact Or.inr (ITree.addrs_subset_addrsL hc x hx)
      · simp only [List.length_append, List.length_singleton]
        omega
    -- the loop over the children, from a state with the same instance heap
    have hloop : ∀ S1 : DbState, S1.w.inst = h0 → sameTypes S1.w.funit F0 →
        ∃ S', instance_db_write_loop
            (fun S c sc => instance_db_write D gitems k S c (some sc) pm true rs) k S1
            (headAddrOr none ks) (some scope) = .ok S' ∧
          sameIds S' (issueAll (visitedL D.FUNIT_NO_SCORE F0 ks) S1) :=
      fun S1 hi1 ht1 => db_write_loop_spec D.FUNIT_NO_SCORE h0 F0 _ (some a) scope ks k S1 hkids
        hi1 ht1 (by omega) hlen hrec
    have hload : ∀ S1 : DbState, S1.w.inst = h0 →
        S1.w.load (some a) = .ok (rootCell (.node a nm fu rg nd ks) p nx) := by
      intro S1 h1
      exact World.load_eq (by rw [h1]; exact hroot)
    cases fu with
    | none =>
      obtain ⟨S', hrun, hsame⟩ := hloop
        { S with file := S.file ++ (printf_d D.DB_TYPE_INST_ONLY ++ [' '] ++ scope ++ [' '] ++
          printf_d (if nd then 1 else 0) ++ ['\n']) } hinst hty
      refine ⟨S', ?_, ?_⟩
      · simp only [ITree.addr_node, instance_db_write, hload S hinst, Except.ok_bind, rootCell,
          ITree.funit_node, ITree.name_diff_node, ITree.kids_node, Bool.not_false, if_true]
        simp only [pure, Except.pure, Except.ok_bind, World.load_eq (show S.w.inst a = _ from by
          rw [hinst]; exact hroot), rootCell, ITree.kids_node]
        exact hrun
      · simp only [visited]
        exact sameIds_trans hsame (issueAll_congr _ ⟨rfl, rfl, rfl⟩)
    | some g =>
      obtain ⟨u0, hu0⟩ : ∃ u0, F0 g = some u0 := by
        have := halloc g (by simp [funitsOf])
        cases h : F0 g with
        | none => simp [h] at this
        | some u => exact ⟨u, rfl⟩
      obtain ⟨u, hu, hut⟩ : ∃ u, S.w.funit g = some u ∧ u.type = u0.type := by
        have := hty g
        rw [hu0] at this
        cases h : S.w.funit g with
        | none => simp [h] at this
        | some u => exact ⟨u, rfl, by simpa [h] using this⟩
      have hloadF : S.w.loadF (some g) = .ok u := by simp [World.loadF, hu]
      by_cases hns : u.type = D.FUNIT_NO_SCORE
      · refine ⟨S, ?_, ?_⟩
        · simp only [ITree.addr_node, instance_db_write, hload S hinst, Except.ok_bind, rootCell,
            ITree.funit_node, hloadF, hns, ne_eq, not_true_eq_false, if_false]
          rfl
        · have : (F0 g).map (fun u => u.type) = some D.FUNIT_NO_SCORE := by
            rw [hu0]; simp [← hut, hns]
          simp only [visited, this, if_true, issueAll]
          exact sameIds_refl S
      · have hi1 : (issue_funit_ids S g u).w.inst = h0 := hinst
        have ht1 : sameTypes (issue_funit_ids S g u).w.funit F0 :=
          sameTypes_of_meta (issue_funit_ids_meta S g u hu) hty
        obtain ⟨S2, hw2, hs2⟩ := hwrite (some g) scope nd (if pm then some a else none)
          (issue_funit_ids S g u)
        have hi2 : S2.w.inst = h0 := by rw [hs2.1]; exact hi1
        have ht2 : sameTypes S2.w.funit F0 := by rw [hs2.1]; exact ht1
        obtain ⟨S', hrun, hsame⟩ := hloop S2 hi2 ht2
        refine ⟨S', ?_, ?_⟩
        · have hg0 : gitems a = [] := hgi a (by simp [ITree.addrs])
          simp only [ITree.addr_node, instance_db_write, hload S hinst, Except.ok_bind, rootCell,
            ITree.funit_node, hloadF, hns, ne_eq, not_false_eq_true, if_true, hg0,
            instance_db_write_gitems, hload _ hi1, ITree.name_diff_node, hw2, ITree.kids_node]
          simp only [pure, Except.pure, Except.ok_bind, Bool.not_false, if_true, hload _ hi2,
            rootCell, ITree.kids_node]
          exact hrun
        · have : ¬ ((F0 g).map (fun u => u.type) = some D.FUNIT_NO_SCORE) := by
            rw [hu0]; simp [← hut, hns]
          simp only [visited, this, if_false, issueAll, hu]
          exact sameIds_trans hsame (issueAll_congr _ hs2)

mutual
theorem visited_subset (ns : Int) (F : FHeap) : ∀ (t : ITree), ∀ g ∈ visited ns F t, g ∈ funitsOf t
  | .node _ _ fu _ _ ks, g, hg => by
    cases fu with
    | none =>
      simp only [visited] at hg
      simp only [funitsOf, Option.toList, List.nil_append]
      exact visitedL_subset ns F ks g hg
    | some f =>
      simp only [visited] at hg
      simp only [funitsOf, Option.toList, List.singleton_append, List.mem_cons]
      split at hg
      · simp at hg
      · rcases List.mem_cons.1 hg with h | h
        · exact Or.inl h
        · exact Or.inr (visitedL_subset ns F ks g h)
theorem visitedL_subset (ns : Int) (F : FHeap) :
    ∀ (ks : List ITree), ∀ g ∈ visitedL ns F ks, g ∈ funitsOfL ks
  | [], g, hg => by simp [visitedL] at hg
  | c :: cs, g, hg => by
    simp only [visitedL, List.mem_append] at hg
    simp only [funitsOfL, List.mem_append]
    rcases hg with h | h
    · exact Or.inl (visited_subset ns F c g h)
    · exact Or.inr (visitedL_subset ns F cs g h)
end

/-- C18. `instance_db_write` called with `issue_ids` on a tree whose
instances have no generate items, with counters that stay within `int`, scope
strings that fit the buffer and a `funit_db_write` that returns without
changing heaps or counters: the call returns, `curr_sig_id` has grown by the
number of signals of the functional units it visited (one per signal and
visit), the signals of every visited functional unit carry consecutive ids in
list order, and the ranges `[head id, tail id]` of distinct visited functional
units do not overlap. -/
theorem instance_db_write_issues_ids (D : DbOps) (gitems : Nat → List Nat) (pm rs : Bool)
    (S : DbState) (T : ITree) (p nx : Option Nat) (scope : Str) (fuel : Nat)
    (hs : Sat S.w.inst (cells T p nx))
    (halloc : ∀ g ∈ funitsOf T, (S.w.funit g).isSome = true)
    (hgi : ∀ a ∈ T.addrs, gitems a = [])
    (hwrite : ∀ f sc nd i S, ∃ S', D.funit_db_write f sc nd i rs true S = .ok S' ∧ sameIds S' S)
    (hlen : scope.length + scopeLenL T.kids < 4096)
    (hlo : -2147483648 ≤ S.curr_sig_id)
    (hhi : S.curr_sig_id +
      (((visited D.FUNIT_NO_SCORE S.w.funit T).map (sigCount S.w.funit)).sum : Nat) ≤ 2147483647)
    (hfuel : T.size + 1 ≤ fuel) :
    ∃ S', instance_db_write D gitems fuel S (some T.addr) (some scope) pm true rs = .ok S' ∧
      S'.curr_sig_id = S.curr_sig_id +
        (((visited D.FUNIT_NO_SCORE S.w.funit T).map (sigCount S.w.funit)).sum : Nat) ∧
      (∀ g ∈ visited D.FUNIT_NO_SCORE S.w.funit T, ∃ u b, S'.w.funit g = some u ∧
        u.sigs.map (fun s => s.id) = consec b u.sigs.length) ∧
      sig_ranges_disjoint S'.w.funit (visited D.FUNIT_NO_SCORE S.w.funit T) := by
  obtain ⟨S', hrun, hsame⟩ := db_write_refines D gitems pm rs S.w.inst S.w.funit hwrite T.size T p
    nx fuel S scope (le_refl _) hs rfl (fun _ => rfl) halloc hgi hlen hfuel
  obtain ⟨h1, h2, h3⟩ := issueAll_spec (visited D.FUNIT_NO_SCORE S.w.funit T) S
    (fun g hg => halloc g (visited_subset _ _ T g hg)) hlo hhi
  refine ⟨S', hrun, ?_, ?_, ?_⟩
  · rw [hsame.2.2, h1]
  · intro g hg
    obtain ⟨u, b, e1, e2, -, -⟩ := h2 g hg
    exact ⟨u, b, by rw [hsame.1, e1], e2⟩
  · rw [hsame.1]
    exact h3

/-- C18 on the tree `top(a, p(b), n(c))`, where `a` and `b` are instances of
one functional unit, `p` is a placeholder and the functional unit of `n` is not
scored: the visits are those of the functional units 0, 1 and 1 with two, three
and three signals, and the counter goes from 1 to 9. -/
theorem instance_db_write_issues_ids_witness :
    visited db_ex.FUNIT_NO_SCORE db_ex_state.w.funit db_ex_tree = [0, 1, 1] ∧
    ∃ S', instance_db_write db_ex (fun _ => []) 10 db_ex_state (some db_ex_tree.addr)
        (some "top".toList) true true false = .ok S' ∧
      S'.curr_sig_id = db_ex_state.curr_sig_id +
        (((visited db_ex.FUNIT_NO_SCORE db_ex_state.w.funit db_ex_tree).map
          (sigCount db_ex_state.w.funit)).sum : Nat) ∧
      (∀ g ∈ visited db_ex.FUNIT_NO_SCORE db_ex_state.w.funit db_ex_tree, ∃ u b,
        S'.w.funit g = some u ∧ u.sigs.map (fun s => s.id) = consec b u.sigs.length) ∧
      sig_ranges_disjoint S'.w.funit (visited db_ex.FUNIT_NO_SCORE db_ex_state.w.funit db_ex_tree) :=
  ⟨by decide, instance_db_write_issues_ids db_ex (fun _ => []) true false db_ex_state db_ex_tree
    none none "top".toList 10 (by decide) (by decide) (by decide)
    (fun _ _ _ _ S => ⟨_, rfl, rfl, rfl, rfl⟩) (by decide) (by decide) (by decide) (by decide)⟩

/-! ## FSM tables -/

/-- C19 fails on the FSM with the state signals `st` and `nst` and the line
`st nst 12`: the line begins with the two names of the base FSM, followed by a
packed table that has the bit `(1, 2)` set, but `fsm_db_merge` returns FALSE
and neither the table nor `*line` changes.  `sscanf` stores two items and
returns 2, and the code takes the merge branch only for the return value 1. -/
theorem fsm_db_merge_matching_line_not_merged :
    sscanf_s_s_n "st nst 12".toList [] [] 0 = (2, "st".toList, "nst".toList, 6) ∧
    (fsm_ex.from_sig.map (fun s => s.name), fsm_ex.to_sig.map (fun s => s.name)) =
      (some "st".toList, some "nst".toList) ∧
    (unpack_ex " 12".toList).hit 1 2 = true ∧
    fsm_ex.table.hit 1 2 = false ∧
    ∀ (same : Bool) (iname oname : Str) (chars_read : Int),
      fsm_db_merge unpack_ex (some fsm_ex) "st nst 12".toList same iname oname chars_read =
        .ok (fsm_ex, "st nst 12".toList, false) :=
  ⟨by decide, by decide, by decide, by decide, fun _ _ _ _ => rfl⟩

theorem filter_length_mono (m m' : Nat → Bool) (l : List Nat)
    (h : ∀ a, m a = true → m' a = true) : (l.filter m).length ≤ (l.filter m').length :=
  List.Sublist.length_le (List.monotone_filter_right l h)

theorem bitCount_mono (side : Nat) (m m' : Nat → Nat → Bool)
    (h : ∀ r c, m r c = true → m' r c = true) : bitCount side m ≤ bitCount side m' := by
  unfold bitCount
  exact List.sum_le_sum (fun r _ => filter_length_mono _ _ _ (fun c hc => h r c hc))

theorem stateCount_mono (side : Nat) (m m' : Nat → Nat → Bool)
    (h : ∀ r c, m r c = true → m' r c = true) : stateCount side m ≤ stateCount side m' := by
  unfold stateCount
  refine filter_length_mono _ _ _ (fun s hs => ?_)
  simp only [List.any_eq_true, Bool.or_eq_true] at hs ⊢
  obtain ⟨c, hc, hm⟩ := hs
  exact ⟨c, hc, hm.imp (h s c) (h c s)⟩

/-- One operation keeps the side of the table and every set bit. -/
theorem fsm_step_mono (unpack : Str → ArcTable) (f f1 : fsm) (op : FsmOp)
    (h : fsm_step unpack f op = .ok f1) :
    f1.table.side = f.table.side ∧ ∀ r c, f.table.hit r c = true → f1.table.hit r c = true := by
  cases op with
  | set fv tv =>
    simp only [fsm_step, fsm_table_set] at h
    cases hts : f.to_sig with
    | none => simp [hts] at h
    | some ts =>
      cases hfs : f.from_sig with
      | none => simp [hts, hfs] at h
      | some fs =>
        cases tv with
        | none => simp [hts, hfs] at h
        | some tv =>
          cases fv with
          | none => simp [hts, hfs] at h
          | some fv =>
            simp only [hts, hfs, Option.map_some', Except.ok.injEq] at h
            subst h
            refine ⟨by simp [arc_add], fun r c hrc => ?_⟩
            simp [arc_add, hrc]
  | merge line same iname oname chars_read =>
    simp only [fsm_step, fsm_db_merge] at h
    cases hfs : f.from_sig with
    | none => simp [hfs, Except.map] at h
    | some fs =>
      cases hts : f.to_sig with
      | none => simp [hfs, hts, Except.map] at h
      | some ts =>
        simp only [hfs, hts] at h
        split at h
        · split at h
          · simp [Except.map] at h
          · split at h
            · simp [Except.map] at h
            · simp only [Except.map, Except.ok.injEq] at h
              subst h
              refine ⟨rfl, fun r c hrc => ?_⟩
              simp [arc_db_merge, hrc]
        · simp only [Except.map, Except.ok.injEq] at h
          subst h
          exact ⟨rfl, fun _ _ h => h⟩

theorem fsm_run_mono (unpack : Str → ArcTable) : ∀ (ops : List FsmOp) (f f' : fsm),
    fsm_run unpack ops f = .ok f' →
    f'.table.side = f.table.side ∧ ∀ r c, f.table.hit r c = true → f'.table.hit r c = true
  | [], f, f', h => by
    simp only [fsm_run, Except.ok.injEq] at h
    subst h
    exact ⟨rfl, fun _ _ h => h⟩
  | op :: ops, f, f', h => by
    simp only [fsm_run] at h
    cases h1 : fsm_step unpack f op with
    | error e => rw [h1] at h; cases h
    | ok f1 =>
      rw [h1] at h
      obtain ⟨s1, m1⟩ := fsm_step_mono unpack f f1 op h1
      obtain ⟨s2, m2⟩ := fsm_run_mono unpack ops f1 f' h
      exact ⟨s2.trans s1, fun r c hrc => m2 r c (m1 r c hrc)⟩

theorem fsm_get_stats_somes : ∀ (L : List fsm) (acc : Int × Int × Int × Int),
    fsm_get_stats (L.map some) acc = .ok (L.foldl (fun a t => arc_get_stats t.table a) acc)
  | [], acc => rfl
  | t :: L, acc => by
    simp only [List.map_cons, fsm_get_stats, List.foldl_cons]
    exact fsm_get_stats_somes L _

theorem foldl_arc_get_stats_hits : ∀ (L : List fsm) (acc : Int × Int × Int × Int),
    (L.foldl (fun a t => arc_get_stats t.table a) acc).2.1 =
      acc.2.1 + ((L.map (fun t => stateCount t.table.side t.table.hit)).sum : Nat) ∧
    (L.foldl (fun a t => arc_get_stats t.table a) acc).2.2.2 =
      acc.2.2.2 + ((L.map (fun t => bitCount t.table.side t.table.hit)).sum : Nat)
  | [], acc => by simp
  | t :: L, acc => by
    obtain ⟨h1, h2⟩ := foldl_arc_get_stats_hits L (arc_get_stats t.table acc)
    simp only [List.foldl_cons, List.map_cons, List.sum_cons, Nat.cast_add]
    rw [h1, h2]
    simp only [arc_get_stats]
    constructor <;> ring

/-- C20. Whatever sequence of `fsm_table_set` and `fsm_db_merge` calls runs
on an FSM, every table bit that was set before is set afterwards, and the
state-hit and arc-hit counts that `fsm_get_stats` reports for a list that
holds the FSM are not smaller afterwards than before. -/
theorem fsm_table_bits_monotone (unpack : Str → ArcTable) (ops : List FsmOp) (f f' : fsm)
    (h : fsm_run unpack ops f = .ok f') :
    (∀ r c, f.table.hit r c = true → f'.table.hit r c = true) ∧
    ∀ (pre post : List fsm) (acc : Int × Int × Int × Int), ∃ s s',
      fsm_get_stats (pre.map some ++ some f :: post.map some) acc = .ok s ∧
      fsm_get_stats (pre.map some ++ some f' :: post.map some) acc = .ok s' ∧
      s.2.1 ≤ s'.2.1 ∧ s.2.2.2 ≤ s'.2.2.2 := by
  obtain ⟨hside, hmono⟩ := fsm_run_mono unpack ops f f' h
  refine ⟨hmono, fun pre post acc => ?_⟩
  have e1 : pre.map some ++ some f :: post.map some = (pre ++ f :: post).map some := by simp
  have e2 : pre.map some ++ some f' :: post.map some = (pre ++ f' :: post).map some := by simp
  rw [e1, e2, fsm_get_stats_somes, fsm_get_stats_somes]
  refine ⟨_, _, rfl, rfl, ?_, ?_⟩
  · rw [(foldl_arc_get_stats_hits _ acc).1, (foldl_arc_get_stats_hits _ acc).1]
    have := stateCount_mono f.table.side f.table.hit f'.table.hit hmono
    simp only [List.map_append, List.map_cons, List.sum_append, List.sum_cons, Nat.cast_add,
      hside]
    omega
  · rw [(foldl_arc_get_stats_hits _ acc).2, (foldl_arc_get_stats_hits _ acc).2]
    have := bitCount_mono f.table.side f.table.hit f'.table.hit hmono
    simp only [List.map_append, List.map_cons, List.sum_append, List.sum_cons, Nat.cast_add,
      hside]
    omega

/-- C20 on the FSM with an empty table of side 4: after the observation of
the transition from 0 to 1, a merge line and the observation of the transition
from 1 to 2, the bits `(0, 1)` and `(1, 2)` are set. -/
theorem fsm_table_bits_monotone_witness :
    fsm_run unpack_ex fsm_ex_ops fsm_ex = .ok fsm_ex_after ∧
    (fsm_ex_after.table.hit 0 1, fsm_ex_after.table.hit 1 2) = (true, true) ∧
    ((∀ r c, fsm_ex.table.hit r c = true → fsm_ex_after.table.hit r c = true) ∧
      ∀ (pre post : List fsm) (acc : Int × Int × Int × Int), ∃ s s',
        fsm_get_stats (pre.map some ++ some fsm_ex :: post.map some) acc = .ok s ∧
        fsm_get_stats (pre.map some ++ some fsm_ex_after :: post.map some) acc = .ok s' ∧
        s.2.1 ≤ s'.2.1 ∧ s.2.2.2 ≤ s'.2.2.2) :=
  ⟨rfl, by decide, fsm_table_bits_monotone unpack_ex fsm_ex_ops fsm_ex fsm_ex_after rfl⟩

/-! ## The leading hierarchy -/

theorem leading_placeholders : ∀ (A : List ITree) (t L : ITree), leading t = A ++ [L] →
    ∀ a ∈ A, a.funit = none := by
  intro A
  induction A with
  | nil => intro t L _ a ha; simp at ha
  | cons x A ih =>
    intro t L h a ha
    rw [leading_eq] at h
    simp only [List.cons_append, List.cons.injEq] at h
    obtain ⟨rfl, h2⟩ := h
    have hf : t.funit = none := by
      by_contra hne
      rw [if_neg hne] at h2
      exact absurd h2.symm (by simp)
    rw [if_pos hf] at h2
    rcases List.mem_cons.1 ha with rfl | ha
    · exact hf
    · cases hk : t.kids with
      | nil => rw [hk] at h2; simp [leadingL] at h2
      | cons c cs =>
        rw [hk] at h2
        simp only [leadingL] at h2
        exact ih c L h2 a ha

/-- C26 (amended). When the chain of first children that starts at the root
reaches an instance with a functional unit, `A` being the placeholders above
it and `L` that instance: `instance_get_leading_hierarchy` returns `L` as
`top_inst` and the dot-joined names of the instances from the root down to
`L` as leading hierarchy (just the name of the root when `A` is empty). -/
theorem instance_get_leading_hierarchy_first_populated (w : World) (fuel : Nat) (t : ITree)
    (p nx : Option Nat) (A : List ITree) (L : ITree) (hs : Sat w.inst (cells t p nx))
    (hl : leading t = A ++ [L]) (hL : L.funit ≠ none) (hlen : A.length ≤ fuel) :
    instance_get_leading_hierarchy fuel w (some t.addr) (some []) =
      .ok (some (joinDots ((A ++ [L]).map ITree.name)), some L.addr) ∧
    (∀ a ∈ A, a.funit = none) ∧ PathSat w.inst p (A ++ [L]) := by
  refine ⟨?_, leading_placeholders A t L hl, leading_PathSat _ t p nx hl hs⟩
  rw [← hl]
  exact get_leading_hierarchy_spec w fuel t p nx L hs (by rw [hl]; simp) hL
    (by rw [hl]; simp; omega)

/-- C26 (amended) on the tree `tb(dut)` with the placeholder `tb`: the top
instance is `dut` and the leading hierarchy is `tb.dut`. -/
theorem instance_get_leading_hierarchy_first_populated_witness :
    instance_get_leading_hierarchy 5 placeholder_ex_world (some placeholder_ex_tree.addr)
        (some []) =
      .ok (some (joinDots (([placeholder_ex_tree] ++ [placeholder_ex_dut]).map ITree.name)),
        some placeholder_ex_dut.addr) ∧
    (∀ a ∈ [placeholder_ex_tree], a.funit = none) ∧
    PathSat placeholder_ex_world.inst none ([placeholder_ex_tree] ++ [placeholder_ex_dut]) :=
  instance_get_leading_hierarchy_first_populated placeholder_ex_world 5 placeholder_ex_tree none
    none [placeholder_ex_tree] placeholder_ex_dut (by decide) rfl (by decide) (by decide)

/-- C26 as stated fails on the tree `r(p, c)` with the placeholders `r` and
`p` and the populated instance `c`: the tree contains a populated instance, but
the walk follows first children only, reaches the childless `p` and then reads
the name of the null pointer `p->child_head`. -/
theorem instance_get_leading_hierarchy_first_populated_counterexample :
    IsTree branch_ex_world.inst branch_ex_tree ∧
    ((nodesOf branch_ex_tree).filter (fun n => decide (n.funit ≠ none))).map ITree.addr = [2] ∧
    instance_get_leading_hierarchy 10 branch_ex_world (some 0) (some []) = .error .null_deref :=
  ⟨by decide, by decide, by decide⟩

/-! ## Soundness of the scope lookup -/

theorem scope_extract_front_cases : ∀ s : Str,
    (s = (scope_extract_front s).1 ∧ (scope_extract_front s).2 = []) ∨
      s = (scope_extract_front s).1 ++ '.' :: (scope_extract_front s).2 := by
  intro s
  induction s with
  | nil => left; simp [scope_extract_front]
  | cons c s ih =>
    by_cases hc : c = '.'
    · subst hc
      right
      simp [scope_extract_front]
    · simp only [scope_extract_front] at ih ⊢
      have h1 : (c :: s).takeWhile (fun c => decide (c ≠ '.')) =
          c :: s.takeWhile (fun c => decide (c ≠ '.')) := by
        simp [List.takeWhile_cons, hc]
      have h2 : (c :: s).dropWhile (fun c => decide (c ≠ '.')) =
          s.dropWhile (fun c => decide (c ≠ '.')) := by
        simp [List.dropWhile_cons, hc]
      rw [h1, h2]
      rcases ih with ⟨e1, e2⟩ | e
      · left
        exact ⟨by rw [← e1], e2⟩
      · right
        rw [List.cons_append, ← e]

mutual
theorem findScopeT_sound (X : Externals) (fh : FHeap) : ∀ (T : ITree) (scope : Str),
    (∀ n ∈ nodesOf T, n.range = none) →
    ∃ r, findScopeT X fh true T scope = .ok r ∧ ∀ a, r = some a →
      ∃ P, IsPath (T :: P) ∧ (T :: P).getLast?.map ITree.addr = some a ∧
        (scope = joinDots ((T :: P).map ITree.name) ∨
          scope = joinDots ((T :: P).map ITree.name) ++ ['.'])
  | .node a nm fu rg nd ks, scope, hnr => by
    have hrg : rg = none := hnr _ (mem_nodesOf_self _)
    subst hrg
    have hcmp : instance_compare X (scope_extract_front scope).1
        (rootCell (.node a nm fu none nd ks) none none) =
        .ok (decide ((scope_extract_front scope).1 = nm)) := by
      simp [instance_compare, rootCell, scope_compare]
    simp only [findScopeT, Bool.not_true, Bool.false_and, Bool.false_eq_true, if_false, hcmp]
    by_cases hf : (scope_extract_front scope).1 = nm
    · simp only [hf, decide_True]
      by_cases hr : (scope_extract_front scope).2 = []
      · simp only [hr, if_true]
        refine ⟨some a, rfl, fun a' ha' => ⟨[], trivial, ?_, ?_⟩⟩
        · simpa using ha'
        · simp only [List.map_cons, ITree.name_node, List.map_nil, joinDots]
          rcases scope_extract_front_cases scope with ⟨e1, -⟩ | e
          · left; rw [← hf]; exact e1
          · right; rw [e, hf, hr]
      · simp only [hr, if_false]
        obtain ⟨r, hrun, hsound⟩ := findScopeL_sound X fh ks (scope_extract_front scope).2
          (fun n hn => hnr n (by simp [nodesOf, hn]))
        refine ⟨r, hrun, fun a' ha' => ?_⟩
        obtain ⟨c, hc, P, hP, hlast, hjoin⟩ := hsound a' ha'
        have hsc : scope = nm ++ '.' :: (scope_extract_front scope).2 := by
          rcases scope_extract_front_cases scope with ⟨-, e2⟩ | e
          · exact absurd e2 hr
          · rw [hf] at e; exact e
        refine ⟨c :: P, ⟨by simpa using hc, hP⟩, ?_, ?_⟩
        · rw [List.getLast?_cons_cons]; exact hlast
        · simp only [List.map_cons, ITree.name_node, joinDots] at hjoin ⊢
          rcases hjoin with e | e
          · left; rw [hsc, e]
          · right; rw [hsc, e]; simp
    · simp only [hf, decide_False]
      exact ⟨none, rfl, fun a' ha' => by simp at ha'⟩
theorem findScopeL_sound (X : Externals) (fh : FHeap) : ∀ (ks : List ITree) (scope : Str),
    (∀ n ∈ nodesOfL ks, n.range = none) →
    ∃ r, findScopeL X fh true ks scope = .ok r ∧ ∀ a, r = some a →
      ∃ c ∈ ks, ∃ P, IsPath (c :: P) ∧ (c :: P).getLast?.map ITree.addr = some a ∧
        (scope = joinDots ((c :: P).map ITree.name) ∨
          scope = joinDots ((c :: P).map ITree.name) ++ ['.'])
  | [], scope, _ => ⟨none, rfl, fun a ha => by simp at ha⟩
  | c :: cs, scope, hnr => by
    obtain ⟨r1, h1, s1⟩ := findScopeT_sound X fh c scope
      (fun n hn => hnr n (by simp [nodesOfL, hn]))
    obtain ⟨r2, h2, s2⟩ := findScopeL_sound X fh cs scope
      (fun n hn => hnr n (by simp [nodesOfL, hn]))
    cases r1 with
    | some x =>
      refine ⟨some x, by simp [findScopeL, h1], fun a ha => ?_⟩
      obtain ⟨P, hP⟩ := s1 a ha
      exact ⟨c, List.mem_cons_self _ _, P, hP⟩
    | none =>
      refine ⟨r2, by simp [findScopeL, h1, h2], fun a ha => ?_⟩
      obtain ⟨c', hc', hP⟩ := s2 a ha
      exact ⟨c', List.mem_cons_of_mem _ hc', hP⟩
end

/-- C28 (amended). On a tree without Ranges `instance_find_scope( root,
scope, TRUE )` returns; when it returns an instance, that instance is the end
of a path down from `root` and `scope` is the dot-joined names along the path,
or these followed by one dot; and when `scope` is of neither form for any path,
the result is NULL. -/
theorem instance_find_scope_sound (X : Externals) (w : World) (T : ITree) (p nx : Option Nat)
    (scope : Str) (fuel : Nat) (hs : Sat w.inst (cells T p nx))
    (hnr : ∀ n ∈ nodesOf T, n.range = none) (hfuel : T.size + 1 ≤ fuel) :
    ∃ r, instance_find_scope X fuel w (some T.addr) scope true = .ok r ∧
      (∀ a, r = some a → ∃ P, IsPath (T :: P) ∧ (T :: P).getLast?.map ITree.addr = some a ∧
        (scope = joinDots ((T :: P).map ITree.name) ∨
          scope = joinDots ((T :: P).map ITree.name) ++ ['.'])) ∧
      ((∀ P, IsPath (T :: P) → scope ≠ joinDots ((T :: P).map ITree.name) ∧
          scope ≠ joinDots ((T :: P).map ITree.name) ++ ['.']) → r = none) := by
  obtain ⟨r, hrun, hsound⟩ := findScopeT_sound X w.funit T scope hnr
  refine ⟨r, ?_, hsound, fun hno => ?_⟩
  · rw [find_scope_refines X w true T.size T p nx fuel scope (le_refl _) hs hfuel]
    exact hrun
  · cases r with
    | none => rfl
    | some a =>
      obtain ⟨P, hP, -, hj⟩ := hsound a rfl
      rcases hj with e | e
      · exact absurd e (hno P hP).1
      · exact absurd e (hno P hP).2

/-- C28 (amended) on the tree `top(a, b)`: the lookup of `top.a` returns. -/
theorem instance_find_scope_sound_witness :
    ∃ r, instance_find_scope ext_ex 10 dealloc_ex_world (some dealloc_ex_tree.addr)
        "top.a".toList true = .ok r ∧
      (∀ a, r = some a → ∃ P, IsPath (dealloc_ex_tree :: P) ∧
        (dealloc_ex_tree :: P).getLast?.map ITree.addr = some a ∧
        ("top.a".toList = joinDots ((dealloc_ex_tree :: P).map ITree.name) ∨
          "top.a".toList = joinDots ((dealloc_ex_tree :: P).map ITree.name) ++ ['.'])) ∧
      ((∀ P, IsPath (dealloc_ex_tree :: P) →
          "top.a".toList ≠ joinDots ((dealloc_ex_tree :: P).map ITree.name) ∧
          "top.a".toList ≠ joinDots ((dealloc_ex_tree :: P).map ITree.name) ++ ['.']) →
        r = none) :=
  instance_find_scope_sound ext_ex dealloc_ex_world dealloc_ex_tree none none "top.a".toList 10
    (by decide) (by decide) (by decide)

/-- C28 as stated fails on the tree `top(a, b)` with the scope `top.`: the
lookup returns the root, whose path is `top`, and no instance has the path
`top.`. -/
theorem instance_find_scope_sound_counterexample :
    IsTree dealloc_ex_world.inst dealloc_ex_tree ∧
    instance_find_scope ext_ex 10 dealloc_ex_world (some 0) "top.".toList true = .ok (some 0) ∧
    joinDots ([dealloc_ex_tree].map ITree.name) = "top".toList ∧
    ((nodesOf dealloc_ex_tree).map ITree.name).all (fun n => decide ('.' ∉ n)) = true :=
  ⟨by decide, by decide, by decide, by decide⟩

/-! ## Attaching a new instance -/

/-- A new instance, created at the address `w.brk`, is attached as the last
child of the instance at `pa`. -/
theorem attach_new_spec (w : World) (pa : Nat) (pn : Str) (pf : Option Nat)
    (prg : Option vector_width) (pnd : Bool) (K : List ITree) (ps nxs : Option Nat)
    (child : Option Nat) (nm : Str) (nd : Bool) (range : Option vector_width)
    (hs : Sat w.inst (cells (.node pa pn pf prg pnd K) ps nxs))
    (hnd : (pa :: ITree.addrsL K).Nodup)
    (hfresh : ∀ a ∈ pa :: ITree.addrsL K, a < w.brk) :
    ∃ w2, attach_child (instance_create w child nm nd range).1 (some pa) (some w.brk) = .ok w2 ∧
      Sat w2.inst (cells (.node pa pn pf prg pnd
        (K ++ [.node w.brk nm child range nd []])) ps nxs) ∧
      (∀ x, x ≠ pa → x ∉ ITree.addrsL K → x ≠ w.brk → w2.inst x = w.inst x) ∧
      w2.brk = w.brk + 1 ∧ w2.funit = w.funit ∧ w2.inst_head = w.inst_head := by
  have hroot := Sat_root hs
  have hK := Sat_kids hs
  simp only [ITree.addr_node, ITree.kids_node] at hroot hK
  have hpab : pa ≠ w.brk := by
    have := hfresh pa (List.mem_cons_self _ _); omega
  have hKb : w.brk ∉ ITree.addrsL K := by
    intro hin
    have := hfresh _ (List.mem_cons_of_mem _ hin); omega
  let cell0 : funit_inst := ⟨nm, child, range, nd, none, none, none, none⟩
  let w0 : World := ⟨upd w.inst w.brk cell0, w.funit, w.brk + 1, w.inst_head⟩
  have hroot0 : w0.inst pa = some (rootCell (.node pa pn pf prg pnd K) ps nxs) := by
    show upd w.inst w.brk cell0 pa = _
    rw [upd_other _ _ hpab, hroot]
  have hK0 : Sat w0.inst (cellsL K (some pa) none) :=
    Sat_upd _ hK (by rw [map_fst_cellsL]; exact hKb)
  obtain ⟨w1, happ, hroot1, hK1, hframe1, hfu1, hbrk1, hih1⟩ :=
    child_list_append_spec w0 pa pn pf prg pnd K (.node w.brk nm child range nd []) ps nxs
      hroot0 hK0 hnd
  simp only [ITree.addr_node] at happ hK1
  have hnew1 : w1.inst w.brk = some cell0 := by
    rw [hframe1 w.brk (Ne.symm hpab) hKb]
    exact upd_same _ _ _
  let w2 : World := ⟨upd w1.inst w.brk { cell0 with parent := some pa }, w1.funit, w1.brk,
    w1.inst_head⟩
  have hnew2 : w2.inst w.brk = some { cell0 with parent := some pa } := upd_same _ _ _
  refine ⟨w2, ?_, ?_, ?_, hbrk1, hfu1, hih1⟩
  · have happ' : child_list_append w0 (some pa) (some w.brk) = .ok w1 := happ
    simp only [attach_child, instance_create]
    rw [happ']
    simp only [Except.ok_bind, World.modify_eq _ hnew1]
  · rw [Sat_cells_iff]
    simp only [ITree.addr_node, ITree.kids_node, cellsL_append, cellsL, Sat_append,
      headAddrOr_cons, headAddrOr_nil, cells, List.append_nil]
    refine ⟨?_, ?_, ?_⟩
    · show upd w1.inst w.brk _ pa = _
      rw [upd_other _ _ hpab, hroot1]
    · exact Sat_upd _ hK1 (by rw [map_fst_cellsL]; exact hKb)
    · rw [Sat_cons]
      exact ⟨hnew2, Sat_nil _⟩
  · intro x hx1 hx2 hx3
    show upd w1.inst w.brk _ x = _
    rw [upd_other _ _ hx3, hframe1 x hx1 hx2]
    exact upd_other _ _ hx3

/-- The same inside a tree: the heap then represents the tree with the new
leaf as the last child of the instance at `pa`. -/
theorem attach_new_in_tree (w : World) (C : List Frame) (pa : Nat) (pn : Str) (pf : Option Nat)
    (prg : Option vector_width) (pnd : Bool) (K : List ITree) (P NX : Option Nat)
    (child : Option Nat) (nm : Str) (nd : Bool) (range : Option vector_width)
    (hs : Sat w.inst (cells (plug C (.node pa pn pf prg pnd K)) P NX))
    (hnd : (plug C (.node pa pn pf prg pnd K)).addrs.Nodup)
    (hfresh : ∀ a ∈ (plug C (.node pa pn pf prg pnd K)).addrs, a < w.brk) :
    ∃ w2, attach_child (instance_create w child nm nd range).1 (some pa) (some w.brk) = .ok w2 ∧
      Sat w2.inst (cells (plug C (.node pa pn pf prg pnd
        (K ++ [.node w.brk nm child range nd []]))) P NX) ∧
      (∀ x, x ∉ (plug C (.node pa pn pf prg pnd K)).addrs → x ≠ w.brk → w2.inst x = w.inst x) ∧
      w2.brk = w.brk + 1 ∧ w2.funit = w.funit ∧ w2.inst_head = w.inst_head := by
  obtain ⟨ps, nxs, hP, hrep⟩ := plug_Sat w.inst C _ P NX hs
  have hperm := plug_addrs_perm C (.node pa pn pf prg pnd K)
  have hnd2 : ((ITree.node pa pn pf prg pnd K).addrs ++ ctxAddrs C).Nodup :=
    hperm.nodup_iff.1 hnd
  have hndP : (pa :: ITree.addrsL K).Nodup := by
    have := hnd2.of_append_left
    simpa [ITree.addrs] using this
  have hfreshP : ∀ a ∈ pa :: ITree.addrsL K, a < w.brk := by
    intro a ha
    exact hfresh a (hperm.mem_iff.2 (List.mem_append_left _ (by simpa [ITree.addrs] using ha)))
  obtain ⟨w2, hrun, hs2, hframe, hb, hf, hi⟩ :=
    attach_new_spec w pa pn pf prg pnd K ps nxs child nm nd range hP hndP hfreshP
  refine ⟨w2, hrun, ?_, ?_, hb, hf, hi⟩
  · refine hrep w2.inst _ rfl hs2 (fun x hx => ?_)
    have hdisj := (List.nodup_append.1 hnd2).2.2
    have hxP : x ∉ (ITree.node pa pn pf prg pnd K).addrs := fun h => hdisj h hx
    simp only [ITree.addrs, List.mem_cons, not_or] at hxP
    have hxb : x ≠ w.brk := by
      have := hfresh x (hperm.mem_iff.2 (List.mem_append_right _ hx)); omega
    exact hframe x hxP.1 hxP.2 hxb
  · intro x hx hxb
    have hx' : x ∉ (ITree.node pa pn pf prg pnd K).addrs ++ ctxAddrs C :=
      fun h => hx (hperm.mem_iff.2 h)
    simp only [ITree.addrs, List.mem_append, List.mem_cons, not_or] at hx'
    exact hframe x hx'.1.1 hx'.1.2 hxb

/-- C25. `instance_read_add( root, parent, child, inst_name )` in a state
whose heap represents a tree with the instance `pa` in it: when `*root` is NULL
the call creates the root instance and returns TRUE; when the scope lookup of
`parent` finds `pa`, the call returns TRUE and the heap represents the tree
with a new instance of `child` named `inst_name` as the last child of `pa`
(its parent pointer set), nothing else being changed; when the lookup finds
nothing, the call returns FALSE and the state is unchanged. -/
theorem instance_read_add_result (X : Externals) (fuel : Nat) (w : World) (C : List Frame)
    (pa : Nat) (pn : Str) (pf : Option Nat) (prg : Option vector_width) (pnd : Bool)
    (K : List ITree) (P NX : Option Nat) (parent : Str) (child : Option Nat) (nm : Str)
    (hs : Sat w.inst (cells (plug C (.node pa pn pf prg pnd K)) P NX))
    (hnd : (plug C (.node pa pn pf prg pnd K)).addrs.Nodup)
    (hfresh : ∀ a ∈ (plug C (.node pa pn pf prg pnd K)).addrs, a < w.brk) :
    (∀ parent0, ∃ w1, instance_read_add X fuel w none parent0 child nm =
        .ok (w1, some w.brk, true) ∧
      w1.inst w.brk = some ⟨nm, child, none, false, none, none, none, none⟩ ∧
      ∀ x, x ≠ w.brk → w1.inst x = w.inst x) ∧
    (instance_find_scope X fuel w (some (plug C (.node pa pn pf prg pnd K)).addr) parent true =
        .ok (some pa) →
      ∃ w2, instance_read_add X fuel w (some (plug C (.node pa pn pf prg pnd K)).addr)
          (some parent) child nm =
          .ok (w2, some (plug C (.node pa pn pf prg pnd K)).addr, true) ∧
        Sat w2.inst (cells (plug C (.node pa pn pf prg pnd
          (K ++ [.node w.brk nm child none false []]))) P NX) ∧
        (∀ x, x ∉ (plug C (.node pa pn pf prg pnd K)).addrs → x ≠ w.brk →
          w2.inst x = w.inst x)) ∧
    (instance_find_scope X fuel w (some (plug C (.node pa pn pf prg pnd K)).addr) parent true =
        .ok none →
      instance_read_add X fuel w (some (plug C (.node pa pn pf prg pnd K)).addr) (some parent)
        child nm = .ok (w, some (plug C (.node pa pn pf prg pnd K)).addr, false)) := by
  refine ⟨fun parent0 => ?_, fun hfind => ?_, fun hfind => ?_⟩
  · refine ⟨(instance_create w child nm false none).1, rfl, ?_, fun x hx => ?_⟩
    · simp [instance_create, upd_same]
    · simp [instance_create, upd_other _ _ hx]
  · obtain ⟨w2, hrun, hs2, hframe, -, -, -⟩ :=
      attach_new_in_tree w C pa pn pf prg pnd K P NX child nm false none hs hnd hfresh
    refine ⟨w2, ?_, hs2, hframe⟩
    have hbrk : (instance_create w child nm false none).2 = some w.brk := rfl
    simp only [instance_read_add, hfind, Except.ok_bind, ne_eq, reduceCtorEq, not_false_eq_true,
      if_true, hbrk, hrun]
    rfl
  · simp only [instance_read_add, hfind, Except.ok_bind, ne_eq, not_true_eq_false, if_false]
    rfl

/-- C25 on the tree `top(a, b)`: the parent scope `top.a` is found, and the
new instance `x` becomes the child of `a`. -/
theorem instance_read_add_result_witness :
    instance_find_scope ext_ex 10 dealloc_ex_world
      (some (plug dealloc_ex_ctx (.node 1 "a".toList (some 1) none false [])).addr)
      "top.a".toList true = .ok (some 1) ∧
    ((∀ parent0, ∃ w1, instance_read_add ext_ex 10 dealloc_ex_world none parent0 (some 1)
        "x".toList = .ok (w1, some dealloc_ex_world.brk, true) ∧
      w1.inst dealloc_ex_world.brk =
        some ⟨"x".toList, some 1, none, false, none, none, none, none⟩ ∧
      ∀ x, x ≠ dealloc_ex_world.brk → w1.inst x = dealloc_ex_world.inst x) ∧
    (instance_find_scope ext_ex 10 dealloc_ex_world
        (some (plug dealloc_ex_ctx (.node 1 "a".toList (some 1) none false [])).addr)
        "top.a".toList true = .ok (some 1) →
      ∃ w2, instance_read_add ext_ex 10 dealloc_ex_world
          (some (plug dealloc_ex_ctx (.node 1 "a".toList (some 1) none false [])).addr)
          (some "top.a".toList) (some 1) "x".toList =
          .ok (w2, some (plug dealloc_ex_ctx (.node 1 "a".toList (some 1) none false [])).addr,
            true) ∧
        Sat w2.inst (cells (plug dealloc_ex_ctx (.node 1 "a".toList (some 1) none false
          ([] ++ [.node dealloc_ex_world.brk "x".toList (some 1) none false []]))) none none) ∧
        (∀ x, x ∉ (plug dealloc_ex_ctx (.node 1 "a".toList (some 1) none false [])).addrs →
          x ≠ dealloc_ex_world.brk → w2.inst x = dealloc_ex_world.inst x)) ∧
    (instance_find_scope ext_ex 10 dealloc_ex_world
        (some (plug dealloc_ex_ctx (.node 1 "a".toList (some 1) none false [])).addr)
        "top.a".toList true = .ok none →
      instance_read_add ext_ex 10 dealloc_ex_world
        (some (plug dealloc_ex_ctx (.node 1 "a".toList (some 1) none false [])).addr)
        (some "top.a".toList) (some 1) "x".toList =
        .ok (dealloc_ex_world,
          some (plug dealloc_ex_ctx (.node 1 "a".toList (some 1) none false [])).addr, false))) :=
  ⟨by decide, instance_read_add_result ext_ex 10 dealloc_ex_world dealloc_ex_ctx 1 "a".toList
    (some 1) none false [] none none "top.a".toList (some 1) "x".toList (by decide) (by decide)
    (by decide)⟩

/-- C24. `instance_only_db_read` on a line, with an `inst_link_add` that
appends to the list of roots: a line that does not hold a scope and a number
makes the read fail (`Throw`) in an unchanged state.  Otherwise a placeholder
named by the last component of the scope is created, with the `name_diff` read;
for a scope of one component it becomes a new root at the end of the list;
else, when `inst_link_find_by_scope`, called with `inst_tail`, finds no parent,
the read fails and no existing instance and no list has changed; and when it
finds the instance `pa` of a tree, the heap afterwards represents that tree
with the placeholder as the last child of `pa`. -/
theorem instance_only_db_read_result (L : InstLinkOps) (w : World) (line : Str)
    (hadd : ∀ a l, L.inst_link_add a l = l ++ [a]) :
    (sscanf_s_d_n line = none → instance_only_db_read L w line = .error (.thrown, w)) ∧
    ∀ scope nd n, sscanf_s_d_n line = some (scope, nd, n) →
      ∃ wc : World, wc = (instance_create w none (scope_extract_back scope).1
          (decide (nd ≠ 0)) none).1 ∧
        wc.inst w.brk = some ⟨(scope_extract_back scope).1, none, none, decide (nd ≠ 0), none,
          none, none, none⟩ ∧
        (∀ x, x ≠ w.brk → wc.inst x = w.inst x) ∧ wc.inst_head = w.inst_head ∧
        ((scope_extract_back scope).2 = [] →
          instance_only_db_read L w line =
            .ok ({ wc with inst_head := w.inst_head ++ [w.brk] }, line.drop n)) ∧
        ((scope_extract_back scope).2 ≠ [] →
          L.inst_link_find_by_scope wc (scope_extract_back scope).2
            w.inst_head.getLast?.toList = .ok none →
          instance_only_db_read L w line = .error (.thrown, wc)) ∧
        ((scope_extract_back scope).2 ≠ [] →
          ∀ (C : List Frame) (pa : Nat) (pn : Str) (pf : Option Nat)
            (prg : Option vector_width) (pnd : Bool) (K : List ITree) (P NX : Option Nat),
            Sat w.inst (cells (plug C (.node pa pn pf prg pnd K)) P NX) →
            (plug C (.node pa pn pf prg pnd K)).addrs.Nodup →
            (∀ a ∈ (plug C (.node pa pn pf prg pnd K)).addrs, a < w.brk) →
            L.inst_link_find_by_scope wc (scope_extract_back scope).2
              w.inst_head.getLast?.toList = .ok (some pa) →
            ∃ w2, instance_only_db_read L w line = .ok (w2, line.drop n) ∧
              Sat w2.inst (cells (plug C (.node pa pn pf prg pnd (K ++
                [.node w.brk (scope_extract_back scope).1 none none (decide (nd ≠ 0)) []])))
                P NX) ∧
              (∀ x, x ∉ (plug C (.node pa pn pf prg pnd K)).addrs → x ≠ w.brk →
                w2.inst x = w.inst x) ∧
              w2.inst_head = w.inst_head) := by
  refine ⟨fun h => by simp [instance_only_db_read, h], fun scope nd n h => ?_⟩
  refine ⟨_, rfl, by simp [instance_create, upd_same],
    fun x hx => by simp [instance_create, upd_other _ _ hx], rfl, ?_, ?_, ?_⟩
  · intro hr
    simp only [instance_only_db_read, h, hr, if_true, instance_create, hadd]
  · intro hr hfind
    have hfind' : L.inst_link_find_by_scope
        (instance_create w none (scope_extract_back scope).1 (decide (nd ≠ 0)) none).1
        (scope_extract_back scope).2
        (instance_create w none (scope_extract_back scope).1 (decide (nd ≠ 0))
          none).1.inst_head.getLast?.toList = .ok none := hfind
    simp only [instance_only_db_read, h, hr, if_false, hfind']
  · intro hr C pa pn pf prg pnd K P NX hs hnd hfresh hfind
    have hfind' : L.inst_link_find_by_scope
        (instance_create w none (scope_extract_back scope).1 (decide (nd ≠ 0)) none).1
        (scope_extract_back scope).2
        (instance_create w none (scope_extract_back scope).1 (decide (nd ≠ 0))
          none).1.inst_head.getLast?.toList = .ok (some pa) := hfind
    obtain ⟨w2, hrun, hs2, hframe, -, -, hih⟩ :=
      attach_new_in_tree w C pa pn pf prg pnd K P NX none (scope_extract_back scope).1
        (decide (nd ≠ 0)) none hs hnd hfresh
    have hbrk : (instance_create w none (scope_extract_back scope).1 (decide (nd ≠ 0))
        none).2 = some w.brk := rfl
    refine ⟨w2, ?_, hs2, hframe, hih⟩
    simp only [instance_only_db_read, h, hr, if_false, hfind', hbrk, hrun]

/-- C24 on the tree `top(a, b)` and the line `top.a.x 1`: the parent `top.a`
is found, and the placeholder `x` with `name_diff` set becomes the child of
`a`. -/
theorem instance_only_db_read_result_witness :
    sscanf_s_d_n "top.a.x 1".toList = some ("top.a.x".toList, 1, 9) ∧
    scope_extract_back "top.a.x".toList = ("x".toList, "top.a".toList) ∧
    ∃ w2, instance_only_db_read inst_link_ex dealloc_ex_world "top.a.x 1".toList =
        .ok (w2, ("top.a.x 1".toList).drop 9) ∧
      Sat w2.inst (cells (plug dealloc_ex_ctx (.node 1 "a".toList (some 1) none false
        ([] ++ [.node dealloc_ex_world.brk (scope_extract_back "top.a.x".toList).1 none none
          (decide ((1 : Int) ≠ 0)) []]))) none none) ∧
      (∀ x, x ∉ (plug dealloc_ex_ctx (.node 1 "a".toList (some 1) none false [])).addrs →
        x ≠ dealloc_ex_world.brk → w2.inst x = dealloc_ex_world.inst x) ∧
      w2.inst_head = dealloc_ex_world.inst_head := by
  refine ⟨by decide, by decide, ?_⟩
  obtain ⟨wc, hwc, -, -, -, -, -, h3⟩ :=
    (instance_only_db_read_result inst_link_ex dealloc_ex_world "top.a.x 1".toList
      (fun _ _ => rfl)).2 "top.a.x".toList 1 9 (by decide)
  subst hwc
  exact h3 (by decide) dealloc_ex_ctx 1 "a".toList (some 1) none false [] none none (by decide)
    (by decide) (by decide) (by decide)

/-- C24 as stated fails when the parent is in a tree other than the last one
of the list: in `roots_ex_world`, whose list holds two roots, the scope
lookup finds the first root for the parent scope of the line, but
`inst_link_find_by_scope` is called with `inst_tail` and sees the last tree
only, so the read fails. -/
theorem instance_only_db_read_result_counterexample :
    roots_ex_world.inst_head = [0, 1] ∧
    (roots_ex_world.inst 0).map (fun c => c.name) = some "a".toList ∧
    instance_find_scope ext_ex 10 roots_ex_world (some 0) "a".toList true = .ok (some 0) ∧
    sscanf_s_d_n "a.x 0".toList = some ("a.x".toList, 0, 5) ∧
    (match instance_only_db_read inst_link_ex roots_ex_world "a.x 0".toList with
      | .error p => some p.1
      | .ok _ => none) = some Fault.thrown :=
  ⟨by decide, by decide, by decide, by decide, by decide⟩

/-! ## The lookup of an FSM arc by its exclusion id -/

theorem firstArc_fail (find : Option Nat → Int → Int) (id : Int) (st : Option Nat × Option Nat) :
    ∀ l : List (Option Nat × Nat), (firstArc find id st l).1 = -1 →
      firstArc find id st l = (-1, st) := by
  intro l
  induction l with
  | nil => intro _; rfl
  | cons p l ih =>
    intro h
    by_cases hp : find p.1 id = -1
    · simp only [firstArc, hp, if_true] at h ⊢
      exact ih h
    · simp only [firstArc, hp, if_false] at h

theorem firstArc_append (find : Option Nat → Int → Int) (id : Int) (st : Option Nat × Option Nat) :
    ∀ A B : List (Option Nat × Nat), firstArc find id st (A ++ B) =
      if (firstArc find id st A).1 = -1 then firstArc find id st B else firstArc find id st A := by
  intro A
  induction A with
  | nil => intro B; simp [firstArc]
  | cons p A ih =>
    intro B
    by_cases hp : find p.1 id = -1
    · simp only [List.cons_append, firstArc, hp, if_true]
      exact ih B
    · simp [List.cons_append, firstArc, hp]

theorem fsm_arc_scan_spec (find : Option Nat → Int → Int) (id : Int)
    (st : Option Nat × Option Nat) (g : Nat) :
    ∀ l : List (Option Nat),
      (∀ i tb, fsm_arc_scan find id l = (i, some tb) →
        firstArc find id st (l.map (fun tb => (tb, g))) = (i, (tb, some g)) ∧ i ≠ -1) ∧
      (∀ i, fsm_arc_scan find id l = (i, none) →
        firstArc find id st (l.map (fun tb => (tb, g))) = (-1, st)) := by
  intro l
  induction l with
  | nil =>
    refine ⟨fun i tb h => ?_, fun i _ => rfl⟩
    simp [fsm_arc_scan] at h
  | cons t l ih =>
    by_cases ht : find t id = -1
    · simp only [fsm_arc_scan, ht, if_true, List.map_cons, firstArc]
      exact ih
    · simp only [fsm_arc_scan, ht, if_false, List.map_cons, firstArc, Prod.mk.injEq,
        Option.some.injEq, and_imp, reduceCtorEq, and_false, false_implies, implies_true,
        and_true]
      intro i tb h1 h2
      subst h1 h2
      exact ⟨⟨rfl, rfl⟩, ht⟩

theorem tablesOf_append (w : World) (A B : List ITree) :
    tablesOf w (A ++ B) = tablesOf w A ++ tablesOf w B := by
  simp [tablesOf, List.flatMap_append]

theorem find_fsm_arc_loop_spec (find : Option Nat → Int → Int) (id : Int) (w : World)
    (rec : Option Nat → Option Nat × Option Nat →
      Except Fault (Int × (Option Nat × Option Nat))) (p : Option Nat) :
    ∀ (K : List ITree) (fuel : Nat) (st : Option Nat × Option Nat),
      Sat w.inst (cellsL K p none) → K.length + 1 ≤ fuel →
      (∀ c ∈ K, ∀ st, rec (some c.addr) st =
        .ok (firstArc find id st (tablesOf w (nodesOf c)))) →
      instance_find_fsm_arc_loop rec fuel w (headAddrOr none K) st =
        .ok (firstArc find id st (tablesOf w (nodesOfL K))) := by
  intro K
  induction K with
  | nil =>
    intro fuel st _ hf _
    obtain ⟨k, rfl⟩ : ∃ k, fuel = k + 1 := ⟨fuel - 1, by omega⟩
    simp [instance_find_fsm_arc_loop, nodesOfL, tablesOf, firstArc]
  | cons t K ih =>
    intro fuel st hs hf hrec
    obtain ⟨k, rfl⟩ : ∃ k, fuel = k + 1 := ⟨fuel - 1, by simp at hf; omega⟩
    simp only [cellsL, Sat_append] at hs
    have hroot := Sat_root hs.1
    simp only [headAddrOr_cons, instance_find_fsm_arc_loop, nodesOfL, tablesOf_append,
      firstArc_append, hrec t (List.mem_cons_self _ _) st, Except.ok_bind]
    by_cases h1 : (firstArc find id st (tablesOf w (nodesOf t))).1 = -1
    · simp only [h1, if_true, World.load_eq hroot, Except.ok_bind, rootCell]
      rw [firstArc_fail find id st _ h1]
      exact ih k st hs.2 (by simp at hf; omega) (fun c hc => hrec c (List.mem_cons_of_mem _ hc))
    · simp only [h1, if_false]
      rfl

/-- On a tree all of whose instances have a functional unit, the code of
`instance_find_fsm_arc_index_by_exclusion_id` gives the result of the first
table, in the order of the visit, whose query succeeds. -/
theorem find_fsm_arc_refines (find : Option Nat → Int → Int) (id : Int) (w : World) :
    ∀ (n : Nat) (t : ITree) (p nx : Option Nat) (fuel : Nat) (st : Option Nat × Option Nat),
      t.size ≤ n → Sat w.inst (cells t p nx) → allHaveFunit w t → t.size + 1 ≤ fuel →
      instance_find_fsm_arc_index_by_exclusion_id find fuel w (some t.addr) id st =
        .ok (firstArc find id st (tablesOf w (nodesOf t))) := by
  intro n
  induction n with
  | zero =>
    intro t _ _ _ _ hn
    have := t.size_pos
    omega
  | succ n ih =>
    intro t p nx fuel st hn hs hall hf
    obtain ⟨k, rfl⟩ : ∃ k, fuel = k + 1 := ⟨fuel - 1, by omega⟩
    have hself := hall t (mem_nodesOf_self t)
    obtain ⟨a, nm, fu, rg, nd, ks⟩ := t
    have hroot := Sat_root hs
    have hkids := Sat_kids hs
    simp only [ITree.addr_node, ITree.kids_node, ITree.size] at hroot hkids hn hf
    have hlen := ITree.length_le_sizeL ks
    obtain ⟨g, rfl⟩ : ∃ g, fu = some g := by
      cases fu with
      | none => simp [ITree.funit] at hself
      | some g => exact ⟨g, rfl⟩
    obtain ⟨u, hu⟩ : ∃ u, w.funit g = some u := by
      cases hu : w.funit g with
      | none => simp [ITree.funit, hu] at hself
      | some u => exact ⟨u, rfl⟩
    have hown : tablesOf w (nodesOf (.node a nm (some g) rg nd ks)) =
        u.fsms.map (fun tb => (tb, g)) ++ tablesOf w (nodesOfL ks) := by
      simp only [nodesOf, tablesOf, List.flatMap_cons, ITree.funit_node, hu]
    have hkidsrun : instance_find_fsm_arc_loop
        (fun c st => instance_find_fsm_arc_index_by_exclusion_id find k w c id st) k w
        (headAddrOr none ks) st = .ok (firstArc find id st (tablesOf w (nodesOfL ks))) := by
      refine find_fsm_arc_loop_spec find id w _ (some a) ks k st hkids (by omega) ?_
      intro c hc st2
      obtain ⟨nx', hc'⟩ := cells_of_mem hkids hc
      have := ITree.size_le_sizeL hc
      exact ih c (some a) nx' k st2 (by omega) hc'
        (fun m hm => hall m (nodesOf_subset_of_kid (by simpa using hc) m hm)) (by omega)
    obtain ⟨hfound, hnone⟩ := fsm_arc_scan_spec find id st g u.fsms
    simp only [ITree.addr_node, instance_find_fsm_arc_index_by_exclusion_id,
      World.load_eq hroot, Except.ok_bind, rootCell, ITree.funit_node, reduceCtorEq, if_false,
      World.loadF, hu, ITree.kids_node, hown, firstArc_append]
    cases hsc : fsm_arc_scan find id u.fsms with
    | mk i o =>
      cases o with
      | some tb =>
        obtain ⟨e1, e2⟩ := hfound i tb hsc
        simp only [e1, e2, if_false]
        rfl
      | none =>
        rw [hnone i hsc]
        simp only [if_true]
        exact hkidsrun

theorem firstArc_first (find : Option Nat → Int → Int) (id : Int) (st : Option Nat × Option Nat)
    (tb : Option Nat) (g : Nat) (post : List (Option Nat × Nat)) (htb : find tb id ≠ -1) :
    ∀ pre : List (Option Nat × Nat), (∀ q ∈ pre, find q.1 id = -1) →
      firstArc find id st (pre ++ (tb, g) :: post) = (find tb id, (tb, some g)) := by
  intro pre
  induction pre with
  | nil => intro _; simp [firstArc, htb]
  | cons q pre ih =>
    intro h
    simp only [List.cons_append, firstArc, h q (List.mem_cons_self _ _), if_true]
    exact ih (fun x hx => h x (List.mem_cons_of_mem _ hx))

theorem firstArc_none (find : Option Nat → Int → Int) (id : Int) (st : Option Nat × Option Nat) :
    ∀ l : List (Option Nat × Nat), (∀ q ∈ l, find q.1 id = -1) →
      firstArc find id st l = (-1, st) := by
  intro l
  induction l with
  | nil => intro _; rfl
  | cons q l ih =>
    intro h
    simp only [firstArc, h q (List.mem_cons_self _ _), if_true]
    exact ih (fun x hx => h x (List.mem_cons_of_mem _ hx))

/-- C27 (amended). On a tree all of whose instances have a functional unit,
`instance_find_fsm_arc_index_by_exclusion_id( root, id )` returns the arc
index that the first arc table whose query succeeds reports, the tables being
taken instance by instance in depth-first pre-order and within a functional
unit in the order of its FSM list, and sets `found_fsm` and `found_funit` to
that table and its functional unit; it returns -1 and leaves both unchanged
when no query succeeds. -/
theorem instance_find_fsm_arc_index_first (find : Option Nat → Int → Int) (id : Int)
    (w : World) (t : ITree) (p nx : Option Nat) (fuel : Nat) (st : Option Nat × Option Nat)
    (hs : Sat w.inst (cells t p nx)) (hall : allHaveFunit w t) (hfuel : t.size + 1 ≤ fuel) :
    (∀ pre tb g post, tablesOf w (nodesOf t) = pre ++ (tb, g) :: post →
      (∀ q ∈ pre, find q.1 id = -1) → find tb id ≠ -1 →
      instance_find_fsm_arc_index_by_exclusion_id find fuel w (some t.addr) id st =
        .ok (find tb id, (tb, some g))) ∧
    ((∀ q ∈ tablesOf w (nodesOf t), find q.1 id = -1) →
      instance_find_fsm_arc_index_by_exclusion_id find fuel w (some t.addr) id st =
        .ok (-1, st)) := by
  have hrun := find_fsm_arc_refines find id w t.size t p nx fuel st (le_refl _) hs hall hfuel
  refine ⟨fun pre tb g post htab hpre htb => ?_, fun hno => ?_⟩
  · rw [hrun, htab, firstArc_first find id st tb g post htb pre hpre]
  · rw [hrun, firstArc_none find id st _ hno]

/-- C27 (amended) on the instance `dut`, whose functional unit has the arc
tables 6 and 7: the query for the id 5 fails on the table 6 and gives the
index 2 on the table 7. -/
theorem instance_find_fsm_arc_index_first_witness :
    tablesOf fsm_lookup_ex_world (nodesOf placeholder_ex_dut) = [(some 6, 0), (some 7, 0)] ∧
    instance_find_fsm_arc_index_by_exclusion_id arc_find_ex 5 fsm_lookup_ex_world
      (some placeholder_ex_dut.addr) 5 (none, none) = .ok (arc_find_ex (some 7) 5,
        (some 7, some 0)) :=
  ⟨by decide, (instance_find_fsm_arc_index_first arc_find_ex 5 fsm_lookup_ex_world
    placeholder_ex_dut (some 0) none 5 (none, none) (by decide) (by decide) (by decide)).1
    [(some 6, 0)] (some 7) 0 [] (by decide) (by decide) (by decide)⟩

/-- C27 as stated fails on the tree `tb(dut)` whose root is a placeholder:
the table 7 of the functional unit of `dut` answers the query for the id 5,
but the lookup from the root stops at `assert( root->funit != NULL )`. -/
theorem instance_find_fsm_arc_index_first_counterexample :
    IsTree fsm_lookup_ex_world.inst placeholder_ex_tree ∧
    tablesOf fsm_lookup_ex_world (nodesOf placeholder_ex_tree) = [(some 6, 0), (some 7, 0)] ∧
    arc_find_ex (some 7) 5 = 2 ∧
    instance_find_fsm_arc_index_by_exclusion_id arc_find_ex 10 fsm_lookup_ex_world (some 0) 5
      (none, none) = .error .assertion :=
  ⟨by decide, by decide, by decide, by decide⟩

/-! ## Statistics of FSM tables -/

/-- C21 fails in its last step on the FSM with a state signal of two bits and
the declared arcs 0 to 1, 1 to 2 and 2 to 0: after `fsm_create_tables` and the
observation of 0 to 1 and 1 to 2, `fsm_get_stats` reports the arc total 3 and
the arc hits 2, as claimed; but merging the line of a run that also observed
2 to 0 with `fsm_db_merge` returns FALSE and leaves the table as it is, so the
arc hits stay 2, where the bitwise OR of the two tables would give 3. -/
theorem fsm_get_stats_merge_scenario :
    fsm_create_tables operate_ex (some fsm_arcs_ex) = .ok fsm_scn_seeded ∧
    fsm_run unpack_pairs_ex [.set (some ⟨2, 0⟩) (some ⟨2, 1⟩),
      .set (some ⟨2, 1⟩) (some ⟨2, 2⟩)] fsm_scn_seeded = .ok fsm_scn_observed ∧
    fsm_get_stats [some fsm_scn_observed] (0, 0, 0, 0) = .ok (3, 3, 3, 2) ∧
    (unpack_pairs_ex " 01 12 20".toList).hit 2 0 = true ∧
    (∀ (same : Bool) (iname oname : Str) (chars_read : Int),
      fsm_db_merge unpack_pairs_ex (some fsm_scn_observed) "st nst 01 12 20".toList same iname
        oname chars_read = .ok (fsm_scn_observed, "st nst 01 12 20".toList, false)) ∧
    fsm_get_stats [some { fsm_scn_observed with
      table := arc_db_merge unpack_pairs_ex fsm_scn_observed.table " 01 12 20".toList false }]
      (0, 0, 0, 0) = .ok (3, 3, 3, 3) :=
  ⟨rfl, rfl, by decide, by decide, fun _ _ _ _ => rfl, by decide⟩

/-! ## Reading an FSM -/

theorem find_sig_index_spec : ∀ (nm : Str) (l : List signal),
    (∀ i, find_sig_index nm l = some i → ∃ s, l[i]? = some s ∧ s.name = nm) ∧
      (find_sig_index nm l = none → ∀ s ∈ l, s.name ≠ nm) := by
  intro nm l
  induction l with
  | nil => exact ⟨fun i h => by simp [find_sig_index] at h, fun _ s hs => by simp at hs⟩
  | cons x l ih =>
    by_cases hx : x.name = nm
    · refine ⟨fun i h => ?_, fun h => ?_⟩
      · simp only [find_sig_index, hx, if_true, Option.some.injEq] at h
        subst h
        exact ⟨x, by simp, hx⟩
      · simp [find_sig_index, hx] at h
    · refine ⟨fun i h => ?_, fun h s hs => ?_⟩
      · simp only [find_sig_index, hx, if_false, Option.map_eq_some'] at h
        obtain ⟨j, hj, rfl⟩ := h
        obtain ⟨s, hs, hn⟩ := ih.1 j hj
        exact ⟨s, by simpa using hs, hn⟩
      · simp only [find_sig_index, hx, if_false, Option.map_eq_none'] at h
        rcases List.mem_cons.1 hs with rfl | hs
        · exact hx
        · exact ih.2 h s hs

theorem set_append_length (D : List Nat) (x c : Nat) (S : List Nat) :
    (D ++ x :: S).set D.length c = D ++ c :: S := by
  induction D with
  | nil => rfl
  | cons d D ih => simp [List.set, ih]

theorem getD_append_length (D : List Nat) (x : Nat) (S : List Nat) :
    (D ++ x :: S).getD D.length 0 = x := by
  induction D with
  | nil => rfl
  | cons d D ih => simpa using ih

theorem scan_counts_length : ∀ (n : Nat) (line : Str) (cs : List Nat) (rest : Str),
    scan_counts n line = some (cs, rest) → cs.length = n := by
  intro n
  induction n with
  | zero => intro line cs rest h; simp [scan_counts] at h; simp [h.1.symm]
  | succ n ih =>
    intro line cs rest h
    simp only [scan_counts] at h
    cases h1 : scan_unsigned 10 line with
    | none => simp [h1] at h
    | some p =>
      obtain ⟨c, r1⟩ := p
      simp only [h1, Option.map_eq_some'] at h
      obtain ⟨⟨cs', r'⟩, h2, h3⟩ := h
      simp only [Prod.mk.injEq] at h3
      rw [← h3.1]
      simp [ih r1 cs' r' h2]

/-- The loop for the first file stores the counts it reads. -/
theorem rank_parse_info_loop_first (K : RankConsts) (cdd_name : Str) :
    ∀ (n : Nat) (D S : List Nat) (line : Str), S.length = n →
      (∀ cs rest, scan_counts n line = some (cs, rest) →
        rank_parse_info_loop K cdd_name true n D.length (D ++ S) line = .ok (D ++ cs, rest)) ∧
      (scan_counts n line = none →
        ∃ c, rank_parse_info_loop K cdd_name true n D.length (D ++ S) line =
          .error (.thrown, c)) := by
  intro n
  induction n with
  | zero =>
    intro D S line hS
    have : S = [] := List.eq_nil_of_length_eq_zero hS
    subst this
    refine ⟨fun cs rest h => ?_, fun h => by simp [scan_counts] at h⟩
    simp only [scan_counts, Option.some.injEq, Prod.mk.injEq] at h
    simp [rank_parse_info_loop, ← h.1, ← h.2]
  | succ n ih =>
    intro D S line hS
    obtain ⟨x, S', rfl⟩ : ∃ x S', S = x :: S' := by
      cases S with
      | nil => simp at hS
      | cons x S' => exact ⟨x, S', rfl⟩
    have hS' : S'.length = n := by simpa using hS
    cases h1 : scan_unsigned 10 line with
    | none =>
      refine ⟨fun cs rest h => by simp [scan_counts, h1] at h, fun _ => ⟨D ++ x :: S', ?_⟩⟩
      simp only [rank_parse_info_loop, h1]
    | some p =>
      obtain ⟨c, r1⟩ := p
      have hstep : rank_parse_info_loop K cdd_name true (n + 1) D.length (D ++ x :: S') line =
          rank_parse_info_loop K cdd_name true n (D ++ [c]).length ((D ++ [c]) ++ S') r1 := by
        simp only [rank_parse_info_loop, h1, if_true, set_append_length, List.length_append,
          List.length_singleton, List.append_assoc, List.singleton_append]
      obtain ⟨ih1, ih2⟩ := ih (D ++ [c]) S' r1 hS'
      rw [hstep]
      refine ⟨fun cs rest h => ?_, fun h => ?_⟩
      · simp only [scan_counts, h1, Option.map_eq_some'] at h
        obtain ⟨⟨cs', r'⟩, h2, h3⟩ := h
        simp only [Prod.mk.injEq] at h3
        rw [ih1 cs' r' h2, ← h3.1, ← h3.2]
        simp
      · simp only [scan_counts, h1, Option.map_eq_none'] at h
        exact ih2 h

/-- The loop for a further file succeeds exactly when the counts it reads are
the stored ones, and leaves the array as it is. -/
theorem rank_parse_info_loop_next (K : RankConsts) (cdd_name : Str)
    (hmsg : (rank_not_mergeable_msg cdd_name).length < K.USER_MSG_LENGTH) :
    ∀ (n : Nat) (D S : List Nat) (line : Str), S.length = n →
      (∀ rest, scan_counts n line = some (S, rest) →
        rank_parse_info_loop K cdd_name false n D.length (D ++ S) line =
          .ok (D ++ S, rest)) ∧
      ((∀ rest, scan_counts n line ≠ some (S, rest)) →
        rank_parse_info_loop K cdd_name false n D.length (D ++ S) line =
          .error (.thrown, D ++ S)) := by
  intro n
  induction n with
  | zero =>
    intro D S line hS
    have : S = [] := List.eq_nil_of_length_eq_zero hS
    subst this
    refine ⟨fun rest h => ?_, fun h => absurd rfl (h line)⟩
    simp only [scan_counts, Option.some.injEq, Prod.mk.injEq, true_and] at h
    simp [rank_parse_info_loop, h]
  | succ n ih =>
    intro D S line hS
    obtain ⟨x, S', rfl⟩ : ∃ x S', S = x :: S' := by
      cases S with
      | nil => simp at hS
      | cons x S' => exact ⟨x, S', rfl⟩
    have hS' : S'.length = n := by simpa using hS
    cases h1 : scan_unsigned 10 line with
    | none =>
      refine ⟨fun rest h => by simp [scan_counts, h1] at h, fun _ => ?_⟩
      simp only [rank_parse_info_loop, h1]
    | some p =>
      obtain ⟨c, r1⟩ := p
      obtain ⟨ih1, ih2⟩ := ih (D ++ [x]) S' r1 hS'
      have happ : (D ++ [x]) ++ S' = D ++ x :: S' := by simp
      have hlen : (D ++ [x]).length = D.length + 1 := by simp
      rw [happ, hlen] at ih1 ih2
      by_cases hc : x = c
      · subst hc
        have hstep : rank_parse_info_loop K cdd_name false (n + 1) D.length (D ++ x :: S')
            line = rank_parse_info_loop K cdd_name false n (D.length + 1) (D ++ x :: S') r1 := by
          simp only [rank_parse_info_loop, h1, Bool.false_eq_true, if_false,
            getD_append_length, ne_eq, not_true_eq_false]
        rw [hstep]
        refine ⟨fun rest h => ?_, fun h => ?_⟩
        · simp only [scan_counts, h1, Option.map_eq_some'] at h
          obtain ⟨⟨cs', r'⟩, h2, h3⟩ := h
          simp only [Prod.mk.injEq, List.cons.injEq, true_and] at h3
          rw [h3.1, h3.2] at h2
          exact ih1 rest h2
        · refine ih2 (fun rest hr => h rest ?_)
          simp [scan_counts, h1, hr]
      · refine ⟨fun rest h => ?_, fun _ => ?_⟩
        · simp only [scan_counts, h1, Option.map_eq_some'] at h
          obtain ⟨⟨cs', r'⟩, -, h3⟩ := h
          simp only [Prod.mk.injEq, List.cons.injEq] at h3
          exact absurd h3.1.1.symm hc
        · simp only [rank_parse_info_loop, h1, Bool.false_eq_true, if_false,
            getD_append_length, ne_eq, hc, not_false_eq_true, if_true, hmsg]

/-- C30. `memory_collect` does not judge a memory by its own coverage:
only `ae_total` is reset per signal, the counters `wr_hit`, `rd_hit`,
`tog_total`, `hit01` and `hit10` run on over the whole signal list.  The
memory `b` was fully toggled but never written or read
(`memory_get_stat` from zero gives `wr_hit = rd_hit = 0`).  Alone in the list it
is collected for `cov = 0` and not for `cov = 1`; behind the fully covered
memory `a` it is collected for `cov = 1` and not for `cov = 0`. -/
theorem memory_collect_carries_counters :
    memory_get_stat mem_ex 100 (mem_sig_ex "b" 12) ⟨0, 0, 0, 0, 0, 0⟩ true =
      .ok ⟨4, 0, 0, 32, 32, 32⟩ ∧
    memory_collect mem_ex 100 (some (funit_mem_ex [mem_sig_ex "b" 12])) 0 [] =
      .ok [mem_sig_ex "b" 12] ∧
    memory_collect mem_ex 100 (some (funit_mem_ex [mem_sig_ex "b" 12])) 1 [] = .ok [] ∧
    memory_collect mem_ex 100
      (some (funit_mem_ex [mem_sig_ex "a" 15, mem_sig_ex "b" 12])) 1 [] =
      .ok [mem_sig_ex "a" 15, mem_sig_ex "b" 12] ∧
    memory_collect mem_ex 100
      (some (funit_mem_ex [mem_sig_ex "a" 15, mem_sig_ex "b" 12])) 0 [] = .ok [] := by
  refine ⟨?_, ?_, ?_, ?_, ?_⟩ <;> decide

/-! ## The calls of `funit_merge` and the statistics of a tree -/

theorem runCalls_nil (fm : FHeap → Nat → Nat → FHeap) (F : FHeap) : runCalls fm [] F = F := rfl

theorem runCalls_cons (fm : FHeap → Nat → Nat → FHeap) (p : Nat × Nat) (ps : List (Nat × Nat))
    (F : FHeap) : runCalls fm (p :: ps) F = runCalls fm ps (fm F p.1 p.2) := rfl

theorem runCalls_append (fm : FHeap → Nat → Nat → FHeap) (ps qs : List (Nat × Nat))
    (F : FHeap) : runCalls fm (ps ++ qs) F = runCalls fm qs (runCalls fm ps F) := by
  simp [runCalls, List.foldl_append]

/-- A functional unit that is the first argument of no call keeps its
contents. -/
theorem runCalls_frame {fm : FHeap → Nat → Nat → FHeap}
    {op : Option func_unit → Option func_unit → Option func_unit} (hfm : MergesBy fm op)
    (ps : List (Nat × Nat)) (F : FHeap) (g : Nat) (h : ∀ p ∈ ps, p.1 ≠ g) :
    runCalls fm ps F g = F g := by
  induction ps generalizing F with
  | nil => rfl
  | cons p ps ih =>
    rw [runCalls_cons, ih _ (fun q hq => h q (List.mem_cons_of_mem _ hq)), hfm]
    have := h p (List.mem_cons_self _ _)
    simp [Ne.symm this]

/-- Calls that stay inside a set of functional units see only that set. -/
theorem runCalls_agree {fm : FHeap → Nat → Nat → FHeap}
    {op : Option func_unit → Option func_unit → Option func_unit} (hfm : MergesBy fm op)
    (R : Nat → Prop) (ps : List (Nat × Nat)) (F G : FHeap)
    (hps : ∀ p ∈ ps, R p.1 ∧ R p.2) (hFG : ∀ g, R g → F g = G g) :
    ∀ g, R g → runCalls fm ps F g = runCalls fm ps G g := by
  induction ps generalizing F G with
  | nil => exact hFG
  | cons p ps ih =>
    rw [runCalls_cons, runCalls_cons]
    refine ih _ _ (fun q hq => hps q (List.mem_cons_of_mem _ hq)) ?_
    intro g hg
    have hp := hps p (List.mem_cons_self _ _)
    rw [hfm, hfm, hFG _ hp.1, hFG _ hp.2, hFG _ hg]

theorem snapshotL_eq_map (F : FHeap) (ks : List ITree) :
    snapshotL F ks = ks.map (snapshot F) := by
  induction ks with
  | nil => rfl
  | cons k ks ih => simp [snapshotL, ih]

theorem snapshot_name (F : FHeap) (t : ITree) : (snapshot F t).name = t.name := by
  cases t; simp [snapshot, STree.name, ITree.name]

theorem snapshot_kids (F : FHeap) (t : ITree) :
    (snapshot F t).kids = t.kids.map (snapshot F) := by
  cases t; simp [snapshot, STree.kids, ITree.kids, snapshotL_eq_map]

theorem snapshot_funit (F : FHeap) (t : ITree) :
    (snapshot F t).funit = t.funit.map (fun g => (g, F g)) := by
  cases t; simp [snapshot, STree.funit, ITree.funit]

theorem snapshot_names (F : FHeap) (ks : List ITree) :
    (ks.map (snapshot F)).map STree.name = ks.map ITree.name := by
  simp [List.map_map, Function.comp_def, snapshot_name]

mutual
theorem snapshot_congr (F G : FHeap) :
    ∀ (t : ITree), (∀ g ∈ funitsOf t, F g = G g) → snapshot F t = snapshot G t
  | .node a n f r d ks, h => by
    have hk := snapshotL_congr F G ks (fun g hg => h g (by simp [funitsOf, hg]))
    cases f with
    | none => simp [snapshot, hk]
    | some g =>
      have := h g (by simp [funitsOf])
      simp [snapshot, hk, this]
theorem snapshotL_congr (F G : FHeap) :
    ∀ (ks : List ITree), (∀ g ∈ funitsOfL ks, F g = G g) → snapshotL F ks = snapshotL G ks
  | [], _ => rfl
  | k :: ks, h => by
    have h1 := snapshot_congr F G k (fun g hg => h g (by simp [funitsOfL, hg]))
    have h2 := snapshotL_congr F G ks (fun g hg => h g (by simp [funitsOfL, hg]))
    simp [snapshotL, h1, h2]
end

mutual
theorem snapshot_values (F G : FHeap) :
    ∀ (t : ITree), snapshot F t = snapshot G t → ∀ g ∈ funitsOf t, F g = G g
  | .node a n f r d ks, h => by
    simp only [snapshot, STree.node.injEq, true_and] at h
    intro g hg
    simp only [funitsOf, List.mem_append] at hg
    rcases hg with hg | hg
    · cases f with
      | none => simp at hg
      | some g0 =>
        simp only [Option.toList, List.mem_singleton] at hg
        subst hg
        simpa using h.1
    · exact snapshotL_values F G ks h.2 g hg
theorem snapshotL_values (F G : FHeap) :
    ∀ (ks : List ITree), snapshotL F ks = snapshotL G ks → ∀ g ∈ funitsOfL ks, F g = G g
  | [], _ => by simp [funitsOfL]
  | k :: ks, h => by
    simp only [snapshotL, List.cons.injEq] at h
    intro g hg
    simp only [funitsOfL, List.mem_append] at hg
    rcases hg with hg | hg
    · exact snapshot_values F G k h.1 g hg
    · exact snapshotL_values F G ks h.2 g hg
end

mutual
theorem forget_snapshot (F : FHeap) : ∀ (t : ITree), forget (snapshot F t) = t
  | .node a n f r d ks => by
    have := forgetL_snapshotL F ks
    cases f <;> simp [snapshot, forget, this]
theorem forgetL_snapshotL (F : FHeap) : ∀ (ks : List ITree), forgetL (snapshotL F ks) = ks
  | [] => rfl
  | k :: ks => by
    simp [snapshotL, forgetL, forget_snapshot F k, forgetL_snapshotL F ks]
end

/-! ## The merge of trees with statistics is associative -/

theorem mergeS_name (op : Option func_unit → Option func_unit → Option func_unit)
    (t1 t2 : STree) : (mergeS op t1 t2).name = t1.name := by
  cases t1; simp [mergeS, STree.name]

theorem mergeS_kids_names (op : Option func_unit → Option func_unit → Option func_unit)
    (K S : List STree) : (mergeS_kids op K S).map STree.name = K.map STree.name := by
  induction K with
  | nil => simp [mergeS_kids]
  | cons a A ih =>
    simp only [mergeS_kids, List.map_cons, ih, List.cons.injEq, and_true]
    split
    · exact mergeS_name _ _ _
    · rfl

theorem mergeS_kids_append (op : Option func_unit → Option func_unit → Option func_unit)
    (A B S : List STree) :
    mergeS_kids op (A ++ B) S = mergeS_kids op A S ++ mergeS_kids op B S := by
  induction A with
  | nil => simp [mergeS_kids]
  | cons a A ih => simp [mergeS_kids, ih]

theorem mergeS_kids_filter (op : Option func_unit → Option func_unit → Option func_unit)
    (p : Str → Bool) (K S : List STree) :
    mergeS_kids op (K.filter (fun c => p c.name)) S =
      (mergeS_kids op K S).filter (fun c => p c.name) := by
  induction K with
  | nil => simp [mergeS_kids]
  | cons a A ih =>
    have hn : ((match S.find? (fun c2 => decide (c2.name = a.name)) with
        | some c2 => mergeS op a c2
        | none => a) : STree).name = a.name := by
      split
      · exact mergeS_name _ _ _
      · rfl
    cases hp : p a.name with
    | true => simp [List.filter_cons, hp, mergeS_kids, hn, ih]
    | false => simp [List.filter_cons, hp, mergeS_kids, hn, ih]

theorem mergeS_kids_find (op : Option func_unit → Option func_unit → Option func_unit)
    (n : Str) (K S : List STree) :
    (mergeS_kids op K S).find? (fun c => decide (c.name = n)) =
      (K.find? (fun c => decide (c.name = n))).map (fun c1 =>
        match S.find? (fun c2 => decide (c2.name = c1.name)) with
        | some c2 => mergeS op c1 c2
        | none => c1) := by
  induction K with
  | nil => simp [mergeS_kids]
  | cons a A ih =>
    have hn : ((match S.find? (fun c2 => decide (c2.name = a.name)) with
        | some c2 => mergeS op a c2
        | none => a) : STree).name = a.name := by
      split
      · exact mergeS_name _ _ _
      · rfl
    by_cases ha : a.name = n
    · subst ha
      simp [mergeS_kids, List.find?_cons, hn]
    · simp [mergeS_kids, List.find?_cons, hn, ha, ih]

theorem find_filter_not_mem (n : Str) (N : List Str) (S : List STree) :
    (S.filter (fun c => decide (c.name ∉ N))).find? (fun c => decide (c.name = n)) =
      if n ∈ N then none else S.find? (fun c => decide (c.name = n)) := by
  induction S with
  | nil => simp
  | cons a A ih =>
    by_cases hN : a.name ∈ N
    · rw [List.filter_cons_of_neg (by simpa using hN), ih]
      by_cases ha : a.name = n
      · subst ha
        simp [hN]
      · simp [List.find?_cons, ha]
    · rw [List.filter_cons_of_pos (by simpa using hN)]
      by_cases ha : a.name = n
      · subst ha
        simp [List.find?_cons, hN]
      · simp only [List.find?_cons, ha, decide_False, ih]

theorem find_name_mem_S {n : Str} {S : List STree} {c : STree}
    (h : S.find? (fun c => decide (c.name = n)) = some c) : c.name = n ∧ n ∈ S.map STree.name := by
  have h1 := List.find?_some h
  have h2 := List.mem_of_find?_eq_some h
  simp only [decide_eq_true_eq] at h1
  exact ⟨h1, h1 ▸ List.mem_map_of_mem _ h2⟩

theorem find_name_none_S {n : Str} {S : List STree}
    (h : S.find? (fun c => decide (c.name = n)) = none) : n ∉ S.map STree.name := by
  rw [List.find?_eq_none] at h
  intro hm
  obtain ⟨c, hc, rfl⟩ := List.mem_map.1 hm
  exact h c hc (by simp)

theorem combine_assoc {op : Option func_unit → Option func_unit → Option func_unit}
    (hop : ∀ x y z, op (op x y) z = op x (op y z))
    (f1 f2 f3 : Option (Nat × Option func_unit)) :
    combine op (combine op f1 f2) f3 = combine op f1 (combine op f2 f3) := by
  cases f1 <;> cases f2 <;> cases f3 <;> simp [combine, hop]

theorem filter_not_mem_merged (op : Option func_unit → Option func_unit → Option func_unit)
    (K1 K2 K3 : List STree) :
    K3.filter (fun c => decide (c.name ∉
        (mergeS_kids op K1 K2 ++ K2.filter (fun c2 => decide (c2.name ∉ K1.map STree.name))).map
          STree.name)) =
      (K3.filter (fun c => decide (c.name ∉ K2.map STree.name))).filter
        (fun c => decide (c.name ∉ K1.map STree.name)) := by
  rw [List.filter_filter]
  refine List.filter_congr fun c _ => ?_
  have h : (c.name ∉ (mergeS_kids op K1 K2 ++
      K2.filter (fun c2 => decide (c2.name ∉ K1.map STree.name))).map STree.name) ↔
      (c.name ∉ K1.map STree.name ∧ c.name ∉ K2.map STree.name) := by
    simp only [List.map_append, mergeS_kids_names, List.mem_append, List.mem_map, List.mem_filter,
      decide_eq_true_eq, not_or, not_exists, not_and]
    constructor
    · rintro ⟨h1, h2⟩
      refine ⟨h1, fun x hx he => ?_⟩
      exact h2 x ⟨hx, fun y hy hye => h1 y hy (hye.trans he)⟩ he
    · rintro ⟨h1, h2⟩
      exact ⟨h1, fun x hx he => h2 x hx.1 he⟩
  simp only [h, Bool.decide_and]

mutual
/-- Merging trees with statistics is associative when the combination of the
statistics is. -/
theorem mergeS_assoc {op : Option func_unit → Option func_unit → Option func_unit}
    (hop : ∀ x y z, op (op x y) z = op x (op y z)) :
    ∀ (A B C : STree), mergeS op (mergeS op A B) C = mergeS op A (mergeS op B C)
  | .node a1 n1 f1 r1 d1 ks1, .node a2 n2 f2 r2 d2 ks2, .node a3 n3 f3 r3 d3 ks3 => by
    have ih := mergeS_kids_assoc hop ks1 ks2 ks3
    simp only [mergeS, STree.funit, STree.kids, combine_assoc hop, STree.node.injEq, true_and]
    rw [mergeS_kids_append, filter_not_mem_merged, ih, List.filter_append,
      mergeS_kids_filter op (fun n => decide (n ∉ ks1.map STree.name)), List.append_assoc]
theorem mergeS_kids_assoc {op : Option func_unit → Option func_unit → Option func_unit}
    (hop : ∀ x y z, op (op x y) z = op x (op y z)) :
    ∀ (K1 K2 K3 : List STree), mergeS_kids op (mergeS_kids op K1 K2) K3 =
      mergeS_kids op K1
        (mergeS_kids op K2 K3 ++ K3.filter (fun c => decide (c.name ∉ K2.map STree.name)))
  | [], _, _ => by simp [mergeS_kids]
  | c1 :: ks1, K2, K3 => by
    have ih := mergeS_kids_assoc hop ks1 K2 K3
    simp only [mergeS_kids, List.cons.injEq, ih, and_true]
    rw [List.find?_append, mergeS_kids_find, find_filter_not_mem]
    cases h2 : K2.find? (fun c => decide (c.name = c1.name)) with
    | none =>
      have hn := find_name_none_S h2
      simp [hn]
    | some c2 =>
      obtain ⟨he, hm⟩ := find_name_mem_S h2
      cases h3 : K3.find? (fun c => decide (c.name = c1.name)) with
      | none => simp [mergeS_name, he, h3]
      | some c3 =>
        simp only [Option.map_some', mergeS_name, he, h3, Option.or]
        exact mergeS_assoc hop c1 c2 c3
end

/-! ## The calls of `funit_merge` on trees with distinct sibling names -/

theorem find_of_splitAtName {nm : Str} {K pre post : List ITree} {c : ITree}
    (h : splitAtName nm K = some (pre, c, post)) :
    K.find? (fun k => decide (k.name = nm)) = some c := by
  obtain ⟨hK, hc, hpre⟩ := splitAtName_some h
  exact find_split hK hc hpre

theorem find_of_splitAtName_none {nm : Str} {K : List ITree} (h : splitAtName nm K = none) :
    K.find? (fun k => decide (k.name = nm)) = none := by
  rw [List.find?_eq_none]
  intro k hk
  simpa using splitAtName_none h k hk

/-- When the children of the second root have pairwise distinct names, each
of them is looked up among the children the first root had on entry. -/
theorem mergeKidsCalls_closed (K : List ITree) :
    ∀ (S K' : List ITree), (S.map ITree.name).Nodup →
      (∀ c ∈ S, K'.find? (fun k => decide (k.name = c.name)) =
        K.find? (fun k => decide (k.name = c.name))) →
      mergeKidsCalls S K' = callsOf K S
  | [], _, _, _ => by simp [mergeKidsCalls, callsOf]
  | c2 :: rest, K', hS, hfind => by
    have hS' : c2.name ∉ rest.map ITree.name ∧ (rest.map ITree.name).Nodup :=
      List.nodup_cons.1 hS
    have hne : ∀ c ∈ rest, c2.name ≠ c.name := by
      intro c hc he
      exact hS'.1 (he ▸ List.mem_map_of_mem _ hc)
    have h2 := hfind c2 (List.mem_cons_self _ _)
    cases hsp : splitAtName c2.name K' with
    | none =>
      rw [find_of_splitAtName_none hsp] at h2
      simp only [mergeKidsCalls, hsp, callsOf, ← h2, List.nil_append]
      refine mergeKidsCalls_closed K rest _ hS'.2 fun c hc => ?_
      rw [find_concat_skip (hne c hc)]
      exact hfind c (List.mem_cons_of_mem _ hc)
    | some r =>
      obtain ⟨pre, c1, post⟩ := r
      rw [find_of_splitAtName hsp] at h2
      obtain ⟨hK', hc1, -⟩ := splitAtName_some hsp
      simp only [mergeKidsCalls, hsp, callsOf, ← h2]
      congr 1
      refine mergeKidsCalls_closed K rest _ hS'.2 fun c hc => ?_
      rw [← hfind c (List.mem_cons_of_mem _ hc), hK']
      refine find_replace ?_ ?_
      · rw [mergeT_fst_name, hc1]; exact hne c hc
      · rw [hc1]; exact hne c hc

theorem mergeCalls_eq (a2 : Nat) (n2 : Str) (f2 : Option Nat) (r2 : Option vector_width)
    (d2 : Bool) (ks2 : List ITree) (t1 : ITree) (h : (ks2.map ITree.name).Nodup) :
    mergeCalls (.node a2 n2 f2 r2 d2 ks2) t1 = rootCall t1.funit f2 ++ callsOf t1.kids ks2 := by
  simp only [mergeCalls]
  rw [mergeKidsCalls_closed t1.kids ks2 t1.kids h (fun _ _ => rfl)]

theorem mem_rootCall {f1 f2 : Option Nat} {p : Nat × Nat} (h : p ∈ rootCall f1 f2) :
    f1 = some p.1 ∧ f2 = some p.2 := by
  cases f1 <;> cases f2 <;> simp [rootCall] at h
  subst h
  exact ⟨rfl, rfl⟩

theorem find_name_mem {n : Str} {S : List ITree} {c : ITree}
    (h : S.find? (fun c => decide (c.name = n)) = some c) : c.name = n ∧ c ∈ S := by
  have h1 := List.find?_some h
  have h2 := List.mem_of_find?_eq_some h
  simp only [decide_eq_true_eq] at h1
  exact ⟨h1, h2⟩

mutual
/-- Every call of `funit_merge` has a functional unit of the first tree as
its first and one of the second tree as its second argument. -/
theorem mergeCalls_bounds :
    ∀ (t2 t1 : ITree), distinctNames t2 = true → ∀ p ∈ mergeCalls t2 t1,
      p.1 ∈ funitsOf t1 ∧ p.2 ∈ funitsOf t2
  | .node a2 n2 f2 r2 d2 ks2, t1, hd, p, hp => by
    rw [distinctNames_iff] at hd
    simp only [ITree.kids_node] at hd
    rw [mergeCalls_eq _ _ _ _ _ _ _ hd.1, List.mem_append] at hp
    obtain ⟨a1, n1, f1, r1, d1, K⟩ := t1
    simp only [ITree.funit_node, ITree.kids_node] at hp
    simp only [funitsOf, List.mem_append]
    rcases hp with hp | hp
    · obtain ⟨e1, e2⟩ := mem_rootCall hp
      subst e1 e2
      simp
    · have := callsOf_bounds ks2 K hd.2 p hp
      exact ⟨Or.inr this.1, Or.inr this.2⟩
theorem callsOf_bounds :
    ∀ (S K : List ITree), distinctNamesL S = true → ∀ p ∈ callsOf K S,
      p.1 ∈ funitsOfL K ∧ p.2 ∈ funitsOfL S
  | [], _, _, p, hp => by simp [callsOf] at hp
  | c2 :: rest, K, hd, p, hp => by
    simp only [distinctNamesL, Bool.and_eq_true] at hd
    simp only [callsOf, List.mem_append] at hp
    simp only [funitsOfL, List.mem_append]
    rcases hp with hp | hp
    · cases hf : K.find? (fun c1 => decide (c1.name = c2.name)) with
      | none => simp [hf] at hp
      | some c1 =>
        rw [hf] at hp
        have := mergeCalls_bounds c2 c1 hd.1 p hp
        exact ⟨funitsOf_subset_funitsOfL (find_name_mem hf).2 _ this.1, Or.inl this.2⟩
    · have := callsOf_bounds rest K hd.2 p hp
      exact ⟨this.1, Or.inr this.2⟩
end

/-! ## The functional units of merged trees -/

theorem funitsOfL_app (A B : List ITree) : funitsOfL (A ++ B) = funitsOfL A ++ funitsOfL B := by
  induction A with
  | nil => simp [funitsOfL]
  | cons a A ih => simp [funitsOfL, ih]

theorem funitsOf_node_eq (t : ITree) : funitsOf t = t.funit.toList ++ funitsOfL t.kids := by
  cases t; simp [funitsOf]

theorem mergeKids_funits_count (S K : List ITree) (x : Nat) :
    List.count x (funitsOfL (mergeKids S K).1) + List.count x (funitsOfL (mergeKids S K).2) =
      List.count x (funitsOfL K) + List.count x (funitsOfL S) := by
  refine mergeKids.induct
    (fun t2 t1 => List.count x (funitsOf (mergeT t2 t1).1) +
      List.count x (funitsOf (mergeT t2 t1).2) =
      List.count x (funitsOf t1) + List.count x (funitsOf t2))
    (fun S K => List.count x (funitsOfL (mergeKids S K).1) +
      List.count x (funitsOfL (mergeKids S K).2) =
      List.count x (funitsOfL K) + List.count x (funitsOfL S)) ?_ ?_ ?_ ?_ S K
  · intro a2 n2 f2 r2 d2 ks2 t1 ih
    rw [funitsOf_node_eq t1]
    simp only [mergeT, funitsOf, List.count_append]
    cases hf : t1.funit <;> cases f2 <;> simp <;> omega
  · intro ks1
    simp [mergeKids, funitsOfL]
  · intro c2 rest ks1 pre c1 post hsp m ih1 ih2
    obtain ⟨hK, -, -⟩ := splitAtName_some hsp
    simp only [mergeKids, hsp, funitsOfL]
    subst hK
    simp only [m, funitsOfL_app, funitsOfL, List.count_append] at ih1 ih2 ⊢
    omega
  · intro c2 rest ks1 hsp ih
    simp only [mergeKids, hsp]
    rw [ih]
    simp only [funitsOfL_app, funitsOfL, List.count_append, List.append_nil]
    omega

theorem mergeT_funits_count (t2 t1 : ITree) (x : Nat) :
    List.count x (funitsOf (mergeT t2 t1).1) + List.count x (funitsOf (mergeT t2 t1).2) =
      List.count x (funitsOf t1) + List.count x (funitsOf t2) := by
  cases t2 with
  | node a2 n2 f2 r2 d2 ks2 =>
    have ih := mergeKids_funits_count ks2 t1.kids x
    rw [funitsOf_node_eq t1]
    simp only [mergeT, funitsOf, List.count_append]
    cases hf : t1.funit <;> cases f2 <;> simp <;> omega

/-- The tree under the first root after the merge has its functional units
from the two trees, each at most as often as it occurs there. -/
theorem merge_spec_funits_count (t1 t2 : ITree) (h1 : distinctNames t1 = true)
    (h2 : distinctNames t2 = true) (x : Nat) :
    List.count x (funitsOf (merge_spec t1 t2)) ≤
      List.count x (funitsOf t1) + List.count x (funitsOf t2) := by
  have := mergeT_funits_count t2 t1 x
  rw [(mergeT_eq_spec t1 t2 h1 h2).1] at this
  simp only at this
  omega

theorem merge_spec_funits_mem (t1 t2 : ITree) (h1 : distinctNames t1 = true)
    (h2 : distinctNames t2 = true) {x : Nat} (hx : x ∈ funitsOf (merge_spec t1 t2)) :
    x ∈ funitsOf t1 ∨ x ∈ funitsOf t2 := by
  have := merge_spec_funits_count t1 t2 h1 h2 x
  have h := List.count_pos_iff.2 hx
  by_contra hne
  rw [not_or] at hne
  rw [List.count_eq_zero.2 hne.1, List.count_eq_zero.2 hne.2] at this
  omega

/-! ## Which calls of `funit_merge` touch which subtree -/

theorem count_funitsOf_le {c : ITree} {K : List ITree} (hc : c ∈ K) (x : Nat) :
    List.count x (funitsOf c) ≤ List.count x (funitsOfL K) := by
  induction K with
  | nil => simp at hc
  | cons k ks ih =>
    simp only [funitsOfL, List.count_append]
    rcases List.mem_cons.1 hc with rfl | hc
    · omega
    · have := ih hc
      omega

theorem count_funitsOf_two {c c' : ITree} {K : List ITree} (hc : c ∈ K) (hc' : c' ∈ K)
    (hne : c.name ≠ c'.name) (x : Nat) :
    List.count x (funitsOf c) + List.count x (funitsOf c') ≤ List.count x (funitsOfL K) := by
  induction K with
  | nil => simp at hc
  | cons k ks ih =>
    simp only [funitsOfL, List.count_append]
    rcases List.mem_cons.1 hc with h1 | h1
    · rcases List.mem_cons.1 hc' with h2 | h2
      · exact absurd (h1.trans h2.symm) (fun h => hne (h ▸ rfl))
      · have := count_funitsOf_le h2 x
        subst h1
        omega
    · rcases List.mem_cons.1 hc' with h2 | h2
      · have := count_funitsOf_le h1 x
        subst h2
        omega
      · have := ih h1 h2
        omega

theorem callsOf_mem {K : List ITree} :
    ∀ {S : List ITree} {p : Nat × Nat}, p ∈ callsOf K S →
      ∃ c2 ∈ S, ∃ c1, K.find? (fun k => decide (k.name = c2.name)) = some c1 ∧
        p ∈ mergeCalls c2 c1
  | [], p, hp => by simp [callsOf] at hp
  | c2 :: rest, p, hp => by
    simp only [callsOf, List.mem_append] at hp
    rcases hp with hp | hp
    · cases hf : K.find? (fun c1 => decide (c1.name = c2.name)) with
      | none => simp [hf] at hp
      | some c1 =>
        rw [hf] at hp
        exact ⟨c2, List.mem_cons_self _ _, c1, hf, hp⟩
    · obtain ⟨c, hc, c1, hf, hm⟩ := callsOf_mem hp
      exact ⟨c, List.mem_cons_of_mem _ hc, c1, hf, hm⟩

/-- A call of the loop has as its first argument a functional unit of the
child of the first root that carries the name of some child of the second. -/
theorem callsOf_owner {K S : List ITree} (hdS : distinctNamesL S = true) {p : Nat × Nat}
    (hp : p ∈ callsOf K S) :
    ∃ c2 ∈ S, ∃ c1 ∈ K, c1.name = c2.name ∧ p.1 ∈ funitsOf c1 ∧ p.2 ∈ funitsOf c2 := by
  obtain ⟨c2, hc2, c1, hf, hm⟩ := callsOf_mem hp
  obtain ⟨hn, hc1⟩ := find_name_mem hf
  have hb := mergeCalls_bounds c2 c1 ((distinctNamesL_iff S).1 hdS c2 hc2) p hm
  exact ⟨c2, hc2, c1, hc1, hn, hb.1, hb.2⟩

theorem callsOf_frame_outside {fm : FHeap → Nat → Nat → FHeap}
    {op : Option func_unit → Option func_unit → Option func_unit} (hfm : MergesBy fm op)
    {K S : List ITree} (hdS : distinctNamesL S = true) (F : FHeap) {g : Nat}
    (hg : g ∉ funitsOfL K) : runCalls fm (callsOf K S) F g = F g := by
  refine runCalls_frame hfm _ _ _ fun p hp he => ?_
  obtain ⟨c2, -, c1, hc1, -, h1, -⟩ := callsOf_owner hdS hp
  exact hg (he ▸ funitsOf_subset_funitsOfL hc1 _ h1)

theorem callsOf_frame_unmatched {fm : FHeap → Nat → Nat → FHeap}
    {op : Option func_unit → Option func_unit → Option func_unit} (hfm : MergesBy fm op)
    {K S : List ITree} (hdS : distinctNamesL S = true)
    (hnd : ∀ x, List.count x (funitsOfL K) ≤ 1) (F : FHeap) {c1 : ITree} (hc1 : c1 ∈ K)
    (hno : S.find? (fun c => decide (c.name = c1.name)) = none) {g : Nat}
    (hg : g ∈ funitsOf c1) : runCalls fm (callsOf K S) F g = F g := by
  refine runCalls_frame hfm _ _ _ fun p hp he => ?_
  obtain ⟨c2, hc2, c1', hc1', hn, h1, -⟩ := callsOf_owner hdS hp
  by_cases hnn : c1.name = c1'.name
  · rw [List.find?_eq_none] at hno
    exact hno c2 hc2 (by simp [hnn, hn])
  · have h2 := count_funitsOf_two hc1 hc1' hnn g
    have h3 := List.count_pos_iff.2 hg
    have h4 := List.count_pos_iff.2 (he ▸ h1)
    have := hnd g
    omega

/-- On the functional units of a child of the first root and of its namesake
under the second root, the calls of the whole loop have the effect of the calls
of the merge of these two children alone. -/
theorem callsOf_local {fm : FHeap → Nat → Nat → FHeap}
    {op : Option func_unit → Option func_unit → Option func_unit} (hfm : MergesBy fm op)
    {K : List ITree} {c1 : ITree} (hc1 : c1 ∈ K)
    (hself : K.find? (fun k => decide (k.name = c1.name)) = some c1) :
    ∀ (S : List ITree) (F : FHeap), (S.map ITree.name).Nodup → distinctNamesL S = true →
      (∀ x, List.count x (funitsOfL K) + List.count x (funitsOfL S) ≤ 1) →
      ∀ c2, S.find? (fun c => decide (c.name = c1.name)) = some c2 →
      ∀ g, (g ∈ funitsOf c1 ∨ g ∈ funitsOf c2) →
        runCalls fm (callsOf K S) F g = runCalls fm (mergeCalls c2 c1) F g
  | [], _, _, _, _, _, hfind, _, _ => by simp at hfind
  | c2' :: rest, F, hS, hdS, hnd, c2, hfind, g, hg => by
    have hS' : c2'.name ∉ rest.map ITree.name ∧ (rest.map ITree.name).Nodup :=
      List.nodup_cons.1 hS
    simp only [distinctNamesL, Bool.and_eq_true] at hdS
    have hndK : ∀ x, List.count x (funitsOfL K) ≤ 1 := fun x => by
      have := hnd x
      omega
    have hnd' : ∀ x, List.count x (funitsOfL K) + List.count x (funitsOfL rest) ≤ 1 := by
      intro x
      have := hnd x
      simp only [funitsOfL, List.count_append] at this
      omega
    simp only [callsOf]
    rw [runCalls_append]
    by_cases hn : c2'.name = c1.name
    · have he : c2' = c2 := by simpa [List.find?_cons, hn] using hfind
      subst he
      rw [hn, hself]
      simp only
      rcases hg with hg | hg
      · refine callsOf_frame_unmatched hfm hdS.2 hndK _ hc1 ?_ hg
        rw [List.find?_eq_none]
        intro c hc
        simp only [decide_eq_true_eq]
        intro hce
        exact hS'.1 (hn ▸ hce ▸ List.mem_map_of_mem _ hc)
      · refine callsOf_frame_outside hfm hdS.2 _ ?_
        intro hgK
        have h1 := List.count_pos_iff.2 hgK
        have h2 := List.count_pos_iff.2 hg
        have := hnd g
        simp only [funitsOfL, List.count_append] at this
        omega
    · have hfind' : rest.find? (fun c => decide (c.name = c1.name)) = some c2 := by
        simpa [List.find?_cons, hn] using hfind
      have hc2 := (find_name_mem hfind').2
      rw [callsOf_local hfm hc1 hself rest _ hS'.2 hdS.2 hnd' c2 hfind' g hg]
      refine runCalls_agree hfm (fun g => g ∈ funitsOf c1 ∨ g ∈ funitsOf c2) _ _ _ ?_ ?_ g hg
      · intro p hp
        have := mergeCalls_bounds c2 c1 ((distinctNamesL_iff rest).1 hdS.2 c2 hc2) p hp
        exact ⟨Or.inl this.1, Or.inr this.2⟩
      · intro x hx
        cases hf : K.find? (fun c1 => decide (c1.name = c2'.name)) with
        | none => rfl
        | some c1' =>
          simp only
          obtain ⟨hn', hc1'⟩ := find_name_mem hf
          refine runCalls_frame hfm _ _ _ fun p hp he => ?_
          have hb := mergeCalls_bounds c2' c1' hdS.1 p hp
          rw [he] at hb
          have h1 := List.count_pos_iff.2 hb.1
          rcases hx with hx | hx
          · have h2 := List.count_pos_iff.2 hx
            have h3 := count_funitsOf_two hc1' hc1 (fun h => hn (hn'.symm.trans h)) x
            have := hndK x
            omega
          · have h2 := List.count_pos_iff.2 hx
            have h3 := count_funitsOf_le hc1' x
            have h4 := count_funitsOf_le hc2 x
            have := hnd' x
            omega

/-! ## The statistics after `instance_merge_tree` -/

theorem find_snapshot (F : FHeap) (n : Str) (S : List ITree) :
    (S.map (snapshot F)).find? (fun c => decide (c.name = n)) =
      (S.find? (fun c => decide (c.name = n))).map (snapshot F) := by
  induction S with
  | nil => rfl
  | cons a A ih =>
    by_cases ha : a.name = n
    · simp [List.find?_cons, snapshot_name, ha]
    · simp [List.find?_cons, snapshot_name, ha, ih]

theorem find_self {K : List ITree} (hK : (K.map ITree.name).Nodup) {c1 : ITree} (hc1 : c1 ∈ K) :
    K.find? (fun k => decide (k.name = c1.name)) = some c1 := by
  induction K with
  | nil => simp at hc1
  | cons k ks ih =>
    have hK' : k.name ∉ ks.map ITree.name ∧ (ks.map ITree.name).Nodup := List.nodup_cons.1 hK
    rcases List.mem_cons.1 hc1 with h | h
    · subst h
      simp [List.find?_cons]
    · have hne : k.name ≠ c1.name := fun he => hK'.1 (he ▸ List.mem_map_of_mem _ h)
      simp only [List.find?_cons, hne, decide_False]
      exact ih hK'.2 h

theorem mem_funitsOfL {g : Nat} {K : List ITree} :
    g ∈ funitsOfL K ↔ ∃ c ∈ K, g ∈ funitsOf c := by
  induction K with
  | nil => simp [funitsOfL]
  | cons k ks ih => simp [funitsOfL, ih]

theorem snapshotL_filter (F : FHeap) (N : List Str) (S : List ITree) :
    snapshotL F (S.filter (fun c => decide (c.name ∉ N))) =
      (snapshotL F S).filter (fun c => decide (c.name ∉ N)) := by
  induction S with
  | nil => rfl
  | cons a A ih =>
    by_cases ha : a.name ∈ N
    · rw [List.filter_cons_of_neg (by simpa using ha), ih, snapshotL,
        List.filter_cons_of_neg (by simpa [snapshot_name] using ha)]
    · rw [List.filter_cons_of_pos (by simpa using ha), snapshotL, ih, snapshotL,
        List.filter_cons_of_pos (by simpa [snapshot_name] using ha)]

theorem snapshotL_append (F : FHeap) (A B : List ITree) :
    snapshotL F (A ++ B) = snapshotL F A ++ snapshotL F B := by
  simp [snapshotL_eq_map]

theorem snapshotL_names (F : FHeap) (K : List ITree) :
    (snapshotL F K).map STree.name = K.map ITree.name := by
  rw [snapshotL_eq_map, snapshot_names]

mutual
/-- The statistics of the tree under the first root after
`instance_merge_tree`: the merge of the two trees with their statistics. -/
theorem link_tree {fm : FHeap → Nat → Nat → FHeap}
    {op : Option func_unit → Option func_unit → Option func_unit} (hfm : MergesBy fm op) :
    ∀ (t1 t2 : ITree) (F : FHeap), distinctNames t1 = true → distinctNames t2 = true →
      (∀ x, List.count x (funitsOf t1) + List.count x (funitsOf t2) ≤ 1) →
      snapshot (runCalls fm (mergeCalls t2 t1) F) (merge_spec t1 t2) =
        mergeS op (snapshot F t1) (snapshot F t2)
  | .node a1 n1 f1 r1 d1 ks1, .node a2 n2 f2 r2 d2 ks2, F, h1, h2, hnd => by
    rw [distinctNames_iff] at h1 h2
    simp only [ITree.kids_node] at h1 h2
    simp only [funitsOf, List.count_append] at hnd
    have hndk : ∀ x, List.count x (funitsOfL ks1) + List.count x (funitsOfL ks2) ≤ 1 :=
      fun x => by have := hnd x; omega
    have hndk1 : ∀ x, List.count x (funitsOfL ks1) ≤ 1 := fun x => by have := hnd x; omega
    rw [mergeCalls_eq _ _ _ _ _ _ _ h2.1, runCalls_append]
    simp only [ITree.funit_node, ITree.kids_node]
    -- the heap when the loop starts agrees with `F` below the roots
    have hF1 : ∀ g, g ∈ funitsOfL ks1 ∨ g ∈ funitsOfL ks2 →
        runCalls fm (rootCall f1 f2) F g = F g := by
      intro g hg
      refine runCalls_frame hfm _ _ _ fun p hp he => ?_
      obtain ⟨e1, -⟩ := mem_rootCall hp
      have h0 := hnd g
      have e : List.count g f1.toList = 1 := by rw [e1, he]; simp
      rcases hg with hg | hg
      · have := List.count_pos_iff.2 hg
        omega
      · have := List.count_pos_iff.2 hg
        omega
    -- the final heap agrees with the heap at the start of the loop outside `ks1`
    have hG : ∀ g, g ∉ funitsOfL ks1 →
        runCalls fm (callsOf ks1 ks2) (runCalls fm (rootCall f1 f2) F) g =
          runCalls fm (rootCall f1 f2) F g :=
      fun g hg => callsOf_frame_outside hfm h2.2 _ hg
    simp only [merge_spec, snapshot, mergeS, STree.funit, STree.kids, ITree.funit_node,
      ITree.kids_node, STree.node.injEq, true_and]
    refine ⟨?_, ?_⟩
    · cases f1 with
      | none =>
        cases f2 with
        | none => rfl
        | some g2 =>
          have hg2 : g2 ∉ funitsOfL ks1 := fun hm => by
            have h0 := hnd g2
            have e : List.count g2 (some g2).toList = 1 := by simp
            have := List.count_pos_iff.2 hm
            omega
          simp [combine, rootCall, runCalls_nil, callsOf_frame_outside hfm h2.2 F hg2]
      | some g1 =>
        have hg1 : g1 ∉ funitsOfL ks1 := fun hm => by
          have h0 := hnd g1
          have e : List.count g1 (some g1).toList = 1 := by simp
          have := List.count_pos_iff.2 hm
          omega
        cases f2 with
        | none => simp [combine, rootCall, runCalls_nil, callsOf_frame_outside hfm h2.2 F hg1]
        | some g2 =>
          simp [combine, rootCall, runCalls_cons, runCalls_nil,
            callsOf_frame_outside hfm h2.2 (fm F g1 g2) hg1, hfm F g1 g2 g1]
    · rw [snapshotL_append, snapshotL_names]
      congr 1
      · rw [link_kids hfm ks1 ks2 (runCalls fm (rootCall f1 f2) F) _ h1.2 h2.2 hndk
          (fun c1 hc1 c2 hf g hg =>
            callsOf_local hfm hc1 (find_self h1.1 hc1) ks2 _ h2.1 h2.2 hndk c2 hf g hg)
          (fun c1 hc1 hf g hg => callsOf_frame_unmatched hfm h2.2 hndk1 _ hc1 hf hg)]
        rw [snapshotL_congr _ F ks1 (fun g hg => hF1 g (Or.inl hg)),
          snapshotL_congr _ F ks2 (fun g hg => hF1 g (Or.inr hg))]
      · rw [← snapshotL_filter]
        refine snapshotL_congr _ F _ fun g hg => ?_
        obtain ⟨c, hc, hgc⟩ := mem_funitsOfL.1 hg
        have hg2 : g ∈ funitsOfL ks2 := mem_funitsOfL.2 ⟨c, (List.mem_filter.1 hc).1, hgc⟩
        have hg1 : g ∉ funitsOfL ks1 := fun hm => by
          have := hndk g
          have := List.count_pos_iff.2 hm
          have := List.count_pos_iff.2 hg2
          omega
        rw [hG g hg1, hF1 g (Or.inr hg2)]
theorem link_kids {fm : FHeap → Nat → Nat → FHeap}
    {op : Option func_unit → Option func_unit → Option func_unit} (hfm : MergesBy fm op) :
    ∀ (K S : List ITree) (F G : FHeap), distinctNamesL K = true → distinctNamesL S = true →
      (∀ x, List.count x (funitsOfL K) + List.count x (funitsOfL S) ≤ 1) →
      (∀ c1 ∈ K, ∀ c2, S.find? (fun c => decide (c.name = c1.name)) = some c2 →
        ∀ g, (g ∈ funitsOf c1 ∨ g ∈ funitsOf c2) →
          G g = runCalls fm (mergeCalls c2 c1) F g) →
      (∀ c1 ∈ K, S.find? (fun c => decide (c.name = c1.name)) = none →
        ∀ g ∈ funitsOf c1, G g = F g) →
      snapshotL G (merge_spec_kids K S) = mergeS_kids op (snapshotL F K) (snapshotL F S)
  | [], _, _, _, _, _, _, _, _ => by simp [merge_spec_kids, snapshotL, mergeS_kids]
  | c1 :: K, S, F, G, hdK, hdS, hnd, ha, hb => by
    simp only [distinctNamesL, Bool.and_eq_true] at hdK
    have hnd' : ∀ x, List.count x (funitsOfL K) + List.count x (funitsOfL S) ≤ 1 := by
      intro x
      have := hnd x
      simp only [funitsOfL, List.count_append] at this
      omega
    simp only [merge_spec_kids, snapshotL, mergeS_kids, List.cons.injEq]
    refine ⟨?_, link_kids hfm K S F G hdK.2 hdS hnd'
      (fun c hc => ha c (List.mem_cons_of_mem _ hc))
      (fun c hc => hb c (List.mem_cons_of_mem _ hc))⟩
    rw [snapshotL_eq_map, snapshot_name, find_snapshot]
    cases hf : S.find? (fun c => decide (c.name = c1.name)) with
    | none =>
      simp only [Option.map_none']
      exact snapshot_congr G F c1 (hb c1 (List.mem_cons_self _ _) hf)
    | some c2 =>
      simp only [Option.map_some']
      have hc2 := (find_name_mem hf).2
      have hd2 := (distinctNamesL_iff S).1 hdS c2 hc2
      have hnd12 : ∀ x, List.count x (funitsOf c1) + List.count x (funitsOf c2) ≤ 1 := by
        intro x
        have := hnd x
        have := count_funitsOf_le hc2 x
        simp only [funitsOfL, List.count_append] at *
        omega
      rw [← link_tree hfm c1 c2 F hdK.1 hd2 hnd12]
      exact snapshot_congr _ _ _ fun g hg =>
        ha c1 (List.mem_cons_self _ _) c2 hf g (merge_spec_funits_mem c1 c2 hdK.1 hd2 hg)
end

theorem mergeCalls_frame {fm : FHeap → Nat → Nat → FHeap}
    {op : Option func_unit → Option func_unit → Option func_unit} (hfm : MergesBy fm op)
    (t2 t1 : ITree) (hd : distinctNames t2 = true) (F : FHeap) {g : Nat}
    (hg : g ∉ funitsOf t1) : runCalls fm (mergeCalls t2 t1) F g = F g := by
  refine runCalls_frame hfm _ _ _ fun p hp he => ?_
  exact hg (he ▸ (mergeCalls_bounds t2 t1 hd p hp).1)

/-- On trees with pairwise distinct sibling names whose nodes share no
functional unit, merging `B` into `A` and then `C` into the result gives the
tree and the statistics that merging `C` into `B` and then the result into `A`
gives, when `funit_merge` combines the statistics by an associative
operation. -/
theorem merge_spec_assoc_stats {fm : FHeap → Nat → Nat → FHeap}
    {op : Option func_unit → Option func_unit → Option func_unit} (hfm : MergesBy fm op)
    (hop : ∀ x y z, op (op x y) z = op x (op y z)) (A B C : ITree) (F : FHeap)
    (hdA : distinctNames A = true) (hdB : distinctNames B = true)
    (hdC : distinctNames C = true)
    (hnd : ∀ x, List.count x (funitsOf A) + List.count x (funitsOf B) +
      List.count x (funitsOf C) ≤ 1) :
    merge_spec (merge_spec A B) C = merge_spec A (merge_spec B C) ∧
    ∀ g ∈ funitsOf (merge_spec (merge_spec A B) C),
      runCalls fm (mergeCalls C (merge_spec A B)) (runCalls fm (mergeCalls B A) F) g =
        runCalls fm (mergeCalls (merge_spec B C) A) (runCalls fm (mergeCalls C B) F) g := by
  have hdAB := (mergeT_eq_spec A B hdA hdB).2.1
  have hdBC := (mergeT_eq_spec B C hdB hdC).2.1
  have hcAB := merge_spec_funits_count A B hdA hdB
  have hcBC := merge_spec_funits_count B C hdB hdC
  -- first `B` into `A`, then `C` into the result
  have s1 := link_tree hfm (merge_spec A B) C (runCalls fm (mergeCalls B A) F) hdAB hdC
    (fun x => by have := hnd x; have := hcAB x; omega)
  rw [link_tree hfm A B F hdA hdB (fun x => by have := hnd x; omega),
    snapshot_congr (runCalls fm (mergeCalls B A) F) F C (fun g hg =>
      mergeCalls_frame hfm B A hdB F (fun hm => by
        have := hnd g
        have := List.count_pos_iff.2 hg
        have := List.count_pos_iff.2 hm
        omega))] at s1
  -- first `C` into `B`, then the result into `A`
  have s2 := link_tree hfm A (merge_spec B C) (runCalls fm (mergeCalls C B) F) hdA hdBC
    (fun x => by have := hnd x; have := hcBC x; omega)
  rw [link_tree hfm B C F hdB hdC (fun x => by have := hnd x; omega),
    snapshot_congr (runCalls fm (mergeCalls C B) F) F A (fun g hg =>
      mergeCalls_frame hfm C B hdC F (fun hm => by
        have := hnd g
        have := List.count_pos_iff.2 hg
        have := List.count_pos_iff.2 hm
        omega))] at s2
  rw [mergeS_assoc hop, ← s2] at s1
  have ht : merge_spec (merge_spec A B) C = merge_spec A (merge_spec B C) := by
    have := congrArg forget s1
    rwa [forget_snapshot, forget_snapshot] at this
  refine ⟨ht, ?_⟩
  rw [← ht] at s1
  exact snapshot_values _ _ _ s1

/-! ## Claims about merging three trees -/

theorem vec_or_assoc (a b c : vector) : vec_or (vec_or a b) c = vec_or a (vec_or b c) := by
  simp [vec_or, Nat.lor_assoc]

theorem sig_or_assoc (a b c : vsignal) : sig_or (sig_or a b) c = sig_or a (sig_or b c) := by
  cases ha : a.value <;> cases hb : b.value <;> cases hc : c.value <;>
    simp [sig_or, ha, hb, hc, vec_or_assoc]

theorem zipWith_sig_or_assoc :
    ∀ (a b c : List vsignal), List.zipWith sig_or (List.zipWith sig_or a b) c =
      List.zipWith sig_or a (List.zipWith sig_or b c)
  | [], _, _ => by simp
  | _ :: _, [], _ => by simp
  | _ :: _, _ :: _, [] => by simp
  | x :: a, y :: b, z :: c => by
    simp [List.zipWith, sig_or_assoc, zipWith_sig_or_assoc a b c]

theorem stat_or_assoc (x y z : Option func_unit) :
    stat_or (stat_or x y) z = stat_or x (stat_or y z) := by
  cases x <;> cases y <;> cases z <;> simp [stat_or, funit_or, zipWith_sig_or_assoc]

theorem funit_merge_or_merges : MergesBy funit_merge_or stat_or := fun _ _ _ _ => rfl

theorem merge_twice_eq {fm : FHeap → Nat → Nat → FHeap} {fuel : Nat} {w w1 w2 : World}
    {a b c d : Nat} (h1 : instance_merge_tree fm fuel w (some a) (some b) = .ok w1)
    (h2 : instance_merge_tree fm fuel w1 (some c) (some d) = .ok w2) :
    merge_twice fm fuel w a b c d = .ok w2 := by
  simp [merge_twice, h1, h2]

/-- Two merges in a row on three separate trees: the second tree is merged
into the first and then the third into `r`, which is the first or the third
root. -/
theorem merge_tree_then (fm : FHeap → Nat → Nat → FHeap) (w : World) (T1 T2 T3 : ITree)
    (p1 n1 p2 n2 p3 n3 : Option Nat) (fuel : Nat)
    (h1 : Sat w.inst (cells T1 p1 n1)) (h2 : Sat w.inst (cells T2 p2 n2))
    (h3 : Sat w.inst (cells T3 p3 n3))
    (hc : ∀ x, List.count x T1.addrs + List.count x T2.addrs + List.count x T3.addrs ≤ 1)
    (hfuel : 3 * (T1.size + T2.size + T3.size) ≤ fuel) :
    ∃ w1, instance_merge_tree fm fuel w (some T1.addr) (some T2.addr) = .ok w1 ∧
      Sat w1.inst (cells (mergeT T2 T1).1 p1 n1) ∧ Sat w1.inst (cells T3 p3 n3) ∧
      w1.funit = runCalls fm (mergeCalls T2 T1) w.funit ∧
      (∀ x, List.count x (mergeT T2 T1).1.addrs + List.count x T3.addrs ≤ 1) ∧
      (mergeT T2 T1).1.size ≤ T1.size + T2.size := by
  have hnd : (T1.addrs ++ T2.addrs).Nodup := by
    refine List.nodup_iff_count_le_one.2 fun x => ?_
    have := hc x
    simp only [List.count_append]
    omega
  obtain ⟨w1, hr, hS, -, hfr, -, -, hf⟩ :=
    merge_tree_refines fm T2 T1 w p1 n1 p2 n2 fuel h1 h2 hnd (by omega)
  refine ⟨w1, hr, hS, ?_, hf, ?_, ?_⟩
  · refine Sat_congr h3 fun x hx => ?_
    rw [map_fst_cells] at hx
    have := hc x
    have := List.count_pos_iff.2 hx
    exact hfr x (not_mem_of_count_eq_zero (by omega)) (not_mem_of_count_eq_zero (by omega))
  · intro x
    have := hc x
    have := (mergeT_perm T2 T1).count_eq x
    simp only [List.count_append] at this
    omega
  · have := mergeT_size T2 T1
    omega

/-- When both roots carry a functional unit, the two units have the same
name and the two root instances have the same name, `instance_merge_two_trees`
is the call of `instance_merge_tree` on the two roots. -/
theorem merge_two_trees_roots (X : Externals) (w : World) (fuel : Nat) (T1 T2 : ITree)
    (p1 n1 p2 n2 : Option Nat) (g1 g2 : Nat) (f1 f2 : func_unit)
    (hs1 : Sat w.inst (cells T1 p1 n1)) (hs2 : Sat w.inst (cells T2 p2 n2))
    (hg1 : T1.funit = some g1) (hg2 : T2.funit = some g2)
    (hf1 : w.funit g1 = some f1) (hf2 : w.funit g2 = some f2)
    (hname : f1.name = f2.name) (hroot : T1.name = T2.name) :
    instance_merge_two_trees X fuel w (some T1.addr) (some T2.addr) =
      (do
        let w ← instance_merge_tree X.funit_merge fuel w (some T1.addr) (some T2.addr)
        pure (w, true)) := by
  have l1 : leading T1 = [T1] := by rw [leading_eq T1, if_neg (by simp [hg1])]
  have l2 : leading T2 = [T2] := by rw [leading_eq T2, if_neg (by simp [hg2])]
  have e1 := get_leading_hierarchy_spec w fuel T1 p1 n1 T1 hs1 (by simp [l1]) (by simp [hg1])
    (by simp [l1])
  have e2 := get_leading_hierarchy_spec w fuel T2 p2 n2 T2 hs2 (by simp [l2]) (by simp [hg2])
    (by simp [l2])
  simp only [instance_merge_two_trees]
  rw [e1, e2]
  simp only [Except.ok_bind, Option.getD_some]
  rw [World.load_eq (Sat_root hs1), World.load_eq (Sat_root hs2)]
  simp only [Except.ok_bind, rootCell, hg1, hg2, World.loadF, hf1, hf2, Except.pure_eq_ok,
    hname, decide_True, if_true, l1, l2, List.map_cons, List.map_nil, hroot]

/-! ## The order of the collected memories -/

/-- What `memory_collect` does get right: with a `sig_link_add` that
appends, the signals it adds to the list are memories of the functional unit,
in the order of its signal list. -/
theorem memory_collect_loop_sublist (M : MemOps) (hadd : ∀ s l, M.sig_link_add s l = l ++ [s])
    (fuel : Nat) (cov : Int) :
    ∀ (sigs : List vsignal) (st : mem_stat) (out res : List vsignal),
      memory_collect_loop M fuel cov sigs st out = .ok res →
      ∃ l, res = out ++ l ∧
        l.Sublist (sigs.filter (fun s => decide (s.suppl_type = M.SSUPPL_TYPE_MEM)))
  | [], _, out, res, h => by
    simp only [memory_collect_loop, Except.ok.injEq] at h
    exact ⟨[], by simp [h], by simp⟩
  | sig :: rest, st, out, res, h => by
    simp only [memory_collect_loop] at h
    by_cases hm : sig.suppl_type = M.SSUPPL_TYPE_MEM
    · rw [if_pos hm] at h
      cases hs : memory_get_stat M fuel sig { st with ae_total := 0 } true with
      | error e => simp [hs, bind, Except.bind] at h
      | ok st1 =>
        simp only [hs, bind, Except.bind] at h
        rw [List.filter_cons_of_pos (by simpa using hm)]
        split at h
        · obtain ⟨l, hl, hsub⟩ := memory_collect_loop_sublist M hadd fuel cov rest st1 _ res h
          rw [hadd] at hl
          exact ⟨sig :: l, by simp [hl], hsub.cons₂ _⟩
        · obtain ⟨l, hl, hsub⟩ := memory_collect_loop_sublist M hadd fuel cov rest st1 _ res h
          exact ⟨l, hl, hsub.cons _⟩
    · rw [if_neg hm] at h
      rw [List.filter_cons_of_neg (by simpa using hm)]
      exact memory_collect_loop_sublist M hadd fuel cov rest st out res h

/-! ## Claims about the list of FSM variables -/

/-- C32. `fsm_var_remove` does not keep the list intact when it removes the
last of several entries.  On the list 0, 1, 2 built by `fsm_add_fsm_variable`,
removing the entry 0 or the entry 1 leaves the other two, in order, with
`fsm_var_tail` the last entry and its `next` NULL, and removing an entry that
is not in the list changes nothing; but removing the tail 2 sets
`fsm_var_tail` to the entry 1 and leaves `next` of that entry pointing to the
freed entry 2, so the list from `fsm_var_head` no longer ends in NULL, and the
next search of the list, `fsm_is_fsm_in_variable`, reads the freed entry. -/
theorem fsm_var_remove_tail_dangling :
    fv_view fv_ex = (some [0, 1, 2], some 0, some 2, some none) ∧
    (fsm_var_remove 10 fv_ex (some 0)).toOption.map fv_view =
      some (some [1, 2], some 1, some 2, some none) ∧
    (fsm_var_remove 10 fv_ex (some 1)).toOption.map fv_view =
      some (some [0, 2], some 0, some 2, some none) ∧
    (fsm_var_remove 10 fv_ex (some 7)).toOption.map fv_view =
      some (some [0, 1, 2], some 0, some 2, some none) ∧
    (fsm_var_remove 10 fv_ex (some 2)).toOption.map fv_view =
      some (none, some 0, some 1, some (some 2)) ∧
    (fsm_var_remove 10 fv_ex (some 2)).toOption.map (fun s => s.heap 2) = some none ∧
    (fsm_var_remove 10 fv_ex (some 2)).toOption.map
      (fun s => fsm_is_fsm_in_variable 10 s "zz".toList "st".toList) =
      some (.error .null_deref) := by
  refine ⟨?_, ?_, ?_, ?_, ?_, ?_, ?_⟩ <;> decide

/-! ## Claims about `instance_attach_child` -/

/-- Whenever `instance_attach_child` returns, it has changed nothing: the
branch that is to attach the copy calls `instance_copy` with the null pointer
the search ended with, and `instance_copy` asserts that it is not null. -/
theorem instance_attach_child_ok_unchanged
    (rr : World → Option Nat → Option Nat → Except Fault (World × Bool)) (fuel : Nat)
    (w w' : World) (parent child : Option Nat)
    (h : instance_attach_child rr fuel w parent child = .ok w') : w' = w := by
  simp only [instance_attach_child] at h
  cases hp : w.load parent with
  | error e => simp [hp] at h
  | ok p =>
    simp only [hp, Except.ok_bind] at h
    generalize hs : (match p.child_head with
      | none => (pure none : Except Fault (Option Nat))
      | some hd => do
        let c ← w.load child
        find_child_by_name fuel w (some hd) c.name) = s at h
    cases s with
    | error e => simp at h
    | ok curr =>
      simp only [Except.ok_bind] at h
      by_cases hc : curr = none
      · subst hc
        simp only [if_true] at h
        cases hl : w.load child with
        | error e => simp [hl] at h
        | ok c =>
          simp only [hl, Except.ok_bind] at h
          have hcopy : ∀ k nm rg, ∃ e,
              instance_copy rr k w child none nm rg false = .error e := by
            intro k nm rg
            cases k with
            | zero => exact ⟨.fuel, by simp [instance_copy]⟩
            | succ k =>
              by_cases hch : child = none
              · exact ⟨.assertion, by simp [instance_copy, hch]⟩
              · exact ⟨.assertion, by simp [instance_copy, hch]⟩
          obtain ⟨e, he⟩ := hcopy fuel c.name c.range
          simp [he] at h
      · simp only [if_neg hc, Except.pure_eq_ok, Except.ok.injEq] at h
        exact h.symm

/-- C33. `instance_attach_child` never attaches a copy.  On the trees
`top(a, b)` at address 0 and `top(c, a(x), d)` at address 1: attaching `c`
(address 4) to the first root, which has no child of that name, stops at
`assert( to_inst != NULL )` of `instance_copy`, and so does attaching it to the
childless `x` (address 7); attaching `a` (address 5), whose name exists under
the first root, returns and leaves the child list `a, b` of the first root
as it was. -/
theorem instance_attach_child_asserts :
    child_names merge_ex_world 0 = some ["a".toList, "b".toList] ∧
    (merge_ex_world.inst 4).map (fun n => n.name) = some "c".toList ∧
    (instance_attach_child (fun w _ _ => .ok (w, false)) 20 merge_ex_world (some 0)
      (some 4)).map (fun w => w.brk) = .error .assertion ∧
    (instance_attach_child (fun w _ _ => .ok (w, false)) 20 merge_ex_world (some 7)
      (some 4)).map (fun w => w.brk) = .error .assertion ∧
    (instance_attach_child (fun w _ _ => .ok (w, false)) 20 merge_ex_world (some 0)
      (some 5)).map (fun w => (child_list 10 w.inst ((w.inst 0).bind (fun n => n.child_head)),
        child_names w 0, w.brk)) =
      .ok (some [2, 3], some ["a".toList, "b".toList], 8) := by
  refine ⟨?_, ?_, ?_, ?_, ?_⟩ <;> decide

/-! ## Claims about faults of `instance_merge_two_trees` -/

/-- C34. `instance_merge_two_trees` follows null pointers on well-formed
trees.  On the one-node trees `a` and `b`, both with a functional unit named
`m`, the leading hierarchies `a` and `b` differ, what is left of them without
the last component is empty on both sides, and the call hands the two null
parent pointers to `instance_merge_tree`, which reads `root1->funit`.  On the
placeholder root `tb` without children and the populated root `top`,
`instance_get_leading_hierarchy` steps to `tb->child_head`, which is null, and
reads its name; this happens whichever of the two trees is passed first. -/
theorem instance_merge_two_trees_null_pointers :
    IsTree roots_ex_world.inst (.node 0 "a".toList (some 0) none false []) ∧
    IsTree roots_ex_world.inst (.node 1 "b".toList (some 1) none false []) ∧
    instance_get_leading_hierarchy 20 roots_ex_world (some 0) (some []) =
      .ok (some "a".toList, some 0) ∧
    instance_get_leading_hierarchy 20 roots_ex_world (some 1) (some []) =
      .ok (some "b".toList, some 1) ∧
    (roots_ex_world.inst 0).map (fun n => n.parent) = some none ∧
    (roots_ex_world.inst 1).map (fun n => n.parent) = some none ∧
    (instance_merge_tree funit_merge_skip 20 roots_ex_world none none).map (fun w => w.brk) =
      .error .null_deref ∧
    (instance_merge_two_trees ext_ex 20 roots_ex_world (some 0) (some 1)).map
      (fun r => r.2) = .error .null_deref ∧
    IsTree lone_placeholder_ex_world.inst (plain 0 "tb" []) ∧
    IsTree lone_placeholder_ex_world.inst (.node 1 "top".toList (some 0) none false []) ∧
    instance_get_leading_hierarchy 20 lone_placeholder_ex_world (some 0) (some []) =
      .error .null_deref ∧
    (instance_merge_two_trees ext_ex 20 lone_placeholder_ex_world (some 0) (some 1)).map
      (fun r => r.2) = .error .null_deref ∧
    (instance_merge_two_trees ext_ex 20 lone_placeholder_ex_world (some 1) (some 0)).map
      (fun r => r.2) = .error .null_deref := by
  refine ⟨?_, ?_, ?_, ?_, ?_, ?_, ?_, ?_, ?_, ?_, ?_, ?_, ?_⟩ <;> decide

/-! ## Claims about the child lists after `instance_flatten_helper` -/

/-- C35. `instance_flatten_helper` leaves `child_tail` at a node that is not
the last of the child list.  On the tree `r(A(g1, g2))`, where the functional
unit of `A` is an unnamed scope without signals, `A` is folded into `r`; the
code sets `root->child_head = root->child_tail = child->child_head`, so
afterwards the child list of `r` runs `g1, g2` from `child_head` (both with
the parent `r`), while `child_tail` is `g1`. -/
theorem instance_flatten_helper_tail_not_last :
    IsTree flatten_tail_ex_world.inst flatten_tail_ex_tree ∧
    (instance_flatten_helper ext_ex link_ex 20 flatten_tail_ex_world [] (some 0)).map
      (fun r => ((r.1.inst 0).map (fun n => n.child_head),
        (r.1.inst 0).map (fun n => n.child_tail),
        child_list 10 r.1.inst ((r.1.inst 0).bind (fun n => n.child_head)))) =
      .ok (some (some 2), some (some 2), some [2, 3]) ∧
    (instance_flatten_helper ext_ex link_ex 20 flatten_tail_ex_world [] (some 0)).map
      (fun r => ((r.1.inst 2).map (fun n => (n.parent, n.next)),
        (r.1.inst 3).map (fun n => (n.parent, n.next)), r.2)) =
      .ok (some (some 0, some 3), some (some 0, none), [1]) := by
  refine ⟨?_, ?_, ?_⟩ <;> decide

/-! ## Claims about `instance_only_db_merge` -/

/-- C37. `instance_only_db_merge` adds a second instance of a name under a
parent.  On the tree `top(a, b)` the record `top.a 0` names the existing
instance `a` (the scope lookup finds it), and the merge appends a new
placeholder `a` to the children of `top`, which are then `a, b, a`.  For the
record `top 0`, which names the existing root, the list of roots and the
children of `top` stay as they are (the lookup of the whole scope guards this
case); a record `top.c 0` for a new scope appends `c`. -/
theorem instance_only_db_merge_duplicates :
    IsTree dealloc_ex_world.inst dealloc_ex_tree ∧
    child_names dealloc_ex_world 0 = some ["a".toList, "b".toList] ∧
    instance_find_scope ext_ex 10 dealloc_ex_world (some 0) "top.a".toList true =
      .ok (some 1) ∧
    (match instance_only_db_merge inst_link_ex dealloc_ex_world "top.a 0".toList with
      | .ok r => some (child_names r.1 0,
          child_list 10 r.1.inst ((r.1.inst 0).bind (fun n => n.child_head)), r.1.inst_head)
      | .error _ => none) =
      some (some ["a".toList, "b".toList, "a".toList], some [1, 2, 3], [0]) ∧
    (match instance_only_db_merge inst_link_ex dealloc_ex_world "top 0".toList with
      | .ok r => some (child_names r.1 0, r.1.inst_head)
      | .error _ => none) = some (some ["a".toList, "b".toList], [0]) ∧
    (match instance_only_db_merge inst_link_ex dealloc_ex_world "top.c 0".toList with
      | .ok r => some (child_names r.1 0, r.1.inst_head)
      | .error _ => none) = some (some ["a".toList, "b".toList, "c".toList], [0]) := by
  refine ⟨?_, ?_, ?_, ?_, ?_, ?_⟩ <;> decide

/-! ## Claims about the names of siblings after a merge -/

mutual
theorem distinctNames_nodes :
    ∀ (t : ITree), distinctNames t = true → ∀ q ∈ nodesOf t, (q.kids.map ITree.name).Nodup
  | .node a n f r d ks, h, q, hq => by
    rw [distinctNames_iff] at h
    simp only [ITree.kids_node] at h
    simp only [nodesOf, List.mem_cons] at hq
    rcases hq with rfl | hq
    · exact h.1
    · exact distinctNamesL_nodes ks h.2 q hq
theorem distinctNamesL_nodes :
    ∀ (ks : List ITree), distinctNamesL ks = true →
      ∀ q ∈ nodesOfL ks, (q.kids.map ITree.name).Nodup
  | [], _, q, hq => by simp [nodesOfL] at hq
  | k :: ks, h, q, hq => by
    simp only [distinctNamesL, Bool.and_eq_true] at h
    simp only [nodesOfL, List.mem_append] at hq
    rcases hq with hq | hq
    · exact distinctNames_nodes k h.1 q hq
    · exact distinctNamesL_nodes ks h.2 q hq
end

/-- C36. `instance_merge_tree(n1, n2)` on two separate trees in which the
children of every instance have pairwise distinct names: the call returns, the
heap then holds under `n1` the tree `merge_spec t1 t2`, and in that tree the
children of every instance still have pairwise distinct names: for every
instance of it the child list on the heap is the list of its children in the
tree, and their names are pairwise distinct. -/
theorem instance_merge_tree_keeps_distinct_names (fm : FHeap → Nat → Nat → FHeap) (w : World)
    (t1 t2 : ITree) (p1 nx1 p2 nx2 : Option Nat) (fuel : Nat)
    (h1 : Sat w.inst (cells t1 p1 nx1)) (h2 : Sat w.inst (cells t2 p2 nx2))
    (hnd : (t1.addrs ++ t2.addrs).Nodup)
    (hd1 : distinctNames t1 = true) (hd2 : distinctNames t2 = true)
    (hfuel : 2 * t1.size + 3 * t2.size ≤ fuel) :
    ∃ w', instance_merge_tree fm fuel w (some t1.addr) (some t2.addr) = .ok w' ∧
      Sat w'.inst (cells (merge_spec t1 t2) p1 nx1) ∧
      (merge_spec t1 t2).addr = t1.addr ∧
      distinctNames (merge_spec t1 t2) = true ∧
      ∀ q ∈ nodesOf (merge_spec t1 t2),
        child_list_wf w'.inst q.addr (q.kids.map ITree.addr) ∧
        (∀ c ∈ q.kids, (w'.inst c.addr).map (fun n => n.name) = some c.name) ∧
        (q.kids.map ITree.name).Nodup := by
  obtain ⟨w', hrun, hs1, -⟩ :=
    merge_tree_refines fm t2 t1 w p1 nx1 p2 nx2 fuel h1 h2 hnd hfuel
  obtain ⟨e, hd, -⟩ := mergeT_eq_spec t1 t2 hd1 hd2
  rw [e] at hs1
  simp only at hs1
  refine ⟨w', hrun, hs1, merge_spec_addr t1 t2, hd, fun q hq => ⟨?_, ?_, ?_⟩⟩
  · exact child_list_wf_of_node hs1 hq
  · intro c hc
    obtain ⟨p', nx', hq'⟩ := cells_of_node _ p1 nx1 q hs1 hq
    obtain ⟨nx'', hc'⟩ := cells_of_mem (Sat_kids hq') hc
    rw [Sat_root hc']
    simp [rootCell]
  · exact distinctNames_nodes _ hd q hq

/-- C36, at the trees `top(a, b)` and `top(c, a(x), d)`. -/
theorem instance_merge_tree_keeps_distinct_names_witness :
    ∃ w', instance_merge_tree funit_merge_skip 30 merge_ex_world (some merge_ex_t1.addr)
        (some merge_ex_t2.addr) = .ok w' ∧
      Sat w'.inst (cells (merge_spec merge_ex_t1 merge_ex_t2) none none) ∧
      (merge_spec merge_ex_t1 merge_ex_t2).addr = merge_ex_t1.addr ∧
      distinctNames (merge_spec merge_ex_t1 merge_ex_t2) = true ∧
      ∀ q ∈ nodesOf (merge_spec merge_ex_t1 merge_ex_t2),
        child_list_wf w'.inst q.addr (q.kids.map ITree.addr) ∧
        (∀ c ∈ q.kids, (w'.inst c.addr).map (fun n => n.name) = some c.name) ∧
        (q.kids.map ITree.name).Nodup :=
  instance_merge_tree_keeps_distinct_names funit_merge_skip merge_ex_world merge_ex_t1
    merge_ex_t2 none none none none 30 (by decide) (by decide) (by decide) (by decide)
    (by decide) (by decide)

/-! ## Claims about merging a tree with one of the same shape -/

theorem sameNames_name {t1 t2 : ITree} (h : sameNames t1 t2 = true) : t1.name = t2.name := by
  cases t1; cases t2
  simp only [sameNames, Bool.and_eq_true, decide_eq_true_eq] at h
  exact h.1

theorem sameNames_kids {t1 t2 : ITree} (h : sameNames t1 t2 = true) :
    sameNamesL t1.kids t2.kids = true := by
  cases t1; cases t2
  simp only [sameNames, Bool.and_eq_true, decide_eq_true_eq] at h
  exact h.2

theorem sameNamesL_names :
    ∀ {K S : List ITree}, sameNamesL K S = true → K.map ITree.name = S.map ITree.name
  | [], [], _ => rfl
  | [], _ :: _, h => by simp [sameNamesL] at h
  | _ :: _, [], h => by simp [sameNamesL] at h
  | k :: K, s :: S, h => by
    simp only [sameNamesL, Bool.and_eq_true] at h
    simp [sameNames_name h.1, sameNamesL_names h.2]

theorem hierarchy_merge_spec_node (a1 : Nat) (n1 : Str) (f1 : Option Nat)
    (r1 : Option vector_width) (d1 : Bool) (ks1 : List ITree) (t2 : ITree) :
    hierarchy (merge_spec (.node a1 n1 f1 r1 d1 ks1) t2) =
      .node a1 n1 none r1 d1 (hierarchyL (merge_spec_kids ks1 t2.kids ++
        t2.kids.filter (fun c2 => decide (c2.name ∉ ks1.map ITree.name)))) := by
  simp [merge_spec, hierarchy]

theorem hierarchy_merge_rest_node (t1 : ITree) (a2 : Nat) (n2 : Str) (f2 : Option Nat)
    (r2 : Option vector_width) (d2 : Bool) (ks2 : List ITree) :
    hierarchy (merge_rest t1 (.node a2 n2 f2 r2 d2 ks2)) =
      .node a2 n2 none r2 d2 (hierarchyL (merge_rest_kids t1.kids ks2)) := by
  simp [merge_rest, hierarchy]

mutual
/-- Merging a tree of the same names into a tree with pairwise distinct
sibling names leaves the hierarchy of both as it was. -/
theorem same_merge :
    ∀ (t1 t2 : ITree), distinctNames t1 = true → sameNames t1 t2 = true →
      hierarchy (merge_spec t1 t2) = hierarchy t1 ∧
      hierarchy (merge_rest t1 t2) = hierarchy t2 ∧ distinctNames t2 = true
  | .node a1 n1 f1 r1 d1 ks1, .node a2 n2 f2 r2 d2 ks2, hd, hs => by
    rw [distinctNames_iff] at hd
    simp only [ITree.kids_node] at hd
    have hk := sameNames_kids hs
    simp only [ITree.kids_node] at hk
    obtain ⟨e1, e2, e3, e4⟩ := same_merge_kids ks1 ks2 hd.1 hd.2 hk
    refine ⟨?_, ?_, ?_⟩
    · rw [hierarchy_merge_spec_node]
      simp only [ITree.kids_node, e2, List.append_nil, e1, hierarchy]
    · rw [hierarchy_merge_rest_node]
      simp only [ITree.kids_node, e3, hierarchy]
    · rw [distinctNames_iff]
      simp only [ITree.kids_node]
      exact ⟨(sameNamesL_names hk) ▸ hd.1, e4⟩
theorem same_merge_kids :
    ∀ (K S : List ITree), (K.map ITree.name).Nodup → distinctNamesL K = true →
      sameNamesL K S = true →
      hierarchyL (merge_spec_kids K S) = hierarchyL K ∧
      S.filter (fun c2 => decide (c2.name ∉ K.map ITree.name)) = [] ∧
      hierarchyL (merge_rest_kids K S) = hierarchyL S ∧ distinctNamesL S = true
  | [], [], _, _, _ => by simp [merge_spec_kids, merge_rest_kids, hierarchyL, distinctNamesL]
  | [], _ :: _, _, _, h => by simp [sameNamesL] at h
  | _ :: _, [], _, _, h => by simp [sameNamesL] at h
  | k :: K, s :: S, hn, hd, hs => by
    have hnames := sameNamesL_names hs
    simp only [sameNamesL, Bool.and_eq_true] at hs
    simp only [distinctNamesL, Bool.and_eq_true] at hd
    have hn' : k.name ∉ K.map ITree.name ∧ (K.map ITree.name).Nodup := List.nodup_cons.1 hn
    have hks := sameNames_name hs.1
    have hKS := sameNamesL_names hs.2
    obtain ⟨a1, a2, a3⟩ := same_merge k s hd.1 hs.1
    obtain ⟨b1, -, b3, b4⟩ := same_merge_kids K S hn'.2 hd.2 hs.2
    have hsK : s.name ∉ K.map ITree.name := hks ▸ hn'.1
    refine ⟨?_, ?_, ?_, ?_⟩
    · simp only [merge_spec_kids, List.find?_cons, hks, decide_True, hierarchyL,
        merge_spec_kids_cons_skip S hsK, b1, a1]
    · rw [List.filter_eq_nil_iff]
      intro c hc
      simp only [decide_eq_true_eq, not_not]
      rw [hnames]
      exact List.mem_map_of_mem _ hc
    · have hcongr : merge_rest_kids (k :: K) S = merge_rest_kids K S := by
        refine merge_rest_kids_congr S fun c2 hc2 => ?_
        have hne : k.name ≠ c2.name := by
          intro he
          apply hn'.1
          rw [hKS, he]
          exact List.mem_map_of_mem _ hc2
        simp [List.find?_cons, hne]
      simp only [merge_rest_kids, List.find?_cons, hks, decide_True, hierarchyL, hcongr, b3, a2]
    · simp only [distinctNamesL, a3, b4, Bool.and_self]
end

/-- C38, as amended: `instance_merge_tree(n1, n2)` on two separate trees with
the same instance names in the same order at every level, the children of
every instance having pairwise distinct names: the call returns, and
afterwards the heap holds under `n1` a tree with the hierarchy of the first
tree and under `n2` a tree with the hierarchy of the second tree (the same
instances with the same names, in the same order, at every level), so no child
has been relinked out of `n2`. -/
theorem instance_merge_tree_same_shape (fm : FHeap → Nat → Nat → FHeap) (w : World)
    (t1 t2 : ITree) (p1 nx1 p2 nx2 : Option Nat) (fuel : Nat)
    (h1 : Sat w.inst (cells t1 p1 nx1)) (h2 : Sat w.inst (cells t2 p2 nx2))
    (hnd : (t1.addrs ++ t2.addrs).Nodup)
    (hd1 : distinctNames t1 = true) (hsame : sameNames t1 t2 = true)
    (hfuel : 2 * t1.size + 3 * t2.size ≤ fuel) :
    ∃ w' R1 R2, instance_merge_tree fm fuel w (some t1.addr) (some t2.addr) = .ok w' ∧
      Sat w'.inst (cells R1 p1 nx1) ∧ Sat w'.inst (cells R2 p2 nx2) ∧
      hierarchy R1 = hierarchy t1 ∧ hierarchy R2 = hierarchy t2 := by
  obtain ⟨e1, e2, hd2⟩ := same_merge t1 t2 hd1 hsame
  obtain ⟨w', hrun, hs1, hs2, -⟩ :=
    merge_tree_refines fm t2 t1 w p1 nx1 p2 nx2 fuel h1 h2 hnd hfuel
  rw [(mergeT_eq_spec t1 t2 hd1 hd2).1] at hs1 hs2
  exact ⟨w', _, _, hrun, hs1, hs2, e1, e2⟩

/-- C38 as amended, at two trees `top(a(x), b)`, the second with functional
units throughout, the first with placeholders at `top` and `b`. -/
theorem instance_merge_tree_same_shape_witness :
    ∃ w' R1 R2, instance_merge_tree funit_merge_or 30 same_ex_world (some same_ex_t1.addr)
        (some same_ex_t2.addr) = .ok w' ∧
      Sat w'.inst (cells R1 none none) ∧ Sat w'.inst (cells R2 none none) ∧
      hierarchy R1 = hierarchy same_ex_t1 ∧ hierarchy R2 = hierarchy same_ex_t2 :=
  instance_merge_tree_same_shape funit_merge_or same_ex_world same_ex_t1 same_ex_t2
    none none none none 30 (by decide) (by decide) (by decide) (by decide) (by decide)
    (by decide)

/-- C38 as stated fails when two siblings share a name.  Both trees are
`r(a(x), a(y))`.  The second `a` of the second tree is looked up by its name
among the children of the first root and finds the first `a`, which has no
child `y`; so `y` (address 9) is relinked out of the second tree: afterwards
the first `a` of the first tree has the children `x, y` and the second `a` of
the second tree has none. -/
theorem instance_merge_tree_same_shape_counterexample :
    IsTree same_dup_ex_world.inst same_dup_ex_t1 ∧
    IsTree same_dup_ex_world.inst same_dup_ex_t2 ∧
    (same_dup_ex_t1.addrs ++ same_dup_ex_t2.addrs).Nodup ∧
    sameNames same_dup_ex_t1 same_dup_ex_t2 = true ∧
    child_names same_dup_ex_world 1 = some ["x".toList] ∧
    child_names same_dup_ex_world 8 = some ["y".toList] ∧
    (instance_merge_tree funit_merge_skip 40 same_dup_ex_world (some 0) (some 5)).map
      (fun w => (child_names w 0, child_names w 1)) =
      .ok (some ["a".toList, "a".toList], some ["x".toList, "y".toList]) ∧
    (instance_merge_tree funit_merge_skip 40 same_dup_ex_world (some 0) (some 5)).map
      (fun w => (child_names w 8, (w.inst 9).map (fun n => n.parent))) =
      .ok (some [], some (some 1)) := by
  refine ⟨?_, ?_, ?_, ?_, ?_, ?_, ?_, ?_⟩ <;> decide

/-! ## Claims about `memory_get_stat` and excluded memories -/

theorem memory_get_stat_pwidth_congr (s1 s2 : vsignal) (hu : s1.udim_num = s2.udim_num)
    (hp : s1.pdim_num = s2.pdim_num) (hd : s1.dim = s2.dim) :
    ∀ (k i p : Nat), memory_get_stat_pwidth s1 k i p = memory_get_stat_pwidth s2 k i p
  | 0, _, _ => rfl
  | k + 1, i, p => by
    simp only [memory_get_stat_pwidth, hu, hp, hd]
    split
    · split
      · rfl
      · exact memory_get_stat_pwidth_congr s1 s2 hu hp hd k _ _
    · rfl

theorem memory_get_stat_elems_ignore (M : MemOps) (s1 s2 : vsignal) (hv : s1.value = s2.value)
    (pw : Nat) :
    ∀ (k i : Nat) (st : mem_stat),
      memory_get_stat_elems M s1 pw true k i st = memory_get_stat_elems M s2 pw true k i st
  | 0, _, _ => rfl
  | k + 1, i, st => by
    simp only [memory_get_stat_elems, hv]
    cases s2.value with
    | none => rfl
    | some v =>
      simp only
      split
      · simp only [Bool.true_eq_false, and_false, if_false]
        exact memory_get_stat_elems_ignore M s1 s2 hv pw k _ _
      · rfl

/-- The element loop on an excluded memory, whenever it returns: the same
amount has been added to `ae_total`, `wr_hit` and `rd_hit`, and nothing else has
changed. -/
theorem memory_get_stat_elems_excluded (M : MemOps) (sig : vsignal) (pw : Nat)
    (hex : sig.excluded = 1) :
    ∀ (k i : Nat) (st st' : mem_stat),
      memory_get_stat_elems M sig pw false k i st = .ok st' → st.in_range →
      ∃ n, st' = { st with ae_total := (st.ae_total + n) % 4294967296,
                           wr_hit := (st.wr_hit + n) % 4294967296,
                           rd_hit := (st.rd_hit + n) % 4294967296 }
  | 0, _, _, _, h, _ => by simp [memory_get_stat_elems] at h
  | k + 1, i, st, st', h, hr => by
    simp only [memory_get_stat_elems] at h
    cases hv : sig.value with
    | none => simp [hv] at h
    | some v =>
      simp only [hv] at h
      obtain ⟨r1, r2, r3, r4, r5, r6⟩ := hr
      split at h
      · simp only [hex, and_self, if_true] at h
        obtain ⟨n, hn⟩ := memory_get_stat_elems_excluded M sig pw hex k _ _ st' h
          (by exact ⟨Nat.mod_lt _ (by decide), Nat.mod_lt _ (by decide),
            Nat.mod_lt _ (by decide), r4, r5, r6⟩)
        refine ⟨n + 1, ?_⟩
        rw [hn]
        simp only [mem_stat.mk.injEq, and_true]
        refine ⟨?_, ?_, ?_⟩ <;> omega
      · simp only [Except.ok.injEq] at h
        refine ⟨0, ?_⟩
        rw [← h]
        cases st
        simp only [mem_stat.mk.injEq, and_true, Nat.add_zero]
        simp only at r1 r2 r3
        refine ⟨?_, ?_, ?_⟩ <;> omega

/-- The element loop returns when the width of an element is positive and
the index does not wrap: on an excluded memory it counts each of the elements
from bit `i` on as written and read. -/
theorem memory_get_stat_elems_returns (M : MemOps) (sig : vsignal) (v : vector) (pw : Nat)
    (hv : sig.value = some v) (hex : sig.excluded = 1) (hpw : 0 < pw)
    (hwrap : to_unsigned v.width + pw ≤ 4294967296) :
    ∀ (k i : Nat) (st : mem_stat), st.in_range → to_unsigned v.width - i < k →
      memory_get_stat_elems M sig pw false k i st =
        .ok { st with
          ae_total := (st.ae_total + (to_unsigned v.width - i + pw - 1) / pw) % 4294967296,
          wr_hit := (st.wr_hit + (to_unsigned v.width - i + pw - 1) / pw) % 4294967296,
          rd_hit := (st.rd_hit + (to_unsigned v.width - i + pw - 1) / pw) % 4294967296 }
  | 0, _, _, _, h => by omega
  | k + 1, i, st, hr, hk => by
    obtain ⟨r1, r2, r3, r4, r5, r6⟩ := hr
    simp only [memory_get_stat_elems, hv]
    by_cases hi : i < to_unsigned v.width
    · rw [if_pos hi]
      simp only [hex, and_self, if_true]
      have hmod : (i + pw) % 4294967296 = i + pw := Nat.mod_eq_of_lt (by omega)
      have key := memory_get_stat_elems_returns M sig v pw hv hex hpw hwrap k (i + pw)
        { st with wr_hit := (st.wr_hit + 1) % 4294967296,
                  rd_hit := (st.rd_hit + 1) % 4294967296,
                  ae_total := (st.ae_total + 1) % 4294967296 }
        ⟨Nat.mod_lt _ (by decide), Nat.mod_lt _ (by decide), Nat.mod_lt _ (by decide),
          r4, r5, r6⟩ (by omega)
      rw [hmod, key]
      have hdiv : (to_unsigned v.width - i + pw - 1) / pw =
          (to_unsigned v.width - (i + pw) + pw - 1) / pw + 1 := by
        by_cases hle : i + pw ≤ to_unsigned v.width
        · have : to_unsigned v.width - i + pw - 1 =
              (to_unsigned v.width - (i + pw) + pw - 1) + pw := by omega
          rw [this, Nat.add_div_right _ hpw]
        · have h1 : to_unsigned v.width - (i + pw) + pw - 1 = pw - 1 := by omega
          have h2 : to_unsigned v.width - i + pw - 1 = (to_unsigned v.width - i - 1) + pw := by
            omega
          rw [h1, h2, Nat.add_div_right _ hpw, Nat.div_eq_of_lt (by omega),
            Nat.div_eq_of_lt (by omega)]
      simp only [Except.ok.injEq, mem_stat.mk.injEq, and_true, hdiv]
      refine ⟨?_, ?_, ?_⟩ <;> omega
    · rw [if_neg hi]
      have h0 : (to_unsigned v.width - i + pw - 1) / pw = 0 := by
        rw [Nat.div_eq_of_lt (by omega)]
      cases st
      simp only [Except.ok.injEq, mem_stat.mk.injEq, and_true, h0, Nat.add_zero]
      simp only at r1 r2 r3
      refine ⟨?_, ?_, ?_⟩ <;> omega

/-! ## White space in the records -/

/-- The fields of a record are separated by white space in the sense of
`isspace`: a vertical tab (0x0B) or a form feed (0x0C) is skipped like a
space, by `%s`, `%d`, `%x`, `%u` and `%lld` alike. -/
theorem sscanf_isspace_examples :
    isspace (Char.ofNat 11) = true ∧ isspace (Char.ofNat 12) = true ∧
    isspace (Char.ofNat 32) = true ∧ isspace (Char.ofNat 8) = false ∧
    isspace (Char.ofNat 14) = false ∧
    sscanf_s_d_n "top\x0b1".toList = some ("top".toList, 1, 5) ∧
    sscanf_s_d_n "a\x0bx 1".toList = none ∧
    sscanf_s_s_n "st\x0bnst 12".toList [] [] 0 = (2, "st".toList, "nst".toList, 6) ∧
    scan_unsigned 16 "\x0b1f".toList = some (31, []) ∧
    scan_lld "\x0c-7 ".toList = some (-7, " ".toList) ∧
    sscanf_int "\x0c 12".toList = some 12 ∧
    (rank_parse_info rank_ex [0, 0, 0] "a.cdd".toList "18\x0b1f 1234 10 20 30".toList
      true).toOption.map (fun r => r.1) = some [10, 20, 30] := by
  refine ⟨?_, ?_, ?_, ?_, ?_, ?_, ?_, ?_, ?_, ?_, ?_, ?_⟩ <;> decide

/-! ## The return of `memory_get_stat` -/

/-- The first loop of `memory_get_stat` returns when the dimensions it reads
exist: from the index `i` on it multiplies the widths of the entries up to
`udim_num + pdim_num`. -/
theorem memory_get_stat_pwidth_from (sig : vsignal)
    (hlen : sig.udim_num + sig.pdim_num ≤ sig.dim.length)
    (hw : sig.udim_num + sig.pdim_num < 4294967296) :
    ∀ (k i p : Nat), i ≤ sig.udim_num + sig.pdim_num → sig.udim_num + sig.pdim_num - i < k →
      memory_get_stat_pwidth sig k i p =
        .ok (((sig.dim.drop i).take (sig.udim_num + sig.pdim_num - i)).foldl
          (fun p d => if d.1 > d.2 then (p * to_unsigned ((d.1 - d.2) + 1)) % 4294967296
            else (p * to_unsigned ((d.2 - d.1) + 1)) % 4294967296) p)
  | 0, _, _, _, h => by omega
  | k + 1, i, p, hi, hk => by
    have hmod : (sig.udim_num + sig.pdim_num) % 4294967296 = sig.udim_num + sig.pdim_num :=
      Nat.mod_eq_of_lt hw
    simp only [memory_get_stat_pwidth, hmod]
    by_cases hlt : i < sig.udim_num + sig.pdim_num
    · rw [if_pos hlt]
      have hil : i < sig.dim.length := by omega
      have hget : sig.dim[i]? = some sig.dim[i] := List.getElem?_eq_getElem hil
      have hdrop : sig.dim.drop i = sig.dim[i] :: sig.dim.drop (i + 1) :=
        List.drop_eq_getElem_cons hil
      obtain ⟨n, hn⟩ : ∃ n, sig.udim_num + sig.pdim_num - i = n + 1 :=
        ⟨sig.udim_num + sig.pdim_num - i - 1, by omega⟩
      have hn' : sig.udim_num + sig.pdim_num - (i + 1) = n := by omega
      have hmod1 : (i + 1) % 4294967296 = i + 1 := Nat.mod_eq_of_lt (by omega)
      rw [hget]
      simp only [hmod1]
      rw [memory_get_stat_pwidth_from sig hlen hw k (i + 1) _ (by omega) (by omega), hdrop, hn,
        hn', List.take_succ_cons, List.foldl_cons]
      rfl
    · rw [if_neg hlt]
      have h0 : sig.udim_num + sig.pdim_num - i = 0 := by omega
      rw [h0, List.take_zero, List.foldl_nil]

theorem memory_get_stat_pwidth_eq (sig : vsignal) (fuel : Nat)
    (hlen : sig.udim_num + sig.pdim_num ≤ sig.dim.length)
    (hw : sig.udim_num + sig.pdim_num < 4294967296) (hfuel : sig.pdim_num < fuel) :
    memory_get_stat_pwidth sig fuel (sig.udim_num % 4294967296) 1 = .ok (packed_width sig) := by
  have hmod : sig.udim_num % 4294967296 = sig.udim_num := Nat.mod_eq_of_lt (by omega)
  rw [hmod, memory_get_stat_pwidth_from sig hlen hw fuel sig.udim_num 1 (by omega) (by omega)]
  simp [packed_width]

/-- C31. `memory_get_stat` on a signal whose excluded bit is set, called with
`ignore_excl = FALSE` on counters that are within `unsigned int`: whenever the
call returns, one and the same amount `n` has been added to `ae_total`,
`wr_hit` and `rd_hit`, and the width of the signal to `tog_total`, `tog01_hit`
and `tog10_hit` (all modulo 2^32).  The call does return when the signal has a
value, the dimensions the first loop reads exist, the width `packed_width sig`
of an addressable element is positive and the element index cannot wrap, and
`n` is then the number of addressable elements, the width divided by the
element width and rounded up.  Called with `ignore_excl = TRUE` the result is
the same whatever the excluded bit is. -/
theorem memory_get_stat_excluded (M : MemOps) (fuel : Nat) (sig : vsignal) (st : mem_stat)
    (hr : st.in_range) :
    (sig.excluded = 1 → ∀ st', memory_get_stat M fuel sig st false = .ok st' →
      ∃ (n : Nat) (v : vector), sig.value = some v ∧
        st' = ⟨(st.ae_total + n) % 4294967296, (st.wr_hit + n) % 4294967296,
          (st.rd_hit + n) % 4294967296,
          (st.tog_total + to_unsigned v.width) % 4294967296,
          (st.tog01_hit + to_unsigned v.width) % 4294967296,
          (st.tog10_hit + to_unsigned v.width) % 4294967296⟩) ∧
    (sig.excluded = 1 → ∀ (v : vector), sig.value = some v →
      sig.udim_num + sig.pdim_num ≤ sig.dim.length →
      sig.udim_num + sig.pdim_num < 4294967296 → 0 < packed_width sig →
      to_unsigned v.width + packed_width sig ≤ 4294967296 →
      sig.pdim_num < fuel → to_unsigned v.width < fuel →
      memory_get_stat M fuel sig st false =
        .ok ⟨(st.ae_total + (to_unsigned v.width + packed_width sig - 1) / packed_width sig)
            % 4294967296,
          (st.wr_hit + (to_unsigned v.width + packed_width sig - 1) / packed_width sig)
            % 4294967296,
          (st.rd_hit + (to_unsigned v.width + packed_width sig - 1) / packed_width sig)
            % 4294967296,
          (st.tog_total + to_unsigned v.width) % 4294967296,
          (st.tog01_hit + to_unsigned v.width) % 4294967296,
          (st.tog10_hit + to_unsigned v.width) % 4294967296⟩) ∧
    (∀ e, memory_get_stat M fuel { sig with excluded := e } st true =
      memory_get_stat M fuel sig st true) := by
  refine ⟨?_, ?_, ?_⟩
  · intro hex st' h
    simp only [memory_get_stat] at h
    cases hp : memory_get_stat_pwidth sig fuel (sig.udim_num % 4294967296) 1 with
    | error e => simp [hp, bind, Except.bind] at h
    | ok pw =>
      simp only [hp, Except.ok_bind] at h
      cases he : memory_get_stat_elems M sig pw false fuel 0 st with
      | error e => simp [he, bind, Except.bind] at h
      | ok st1 =>
        simp only [he, Except.ok_bind] at h
        obtain ⟨n, hn⟩ := memory_get_stat_elems_excluded M sig pw hex fuel 0 st st1 he hr
        cases hv : sig.value with
        | none => simp [hv] at h
        | some v =>
          simp only [hv, hex, and_self, if_true, Except.pure_eq_ok, Except.ok.injEq] at h
          refine ⟨n, v, rfl, ?_⟩
          rw [← h, hn]
  · intro hex v hv hlen hw hpw hwrap hf1 hfuel
    have hp := memory_get_stat_pwidth_eq sig fuel hlen hw hf1
    have he := memory_get_stat_elems_returns M sig v (packed_width sig) hv hex hpw hwrap fuel 0
      st hr (by omega)
    simp only [Nat.sub_zero] at he
    simp only [memory_get_stat, hp, Except.ok_bind, he, hv, hex, and_self, if_true,
      Except.pure_eq_ok]
  · intro e
    simp only [memory_get_stat]
    rw [memory_get_stat_pwidth_congr { sig with excluded := e } sig rfl rfl rfl]
    cases memory_get_stat_pwidth sig fuel (sig.udim_num % 4294967296) 1 with
    | error _ => rfl
    | ok pw =>
      simp only [Except.ok_bind]
      rw [memory_get_stat_elems_ignore M { sig with excluded := e } sig rfl pw fuel 0 st]
      simp

/-- C31, at an excluded memory of four elements of eight bits that was never
written, read or toggled: from counters at zero the call with
`ignore_excl = FALSE` returns four elements, all written and read, and 32 bits,
all toggled in both directions; the call with `ignore_excl = TRUE` returns the
coverage the vector holds, four elements and 32 bits with no hit, with the
excluded bit set as with the bit cleared. -/
theorem memory_get_stat_excluded_witness :
    mem_sig_excl_ex.excluded = 1 ∧
    mem_sig_excl_ex.value = some { width := 32, value := 0 } ∧ packed_width mem_sig_excl_ex = 8 ∧
    memory_get_stat mem_ex 100 mem_sig_excl_ex ⟨0, 0, 0, 0, 0, 0⟩ false =
      .ok ⟨4, 4, 4, 32, 32, 32⟩ ∧
    memory_get_stat mem_ex 100 mem_sig_excl_ex ⟨0, 0, 0, 0, 0, 0⟩ true =
      .ok ⟨4, 0, 0, 32, 0, 0⟩ ∧
    memory_get_stat mem_ex 100 { mem_sig_excl_ex with excluded := 0 } ⟨0, 0, 0, 0, 0, 0⟩ true =
      memory_get_stat mem_ex 100 mem_sig_excl_ex ⟨0, 0, 0, 0, 0, 0⟩ true :=
  ⟨by decide, by decide, by decide,
    ((memory_get_stat_excluded mem_ex 100 mem_sig_excl_ex ⟨0, 0, 0, 0, 0, 0⟩
      (by decide)).2.1 (by decide) { width := 32, value := 0 } (by decide) (by decide)
      (by decide) (by decide) (by decide) (by decide) (by decide)).trans (by decide),
    by decide,
    (memory_get_stat_excluded mem_ex 100 mem_sig_excl_ex ⟨0, 0, 0, 0, 0, 0⟩ (by decide)).2.2 0⟩

/-! ## What a FALSE result of `instance_merge_two_trees` says about the trees -/

theorem find_by_funit_name_loop_ok (w : World) (nm : Str)
    (rec : Option Nat → Option Nat × Nat → Except Fault (Option Nat × Nat)) (p : Option Nat) :
    ∀ (K : List ITree) (fuel : Nat) (st r : Option Nat × Nat), Sat w.inst (cellsL K p none) →
      (∀ c ∈ K, ∀ st r, rec (some c.addr) st = .ok r → r = (nodesOf c).foldl (nameStep w nm) st) →
      instance_find_by_funit_name_loop rec fuel w (headAddrOr none K) st = .ok r →
      r = (nodesOfL K).foldl (nameStep w nm) st := by
  intro K
  induction K with
  | nil =>
    intro fuel st r _ _ h
    cases fuel with
    | zero => simp [instance_find_by_funit_name_loop] at h
    | succ k =>
      simp only [headAddrOr, instance_find_by_funit_name_loop, Except.ok.injEq] at h
      simp [nodesOfL, h]
  | cons t K ih =>
    intro fuel st r hs hrec h
    cases fuel with
    | zero => simp [instance_find_by_funit_name_loop] at h
    | succ k =>
      simp only [cellsL, Sat_append] at hs
      have hroot := Sat_root hs.1
      simp only [headAddrOr_cons, instance_find_by_funit_name_loop] at h
      obtain ⟨st1, h1, h⟩ := Except.bind_eq_ok h
      rw [World.load_eq hroot] at h
      simp only [Except.ok_bind, rootCell] at h
      have e1 := hrec t (List.mem_cons_self _ _) st st1 h1
      have := ih k st1 r hs.2 (fun c hc => hrec c (List.mem_cons_of_mem _ hc)) h
      rw [this, e1]
      simp [nodesOfL, List.foldl_append]

/-- Whenever the search `instance_find_by_funit_name` returns on a tree, it has
visited every instance of the tree in pre-order. -/
theorem find_by_funit_name_ok (w : World) (nm : Str) :
    ∀ (fuel : Nat) (t : ITree) (p nx : Option Nat) (st r : Option Nat × Nat),
      Sat w.inst (cells t p nx) →
      instance_find_by_funit_name fuel w (some t.addr) nm st = .ok r →
      r = (nodesOf t).foldl (nameStep w nm) st := by
  intro fuel
  induction fuel with
  | zero => intro t p nx st r _ h; simp [instance_find_by_funit_name] at h
  | succ k ih =>
    intro t p nx st r hs h
    obtain ⟨a, nm', fu, rg, nd, ks⟩ := t
    have hroot := Sat_root hs
    have hkids := Sat_kids hs
    simp only [ITree.addr_node, ITree.kids_node] at hroot hkids
    simp only [ITree.addr_node, instance_find_by_funit_name, World.load_eq hroot,
      Except.ok_bind, rootCell, ITree.funit_node, ITree.kids_node] at h
    obtain ⟨u, hu, hloop⟩ := Except.bind_eq_ok h
    clear h
    obtain ⟨g, rfl, hg⟩ : ∃ g, fu = some g ∧ w.funit g = some u := by
      cases fu with
      | none => simp [World.loadF] at hu
      | some g =>
        refine ⟨g, rfl, ?_⟩
        cases hg : w.funit g with
        | none => simp [World.loadF, hg] at hu
        | some u' =>
          simp only [World.loadF, hg, Except.ok.injEq] at hu
          rw [hu]
    have hstep : nameStep w nm st (.node a nm' (some g) rg nd ks) =
        (if u.name = nm then (some a, (st.2 + 1) % 4294967296) else st) := by
      simp [nameStep, funitNamed, ITree.funit, hg, ITree.addr]
    have := find_by_funit_name_loop_ok w nm _ (some a) ks k _ r hkids
      (fun c hc st2 r2 h2 => by
        obtain ⟨nx', hc'⟩ := cells_of_mem hkids hc
        exact ih c (some a) nx' st2 r2 hc' h2) hloop
    rw [this]
    simp only [nodesOf, List.foldl_cons, hstep]

/-- When `instance_find_by_funit_name_if_one` returns NULL on a tree, the tree
does not hold exactly one instance of a functional unit of that name. -/
theorem find_by_funit_name_if_one_none (w : World) (nm : Str) (fuel : Nat) (t : ITree)
    (p nx : Option Nat) (hs : Sat w.inst (cells t p nx))
    (h : instance_find_by_funit_name_if_one fuel w (some t.addr) nm = .ok none) :
    (namedInstances w nm t).length ≠ 1 := by
  intro hlen
  obtain ⟨a, ha⟩ : ∃ a, namedInstances w nm t = [a] := by
    cases hl : namedInstances w nm t with
    | nil => rw [hl] at hlen; simp at hlen
    | cons a l =>
      cases l with
      | nil => exact ⟨a, rfl⟩
      | cons b l => rw [hl] at hlen; simp at hlen
  simp only [instance_find_by_funit_name_if_one] at h
  obtain ⟨st, hst, h⟩ := Except.bind_eq_ok h
  have e := find_by_funit_name_ok w nm fuel t p nx (none, 0) st hs hst
  rw [foldl_nameStep_one w nm a (nodesOf t) (none, 0) rfl ha] at e
  rw [e] at h
  simp at h

/-- C6, as amended. `instance_merge_two_trees` returns FALSE only when no
pairing heuristic applies: the two first populated instances (the instances
the leading hierarchies end at) have functional units, the names of these
differ, neither leading-hierarchy string is a prefix of the other, and both
searches for a unique instance of the other tree's top functional-unit name,
which start at the first populated instance, come back empty: the tree below
the first populated instance of one side does not hold exactly one instance of
a functional unit with the name of the other side's top functional unit.
Whenever it returns FALSE the state is the one it was called in: no child
relinked, no functional unit moved or merged, no flag changed. -/
theorem instance_merge_two_trees_false (X : Externals) (fuel : Nat) (w w' : World)
    (root1 root2 : Option Nat)
    (h : instance_merge_two_trees X fuel w root1 root2 = .ok (w', false)) :
    w' = w ∧
    ∃ lh1 tinst1 lh2 tinst2 t1 t2 f1 f2,
      instance_get_leading_hierarchy fuel w root1 (some []) = .ok (some lh1, tinst1) ∧
      instance_get_leading_hierarchy fuel w root2 (some []) = .ok (some lh2, tinst2) ∧
      w.load tinst1 = .ok t1 ∧ w.load tinst2 = .ok t2 ∧
      w.loadF t1.funit = .ok f1 ∧ w.loadF t2.funit = .ok f2 ∧
      f1.name ≠ f2.name ∧
      strncmp_eq_strlen lh1 lh2 = false ∧ strncmp_eq_strlen lh2 lh1 = false ∧
      instance_find_by_funit_name_if_one fuel w tinst2 f1.name = .ok none ∧
      instance_find_by_funit_name_if_one fuel w tinst1 f2.name = .ok none ∧
      (∀ (s2 : ITree) (p nx : Option Nat), tinst2 = some s2.addr →
        Sat w.inst (cells s2 p nx) → (namedInstances w f1.name s2).length ≠ 1) ∧
      (∀ (s1 : ITree) (p nx : Option Nat), tinst1 = some s1.addr →
        Sat w.inst (cells s1 p nx) → (namedInstances w f2.name s1).length ≠ 1) := by
  simp only [instance_merge_two_trees] at h
  obtain ⟨⟨olh1, tinst1⟩, hg1, h⟩ := Except.bind_eq_ok h
  obtain ⟨⟨olh2, tinst2⟩, hg2, h⟩ := Except.bind_eq_ok h
  obtain ⟨lh1, hlh1⟩ := get_leading_hierarchy_some hg1
  obtain ⟨lh2, hlh2⟩ := get_leading_hierarchy_some hg2
  simp only at hlh1 hlh2
  subst hlh1 hlh2
  simp only [Option.getD_some] at h
  obtain ⟨t1, ht1, h⟩ := Except.bind_eq_ok h
  obtain ⟨same, hsame, h⟩ := Except.bind_eq_ok h
  cases same with
  | true =>
    simp only [if_true] at h
    split at h
    · obtain ⟨_, -, h⟩ := Except.bind_eq_ok h
      simp at h
    · split at h
      · obtain ⟨_, -, h⟩ := Except.bind_eq_ok h
        obtain ⟨_, -, h⟩ := Except.bind_eq_ok h
        simp at h
      · obtain ⟨_, -, h⟩ := Except.bind_eq_ok h
        obtain ⟨_, -, h⟩ := Except.bind_eq_ok h
        obtain ⟨_, -, h⟩ := Except.bind_eq_ok h
        simp at h
  | false =>
    simp only [Bool.false_eq_true, if_false] at h
    cases hp1 : strncmp_eq_strlen lh1 lh2 with
    | true =>
      simp only [hp1, if_true] at h
      obtain ⟨r, -, h⟩ := Except.bind_eq_ok h
      cases r with
      | none => simp at h
      | some r =>
        obtain ⟨_, -, h⟩ := Except.bind_eq_ok h
        simp at h
    | false =>
      simp only [hp1, Bool.false_eq_true, if_false] at h
      cases hp2 : strncmp_eq_strlen lh2 lh1 with
      | true =>
        simp only [hp2, if_true] at h
        obtain ⟨r, -, h⟩ := Except.bind_eq_ok h
        cases r with
        | none => simp at h
        | some r =>
          obtain ⟨_, -, h⟩ := Except.bind_eq_ok h
          simp at h
      | false =>
        simp only [hp2, Bool.false_eq_true, if_false] at h
        obtain ⟨t1', ht1', h⟩ := Except.bind_eq_ok h
        rw [ht1] at ht1'
        cases ht1'
        obtain ⟨f1, hf1, h⟩ := Except.bind_eq_ok h
        obtain ⟨r2, hr2, h⟩ := Except.bind_eq_ok h
        cases r2 with
        | some r =>
          obtain ⟨_, -, h⟩ := Except.bind_eq_ok h
          obtain ⟨_, -, h⟩ := Except.bind_eq_ok h
          simp at h
        | none =>
          simp only at h
          obtain ⟨t2, ht2, h⟩ := Except.bind_eq_ok h
          obtain ⟨f2, hf2, h⟩ := Except.bind_eq_ok h
          obtain ⟨r1, hr1, h⟩ := Except.bind_eq_ok h
          cases r1 with
          | some r =>
            obtain ⟨_, -, h⟩ := Except.bind_eq_ok h
            obtain ⟨_, -, h⟩ := Except.bind_eq_ok h
            simp at h
          | none =>
            simp only [Except.pure_eq_ok, Except.ok.injEq, Prod.mk.injEq, and_true] at h
            refine ⟨h.symm, lh1, tinst1, lh2, tinst2, t1, t2, f1, f2, hg1, hg2, ht1, ht2, hf1,
              hf2, ?_, hp1, hp2, hr2, hr1, ?_, ?_⟩
            · -- the names differ, otherwise the first test had succeeded
              intro hname
              cases hfu1 : t1.funit with
              | none => simp [World.loadF, hfu1] at hf1
              | some g1 =>
                simp only [hfu1] at hsame
                obtain ⟨t2', ht2', hsame⟩ := Except.bind_eq_ok hsame
                rw [ht2] at ht2'
                cases ht2'
                cases hfu2 : t2.funit with
                | none => simp [World.loadF, hfu2] at hf2
                | some g2 =>
                  simp only [hfu2] at hsame
                  rw [hfu1] at hf1
                  rw [hfu2] at hf2
                  simp [hf1, hf2, hname] at hsame
            · intro s2 p nx he hs
              subst he
              exact find_by_funit_name_if_one_none w f1.name fuel s2 p nx hs hr2
            · intro s1 p nx he hs
              subst he
              exact find_by_funit_name_if_one_none w f2.name fuel s1 p nx hs hr1

/-- C6 as amended, on the one-node trees `a` (functional unit `m1`) and `b`
(functional unit `m2`), which no heuristic pairs: the call returns FALSE, and
neither tree holds an instance of the other's functional unit. -/
theorem instance_merge_two_trees_false_witness :
    instance_merge_two_trees ext_ex 10 incompatible_ex_world (some 0) (some 1) =
      .ok (incompatible_ex_world, false) ∧
    Sat incompatible_ex_world.inst
      (cells (.node 0 "a".toList (some 0) none false []) none none) ∧
    Sat incompatible_ex_world.inst
      (cells (.node 1 "b".toList (some 1) none false []) none none) ∧
    (namedInstances incompatible_ex_world "m1".toList
      (.node 1 "b".toList (some 1) none false [])).length ≠ 1 ∧
    (namedInstances incompatible_ex_world "m2".toList
      (.node 0 "a".toList (some 0) none false [])).length ≠ 1 := by
  obtain ⟨-, lh1, tinst1, lh2, tinst2, t1, t2, f1, f2, hg1, hg2, ht1, ht2, hf1, hf2, -, -, -, -,
      -, hA, hB⟩ :=
    instance_merge_two_trees_false ext_ex 10 incompatible_ex_world incompatible_ex_world
      (some 0) (some 1) rfl
  have e1 : instance_get_leading_hierarchy 10 incompatible_ex_world (some 0) (some []) =
      .ok (some "a".toList, some 0) := rfl
  have e2 : instance_get_leading_hierarchy 10 incompatible_ex_world (some 1) (some []) =
      .ok (some "b".toList, some 1) := rfl
  rw [e1] at hg1
  rw [e2] at hg2
  simp only [Except.ok.injEq, Prod.mk.injEq, Option.some.injEq] at hg1 hg2
  obtain ⟨-, rfl⟩ := hg1
  obtain ⟨-, rfl⟩ := hg2
  have l1 : incompatible_ex_world.load (some 0) =
      .ok ⟨"a".toList, some 0, none, false, none, none, none, none⟩ := rfl
  have l2 : incompatible_ex_world.load (some 1) =
      .ok ⟨"b".toList, some 1, none, false, none, none, none, none⟩ := rfl
  rw [l1] at ht1
  rw [l2] at ht2
  cases ht1
  cases ht2
  have g1 : incompatible_ex_world.loadF (some 0) = .ok (funit_ex "m1") := rfl
  have g2 : incompatible_ex_world.loadF (some 1) = .ok (funit_ex "m2") := rfl
  rw [g1] at hf1
  rw [g2] at hf2
  cases hf1
  cases hf2
  have s1 : Sat incompatible_ex_world.inst
      (cells (.node 0 "a".toList (some 0) none false []) none none) := by decide
  have s2 : Sat incompatible_ex_world.inst
      (cells (.node 1 "b".toList (some 1) none false []) none none) := by decide
  exact ⟨rfl, s1, s2, hA _ none none rfl s2, hB _ none none rfl s1⟩

/-- C6 as stated fails on the trees `r(x, y)` and `a`, where `r` is a
placeholder, `x` an instance of `m2`, `y` one of `m1` and `a` one of `m1`: the
first tree holds exactly one instance of the functional-unit name `m1` of the
other tree's top instance, namely `y`, but `instance_merge_two_trees` returns
FALSE.  The first populated instance of the first tree is `x`, and the search
for `m1` starts there, so it never sees `y`. -/
theorem instance_merge_two_trees_false_counterexample :
    IsTree placeholder_root_ex_world.inst placeholder_root_ex_t1 ∧
    IsTree placeholder_root_ex_world.inst placeholder_root_ex_t2 ∧
    instance_get_leading_hierarchy 10 placeholder_root_ex_world (some 0) (some []) =
      .ok (some "r.x".toList, some 1) ∧
    instance_get_leading_hierarchy 10 placeholder_root_ex_world (some 3) (some []) =
      .ok (some "a".toList, some 3) ∧
    namedInstances placeholder_root_ex_world "m1".toList placeholder_root_ex_t1 = [2] ∧
    (instance_merge_two_trees ext_ex 10 placeholder_root_ex_world (some 0) (some 3)).map
      (fun r => r.2) = .ok false := by
  refine ⟨?_, ?_, ?_, ?_, ?_, ?_⟩ <;> decide

/-! ## Nodes of a tree and the tree around a node -/

theorem mem_nodesOfL_iff {Q : ITree} : ∀ {ks : List ITree},
    Q ∈ nodesOfL ks ↔ ∃ c ∈ ks, Q ∈ nodesOf c
  | [] => by simp [nodesOfL]
  | k :: ks => by
    simp only [nodesOfL, List.mem_append, List.mem_cons, @mem_nodesOfL_iff Q ks]
    constructor
    · rintro (h | ⟨c, hc, h⟩)
      · exact ⟨k, Or.inl rfl, h⟩
      · exact ⟨c, Or.inr hc, h⟩
    · rintro ⟨c, rfl | hc, h⟩
      · exact Or.inl h
      · exact Or.inr ⟨c, hc, h⟩

mutual
theorem nodesOf_closed : ∀ (T S Q : ITree), S ∈ nodesOf T → Q ∈ nodesOf S → Q ∈ nodesOf T
  | .node a nm fu rg nd ks, S, Q, hS, hQ => by
    simp only [nodesOf, List.mem_cons] at hS ⊢
    rcases hS with rfl | hS
    · simpa [nodesOf] using hQ
    · exact Or.inr (nodesOfL_closed ks S Q hS hQ)
theorem nodesOfL_closed : ∀ (ks : List ITree) (S Q : ITree), S ∈ nodesOfL ks → Q ∈ nodesOf S →
    Q ∈ nodesOfL ks
  | [], S, Q, hS, _ => by simp [nodesOfL] at hS
  | k :: ks, S, Q, hS, hQ => by
    simp only [nodesOfL, List.mem_append] at hS ⊢
    rcases hS with hS | hS
    · exact Or.inl (nodesOf_closed k S Q hS hQ)
    · exact Or.inr (nodesOfL_closed ks S Q hS hQ)
end

mutual
theorem nodesOf_addrs_subset : ∀ (T Q : ITree), Q ∈ nodesOf T → ∀ a ∈ Q.addrs, a ∈ T.addrs
  | .node a nm fu rg nd ks, Q, hQ, x, hx => by
    simp only [nodesOf, List.mem_cons] at hQ
    rcases hQ with rfl | hQ
    · exact hx
    · simp only [ITree.addrs, List.mem_cons]
      exact Or.inr (nodesOfL_addrs_subset ks Q hQ x hx)
theorem nodesOfL_addrs_subset : ∀ (ks : List ITree) (Q : ITree), Q ∈ nodesOfL ks →
    ∀ a ∈ Q.addrs, a ∈ ITree.addrsL ks
  | [], Q, hQ, _, _ => by simp [nodesOfL] at hQ
  | k :: ks, Q, hQ, x, hx => by
    simp only [nodesOfL, List.mem_append] at hQ
    simp only [ITree.addrsL, List.mem_append]
    rcases hQ with hQ | hQ
    · exact Or.inl (nodesOf_addrs_subset k Q hQ x hx)
    · exact Or.inr (nodesOfL_addrs_subset ks Q hQ x hx)
end

mutual
theorem nodesOf_size_le : ∀ (T Q : ITree), Q ∈ nodesOf T → Q.size ≤ T.size
  | .node a nm fu rg nd ks, Q, hQ => by
    simp only [nodesOf, List.mem_cons] at hQ
    rcases hQ with rfl | hQ
    · exact le_refl _
    · have := nodesOfL_size_le ks Q hQ
      simp only [ITree.size]
      omega
theorem nodesOfL_size_le : ∀ (ks : List ITree) (Q : ITree), Q ∈ nodesOfL ks →
    Q.size ≤ ITree.sizeL ks
  | [], Q, hQ => by simp [nodesOfL] at hQ
  | k :: ks, Q, hQ => by
    simp only [nodesOfL, List.mem_append] at hQ
    simp only [ITree.sizeL]
    rcases hQ with hQ | hQ
    · have := nodesOf_size_le k Q hQ
      omega
    · have := nodesOfL_size_le ks Q hQ
      omega
end

theorem nodesOf_fill (fr : Frame) (t Q : ITree) (h : Q ∈ nodesOf t) : Q ∈ nodesOf (fr.fill t) := by
  simp only [Frame.fill, nodesOf, nodesOfL_append, nodesOfL, List.mem_cons, List.mem_append]
  exact Or.inr (Or.inr (Or.inl h))

theorem nodesOf_plug : ∀ (C : List Frame) (t Q : ITree), Q ∈ nodesOf t → Q ∈ nodesOf (plug C t) := by
  intro C
  induction C with
  | nil => intro t Q h; exact h
  | cons fr C ih => intro t Q h; exact ih (fr.fill t) Q (nodesOf_fill fr t Q h)

theorem plug_append : ∀ (C1 C2 : List Frame) (t : ITree),
    plug (C1 ++ C2) t = plug C2 (plug C1 t) := by
  intro C1
  induction C1 with
  | nil => intro C2 t; rfl
  | cons fr C1 ih => intro C2 t; exact ih C2 (fr.fill t)

mutual
theorem exists_plug : ∀ (T Q : ITree), Q ∈ nodesOf T → ∃ C, plug C Q = T
  | .node a nm fu rg nd ks, Q, hQ => by
    simp only [nodesOf, List.mem_cons] at hQ
    rcases hQ with rfl | hQ
    · exact ⟨[], rfl⟩
    · obtain ⟨pre, c, post, rfl, C, hC⟩ := exists_plugL ks Q hQ
      refine ⟨C ++ [⟨a, nm, fu, rg, nd, pre, post⟩], ?_⟩
      rw [plug_append, hC]
      rfl
theorem exists_plugL : ∀ (ks : List ITree) (Q : ITree), Q ∈ nodesOfL ks →
    ∃ pre c post, ks = pre ++ c :: post ∧ ∃ C, plug C Q = c
  | [], Q, hQ => by simp [nodesOfL] at hQ
  | k :: ks, Q, hQ => by
    simp only [nodesOfL, List.mem_append] at hQ
    rcases hQ with hQ | hQ
    · obtain ⟨C, hC⟩ := exists_plug k Q hQ
      exact ⟨[], k, ks, rfl, C, hC⟩
    · obtain ⟨pre, c, post, rfl, C, hC⟩ := exists_plugL ks Q hQ
      exact ⟨k :: pre, c, post, rfl, C, hC⟩
end

theorem addr_mem_fill (fr : Frame) (t : ITree) (a : Nat) (h : a ∈ t.addrs) :
    a ∈ (fr.fill t).addrs := by
  simp only [Frame.fill, ITree.addrs, ITree.addrsL_append, ITree.addrsL, List.mem_cons,
    List.mem_append]
  exact Or.inr (Or.inr (Or.inl h))

/-- The nodes that do not hold the address `a` stay nodes of the tree when
the subtree that holds `a` is replaced. -/
theorem plug_nodes_keep (a : Nat) : ∀ (C : List Frame) (t t' : ITree), a ∈ t.addrs →
    (∀ Q ∈ nodesOf t, a ∉ Q.addrs → Q ∈ nodesOf t') →
    ∀ Q ∈ nodesOf (plug C t), a ∉ Q.addrs → Q ∈ nodesOf (plug C t') := by
  intro C
  induction C with
  | nil => intro t t' _ h; exact h
  | cons fr C ih =>
    intro t t' ha h
    refine ih (fr.fill t) (fr.fill t') (addr_mem_fill fr t a ha) ?_
    intro Q hQ hna
    simp only [Frame.fill, nodesOf, nodesOfL_append, nodesOfL, List.mem_cons, List.mem_append]
      at hQ ⊢
    rcases hQ with rfl | hQ | hQ | hQ
    · exact absurd (addr_mem_fill fr t a ha) hna
    · exact Or.inr (Or.inl hQ)
    · exact Or.inr (Or.inr (Or.inl (h Q hQ hna)))
    · exact Or.inr (Or.inr (Or.inr hQ))

theorem graft_nodes_keep (C : List Frame) (a : Nat) (n : Str) (f : Option Nat)
    (r : Option vector_width) (d : Bool) (K : List ITree) (N : ITree) :
    ∀ Q ∈ nodesOf (plug C (.node a n f r d K)), a ∉ Q.addrs →
      Q ∈ nodesOf (plug C (.node a n f r d (K ++ [N]))) := by
  refine plug_nodes_keep a C _ _ (by simp [ITree.addrs]) ?_
  intro Q hQ hna
  simp only [nodesOf, List.mem_cons, nodesOfL_append, List.mem_append] at hQ ⊢
  rcases hQ with rfl | hQ
  · exact absurd (by simp [ITree.addrs]) hna
  · exact Or.inr (Or.inl hQ)

theorem topInstancesL_append (f : Option Nat) (A B : List ITree) :
    topInstancesL f (A ++ B) = topInstancesL f A ++ topInstancesL f B := by
  induction A with
  | nil => simp [topInstancesL]
  | cons a A ih => simp [topInstancesL, ih]

theorem topInstances_plug_congr (f : Option Nat) : ∀ (C : List Frame) (t t' : ITree),
    topInstances f t' = topInstances f t →
    topInstances f (plug C t') = topInstances f (plug C t) := by
  intro C
  induction C with
  | nil => intro t t' h; exact h
  | cons fr C ih =>
    intro t t' h
    refine ih (fr.fill t) (fr.fill t') ?_
    simp only [Frame.fill, topInstances, topInstancesL_append, topInstancesL, h]

/-- The nodes of a tree in which a subtree has been replaced: nodes of the
new subtree, nodes of the old tree, or nodes above the replaced subtree. -/
theorem plug_nodes_cases : ∀ (C : List Frame) (t t' : ITree),
    ∀ Q' ∈ nodesOf (plug C t'), Q' ∈ nodesOf t' ∨ Q' ∈ nodesOf (plug C t) ∨
      ∃ Q ∈ nodesOf (plug C t), Q.addr = Q'.addr ∧ Q.funit = Q'.funit ∧ t ∈ nodesOfL Q.kids := by
  intro C
  induction C with
  | nil => intro t t' Q' h; exact Or.inl h
  | cons fr C ih =>
    intro t t' Q' hQ'
    rcases ih (fr.fill t) (fr.fill t') Q' hQ' with h | h | ⟨Q, hQ, h1, h2, h3⟩
    · simp only [Frame.fill, nodesOf, nodesOfL_append, nodesOfL, List.mem_cons, List.mem_append]
        at h
      rcases h with rfl | h | h | h
      · refine Or.inr (Or.inr ⟨fr.fill t, nodesOf_plug C _ _ (mem_nodesOf_self _), rfl, rfl, ?_⟩)
        simp only [Frame.fill, ITree.kids_node, nodesOfL_append, nodesOfL, List.mem_append]
        exact Or.inr (Or.inl (mem_nodesOf_self t))
      · refine Or.inr (Or.inl (nodesOf_plug C (fr.fill t) Q' ?_))
        simp only [Frame.fill, nodesOf, nodesOfL_append, nodesOfL, List.mem_cons, List.mem_append]
        exact Or.inr (Or.inl h)
      · exact Or.inl h
      · refine Or.inr (Or.inl (nodesOf_plug C (fr.fill t) Q' ?_))
        simp only [Frame.fill, nodesOf, nodesOfL_append, nodesOfL, List.mem_cons, List.mem_append]
        exact Or.inr (Or.inr (Or.inr h))
    · exact Or.inr (Or.inl h)
    · exact Or.inr (Or.inr ⟨Q, hQ, h1, h2,
        nodesOfL_closed Q.kids (fr.fill t) t h3 (nodesOf_fill fr t t (mem_nodesOf_self t))⟩)

mutual
theorem topInstances_sublist (f : Option Nat) : ∀ (T : ITree),
    (topInstances f T).Sublist T.addrs
  | .node a nm fu rg nd ks => by
    simp only [topInstances, ITree.addrs]
    split
    · exact List.Sublist.cons₂ a (List.nil_sublist _)
    · exact List.Sublist.cons a (topInstancesL_sublist f ks)
theorem topInstancesL_sublist (f : Option Nat) : ∀ (ks : List ITree),
    (topInstancesL f ks).Sublist (ITree.addrsL ks)
  | [] => by simp [topInstancesL, ITree.addrsL]
  | k :: ks => by
    simp only [topInstancesL, ITree.addrsL]
    exact List.Sublist.append (topInstances_sublist f k) (topInstancesL_sublist f ks)
end

mutual
theorem topInstances_mem_node (f : Option Nat) : ∀ (T : ITree), ∀ a ∈ topInstances f T,
    ∃ Q ∈ nodesOf T, Q.addr = a ∧ Q.funit = f
  | .node a nm fu rg nd ks, x, hx => by
    simp only [topInstances] at hx
    split at hx
    · rename_i hfu
      simp only [List.mem_singleton] at hx
      subst hx
      exact ⟨_, mem_nodesOf_self _, rfl, hfu⟩
    · obtain ⟨Q, hQ, h1, h2⟩ := topInstancesL_mem_node f ks x hx
      exact ⟨Q, by simp [nodesOf, hQ], h1, h2⟩
theorem topInstancesL_mem_node (f : Option Nat) : ∀ (ks : List ITree),
    ∀ a ∈ topInstancesL f ks, ∃ Q ∈ nodesOfL ks, Q.addr = a ∧ Q.funit = f
  | [], x, hx => by simp [topInstancesL] at hx
  | k :: ks, x, hx => by
    simp only [topInstancesL, List.mem_append] at hx
    rcases hx with hx | hx
    · obtain ⟨Q, hQ, h1, h2⟩ := topInstances_mem_node f k x hx
      exact ⟨Q, by simp [nodesOfL, hQ], h1, h2⟩
    · obtain ⟨Q, hQ, h1, h2⟩ := topInstancesL_mem_node f ks x hx
      exact ⟨Q, by simp [nodesOfL, hQ], h1, h2⟩
end

mutual
theorem nodes_addr_inj : ∀ (T : ITree), T.addrs.Nodup → ∀ Q ∈ nodesOf T, ∀ Q' ∈ nodesOf T,
    Q.addr = Q'.addr → Q = Q'
  | .node a nm fu rg nd ks, hnd, Q, hQ, Q', hQ', he => by
    simp only [ITree.addrs, List.nodup_cons] at hnd
    simp only [nodesOf, List.mem_cons] at hQ hQ'
    rcases hQ with rfl | hQ <;> rcases hQ' with rfl | hQ'
    · rfl
    · exfalso
      refine hnd.1 (nodesOfL_addrs_subset ks Q' hQ' _ ?_)
      simp only [ITree.addr] at he
      rw [he]
      exact ITree.addr_mem_addrs Q'
    · exfalso
      refine hnd.1 (nodesOfL_addrs_subset ks Q hQ _ ?_)
      simp only [ITree.addr] at he
      rw [← he]
      exact ITree.addr_mem_addrs Q
    · exact nodesL_addr_inj ks hnd.2 Q hQ Q' hQ' he
theorem nodesL_addr_inj : ∀ (ks : List ITree), (ITree.addrsL ks).Nodup → ∀ Q ∈ nodesOfL ks,
    ∀ Q' ∈ nodesOfL ks, Q.addr = Q'.addr → Q = Q'
  | [], _, Q, hQ, _, _, _ => by simp [nodesOfL] at hQ
  | k :: ks, hnd, Q, hQ, Q', hQ', he => by
    simp only [ITree.addrsL, List.nodup_append] at hnd
    simp only [nodesOfL, List.mem_append] at hQ hQ'
    rcases hQ with hQ | hQ <;> rcases hQ' with hQ' | hQ'
    · exact nodes_addr_inj k hnd.1 Q hQ Q' hQ' he
    · exfalso
      refine hnd.2.2 (nodesOf_addrs_subset k Q hQ _ (ITree.addr_mem_addrs Q)) ?_
      rw [he]
      exact nodesOfL_addrs_subset ks Q' hQ' _ (ITree.addr_mem_addrs Q')
    · exfalso
      refine hnd.2.2 (nodesOf_addrs_subset k Q' hQ' _ (ITree.addr_mem_addrs Q')) ?_
      rw [← he]
      exact nodesOfL_addrs_subset ks Q hQ _ (ITree.addr_mem_addrs Q)
    · exact nodesL_addr_inj ks hnd.2.1 Q hQ Q' hQ' he
end

mutual
/-- An instance that the search for the functional unit `f` reaches is not
below another instance of `f`. -/
theorem top_not_below (f : Option Nat) : ∀ (T : ITree), T.addrs.Nodup → ∀ P ∈ nodesOf T,
    P.funit = f → ∀ q ∈ topInstances f T, q ∈ P.addrs → q = P.addr
  | .node a nm fu rg nd ks, hnd, P, hP, hf, q, hq, hin => by
    simp only [ITree.addrs, List.nodup_cons] at hnd
    simp only [nodesOf, List.mem_cons] at hP
    simp only [topInstances] at hq
    split at hq
    · simp only [List.mem_singleton] at hq
      subst hq
      rcases hP with rfl | hP
      · rfl
      · exact absurd (nodesOfL_addrs_subset ks P hP _ hin) hnd.1
    · rename_i hfu
      rcases hP with rfl | hP
      · exact absurd hf hfu
      · exact top_not_belowL f ks hnd.2 P hP hf q hq hin
theorem top_not_belowL (f : Option Nat) : ∀ (ks : List ITree), (ITree.addrsL ks).Nodup →
    ∀ P ∈ nodesOfL ks, P.funit = f → ∀ q ∈ topInstancesL f ks, q ∈ P.addrs → q = P.addr
  | [], _, P, hP, _, _, _, _ => by simp [nodesOfL] at hP
  | k :: ks, hnd, P, hP, hf, q, hq, hin => by
    simp only [ITree.addrsL, List.nodup_append] at hnd
    simp only [nodesOfL, List.mem_append] at hP
    simp only [topInstancesL, List.mem_append] at hq
    rcases hP with hP | hP <;> rcases hq with hq | hq
    · exact top_not_below f k hnd.1 P hP hf q hq hin
    · exact absurd ((topInstancesL_sublist f ks).subset hq)
        (fun h => hnd.2.2 (nodesOf_addrs_subset k P hP _ hin) h)
    · exact absurd (nodesOfL_addrs_subset ks P hP _ hin)
        (fun h => hnd.2.2 ((topInstances_sublist f k).subset hq) h)
    · exact top_not_belowL f ks hnd.2.1 P hP hf q hq hin
end

/-- Nodes with an address for which `P` holds keep the addresses of their
children when a subtree is replaced by one that keeps them. -/
theorem plug_nodes_corr_pred (P : Nat → Prop) : ∀ (C : List Frame) (t t' : ITree),
    t'.addr = t.addr →
    (∀ q ∈ nodesOf t, P q.addr → ∃ q' ∈ nodesOf t', q'.addr = q.addr ∧
      q'.kids.map ITree.addr = q.kids.map ITree.addr) →
    ∀ q ∈ nodesOf (plug C t), P q.addr → ∃ q' ∈ nodesOf (plug C t'), q'.addr = q.addr ∧
      q'.kids.map ITree.addr = q.kids.map ITree.addr := by
  intro C
  induction C with
  | nil => intro t t' _ h; exact h
  | cons fr C ih =>
    intro t t' hta h
    refine ih (fr.fill t) (fr.fill t') rfl ?_
    intro q hq hP
    simp only [Frame.fill, nodesOf, nodesOfL_append, nodesOfL, List.mem_cons, List.mem_append]
      at hq ⊢
    rcases hq with rfl | hq | hq | hq
    · exact ⟨_, Or.inl rfl, rfl, by simp [hta]⟩
    · exact ⟨q, Or.inr (Or.inl hq), rfl, rfl⟩
    · obtain ⟨q', hq', h1, h2⟩ := h q hq hP
      exact ⟨q', Or.inr (Or.inr (Or.inl hq')), h1, h2⟩
    · exact ⟨q, Or.inr (Or.inr (Or.inr hq)), rfl, rfl⟩

/-! ## Adding and copying instances inside a tree -/

theorem TreeOK_lt_brk {w : World} {T : ITree} (hok : TreeOK w T) {a : Nat}
    (ha : a ∈ T.addrs) : a < w.brk := by
  obtain ⟨c, hc⟩ := Sat_mem_addrs hok.1 ha
  by_contra hlt
  rw [hok.2.2 a (by omega)] at hc
  exact absurd hc (by simp)

/-- Adding a new child without range to an instance inside a tree. -/
theorem add_child_tree (X : Externals) (k0 : Nat) (w : World) (C : List Frame) (pa : Nat)
    (pn : Str) (pf : Option Nat) (prg : Option vector_width) (pnd : Bool) (K : List ITree)
    (child : Option Nat) (nm : Str) (fuel : Nat)
    (hok : TreeOK w (plug C (.node pa pn pf prg pnd K)))
    (hname : nm ∉ K.map ITree.name) (hfuel : K.length + 1 ≤ fuel) :
    ∃ w1, instance_add_child (instance_resolve_inst X (k0 + 1)) fuel w (some pa) child nm
        none true = .ok (w1, some w.brk) ∧
      TreeOK w1 (plug C (.node pa pn pf prg pnd
        (K ++ [.node w.brk nm child none false []]))) ∧
      w1.brk = w.brk + 1 ∧ w1.funit = w.funit ∧ w1.inst_head = w.inst_head := by
  obtain ⟨hs, hnd, hheap⟩ := hok
  obtain ⟨ps, nxs, hP, hrep⟩ := plug_Sat w.inst C _ none none hs
  have hperm := plug_addrs_perm C (.node pa pn pf prg pnd K)
  have hnd2 : ((ITree.node pa pn pf prg pnd K).addrs ++ ctxAddrs C).Nodup :=
    hperm.nodup_iff.1 hnd
  have hlt : ∀ a ∈ (ITree.node pa pn pf prg pnd K).addrs ++ ctxAddrs C, a < w.brk :=
    fun a ha => TreeOK_lt_brk ⟨hs, hnd, hheap⟩ (hperm.mem_iff.2 ha)
  have hndP : (pa :: ITree.addrsL K).Nodup := by
    have := hnd2.of_append_left
    simpa [ITree.addrs] using this
  have hfresh : ∀ a ∈ pa :: ITree.addrsL K, a < w.brk := by
    intro a ha
    exact hlt a (List.mem_append_left _ (by simpa [ITree.addrs] using ha))
  obtain ⟨w1, hadd, hs1, hframe, hbrk, hfu, hih⟩ :=
    instance_add_child_spec (instance_resolve_inst X (k0 + 1)) w pa pn pf prg pnd K ps nxs
      child nm none true fuel hP hndP hfresh hname
      (fun w' r x c hc hr => resolve_inst_no_range X k0 w' (some r) x c hc hr) (fun _ => rfl)
      hfuel
  have hctxframe : ∀ x ∈ ctxAddrs C, w1.inst x = w.inst x := by
    intro x hx
    have hxP : x ∉ (ITree.node pa pn pf prg pnd K).addrs := fun hin =>
      (List.nodup_append.1 hnd2).2.2 hin hx
    simp only [ITree.addrs, List.mem_cons, not_or] at hxP
    have := hlt x (List.mem_append_right _ hx)
    exact hframe x hxP.1 hxP.2 (by omega)
  refine ⟨w1, hadd, ⟨hrep w1.inst _ rfl hs1 hctxframe, ?_, ?_⟩, hbrk, hfu, hih⟩
  · refine (plug_addrs_perm C _).nodup_iff.2 ?_
    have hp2 : ((ITree.node pa pn pf prg pnd
        (K ++ [ITree.node w.brk nm child none false []])).addrs ++ ctxAddrs C).Perm
        (w.brk :: ((ITree.node pa pn pf prg pnd K).addrs ++ ctxAddrs C)) := by
      refine List.perm_iff_count.2 fun x => ?_
      simp only [ITree.addrs, ITree.addrsL_append, ITree.addrsL, List.count_append,
        List.count_cons, List.cons_append, List.count_nil, List.append_nil]
      omega
    refine hp2.nodup_iff.2 (List.nodup_cons.2 ⟨?_, hnd2⟩)
    intro hin
    have := hlt _ hin
    omega
  · intro x hx
    rw [hbrk] at hx
    have hxP : x ∉ (ITree.node pa pn pf prg pnd K).addrs := fun hin => by
      have := hlt x (List.mem_append_left _ hin); omega
    simp only [ITree.addrs, List.mem_cons, not_or] at hxP
    rw [hframe x hxP.1 hxP.2 (by omega)]
    exact hheap x (by omega)

/-- `instance_add_child` adds nothing when a child of that name exists. -/
theorem add_child_tree_exists
    (rr : World → Option Nat → Option Nat → Except Fault (World × Bool)) (w : World)
    (C : List Frame) (pa : Nat) (pn : Str) (pf : Option Nat) (prg : Option vector_width)
    (pnd : Bool) (K : List ITree) (child : Option Nat) (nm : Str) (range : Option vector_width)
    (resolve : Bool) (fuel : Nat)
    (hs : Sat w.inst (cells (plug C (.node pa pn pf prg pnd K)) none none))
    (hname : nm ∈ K.map ITree.name) (hfuel : K.length + 1 ≤ fuel) :
    instance_add_child rr fuel w (some pa) child nm range resolve = .ok (w, none) := by
  obtain ⟨ps, nxs, hP, -⟩ := plug_Sat w.inst C _ none none hs
  have hroot := Sat_root hP
  have hK := Sat_kids hP
  simp only [ITree.addr_node, ITree.kids_node] at hroot hK
  have hfind := find_child_by_name_spec w nm (some pa) K fuel hK hfuel
  obtain ⟨pre, c, post, hsp⟩ := splitAtName_of_mem hname
  rw [hsp] at hfind
  simp only [instance_add_child, World.load_eq hroot, Except.ok_bind, rootCell,
    ITree.kids_node, hfind, Option.map_some']
  rfl

/-- The heap cell of a child of a node of the tree. -/
theorem kid_cell {h : Heap} {T S : ITree} (hs : Sat h (cells T none none)) (hS : S ∈ nodesOf T)
    {done cs : List ITree} {c : ITree} (hk : S.kids = done ++ c :: cs) :
    h c.addr = some (rootCell c (some S.addr) (headAddrOr none cs)) := by
  obtain ⟨p', nx', hSc⟩ := cells_of_node T none none S hs hS
  have hK := Sat_kids hSc
  rw [hk] at hK
  simp only [cellsL_append, cellsL, Sat_append] at hK
  exact Sat_root hK.2.1

theorem node_cell {h : Heap} {T S : ITree} (hs : Sat h (cells T none none)) (hS : S ∈ nodesOf T) :
    ∃ p nx, h S.addr = some (rootCell S p nx) := by
  obtain ⟨p', nx', hSc⟩ := cells_of_node T none none S hs hS
  exact ⟨p', nx', Sat_root hSc⟩

/-- `instance_copy` adds nothing when a child of that name exists. -/
theorem copy_tree_exists
    (rr : World → Option Nat → Option Nat → Except Fault (World × Bool)) (w : World)
    (C : List Frame) (pa : Nat) (pn : Str) (pf : Option Nat) (prg : Option vector_width)
    (pnd : Bool) (K : List ITree) (S : ITree) (nm : Str) (range : Option vector_width)
    (resolve : Bool) (fuel : Nat)
    (hs : Sat w.inst (cells (plug C (.node pa pn pf prg pnd K)) none none))
    (hS : S ∈ nodesOf (plug C (.node pa pn pf prg pnd K)))
    (hname : nm ∈ K.map ITree.name) (hfuel : K.length + 2 ≤ fuel) :
    instance_copy rr fuel w (some S.addr) (some pa) nm range resolve = .ok w := by
  obtain ⟨k, rfl⟩ : ∃ k, fuel = k + 1 := ⟨fuel - 1, by omega⟩
  obtain ⟨p, nx, hc⟩ := node_cell hs hS
  have hadd := add_child_tree_exists rr w C pa pn pf prg pnd K S.funit nm range resolve k hs
    hname (by omega)
  simp only [instance_copy, reduceCtorEq, if_false, World.load_eq hc, Except.ok_bind, rootCell,
    hadd]
  rfl

theorem plug_frame (C : List Frame) (pa : Nat) (pn : Str) (pf : Option Nat)
    (prg : Option vector_width) (pnd : Bool) (K : List ITree) (t : ITree) :
    plug (⟨pa, pn, pf, prg, pnd, K, []⟩ :: C) t = plug C (.node pa pn pf prg pnd (K ++ [t])) :=
  rfl

/-- Copying a subtree without ranges below a node of the tree: the copy `N`
becomes the last child of the node. -/
theorem copy_tree (X : Externals) (k0 : Nat) :
    ∀ (n : Nat) (S : ITree), S.size ≤ n →
    ∀ (w : World) (C : List Frame) (pa : Nat) (pn : Str) (pf : Option Nat)
      (prg : Option vector_width) (pnd : Bool) (K : List ITree) (nm : Str) (fuel : Nat),
      TreeOK w (plug C (.node pa pn pf prg pnd K)) →
      S ∈ nodesOf (plug C (.node pa pn pf prg pnd K)) → pa ∉ S.addrs →
      (∀ d ∈ nodesOfL S.kids, d.range = none) →
      nm ∉ K.map ITree.name → K.length + S.size + 2 ≤ fuel →
      ∃ w1 N, instance_copy (instance_resolve_inst X (k0 + 1)) fuel w (some S.addr) (some pa) nm
          none true = .ok w1 ∧
        TreeOK w1 (plug C (.node pa pn pf prg pnd (K ++ [N]))) ∧
        N.addr = w.brk ∧ N.name = nm ∧ N.funit = S.funit ∧
        (∀ d ∈ nodesOf N, d.range = none) ∧ (∀ a ∈ N.addrs, w.brk ≤ a) ∧ N.size ≤ S.size ∧
        w1.brk = w.brk + N.size ∧ w1.funit = w.funit ∧ w1.inst_head = w.inst_head := by
  intro n
  induction n with
  | zero =>
    intro S hn
    have := S.size_pos
    omega
  | succ n ih =>
    intro S hn w C pa pn pf prg pnd K nm fuel hok hS hpa hnr hname hfuel
    obtain ⟨k, rfl⟩ : ∃ k, fuel = k + 1 := ⟨fuel - 1, by omega⟩
    obtain ⟨sa, sn, sf, sr, sd, SK⟩ := S
    simp only [ITree.kids_node, ITree.addr_node, ITree.funit_node, ITree.size] at hnr hn hfuel ⊢
    obtain ⟨p, nx, hc⟩ := node_cell hok.1 hS
    obtain ⟨w1, hadd, hok1, hb1, hf1, hi1⟩ :=
      add_child_tree X k0 w C pa pn pf prg pnd K sf nm k hok hname (by omega)
    have hS1 := graft_nodes_keep C pa pn pf prg pnd K (.node w.brk nm sf none false []) _ hS hpa
    obtain ⟨p1, nx1, hc1⟩ := node_cell hok1.1 hS1
    have hSlt : ∀ a ∈ (ITree.node sa sn sf sr sd SK).addrs, a < w.brk :=
      fun a ha => TreeOK_lt_brk hok (nodesOf_addrs_subset _ _ hS a ha)
    have hbS : w.brk ∉ (ITree.node sa sn sf sr sd SK).addrs := fun h => by
      have := hSlt _ h; omega
    have loop : ∀ (cs done Kc : List ITree) (w' : World) (j : Nat), SK = done ++ cs →
        TreeOK w' (plug C (.node pa pn pf prg pnd (K ++ [.node w.brk nm sf none false Kc]))) →
        ITree.node sa sn sf sr sd SK ∈
          nodesOf (plug C (.node pa pn pf prg pnd (K ++ [.node w.brk nm sf none false Kc]))) →
        Kc.length ≤ done.length → ITree.sizeL Kc ≤ ITree.sizeL done →
        (∀ d ∈ nodesOfL Kc, d.range = none) → (∀ a ∈ ITree.addrsL Kc, w.brk ≤ a) →
        w'.brk = w.brk + 1 + ITree.sizeL Kc → cs.length + 1 ≤ j →
        ∃ w2 Kc', instance_copy_loop
            (fun v curr => do
              let c ← v.load curr
              instance_copy (instance_resolve_inst X (k0 + 1)) k v curr (some w.brk) c.name
                c.range true) j w' (headAddrOr none cs) = .ok w2 ∧
          TreeOK w2 (plug C (.node pa pn pf prg pnd
            (K ++ [.node w.brk nm sf none false Kc']))) ∧
          ITree.sizeL Kc' ≤ ITree.sizeL SK ∧ (∀ d ∈ nodesOfL Kc', d.range = none) ∧
          (∀ a ∈ ITree.addrsL Kc', w.brk ≤ a) ∧ w2.brk = w.brk + 1 + ITree.sizeL Kc' ∧
          w2.funit = w'.funit ∧ w2.inst_head = w'.inst_head := by
      intro cs
      induction cs with
      | nil =>
        intro done Kc w' j hSK hok' _ _ hsz hnr' hfr hbrk hj
        obtain ⟨j', rfl⟩ : ∃ j', j = j' + 1 := ⟨j - 1, by omega⟩
        refine ⟨w', Kc, rfl, hok', ?_, hnr', hfr, hbrk, rfl, rfl⟩
        rw [hSK, List.append_nil]
        exact hsz
      | cons c cs' ih2 =>
        intro done Kc w' j hSK hok' hS' hlen hsz hnr' hfr hbrk hj
        obtain ⟨j', rfl⟩ : ∃ j', j = j' + 1 := ⟨j - 1, by omega⟩
        have hk : (ITree.node sa sn sf sr sd SK).kids = done ++ c :: cs' := hSK
        have hcell := kid_cell hok'.1 hS' hk
        have hcSK : c ∈ SK := by rw [hSK]; simp
        have hcn : c ∈ nodesOf (ITree.node sa sn sf sr sd SK) :=
          nodesOf_subset_of_kid (t := ITree.node sa sn sf sr sd SK) hcSK c (mem_nodesOf_self c)
        have hcr : c.range = none := hnr c (mem_nodesOfL_iff.2 ⟨c, hcSK, mem_nodesOf_self c⟩)
        have hcsz := ITree.size_le_sizeL hcSK
        have hszSK : ITree.sizeL SK = ITree.sizeL done + (c.size + ITree.sizeL cs') := by
          rw [hSK, ITree.sizeL_append]
          simp [ITree.sizeL]
        have hlen' := ITree.length_le_sizeL done
        have hcT := nodesOf_closed _ _ c hS' hcn
        have hbc : w.brk ∉ c.addrs := fun h => hbS (nodesOf_addrs_subset _ _ hcn _ h)
        have hnrc : ∀ d ∈ nodesOfL c.kids, d.range = none := by
          intro d hd
          refine hnr d (mem_nodesOfL_iff.2 ⟨c, hcSK, ?_⟩)
          rw [nodesOf_eq]
          exact List.mem_cons_of_mem _ hd
        have hsz1 : ITree.sizeL (done ++ [c]) = ITree.sizeL done + c.size := by
          rw [ITree.sizeL_append]
          simp [ITree.sizeL]
        have hSK1 : SK = (done ++ [c]) ++ cs' := by rw [hSK]; simp
        simp only [headAddrOr_cons, instance_copy_loop, World.load_eq hcell, Except.ok_bind,
          rootCell, hcr]
        by_cases hin : c.name ∈ Kc.map ITree.name
        · have hcp := copy_tree_exists (instance_resolve_inst X (k0 + 1)) w'
            (⟨pa, pn, pf, prg, pnd, K, []⟩ :: C) w.brk nm sf none false Kc c c.name none true k
            hok'.1 hcT hin (by omega)
          rw [hcp]
          simp only [Except.ok_bind, World.load_eq hcell, rootCell]
          exact ih2 (done ++ [c]) Kc w' j' hSK1 hok' hS' (by simp; omega) (by omega) hnr' hfr
            hbrk (by simp at hj; omega)
        · obtain ⟨w2, N, hcp, hok2, hNa, hNn, hNf, hNr, hNfr, hNs, hb2, hf2, hi2⟩ :=
            ih c (by omega) w' (⟨pa, pn, pf, prg, pnd, K, []⟩ :: C) w.brk nm sf none false Kc
              c.name k hok' hcT hbc hnrc hin (by omega)
          rw [hcp]
          have hS2 := graft_nodes_keep (⟨pa, pn, pf, prg, pnd, K, []⟩ :: C) w.brk nm sf none
            false Kc N _ hS' hbS
          have hcell2 := kid_cell hok2.1 hS2 hk
          simp only [Except.ok_bind, World.load_eq hcell2, rootCell]
          obtain ⟨w3, Kc', hrun, hok3, h1, h2, h3, h4, h5, h6⟩ :=
            ih2 (done ++ [c]) (Kc ++ [N]) w2 j' hSK1 hok2 hS2 (by simp; omega)
              (by rw [ITree.sizeL_append]; simp [ITree.sizeL]; omega)
              (by
                intro d hd
                rw [nodesOfL_append] at hd
                rcases List.mem_append.1 hd with hd | hd
                · exact hnr' d hd
                · exact hNr d (by simpa [nodesOfL] using hd))
              (by
                intro a ha
                rw [ITree.addrsL_append] at ha
                rcases List.mem_append.1 ha with ha | ha
                · exact hfr a ha
                · have := hNfr a (by simpa [ITree.addrsL] using ha)
                  omega)
              (by rw [hb2, hbrk, ITree.sizeL_append]; simp [ITree.sizeL]; omega)
              (by simp at hj; omega)
          exact ⟨w3, Kc', hrun, hok3, h1, h2, h3, h4, by rw [h5, hf2], by rw [h6, hi2]⟩
    obtain ⟨w2, Kc', hrun, hok2, h1, h2, h3, h4, h5, h6⟩ :=
      loop SK [] [] w1 k rfl hok1 hS1 (le_refl _) (le_refl _) (by simp [nodesOfL])
        (by simp [ITree.addrsL]) (by rw [hb1]; simp [ITree.sizeL])
        (by have := ITree.length_le_sizeL SK; omega)
    refine ⟨w2, .node w.brk nm sf none false Kc', ?_, hok2, rfl, rfl, rfl, ?_, ?_, ?_, ?_,
      by rw [h5, hf1], by rw [h6, hi1]⟩
    · simp only [ITree.addr_node] at hc hc1
      simp only [instance_copy, reduceCtorEq, if_false, World.load_eq hc, Except.ok_bind,
        rootCell, ITree.funit_node, hadd, World.load_eq hc1, ITree.kids_node]
      exact hrun
    · intro d hd
      simp only [nodesOf, List.mem_cons] at hd
      rcases hd with rfl | hd
      · rfl
      · exact h2 d hd
    · intro a ha
      simp only [ITree.addrs, List.mem_cons] at ha
      rcases ha with rfl | ha
      · exact le_refl _
      · exact h3 a ha
    · simp only [ITree.size]
      omega
    · simp only [ITree.size]
      omega

/-! ## The invariant of array resolution -/

/-- The instances that the search reaches after a subtree `N` has become the
last child of a node: the former ones, with instances of `N` put in
somewhere. -/
theorem topInstances_graft (f : Option Nat) (q : Nat) (qn : Str) (qf : Option Nat)
    (qr : Option vector_width) (qd : Bool) (K : List ITree) (N : ITree) :
    ∀ (C : List Frame), ∃ X Y ins,
      topInstances f (plug C (.node q qn qf qr qd K)) = X ++ Y ∧
      topInstances f (plug C (.node q qn qf qr qd (K ++ [N]))) = X ++ ins ++ Y ∧
      ∀ a ∈ ins, a ∈ N.addrs := by
  have hgen : ∀ (C : List Frame) (t t' : ITree),
      (∃ X Y ins, topInstances f t = X ++ Y ∧ topInstances f t' = X ++ ins ++ Y ∧
        ∀ a ∈ ins, a ∈ N.addrs) →
      ∃ X Y ins, topInstances f (plug C t) = X ++ Y ∧
        topInstances f (plug C t') = X ++ ins ++ Y ∧ ∀ a ∈ ins, a ∈ N.addrs := by
    intro C
    induction C with
    | nil => intro t t' h; exact h
    | cons fr C ih =>
      intro t t' h
      refine ih (fr.fill t) (fr.fill t') ?_
      obtain ⟨X, Y, ins, h1, h2, h3⟩ := h
      simp only [Frame.fill, topInstances, topInstancesL_append, topInstancesL]
      by_cases hfu : fr.funit = f
      · exact ⟨[fr.addr], [], [], by simp [hfu], by simp [hfu], by simp⟩
      · refine ⟨topInstancesL f fr.pre ++ X, Y ++ topInstancesL f fr.post, ins, ?_, ?_, h3⟩
        · simp [hfu, h1]
        · simp [hfu, h2]
  intro C
  refine hgen C _ _ ?_
  simp only [topInstances, topInstancesL_append, topInstancesL]
  by_cases hfu : qf = f
  · exact ⟨[q], [], [], by simp [hfu], by simp [hfu], by simp⟩
  · refine ⟨topInstancesL f K, [], topInstances f N, by simp [hfu], by simp [hfu], ?_⟩
    exact fun a ha => (topInstances_sublist f N).subset ha

/-- The first instance that the search reaches after a subtree `N` has become
the last child of a node: the former one or an instance of `N`. -/
theorem topInstances_graft_head (f : Option Nat) (q : Nat) (qn : Str) (qf : Option Nat)
    (qr : Option vector_width) (qd : Bool) (K : List ITree) (N : ITree) (C : List Frame) :
    ∀ a ∈ (topInstances f (plug C (.node q qn qf qr qd (K ++ [N])))).head?,
      a ∈ (topInstances f (plug C (.node q qn qf qr qd K))).head? ∨ a ∈ N.addrs := by
  obtain ⟨X, Y, ins, h1, h2, h3⟩ := topInstances_graft f q qn qf qr qd K N C
  rw [h1, h2]
  intro a ha
  cases X with
  | cons x X => left; simpa using ha
  | nil =>
    cases ins with
    | cons i ins =>
      right
      simp only [List.nil_append, List.cons_append, List.head?_cons, Option.mem_def,
        Option.some.injEq] at ha
      exact h3 a (by rw [← ha]; exact List.mem_cons_self _ _)
    | nil => left; simpa using ha

theorem CopyInv_replace (gc : Nat) (tops : List Nat) (B s0 brk0 : Nat) (C : List Frame)
    (t t' : ITree)
    (hinv : CopyInv gc tops B s0 brk0 (plug C t))
    (hnew : ∀ Q' ∈ nodesOf t', Q'.funit = some gc → (Q'.addr = s0 ∨ brk0 ≤ Q'.addr) →
      Q' ∈ nodesOf (plug C t) ∨
      ((∀ d ∈ nodesOfL Q'.kids, d.range = none) ∧ (∀ a ∈ tops, a ∉ Q'.addrs) ∧ Q'.size ≤ B))
    (habove : ∀ Q ∈ nodesOf (plug C t), Q.funit = some gc → (Q.addr = s0 ∨ brk0 ≤ Q.addr) →
      t ∉ nodesOfL Q.kids)
    (hhead : ∀ a ∈ (topInstances (some gc) (plug C t')).head?, a = s0 ∨ brk0 ≤ a) :
    CopyInv gc tops B s0 brk0 (plug C t') := by
  refine ⟨?_, hhead⟩
  intro Q' hQ' hf hg
  rcases plug_nodes_cases C t t' Q' hQ' with h | h | ⟨Q, hQ, h1, h2, h3⟩
  · rcases hnew Q' h hf hg with h | h
    · exact hinv.1 Q' h hf hg
    · exact h
  · exact hinv.1 Q' h hf hg
  · exact absurd h3 (habove Q hQ (h2.trans hf) (by rw [h1]; exact hg))

theorem mem_addrs_of_mem_nodesOfL_kids {Q t : ITree} (h : t ∈ nodesOfL Q.kids) :
    t.addr ∈ Q.addrs := by
  rw [ITree.addrs_eq]
  exact List.mem_cons_of_mem _ (nodesOfL_addrs_subset Q.kids t h _ (ITree.addr_mem_addrs t))

theorem CopyInv_graft (gc : Nat) (tops : List Nat) (B s0 brk0 : Nat) (C : List Frame) (q : Nat)
    (qn : Str) (qf : Option Nat) (qr : Option vector_width) (qd : Bool) (K : List ITree)
    (N : ITree) (brk : Nat)
    (hinv : CopyInv gc tops B s0 brk0 (plug C (.node q qn qf qr qd K)))
    (hq : q ∈ tops) (hNr : ∀ d ∈ nodesOf N, d.range = none) (hNfr : ∀ a ∈ N.addrs, brk ≤ a)
    (htops : ∀ a ∈ tops, a < brk) (hNs : N.size ≤ B) (hb : brk0 ≤ brk) :
    CopyInv gc tops B s0 brk0 (plug C (.node q qn qf qr qd (K ++ [N]))) := by
  refine CopyInv_replace gc tops B s0 brk0 C _ _ hinv ?_ ?_ ?_
  · intro Q' hQ' hf hg
    simp only [nodesOf, List.mem_cons, nodesOfL_append, List.mem_append, nodesOfL,
      List.append_nil] at hQ'
    rcases hQ' with rfl | hQ' | hQ'
    · exfalso
      have := (hinv.1 (.node q qn qf qr qd K) (nodesOf_plug C _ _ (mem_nodesOf_self _)) hf
        hg).2.1 q hq
      exact this (by simp [ITree.addrs])
    · refine Or.inl (nodesOf_plug C _ _ ?_)
      simp only [nodesOf, List.mem_cons]
      exact Or.inr hQ'
    · refine Or.inr ⟨?_, ?_, ?_⟩
      · intro d hd
        refine hNr d (nodesOf_closed N Q' d hQ' ?_)
        rw [nodesOf_eq]
        exact List.mem_cons_of_mem _ hd
      · intro a ha hin
        have h1 := hNfr a (nodesOf_addrs_subset N Q' hQ' a hin)
        have h2 := htops a ha
        omega
      · have := nodesOf_size_le N Q' hQ'
        omega
  · intro Q hQ hf hg hin
    exact (hinv.1 Q hQ hf hg).2.1 q hq (mem_addrs_of_mem_nodesOfL_kids hin)
  · intro a ha
    rcases topInstances_graft_head (some gc) q qn qf qr qd K N C a ha with h | h
    · exact hinv.2 a h
    · right
      have := hNfr a h
      omega

theorem LoopInv_tops_lt {gp gc : Nat} {P M : Prop} {tops : List Nat} {B s0 brk0 root : Nat}
    {S T0 : ITree} {w : World} {T : ITree} (h : LoopInv gp gc P M tops B s0 brk0 root S T0 w T) :
    ∀ a ∈ tops, a < w.brk := by
  intro a ha
  rw [← h.tops_eq] at ha
  exact TreeOK_lt_brk h.ok ((topInstances_sublist (some gp) T).subset ha)

/-- One step of the loops: a new subtree `N` becomes the last child of the
instance at `q`, one of the instances of `gp` that the search reaches. -/
theorem LoopInv_graft {gp gc : Nat} {P M : Prop} {tops : List Nat} {B s0 brk0 root : Nat}
    {S T0 : ITree} {w w1 : World} (C : List Frame) (q : Nat) (qn : Str) (qr : Option vector_width)
    (qd : Bool) (K : List ITree) (N : ITree)
    (h : LoopInv gp gc P M tops B s0 brk0 root S T0 w (plug C (.node q qn (some gp) qr qd K)))
    (hq : q ∈ tops)
    (hok1 : TreeOK w1 (plug C (.node q qn (some gp) qr qd (K ++ [N]))))
    (hNr : ∀ d ∈ nodesOf N, d.range = none) (hNfr : ∀ a ∈ N.addrs, w.brk ≤ a)
    (hNs : N.size ≤ B) (hb : brk0 ≤ w.brk) :
    LoopInv gp gc P M tops B s0 brk0 root S T0 w1
      (plug C (.node q qn (some gp) qr qd (K ++ [N]))) := by
  refine ⟨hok1, ?_, ?_, ?_, ?_, ?_⟩
  · rw [← h.addr]
    exact plug_addr_congr C _ _ rfl
  · rw [← h.tops_eq]
    exact topInstances_plug_congr (some gp) C _ _ (by simp [topInstances])
  · intro hP
    exact CopyInv_graft gc tops B s0 brk0 C q qn (some gp) qr qd K N w.brk (h.inv hP) hq hNr hNfr
      (LoopInv_tops_lt h) hNs hb
  · intro hM
    obtain ⟨hP, hS, hSf, hSg⟩ := h.src hM
    exact ⟨hP, graft_nodes_keep C q qn (some gp) qr qd K N S hS
      (((h.inv hP).1 S hS hSf hSg).2.1 q hq), hSf, hSg⟩
  · intro Q hQ hQt
    obtain ⟨Q', hQ', h1, h2⟩ := h.corr Q hQ hQt
    obtain ⟨Q'', hQ'', h3, h4⟩ := plug_nodes_corr_pred (fun a => a ∉ tops) C
      (.node q qn (some gp) qr qd K) (.node q qn (some gp) qr qd (K ++ [N])) rfl
      (by
        intro x hx hxt
        simp only [nodesOf, List.mem_cons] at hx
        rcases hx with rfl | hx
        · exact absurd hq hxt
        · exact ⟨x, by simp [nodesOf, nodesOfL_append, hx], rfl, rfl⟩)
      Q' hQ' (by rw [h1]; exact hQt)
    exact ⟨Q'', hQ'', h3.trans h1, h4.trans h2⟩

theorem LoopInv_forget {gp gc : Nat} {P M : Prop} {tops : List Nat} {B s0 brk0 root : Nat}
    {S T0 : ITree} {w : World} {T : ITree} (h : LoopInv gp gc P M tops B s0 brk0 root S T0 w T)
    (S' : ITree) : LoopInv gp gc P False tops B s0 brk0 root S' T0 w T :=
  ⟨h.ok, h.addr, h.tops_eq, h.inv, fun hf => absurd hf id, h.corr⟩

theorem LoopInv_source {gp gc : Nat} {P M : Prop} {tops : List Nat} {B s0 brk0 root : Nat}
    {S T0 : ITree} {w : World} {T : ITree} (h : LoopInv gp gc P M tops B s0 brk0 root S T0 w T)
    (S' : ITree) (hP : P) (hS : S' ∈ nodesOf T) (hf : S'.funit = some gc)
    (hg : S'.addr = s0 ∨ brk0 ≤ S'.addr) :
    LoopInv gp gc P True tops B s0 brk0 root S' T0 w T :=
  ⟨h.ok, h.addr, h.tops_eq, h.inv, fun _ => ⟨hP, hS, hf, hg⟩, h.corr⟩

/-- The loops of `instance_parse_add` over the instances of the functional
unit `gp` that the search reaches: `L` is the loop, `op` what it does at one
instance.  Every instance in `tops` is visited once, in order; the instance
`pa`, which has no child named `nm`, gets a new last child `N` of that name. -/
theorem tops_loop (gp gc : Nat) (P M : Prop) (tops : List Nat) (B root : Nat) (S T0 : ITree)
    (nm : Str) (fuel brk0 s0 : Nat)
    (L : Nat → World → Int → Int → Except Fault (World × Int))
    (op : World → Option Nat → Except Fault World)
    (hL : ∀ (k : Nat) (w : World) (i : Nat) (r : Option Nat) (ig : Int),
      instance_find_by_funit fuel w (some root) (some gp) (i : Int) = .ok (r, ig) →
      L (k + 1) w i i = (match r with
        | none => .ok (w, (i : Int))
        | some q => (op w (some q)) >>= fun w' =>
            L k w' ((i + 1 : Nat) : Int) ((i + 1 : Nat) : Int)))
    (hop : ∀ (w : World) (C : List Frame) (q : Nat) (qn : Str) (qr : Option vector_width)
      (qd : Bool) (K : List ITree),
      LoopInv gp gc P M tops B s0 brk0 root S T0 w (plug C (.node q qn (some gp) qr qd K)) → q ∈ tops →
      (plug C (.node q qn (some gp) qr qd K)).size + B + 3 ≤ fuel →
      (nm ∈ K.map ITree.name → op w (some q) = .ok w) ∧
      (nm ∉ K.map ITree.name → ∃ w1 N, op w (some q) = .ok w1 ∧
        TreeOK w1 (plug C (.node q qn (some gp) qr qd (K ++ [N]))) ∧ N.name = nm ∧
        N.funit = some gc ∧ (∀ d ∈ nodesOf N, d.range = none) ∧ (∀ a ∈ N.addrs, w.brk ≤ a) ∧
        N.size ≤ B ∧ w.brk ≤ w1.brk ∧ w1.funit = w.funit ∧ w1.inst_head = w.inst_head))
    (pa : Nat) (pn : Str) (prg : Option vector_width) (pnd : Bool) (Kp : List ITree) (j : Nat)
    (hj : tops[j]? = some pa) (hnd : tops.Nodup) (hnm : nm ∉ Kp.map ITree.name) :
    ∀ (d i : Nat) (w : World) (T : ITree) (k : Nat), i + d = tops.length →
      LoopInv gp gc P M tops B s0 brk0 root S T0 w T →
      (i ≤ j → ITree.node pa pn (some gp) prg pnd Kp ∈ nodesOf T) →
      (j < i → ∃ N, ITree.node pa pn (some gp) prg pnd (Kp ++ [N]) ∈ nodesOf T ∧ N.name = nm ∧
        N.funit = some gc ∧ N.range = none ∧ brk0 ≤ N.addr) →
      T.size + d * B + B + 3 ≤ fuel → d + 1 ≤ k → brk0 ≤ w.brk →
      ∃ w' T', L k w i i = .ok (w', (tops.length : Int)) ∧
        LoopInv gp gc P M tops B s0 brk0 root S T0 w' T' ∧
        (∃ N, ITree.node pa pn (some gp) prg pnd (Kp ++ [N]) ∈ nodesOf T' ∧ N.name = nm ∧
          N.funit = some gc ∧ N.range = none ∧ brk0 ≤ N.addr) ∧
        T'.size ≤ T.size + d * B ∧ w.brk ≤ w'.brk ∧ w'.funit = w.funit ∧
        w'.inst_head = w.inst_head := by
  have hjlt : j < tops.length := by
    by_contra hge
    rw [List.getElem?_eq_none (by omega)] at hj
    exact absurd hj (by simp)
  intro d
  induction d with
  | zero =>
    intro i w T k hi h hP hP' hf hk hb
    obtain ⟨k', rfl⟩ : ∃ k', k = k' + 1 := ⟨k - 1, by omega⟩
    have hfind := find_by_funit_refines w (some gp) T.size T none none fuel i (le_refl _) h.ok.1
      (by omega)
    rw [h.addr, findFunitT_nth, h.tops_eq, List.getElem?_eq_none (by omega)] at hfind
    have hrun := hL k' w i none _ hfind
    simp only at hrun
    have hi' : i = tops.length := by omega
    refine ⟨w, T, ?_, h, hP' (by omega), by omega, le_refl _, rfl, rfl⟩
    rw [hrun, hi']
  | succ d ih =>
    intro i w T k hi h hP hP' hf hk hb
    obtain ⟨k', rfl⟩ : ∃ k', k = k' + 1 := ⟨k - 1, by omega⟩
    have hilt : i < tops.length := by omega
    have hmul : (d + 1) * B = d * B + B := Nat.succ_mul d B
    have hfind := find_by_funit_refines w (some gp) T.size T none none fuel i (le_refl _) h.ok.1
      (by omega)
    have hqi : tops[i]? = some tops[i] := List.getElem?_eq_getElem hilt
    rw [h.addr, findFunitT_nth, h.tops_eq, hqi] at hfind
    have hrun := hL k' w i (some tops[i]) _ hfind
    simp only at hrun
    have hq : tops[i] ∈ tops := List.getElem_mem hilt
    have hq' : tops[i] ∈ topInstances (some gp) T := by rw [h.tops_eq]; exact hq
    obtain ⟨Q, hQ, hQa, hQf⟩ := topInstances_mem_node (some gp) T _ hq'
    obtain ⟨C, hC⟩ := exists_plug T Q hQ
    obtain ⟨q, qn, qf, qr, qd, K⟩ := Q
    simp only [ITree.addr_node, ITree.funit_node] at hQa hQf
    subst hQf
    subst hC
    rw [← hQa] at hrun hq
    have hj' : tops[j] = pa := by
      have := List.getElem?_eq_getElem hjlt
      rw [this] at hj
      exact Option.some.inj hj
    have hij : i ≠ j → q ≠ pa := by
      intro hne he
      have h1 : tops[i] = tops[j] := by rw [hj', ← hQa, he]
      exact hne ((List.Nodup.getElem_inj_iff hnd).1 h1)
    have hji : i = j → q = pa := by
      intro he
      subst he
      rw [hQa, hj']
    obtain ⟨hex, hnew⟩ := hop w C q qn qr qd K h hq (by omega)
    by_cases hin : nm ∈ K.map ITree.name
    · rw [hex hin] at hrun
      simp only [Except.ok_bind] at hrun
      have hne : i ≠ j := by
        intro he
        have hPn := hP (by omega)
        have hqpa : q = pa := hji he
        have := nodes_addr_inj _ h.ok.2.1 _ hQ _ hPn (by simp [hqpa])
        simp only [ITree.node.injEq] at this
        rw [this.2.2.2.2.2] at hin
        exact hnm hin
      obtain ⟨w', T', hr, hinv, hN, hsz, hbrk, hfu, hih⟩ :=
        ih (i + 1) w _ k' (by omega) h (fun hle => hP (by omega))
          (fun hlt => hP' (by omega)) (by omega) (by omega) hb
      exact ⟨w', T', by rw [hrun]; exact hr, hinv, hN, by omega, hbrk, hfu, hih⟩
    · obtain ⟨w1, N, hop1, hok1, hNn, hNf, hNr, hNfr, hNs, hb1, hf1, hi1⟩ := hnew hin
      rw [hop1] at hrun
      simp only [Except.ok_bind] at hrun
      have hinv1 := LoopInv_graft C q qn qr qd K N h hq hok1 hNr hNfr hNs hb
      have hsz1 := plug_size_add_kid C q qn (some gp) qr qd K N
      obtain ⟨w', T', hr, hinv, hN, hsz, hbrk, hfu, hih⟩ :=
        ih (i + 1) w1 _ k' (by omega) hinv1
          (fun hle => by
            have hne : i ≠ j := by omega
            refine graft_nodes_keep C q qn (some gp) qr qd K N _ (hP (by omega)) ?_
            intro hin'
            have := top_not_below (some gp) _ h.ok.2.1 _ (hP (by omega)) rfl q
              (by rw [h.tops_eq]; exact hq) hin'
            exact hij hne this)
          (fun hlt => by
            by_cases he : i = j
            · have hPn := hP (by omega)
              have hqpa : q = pa := hji he
              have := nodes_addr_inj _ h.ok.2.1 _ hQ _ hPn (by simp [hqpa])
              simp only [ITree.node.injEq] at this
              obtain ⟨rfl, rfl, -, rfl, rfl, rfl⟩ := this
              exact ⟨N, nodesOf_plug C _ _ (mem_nodesOf_self _), hNn, hNf,
                hNr N (mem_nodesOf_self N), by
                  have := hNfr N.addr (ITree.addr_mem_addrs N)
                  omega⟩
            · obtain ⟨N', hN', h1, h2, h3, h4⟩ := hP' (by omega)
              refine ⟨N', graft_nodes_keep C q qn (some gp) qr qd K N _ hN' ?_, h1, h2, h3, h4⟩
              intro hin'
              have := top_not_below (some gp) _ h.ok.2.1 _ hN' rfl q
                (by rw [h.tops_eq]; exact hq) hin'
              exact hij he this)
          (by omega) (by omega) (by omega)
      exact ⟨w', T', by rw [hrun]; exact hr, hinv, hN, by omega, by omega, by rw [hfu, hf1],
        by rw [hih, hi1]⟩

theorem plug_kids_length (C : List Frame) (q : Nat) (qn : Str) (qf : Option Nat)
    (qr : Option vector_width) (qd : Bool) (K : List ITree) :
    K.length + 1 ≤ (plug C (.node q qn qf qr qd K)).size := by
  rw [plug_size]
  have := ITree.length_le_sizeL K
  simp only [ITree.size]
  omega

theorem parse_add_copy_unfold
    (rr : World → Option Nat → Option Nat → Except Fault (World × Bool)) (fuel : Nat)
    (root parent cinst : Option Nat) (nm : Str) (k : Nat) (w : World) (i : Nat) (r : Option Nat)
    (ig : Int) : instance_find_by_funit fuel w root parent (i : Int) = .ok (r, ig) →
    instance_parse_add_copy rr fuel root parent cinst nm none true false (k + 1) w i i =
      (match r with
        | none => .ok (w, (i : Int))
        | some q => (instance_copy rr fuel w cinst (some q) nm none true) >>= fun w' =>
            instance_parse_add_copy rr fuel root parent cinst nm none true false k w'
              ((i + 1 : Nat) : Int) ((i + 1 : Nat) : Int)) := by
  intro hfind
  have hi : (i : Int) ≥ 0 := by omega
  simp only [instance_parse_add_copy, hi, if_true, hfind, Except.ok_bind, Bool.false_eq_true,
    if_false]
  cases r with
  | none => rfl
  | some q =>
    simp only [Nat.cast_add, Nat.cast_one]

theorem parse_add_new_unfold
    (rr : World → Option Nat → Option Nat → Except Fault (World × Bool)) (fuel : Nat)
    (root parent child : Option Nat) (nm : Str) (k : Nat) (w : World) (i : Nat) (r : Option Nat)
    (ig : Int) : instance_find_by_funit fuel w root parent (i : Int) = .ok (r, ig) →
    instance_parse_add_new rr fuel root parent child nm none true false (k + 1) w i i =
      (match r with
        | none => .ok (w, (i : Int))
        | some q => ((instance_add_child rr fuel w (some q) child nm none true).map
            (fun p => p.1)) >>= fun w' =>
            instance_parse_add_new rr fuel root parent child nm none true false k w'
              ((i + 1 : Nat) : Int) ((i + 1 : Nat) : Int)) := by
  intro hfind
  have hi : (i : Int) ≥ 0 := by omega
  simp only [instance_parse_add_new, hi, if_true, hfind, Except.ok_bind, Bool.false_and,
    Bool.false_eq_true, if_false]
  cases r with
  | none => rfl
  | some q =>
    simp only [Nat.cast_add, Nat.cast_one]
    cases instance_add_child rr fuel w (some q) child nm none true with
    | error e => rfl
    | ok p => rfl

/-- One call of `instance_parse_add` from `instance_resolve_inst`: every
instance of the functional unit `gp` that the search reaches and that has no
child named `nm` gets a new last child of that name, an instance of `gc`
without range; the instance `pa` is one of them. -/
theorem parse_add_call (X : Externals) (k0 : Nat) (gp gc : Nat) (fu : func_unit)
    (tops : List Nat) (B s0 root : Nat) (T0 : ITree) (nm : Str) (brk0 : Nat)
    (pa : Nat) (pn : Str) (prg : Option vector_width) (pnd : Bool) (Kp : List ITree) (j : Nat)
    (hj : tops[j]? = some pa) (hnd : tops.Nodup) (hnm : nm ∉ Kp.map ITree.name) (hB : 1 ≤ B)
    (w : World) (T : ITree) (k : Nat)
    (h : LoopInv gp gc (fu.filename ≠ none) False tops B s0 brk0 root T0 T0 w T)
    (hgc : w.funit gc = some fu)
    (hP : ITree.node pa pn (some gp) prg pnd Kp ∈ nodesOf T)
    (hfuel : T.size + tops.length * B + B + 3 ≤ k) (hb : brk0 ≤ w.brk) :
    ∃ w' T' N, instance_parse_add (instance_resolve_inst X (k0 + 1)) k w (some root) (some gp)
        (some gc) nm none true false = .ok (w', some root, true) ∧
      LoopInv gp gc (fu.filename ≠ none) False tops B s0 brk0 root T0 T0 w' T' ∧
      ITree.node pa pn (some gp) prg pnd (Kp ++ [N]) ∈ nodesOf T' ∧ N.name = nm ∧
      N.funit = some gc ∧ N.range = none ∧ brk0 ≤ N.addr ∧
      T'.size ≤ T.size + tops.length * B ∧ w.brk ≤ w'.brk ∧ w'.funit = w.funit ∧
      w'.inst_head = w.inst_head := by
  have hjlt : j < tops.length := by
    by_contra hge
    rw [List.getElem?_eq_none (by omega)] at hj
    exact absurd hj (by simp)
  have hmB : tops.length ≤ tops.length * B := Nat.le_mul_of_pos_right _ hB
  have hpos : decide ((tops.length : Int) > 0) = true := by
    simp only [decide_eq_true_eq]
    omega
  -- the loop that adds a new instance
  have hnewmode : ∃ w' T', instance_parse_add_new (instance_resolve_inst X (k0 + 1)) k
        (some root) (some gp) (some gc) nm none true false k w 0 0 =
        .ok (w', (tops.length : Int)) ∧
      LoopInv gp gc (fu.filename ≠ none) False tops B s0 brk0 root T0 T0 w' T' ∧
      (∃ N, ITree.node pa pn (some gp) prg pnd (Kp ++ [N]) ∈ nodesOf T' ∧ N.name = nm ∧
        N.funit = some gc ∧ N.range = none ∧ brk0 ≤ N.addr) ∧
      T'.size ≤ T.size + tops.length * B ∧ w.brk ≤ w'.brk ∧ w'.funit = w.funit ∧
      w'.inst_head = w.inst_head := by
    have := tops_loop gp gc (fu.filename ≠ none) False tops B root T0 T0 nm k brk0 s0
      (instance_parse_add_new (instance_resolve_inst X (k0 + 1)) k (some root) (some gp)
        (some gc) nm none true false)
      (fun w inst => (instance_add_child (instance_resolve_inst X (k0 + 1)) k w inst (some gc)
        nm none true).map (fun (p : World × Option Nat) => p.1))
      (fun k' w' i r ig hfind => parse_add_new_unfold _ k (some root) (some gp) (some gc) nm k'
        w' i r ig hfind)
      (by
        intro w' C q qn qr qd K hinv hq hsz
        have hlen := plug_kids_length C q qn (some gp) qr qd K
        refine ⟨fun hin => ?_, fun hin => ?_⟩
        · beta_reduce
          rw [add_child_tree_exists _ w' C q qn (some gp) qr qd K (some gc) nm none true k
            hinv.ok.1 hin (by omega)]
          rfl
        · obtain ⟨w1, hadd, hok1, hb1, hf1, hi1⟩ :=
            add_child_tree X k0 w' C q qn (some gp) qr qd K (some gc) nm k hinv.ok hin (by omega)
          refine ⟨w1, .node w'.brk nm (some gc) none false [], by beta_reduce; rw [hadd]; rfl,
            hok1, rfl, rfl,
            ?_, ?_, ?_, by omega, hf1, hi1⟩
          · intro d hd
            simp only [nodesOf, nodesOfL, List.mem_singleton] at hd
            rw [hd]
            rfl
          · intro a ha
            simp only [ITree.addrs, ITree.addrsL, List.mem_singleton] at ha
            omega
          · simp only [ITree.size, ITree.sizeL]
            omega)
      pa pn prg pnd Kp j hj hnd hnm tops.length 0 w T k (by simp) h (fun _ => hP)
      (fun hlt => absurd hlt (by omega)) (by omega) (by omega) hb
    simpa using this
  -- the loop that copies the tree of an instance
  have hcopymode : ∀ (S : ITree), S ∈ nodesOf T → S.funit = some gc →
      (S.addr = s0 ∨ brk0 ≤ S.addr) → fu.filename ≠ none →
      ∃ w' T', instance_parse_add_copy (instance_resolve_inst X (k0 + 1)) k
        (some root) (some gp) (some S.addr) nm none true false k w 0 0 =
        .ok (w', (tops.length : Int)) ∧
      LoopInv gp gc (fu.filename ≠ none) False tops B s0 brk0 root T0 T0 w' T' ∧
      (∃ N, ITree.node pa pn (some gp) prg pnd (Kp ++ [N]) ∈ nodesOf T' ∧ N.name = nm ∧
        N.funit = some gc ∧ N.range = none ∧ brk0 ≤ N.addr) ∧
      T'.size ≤ T.size + tops.length * B ∧ w.brk ≤ w'.brk ∧ w'.funit = w.funit ∧
      w'.inst_head = w.inst_head := by
    intro S hS hSf hSg hparsed
    have := tops_loop gp gc (fu.filename ≠ none) True tops B root S T0 nm k brk0 s0
      (instance_parse_add_copy (instance_resolve_inst X (k0 + 1)) k (some root) (some gp)
        (some S.addr) nm none true false)
      (fun w inst => instance_copy (instance_resolve_inst X (k0 + 1)) k w (some S.addr) inst
        nm none true)
      (fun k' w' i r ig hfind => parse_add_copy_unfold _ k (some root) (some gp) (some S.addr)
        nm k' w' i r ig hfind)
      (by
        intro w' C q qn qr qd K hinv hq hsz
        have hlen := plug_kids_length C q qn (some gp) qr qd K
        obtain ⟨hPp, hS', hSf', hSg'⟩ := hinv.src trivial
        obtain ⟨hnr, hdis, hSs⟩ := (hinv.inv hPp).1 S hS' hSf' hSg'
        refine ⟨fun hin => ?_, fun hin => ?_⟩
        · exact copy_tree_exists _ w' C q qn (some gp) qr qd K S nm none true k hinv.ok.1 hS'
            hin (by omega)
        · obtain ⟨w1, N, hcp, hok1, hNa, hNn, hNf, hNr, hNfr, hNs, hb1, hf1, hi1⟩ :=
            copy_tree X k0 S.size S (le_refl _) w' C q qn (some gp) qr qd K nm k hinv.ok hS'
              (hdis q hq) hnr hin (by omega)
          exact ⟨w1, N, hcp, hok1, hNn, hNf.trans hSf', hNr, hNfr, by omega, by omega, hf1, hi1⟩)
      pa pn prg pnd Kp j hj hnd hnm tops.length 0 w T k (by simp)
      (LoopInv_source h S hparsed hS hSf hSg) (fun _ => hP)
      (fun hlt => absurd hlt (by omega)) (by omega) (by omega) hb
    obtain ⟨w', T', hr, hinv, rest⟩ := this
    exact ⟨w', T', by simpa using hr, LoopInv_forget hinv T0, rest⟩
  have hfind := find_by_funit_refines w (some gc) T.size T none none k 0 (le_refl _) h.ok.1
    (by omega)
  rw [h.addr] at hfind
  simp only [instance_parse_add, reduceCtorEq, if_false, hfind]
  cases hr : findFunitT (some gc) T 0 with
  | mk r ig =>
    cases r with
    | none =>
      obtain ⟨w', T', hrun, hinv, ⟨N, hN⟩, rest⟩ := hnewmode
      refine ⟨w', T', N, ?_, hinv, hN.1, hN.2.1, hN.2.2.1, hN.2.2.2.1, hN.2.2.2.2, rest⟩
      simp only [Except.ok_bind, Except.pure_eq_ok, Bool.false_eq_true, if_false, hrun, hpos]
    | some x =>
      rw [hr] at hfind
      obtain ⟨d, hx, hd⟩ := find_by_funit_sound w (some gc) k _ 0 x ig hfind
      have hlf : w.loadF d.funit = .ok fu := by simp [World.loadF, hd, hgc]
      by_cases hfile : fu.filename = none
      · obtain ⟨w', T', hrun, hinv, ⟨N, hN⟩, rest⟩ := hnewmode
        refine ⟨w', T', N, ?_, hinv, hN.1, hN.2.1, hN.2.2.1, hN.2.2.2.1, hN.2.2.2.2, rest⟩
        simp only [Except.ok_bind, Except.pure_eq_ok, World.load_eq hx, hlf, hfile, ne_eq,
          not_true_eq_false, decide_False, Bool.false_eq_true, if_false, hrun, hpos]
      · have hx0 : (topInstances (some gc) T)[0]? = some x := by
          have := findFunitT_nth (some gc) T 0
          simp only [Nat.cast_zero] at this
          rw [hr] at this
          exact (Prod.mk.inj this).1.symm
        obtain ⟨S, hS, hSa, hSf⟩ := topInstances_mem_node (some gc) T x
          (List.getElem?_mem hx0)
        have hSg : S.addr = s0 ∨ brk0 ≤ S.addr := by
          refine (h.inv hfile).2 S.addr ?_
          rw [List.head?_eq_getElem?, hx0, hSa]
          rfl
        obtain ⟨w', T', hrun, hinv, ⟨N, hN⟩, rest⟩ := hcopymode S hS hSf hSg hfile
        rw [hSa] at hrun
        refine ⟨w', T', N, ?_, hinv, hN.1, hN.2.1, hN.2.2.1, hN.2.2.2.1, hN.2.2.2.2, rest⟩
        simp only [Except.ok_bind, Except.pure_eq_ok, World.load_eq hx, hlf, ne_eq, hfile,
          not_false_eq_true, decide_True, if_true, hrun, hpos]

/-- Renaming an instance and taking its range away, inside a tree. -/
theorem rename_tree (w : World) (C : List Frame) (pa : Nat) (pn : Str) (pf : Option Nat)
    (prg : Option vector_width) (pnd : Bool) (pre post : List ITree) (curr : ITree) (nm : Str)
    (hok : TreeOK w (plug C (.node pa pn pf prg pnd (pre ++ curr :: post)))) :
    ∃ c, w.inst curr.addr = some c ∧ c.name = curr.name ∧ c.range = curr.range ∧
      TreeOK ⟨upd (upd w.inst curr.addr { c with range := none }) curr.addr
          { c with range := none, name := nm }, w.funit, w.brk, w.inst_head⟩
        (plug C (.node pa pn pf prg pnd
          (pre ++ (.node curr.addr nm curr.funit none curr.name_diff curr.kids) :: post))) := by
  obtain ⟨hs, hnd, hheap⟩ := hok
  obtain ⟨ps, nxs, hP, hrep⟩ := plug_Sat w.inst C _ none none hs
  have hperm := plug_addrs_perm C (.node pa pn pf prg pnd (pre ++ curr :: post))
  have hnd2 := hperm.nodup_iff.1 hnd
  have hcnt : ∀ x, List.count x ((ITree.node pa pn pf prg pnd
      (pre ++ curr :: post)).addrs ++ ctxAddrs C) ≤ 1 := fun x =>
    List.nodup_iff_count_le_one.1 hnd2 x
  obtain ⟨a, cn, cf, cr, cd, ck⟩ := curr
  simp only [ITree.addrs, ITree.addrsL_append, ITree.addrsL, List.count_append, List.count_cons,
    List.cons_append, ITree.addr_node, ITree.name_node, ITree.range_node, ITree.funit_node,
    ITree.name_diff_node, ITree.kids_node] at hcnt ⊢
  have hroot := Sat_root hP
  have hkids := Sat_kids hP
  simp only [ITree.addr_node, ITree.kids_node, cellsL_append, cellsL, Sat_append,
    headAddrOr_cons] at hroot hkids
  obtain ⟨hpre, hcur, hpost⟩ := hkids
  have hca := Sat_root hcur
  have hck := Sat_kids hcur
  simp only [ITree.addr_node, ITree.kids_node] at hca hck
  have hne : ∀ x, x ≠ a → (upd (upd w.inst a
      { rootCell (.node a cn cf cr cd ck) (some pa) (headAddrOr none post) with range := none }) a
      { rootCell (.node a cn cf cr cd ck) (some pa) (headAddrOr none post) with
        range := none, name := nm }) x = w.inst x := by
    intro x hx
    rw [upd_other _ _ hx, upd_other _ _ hx]
  have hmem : ∀ {x : Nat} {l : List Nat}, x ∈ l → 1 ≤ List.count x l :=
    fun h => one_le_count_of_mem h
  refine ⟨_, hca, rfl, rfl, ?_, ?_, ?_⟩
  · refine hrep _ _ rfl ?_ ?_
    · rw [Sat_cells_iff]
      simp only [ITree.addr_node, ITree.kids_node, cellsL_append, cellsL, Sat_append,
        headAddrOr_cons]
      refine ⟨?_, ?_, ?_, ?_⟩
      · rw [hne pa (by intro e; subst e; have := hcnt pa; simp at this), hroot]
        congr 1
        exact rootCell_congr _ _ _ _ _ _ _ (by simp)
      · refine Sat_congr hpre ?_
        intro x hx
        rw [map_fst_cellsL] at hx
        refine hne x ?_
        intro e
        subst e
        have h1 := hcnt x
        have h2 := hmem hx
        simp only [beq_self_eq_true, if_true] at h1
        omega
      · rw [Sat_cells_iff]
        simp only [ITree.addr_node, ITree.kids_node]
        refine ⟨by rw [upd_same]; rfl, ?_⟩
        refine Sat_congr hck ?_
        intro x hx
        rw [map_fst_cellsL] at hx
        refine hne x ?_
        intro e
        subst e
        have h1 := hcnt x
        have h2 := hmem hx
        simp only [beq_self_eq_true, if_true] at h1
        omega
      · refine Sat_congr hpost ?_
        intro x hx
        rw [map_fst_cellsL] at hx
        refine hne x ?_
        intro e
        subst e
        have h1 := hcnt x
        have h2 := hmem hx
        simp only [beq_self_eq_true, if_true] at h1
        omega
    · intro x hx
      refine hne x ?_
      intro e
      subst e
      have h1 := hcnt x
      have h2 := hmem hx
      simp only [beq_self_eq_true, if_true] at h1
      omega
  · refine (plug_addrs_perm C _).nodup_iff.2 ?_
    simpa [ITree.addrs, ITree.addrsL_append, ITree.addrsL] using hnd2
  · intro x hx
    have hxa : x ≠ a := by
      intro e
      subst e
      rw [hheap x hx] at hca
      exact absurd hca (by simp)
    show upd _ _ _ x = none
    rw [hne x hxa]
    exact hheap x hx

/-- The loop of `instance_resolve_inst` from the state in which `a` further
instances have been added below the instance `pa`. -/
theorem resolve_loop_tree (X : Externals) (k0 : Nat) (gp gc : Nat) (fu : func_unit)
    (tops : List Nat) (B s0 root : Nat) (T0 : ITree) (brk0 : Nat)
    (pa : Nat) (pn : Str) (prg : Option vector_width) (pnd : Bool) (K0 : List ITree)
    (cur : ITree) (cname : Str) (lsb : Int) (width : Nat) (j : Nat)
    (hj : tops[j]? = some pa) (hnd : tops.Nodup) (hB : 1 ≤ B)
    (hcur : cur ∈ K0) (hcurf : cur.funit = some gc)
    (hlo : -2147483648 ≤ lsb) (hhi : lsb + width ≤ 2147483648)
    (hnames : ∀ i : Nat, 1 ≤ i → i < width →
      snprintf_name_index cname (lsb + i) ∉ K0.map ITree.name) :
    ∀ (n a : Nat) (w : World) (T : ITree) (news : List ITree) (k : Nat), a + 1 + n = width →
      LoopInv gp gc (fu.filename ≠ none) False tops B s0 brk0 root T0 T0 w T →
      w.funit gc = some fu →
      ITree.node pa pn (some gp) prg pnd (K0 ++ news) ∈ nodesOf T →
      news.map ITree.name =
        (List.range a).map (fun (i : Nat) => snprintf_name_index cname (lsb + 1 + (i : Int))) →
      (∀ N ∈ news, N.funit = some gc ∧ N.range = none ∧ brk0 ≤ N.addr) →
      T.size + n * (tops.length * B) + B + 3 ≤ k0 + 1 → n + 1 ≤ k → brk0 ≤ w.brk →
      ∃ w' T' news', instance_resolve_inst_loop
          (fun w root parent child nm =>
            instance_parse_add (instance_resolve_inst X (k0 + 1)) (k0 + 1) w root parent child nm
              none true false)
          (some cur.addr) cname (cname.length + 23) lsb width k w (some root) (a + 1) = .ok w' ∧
        LoopInv gp gc (fu.filename ≠ none) False tops B s0 brk0 root T0 T0 w' T' ∧
        ITree.node pa pn (some gp) prg pnd (K0 ++ news') ∈ nodesOf T' ∧
        news'.map ITree.name =
          (List.range (a + n)).map (fun (i : Nat) => snprintf_name_index cname (lsb + 1 + (i : Int))) ∧
        (∀ N ∈ news', N.funit = some gc ∧ N.range = none ∧ brk0 ≤ N.addr) ∧
        w'.funit = w.funit ∧ w'.inst_head = w.inst_head := by
  intro n
  induction n with
  | zero =>
    intro a w T news k ha h _ hP hnn hnp _ hk _
    obtain ⟨k', rfl⟩ : ∃ k', k = k' + 1 := ⟨k - 1, by omega⟩
    refine ⟨w, T, news, ?_, h, hP, by simpa using hnn, hnp, rfl, rfl⟩
    simp only [instance_resolve_inst_loop]
    rw [if_neg (by omega)]
    rfl
  | succ n ih =>
    intro a w T news k ha h hgc hP hnn hnp hsz hk hb
    obtain ⟨k', rfl⟩ : ∃ k', k = k' + 1 := ⟨k - 1, by omega⟩
    have hmul : (n + 1) * (tops.length * B) = n * (tops.length * B) + tops.length * B :=
      Nat.succ_mul _ _
    obtain ⟨s, t, hst⟩ := List.append_of_mem (List.mem_append_left news hcur)
    have hcell := @kid_cell _ _ _ h.ok.1 hP s t cur hst
    obtain ⟨pp, pnx, hpcell⟩ := node_cell h.ok.1 hP
    simp only [ITree.addr_node] at hcell hpcell
    have hidx : int_of_unsigned (lsb + ((a + 1 : Nat) : Int)) = lsb + 1 + (a : Int) := by
      rw [int_of_unsigned_eq _ (by omega) (by omega)]
      push_cast
      ring
    have hlenok : (snprintf_name_index cname (lsb + 1 + (a : Int))).length <
        cname.length + 23 := snprintf_name_index_length _ _ (by omega) (by omega)
    have hname : snprintf_name_index cname (lsb + 1 + (a : Int)) ∉
        (K0 ++ news).map ITree.name := by
      rw [List.map_append, List.mem_append, hnn]
      rintro (hin | hin)
      · have := hnames (a + 1) (by omega) (by omega)
        have e : lsb + ((a + 1 : Nat) : Int) = lsb + 1 + (a : Int) := by push_cast; ring
        rw [e] at this
        exact this hin
      · simp only [List.mem_map, List.mem_range] at hin
        obtain ⟨i, hi, he⟩ := hin
        have := snprintf_name_index_inj he
        omega
    obtain ⟨w1, T1, N, hadd, hinv1, hP1, hNn, hNf, hNr, hNb, hsz1, hb1, hf1, hi1⟩ :=
      parse_add_call X k0 gp gc fu tops B s0 root T0
        (snprintf_name_index cname (lsb + 1 + (a : Int))) brk0 pa pn prg pnd (K0 ++ news) j hj
        hnd hname hB w T (k0 + 1) h hgc hP (by omega) hb
    obtain ⟨w', T', news', hloop, hinv', hP', hnn', hnp', hfu', hih'⟩ :=
      ih (a + 1) w1 T1 (news ++ [N]) k' (by omega) hinv1 (by rw [hf1]; exact hgc)
        (by simpa [List.append_assoc] using hP1)
        (by simp [List.range_succ, hnn, hNn])
        (by
          intro N' hN'
          rcases List.mem_append.1 hN' with hN' | hN'
          · exact hnp N' hN'
          · simp only [List.mem_singleton] at hN'
            subst hN'
            exact ⟨hNf, hNr, hNb⟩)
        (by omega) (by omega) (by omega)
    have e : a + 1 + n = a + (n + 1) := by omega
    rw [e] at hnn'
    refine ⟨w', T', news', ?_, hinv', hP', hnn', hnp', by rw [hfu', hf1], by rw [hih', hi1]⟩
    simp only [instance_resolve_inst_loop]
    rw [if_pos (by omega), hidx, if_pos hlenok, World.load_eq hcell]
    simp only [Except.ok_bind, rootCell, World.load_eq hpcell, Except.pure_eq_ok, hcurf,
      ITree.funit_node, hadd]
    exact hloop

/-- Resolution of an array of instances in a tree. -/
theorem resolve_tree (X : Externals) (w : World) (C : List Frame) (pa : Nat)
    (pn : Str) (gp : Nat) (prg : Option vector_width) (pnd : Bool) (pre post : List ITree)
    (curr : ITree) (r : vector_width) (gc : Nat) (fu : func_unit) (width : Nat) (lsb : Int)
    (fuel : Nat) (T : ITree)
    (hT : T = plug C (.node pa pn (some gp) prg pnd (pre ++ curr :: post)))
    (hok : TreeOK w T) (hpa : pa ∈ topInstances (some gp) T)
    (hrange : curr.range = some r) (hcf : curr.funit = some gc) (hgc : w.funit gc = some fu)
    (hcopy : fu.filename ≠ none → copyable gp gc T)
    (hX : X.static_expr_calc_lsb_and_width_post r = (width, lsb))
    (hw : 1 ≤ width) (hlsb : lsb ≠ -1) (hlo : -2147483648 ≤ lsb)
    (hhi : lsb + width ≤ 2147483648)
    (hnames : ∀ i : Nat, 1 ≤ i → i < width →
      snprintf_name_index curr.name (lsb + i) ∉ (pre ++ post).map ITree.name)
    (hfuel : T.size + width * (T.size * T.size) + T.size + 5 ≤ fuel) :
    ∃ w' T' news, instance_resolve_inst X fuel w (some T.addr) (some curr.addr) = .ok (w', true) ∧
      TreeOK w' T' ∧ T'.addr = T.addr ∧
      ITree.node pa pn (some gp) prg pnd (pre ++ resolved_first curr lsb :: post ++ news) ∈
        nodesOf T' ∧
      news.map ITree.name = (List.range (width - 1)).map
        (fun (i : Nat) => snprintf_name_index curr.name (lsb + 1 + (i : Int))) ∧
      (∀ N ∈ news, N.funit = some gc ∧ N.range = none ∧ w.brk ≤ N.addr) ∧
      (∀ Q ∈ nodesOf T, Q.addr ∉ topInstances (some gp) T → ∃ Q' ∈ nodesOf T',
        Q'.addr = Q.addr ∧ Q'.kids.map ITree.addr = Q.kids.map ITree.addr) ∧
      w'.funit = w.funit ∧ w'.inst_head = w.inst_head := by
  obtain ⟨k0, rfl⟩ : ∃ k0, fuel = k0 + 1 + 1 := ⟨fuel - 2, by omega⟩
  have hok' := hok
  rw [hT] at hok'
  obtain ⟨c, hc, hcn, hcr, hok0⟩ :=
    rename_tree w C pa pn (some gp) prg pnd pre post curr (snprintf_name_index curr.name lsb) hok'
  obtain ⟨w2, hw2⟩ : ∃ w2 : World, w2 = ⟨upd (upd w.inst curr.addr { c with range := none })
      curr.addr { c with range := none, name := snprintf_name_index curr.name lsb }, w.funit,
      w.brk, w.inst_head⟩ := ⟨_, rfl⟩
  rw [← hw2] at hok0
  have hb2 : w2.brk = w.brk := by rw [hw2]
  have hf2 : w2.funit = w.funit := by rw [hw2]
  have hi2 : w2.inst_head = w.inst_head := by rw [hw2]
  obtain ⟨T2, hT2⟩ : ∃ T2, T2 = plug C (.node pa pn (some gp) prg pnd
      (pre ++ resolved_first curr lsb :: post)) := ⟨_, rfl⟩
  have hok2 : TreeOK w2 T2 := by rw [hT2]; exact hok0
  have haddr2 : T2.addr = T.addr := by
    rw [hT, hT2]
    exact plug_addr_congr C _ _ rfl
  have hsize2 : T2.size = T.size := by
    rw [hT, hT2, plug_size, plug_size]
    obtain ⟨a, cn, cf, cr, cd, ck⟩ := curr
    simp [ITree.size, ITree.sizeL_append, ITree.sizeL, resolved_first]
  have htops2 : topInstances (some gp) T2 = topInstances (some gp) T := by
    rw [hT, hT2]
    refine topInstances_plug_congr _ C _ _ ?_
    simp [topInstances]
  have hPT : ITree.node pa pn (some gp) prg pnd (pre ++ curr :: post) ∈ nodesOf T := by
    rw [hT]; exact nodesOf_plug C _ _ (mem_nodesOf_self _)
  have hcurT : curr ∈ nodesOf T := by
    rw [hT]
    refine nodesOf_plug C _ _ ?_
    simp only [nodesOf, nodesOfL_append, nodesOfL, List.mem_cons, List.mem_append]
    exact Or.inr (Or.inr (Or.inl (mem_nodesOf_self _)))
  have hndT : (topInstances (some gp) T).Nodup :=
    (topInstances_sublist (some gp) T).nodup hok.2.1
  have hlenT : (topInstances (some gp) T).length ≤ T.size := by
    have := (topInstances_sublist (some gp) T).length_le
    rwa [ITree.length_addrs] at this
  obtain ⟨j, hj⟩ := List.mem_iff_getElem?.1 hpa
  obtain ⟨s0, hs0⟩ : ∃ s0, s0 = ((topInstances (some gc) T).head?).getD w.brk := ⟨_, rfl⟩
  have hgood : ∀ Q ∈ nodesOf T, (Q.addr = s0 ∨ w.brk ≤ Q.addr) →
      (topInstances (some gc) T).head? = some Q.addr := by
    intro Q hQ hg
    have hlt := TreeOK_lt_brk hok (nodesOf_addrs_subset T Q hQ _ (ITree.addr_mem_addrs Q))
    have hQs : Q.addr = s0 := by
      rcases hg with h | h
      · exact h
      · omega
    cases hh : (topInstances (some gc) T).head? with
    | none =>
      rw [hh] at hs0
      simp only [Option.getD_none] at hs0
      omega
    | some x =>
      rw [hh] at hs0
      simp only [Option.getD_some] at hs0
      rw [hQs, hs0]
  have hinv : LoopInv gp gc (fu.filename ≠ none) False (topInstances (some gp) T) T.size s0 w.brk
      T.addr T T w2 T2 := by
    refine ⟨hok2, haddr2, htops2, ?_, fun h => absurd h id, ?_⟩
    · intro hP
      have hcp := hcopy hP
      have hprops : ∀ Q ∈ nodesOf T, (Q.addr = s0 ∨ w.brk ≤ Q.addr) →
          (∀ d ∈ nodesOfL Q.kids, d.range = none) ∧
          (∀ a ∈ topInstances (some gp) T, a ∉ Q.addrs) ∧ Q.size ≤ T.size := by
        intro Q hQ hg
        have := hcp Q hQ (hgood Q hQ hg)
        exact ⟨this.1, this.2, nodesOf_size_le T Q hQ⟩
      rw [hT2]
      have hinvT : CopyInv gc (topInstances (some gp) T) T.size s0 w.brk
          (plug C (.node pa pn (some gp) prg pnd (pre ++ curr :: post))) := by
        rw [← hT]
        refine ⟨fun Q hQ _ hg => hprops Q hQ hg, ?_⟩
        intro a ha
        left
        rw [Option.mem_def] at ha
        rw [ha] at hs0
        simpa using hs0.symm
      refine CopyInv_replace gc _ _ s0 w.brk C _ _ hinvT ?_ ?_ ?_
      · intro Q' hQ' hf hg
        have hcc : curr.addr = s0 ∨ w.brk ≤ curr.addr →
            (∀ d ∈ nodesOfL curr.kids, d.range = none) ∧
            (∀ a ∈ topInstances (some gp) T, a ∉ curr.addrs) ∧ curr.size ≤ T.size :=
          hprops curr hcurT
        obtain ⟨a, cn, cf, cr, cd, ck⟩ := curr
        simp only [nodesOf, nodesOfL_append, nodesOfL, List.mem_cons, List.mem_append,
          resolved_first, ITree.addr_node, ITree.name_node, ITree.funit_node,
          ITree.name_diff_node, ITree.kids_node] at hQ'
        rcases hQ' with rfl | h | (rfl | h) | h
        · exfalso
          refine (hprops _ hPT (by simpa using hg)).2.1 pa hpa ?_
          simp [ITree.addrs]
        · left
          refine nodesOf_plug C _ _ ?_
          simp only [nodesOf, nodesOfL_append, nodesOfL, List.mem_cons, List.mem_append]
          exact Or.inr (Or.inl h)
        · right
          have := hcc (by simpa using hg)
          refine ⟨this.1, ?_, ?_⟩
          · simpa [ITree.addrs] using this.2.1
          · simpa [ITree.size] using this.2.2
        · left
          refine nodesOf_plug C _ _ ?_
          simp only [nodesOf, nodesOfL_append, nodesOfL, List.mem_cons, List.mem_append]
          exact Or.inr (Or.inr (Or.inl (Or.inr h)))
        · left
          refine nodesOf_plug C _ _ ?_
          simp only [nodesOf, nodesOfL_append, nodesOfL, List.mem_cons, List.mem_append]
          exact Or.inr (Or.inr (Or.inr h))
      · intro Q hQ hf hg hin
        rw [← hT] at hQ
        exact (hprops Q hQ hg).2.1 pa hpa (mem_addrs_of_mem_nodesOfL_kids hin)
      · have e : topInstances (some gc) (plug C (.node pa pn (some gp) prg pnd
            (pre ++ resolved_first curr lsb :: post))) =
            topInstances (some gc) (plug C (.node pa pn (some gp) prg pnd
              (pre ++ curr :: post))) := by
          refine topInstances_plug_congr _ C _ _ ?_
          obtain ⟨a, cn, cf, cr, cd, ck⟩ := curr
          simp [topInstances, topInstancesL_append, topInstancesL, resolved_first]
        rw [e]
        exact hinvT.2
    · intro Q hQ hQa
      rw [hT] at hQ
      rw [hT2]
      refine plug_nodes_corr_pred (fun _ => True) C
        (.node pa pn (some gp) prg pnd (pre ++ curr :: post))
        (.node pa pn (some gp) prg pnd (pre ++ resolved_first curr lsb :: post)) rfl ?_ Q hQ
        trivial
      intro q hq _
      obtain ⟨a, cn, cf, cr, cd, ck⟩ := curr
      simp only [nodesOf, nodesOfL_append, nodesOfL, List.mem_cons, List.mem_append,
        resolved_first, ITree.addr_node, ITree.name_node, ITree.funit_node,
        ITree.name_diff_node, ITree.kids_node] at hq ⊢
      rcases hq with rfl | h | (rfl | h) | h
      · exact ⟨_, Or.inl rfl, rfl, by simp⟩
      · exact ⟨q, Or.inr (Or.inl h), rfl, rfl⟩
      · exact ⟨_, Or.inr (Or.inr (Or.inl (Or.inl rfl))), rfl, rfl⟩
      · exact ⟨q, Or.inr (Or.inr (Or.inl (Or.inr h))), rfl, rfl⟩
      · exact ⟨q, Or.inr (Or.inr (Or.inr h)), rfl, rfl⟩
  have hnames0 : ∀ i : Nat, 1 ≤ i → i < width → snprintf_name_index curr.name (lsb + i) ∉
      (pre ++ resolved_first curr lsb :: post).map ITree.name := by
    intro i hi1 hi2 hin
    simp only [List.map_append, List.map_cons, List.mem_append, List.mem_cons] at hin
    have hn := hnames i hi1 hi2
    simp only [List.map_append, List.mem_append] at hn
    rcases hin with h | h | h
    · exact hn (Or.inl h)
    · have := snprintf_name_index_inj
        (show snprintf_name_index curr.name (lsb + i) = snprintf_name_index curr.name lsb from h)
      omega
    · exact hn (Or.inr h)
  have hmul : (width - 1) * ((topInstances (some gp) T).length * T.size) ≤
      width * (T.size * T.size) :=
    Nat.mul_le_mul (by omega) (Nat.mul_le_mul_right _ hlenT)
  have hwle : width ≤ width * (T.size * T.size) :=
    Nat.le_mul_of_pos_right _ (Nat.mul_pos (ITree.size_pos T) (ITree.size_pos T))
  obtain ⟨w', T', news, hloop, hinv', hP', hnn', hnp', hfu', hih'⟩ :=
    resolve_loop_tree X k0 gp gc fu (topInstances (some gp) T) T.size s0 T.addr T w.brk pa pn prg
      pnd
      (pre ++ resolved_first curr lsb :: post) (resolved_first curr lsb) curr.name lsb width j hj
      hndT (ITree.size_pos T) (by simp) (by simp [resolved_first, hcf]) hlo hhi hnames0
      (width - 1) 0 w2 T2 [] (k0 + 1) (by omega) hinv (by rw [hf2]; exact hgc)
      (by rw [hT2]; simpa using nodesOf_plug C _ _ (mem_nodesOf_self _))
      (by simp) (by simp) (by omega) (by omega) (by omega)
  refine ⟨w', T', news, ?_, hinv'.ok, hinv'.addr, by simpa [List.append_assoc] using hP',
    by simpa using hnn', hnp', hinv'.corr, by rw [hfu', hf2], by rw [hih', hi2]⟩
  have hlen : (snprintf_name_index c.name lsb).length < c.name.length + 23 :=
    snprintf_name_index_length _ _ hlo (by omega)
  have hw0 : width ≠ 0 := by omega
  rw [instance_resolve_inst_succ]
  simp only [World.load_eq hc, Except.ok_bind, hcr, hrange, hX, hw0,
    hlsb, if_false, World.modify_eq _ hc, hlen, if_true, reduceCtorEq]
  have hc1 : (⟨upd w.inst curr.addr { c with range := none }, w.funit, w.brk,
      w.inst_head⟩ : World).inst curr.addr = some { c with range := none } := upd_same _ _ _
  rw [World.modify_eq _ hc1]
  simp only [Except.ok_bind, hcn]
  rw [hcn] at hw2
  simp only [zero_add] at hloop
  have haddr3 : (resolved_first curr lsb).addr = curr.addr := rfl
  rw [haddr3] at hloop
  rw [← hw2, hloop]
  rfl

/-! ## Arrays of instances -/

/-- A copy into itself does not end: when the only child of the instance `A`
is the childless instance `B`, `instance_copy( A, B, ... )` adds a child `M`
to `B` and then copies `B`, the child of `A`, below `M`, which is the same
situation again; with every amount of fuel the call stops at an error. -/
theorem instance_copy_no_end
    (rr : World → Option Nat → Option Nat → Except Fault (World × Bool))
    (hrr : ∀ (w' : World) (r x : Nat) (c : funit_inst), w'.inst x = some c → c.range = none →
      rr w' (some r) (some x) = .ok (w', false)) :
    ∀ (fuel : Nat) (w : World) (A B : Nat) (a b : funit_inst) (nm : Str),
      w.inst A = some a → a.child_head = some B → w.inst B = some b → b.child_head = none →
      b.child_tail = none → b.range = none → A ≠ B → A < w.brk → B < w.brk →
      ∃ e, instance_copy rr fuel w (some A) (some B) nm none true = .error e := by
  intro fuel
  induction fuel with
  | zero => intro w A B a b nm _ _ _ _ _ _ _ _ _; exact ⟨.fuel, rfl⟩
  | succ k ih =>
    intro w A B a b nm hA hab hB hbh hbt hbr hne hAb hBb
    simp only [instance_copy, reduceCtorEq, if_false, World.load_eq hA, Except.ok_bind]
    cases k with
    | zero =>
      refine ⟨.fuel, ?_⟩
      simp [instance_add_child, World.load_eq hB, find_child_by_name]
    | succ k =>
      have hs : Sat w.inst (cells (.node B b.name b.funit b.range b.name_diff []) b.parent
          b.next) := by
        intro x hx
        simp only [cells, cellsL, List.mem_singleton] at hx
        subst hx
        rw [hB]
        simp only [rootCell, ITree.name_node, ITree.funit_node, ITree.range_node,
          ITree.name_diff_node, ITree.kids_node, headAddrOr_nil, lastAddr_nil, Option.some.injEq]
        rcases b with ⟨n1, n2, n3, n4, n5, n6, n7, n8⟩
        simp only at hbh hbt
        subst hbh hbt
        rfl
      obtain ⟨w1, hadd, hs1, hfr, hb1, -, -⟩ :=
        instance_add_child_spec rr w B b.name b.funit b.range b.name_diff [] b.parent b.next
          a.funit nm none true (k + 1) hs (by simp [ITree.addrsL])
          (by simp [ITree.addrsL]; exact hBb) (by simp) hrr (fun _ => rfl) (by simp)
      rw [hadd]
      simp only [Except.ok_bind]
      have hA1 : w1.inst A = some a := by
        rw [hfr A hne (by simp [ITree.addrsL]) (by omega)]
        exact hA
      have hroot := Sat_root hs1
      have hkids := Sat_kids hs1
      simp only [ITree.addr_node, ITree.kids_node, List.nil_append, cellsL, List.append_nil,
        headAddrOr_nil] at hroot hkids
      have hkid := Sat_root hkids
      simp only [ITree.addr_node] at hkid
      obtain ⟨e, he⟩ := ih w1 B w.brk _ _ b.name hroot
        (by simp [rootCell]) hkid (by simp [rootCell]) (by simp [rootCell])
        (by simp [rootCell]) (by omega) (by omega) (by omega)
      refine ⟨e, ?_⟩
      simp only [World.load_eq hA1, Except.ok_bind, hab, instance_copy_loop, World.load_eq hroot]
      have hr : (rootCell (.node B b.name b.funit b.range b.name_diff
          [.node w.brk nm a.funit none false []]) b.parent b.next).range = none := by
        simp [rootCell, hbr]
      have hn : (rootCell (.node B b.name b.funit b.range b.name_diff
          [.node w.brk nm a.funit none false []]) b.parent b.next).name = b.name := rfl
      rw [hr, hn, he]
      rfl

/-- In the tree `top(c(r), p(u))` the resolution of the array `u[4:2]` copies
`c`, the first instance of the functional unit of `u`, below `r`, which lies
in `c`: with every amount of fuel the call stops at an error. -/
theorem array_loop_ex_no_end (fuel : Nat) :
    ∃ e, (instance_resolve_inst ext_ex fuel array_loop_ex_world (some 0) (some 4)).map
      (fun r => r.2) = .error e := by
  by_cases hsmall : fuel < 8
  · interval_cases fuel
    all_goals exact ⟨.fuel, by decide⟩
  · obtain ⟨k, rfl⟩ : ∃ k, fuel = k + 8 := ⟨fuel - 8, by omega⟩
    have hc : array_loop_ex_world.inst 4 =
        some ⟨"u".toList, some 2, some (range_ex 4 2), false, some 3, none, none, none⟩ := rfl
    have hX : ext_ex.static_expr_calc_lsb_and_width_post (range_ex 4 2) = (3, 2) := by decide
    have hlen : (snprintf_name_index "u".toList 2).length < "u".toList.length + 23 := by decide
    have hname : snprintf_name_index "u".toList 2 = "u[2]".toList := by decide
    obtain ⟨w2, hw2⟩ : ∃ w2 : World, w2 = ⟨upd (upd array_loop_ex_world.inst 4
        ⟨"u".toList, some 2, none, false, some 3, none, none, none⟩) 4
        ⟨"u[2]".toList, some 2, none, false, some 3, none, none, none⟩,
        array_loop_ex_world.funit, array_loop_ex_world.brk, array_loop_ex_world.inst_head⟩ :=
      ⟨_, rfl⟩
    have hs2 : Sat w2.inst (cells array_loop_ex_tree2 none none) := by rw [hw2]; decide
    have h4 : w2.inst 4 = some ⟨"u[2]".toList, some 2, none, false, some 3, none, none, none⟩ := by
      rw [hw2]; rfl
    have h3 : w2.inst 3 = some ⟨"p".toList, some 1, none, false, some 0, some 4, some 4, none⟩ := by
      rw [hw2]; rfl
    have h1 : w2.inst 1 = some ⟨"c".toList, some 2, none, false, some 0, some 2, some 2, some 3⟩ := by
      rw [hw2]; rfl
    have h2 : w2.inst 2 = some ⟨"r".toList, some 1, none, false, some 1, none, none, none⟩ := by
      rw [hw2]; rfl
    have hf2 : w2.funit 2 = some (funit_parsed_ex "m") := by rw [hw2]; rfl
    have hb2 : w2.brk = 5 := by rw [hw2]; rfl
    have hfc := find_by_funit_refines w2 (some 2) array_loop_ex_tree2.size array_loop_ex_tree2
      none none (k + 7) 0 (le_refl _) hs2 (by
        have : array_loop_ex_tree2.size = 5 := by decide
        omega)
    have hfp := find_by_funit_refines w2 (some 1) array_loop_ex_tree2.size array_loop_ex_tree2
      none none (k + 7) 0 (le_refl _) hs2 (by
        have : array_loop_ex_tree2.size = 5 := by decide
        omega)
    have e1 : findFunitT (some 2) array_loop_ex_tree2 0 = (some 1, 0) := by decide
    have e2 : findFunitT (some 1) array_loop_ex_tree2 0 = (some 2, 0) := by decide
    have ea : array_loop_ex_tree2.addr = 0 := rfl
    rw [e1, ea] at hfc
    rw [e2, ea] at hfp
    obtain ⟨e, he⟩ := instance_copy_no_end (instance_resolve_inst ext_ex (k + 7))
      (fun w' r x c hx hr => resolve_inst_no_range ext_ex (k + 6) w' (some r) x c hx hr)
      (k + 7) w2 1 2 _ _ "u[3]".toList h1 rfl h2 rfl rfl rfl (by decide) (by omega) (by omega)
    refine ⟨e, ?_⟩
    have hgoal : instance_resolve_inst ext_ex (k + 8) array_loop_ex_world (some 0) (some 4) =
        .error e := ?_
    · rw [hgoal]; rfl
    have hidx : snprintf_name_index "u".toList (int_of_unsigned (2 + ((1 : Nat) : Int))) =
        "u[3]".toList := by decide
    have hlen3 : ("u[3]".toList).length < "u".toList.length + 23 := by decide
    rw [instance_resolve_inst_succ]
    simp only [World.load_eq hc, Except.ok_bind, hX, reduceCtorEq, if_false,
      World.modify_eq _ hc, hlen, if_true, OfNat.ofNat_ne_zero]
    have hc1 : (⟨upd array_loop_ex_world.inst 4
        ⟨"u".toList, some 2, none, false, some 3, none, none, none⟩, array_loop_ex_world.funit,
        array_loop_ex_world.brk, array_loop_ex_world.inst_head⟩ : World).inst 4 =
        some ⟨"u".toList, some 2, none, false, some 3, none, none, none⟩ := rfl
    rw [World.modify_eq _ hc1]
    simp only [Except.ok_bind, hname]
    rw [← hw2]
    have hloop : instance_resolve_inst_loop
        (fun w root parent child nm =>
          instance_parse_add (instance_resolve_inst ext_ex (k + 7)) (k + 7) w root parent child nm
            none true false)
        (some 4) "u".toList ("u".toList.length + 23) 2 3 (k + 7) w2 (some 0) 1 = .error e := by
      simp only [instance_resolve_inst_loop]
      rw [if_pos (by decide), hidx, if_pos hlen3, World.load_eq h4]
      simp only [Except.ok_bind, World.load_eq h3, Except.pure_eq_ok]
      simp only [instance_parse_add, reduceCtorEq, if_false, hfc, Except.ok_bind,
        World.load_eq h1, World.loadF, hf2, Except.pure_eq_ok]
      have hp : decide ((funit_parsed_ex "m").filename ≠ none) = true := by decide
      simp only [hp, if_true]
      simp only [instance_parse_add_copy, ge_iff_le, le_refl, if_true, hfp, Except.ok_bind, he]
      rfl
    rw [hloop]
    rfl

